import Mathlib

/-!
# Piece-tree transforms and dirty propagation of `rts/Rendering/Models/3DModel.cpp`

A shallow embedding of the per-instance model-piece tree (`LocalModel`,
`LocalModelPiece`) and of the static skeleton it mirrors (`S3DModel`,
`S3DModelPiece`), with the bounding volume, the lookup of pieces by name and
the partition of a piece into shatter fragments.

Modelling conventions

* `float` is a type parameter `R`, `CMatrix44f` a type parameter `M`, the owning
  `CSolidObject` a type parameter `O`.  Everything `3DModel.cpp` uses from
  headers that are not part of the sources (matrix algebra, `float3::same`,
  `CalcPieceSpaceMatrix`, the object's transform accessors, the bounding-box
  seeds) is a field of `Externals`.
* `LocalModelPiece*` is an index into `LocalModel::pieces`; `parent == nullptr`
  is `none`.  `localModel` (the back pointer to the owner) is the `LocalModel`
  value that holds the array.
* `const S3DModelPiece*` is the static piece it points to, a finite tree.
* Recursive member functions that follow pointers take a `fuel` argument that
  bounds the call depth; `none` means the call did not return (fuel exhausted,
  wild pointer or failed `assert`).
-/

namespace Spring

/-! ## Vectors -/

/-- Three-component vector `float3` over the scalar type `R`. -/
structure float3 (R : Type) where
  x : R
  y : R
  z : R
deriving DecidableEq

namespace float3

variable {R : Type}

/-- Componentwise `operator+`. -/
def add [Add R] (a b : float3 R) : float3 R := ⟨a.x + b.x, a.y + b.y, a.z + b.z⟩

/-- Componentwise `operator-`. -/
def sub [Sub R] (a b : float3 R) : float3 R := ⟨a.x - b.x, a.y - b.y, a.z - b.z⟩

/-- Componentwise `operator*(const float3&)`. -/
def mul [Mul R] (a b : float3 R) : float3 R := ⟨a.x * b.x, a.y * b.y, a.z * b.z⟩

/-- Scaling `operator*(float)`. -/
def scale [Mul R] (a : float3 R) (f : R) : float3 R := ⟨a.x * f, a.y * f, a.z * f⟩

/-- Unary `operator-`. -/
def neg [Neg R] (a : float3 R) : float3 R := ⟨-a.x, -a.y, -a.z⟩

/-- Componentwise minimum `float3::min`. -/
def min [Min R] (a b : float3 R) : float3 R :=
  ⟨Min.min a.x b.x, Min.min a.y b.y, Min.min a.z b.z⟩

/-- Componentwise maximum `float3::max`. -/
def max [Max R] (a b : float3 R) : float3 R :=
  ⟨Max.max a.x b.x, Max.max a.y b.y, Max.max a.z b.z⟩

end float3

/-! ## Static model -/

/-- Static piece `S3DModelPiece`: the fields read by `3DModel.cpp`.  `children`
holds the pointed-to child pieces. -/
inductive S3DModelPiece (R : Type) where
  | mk (name : String) (offset scales mins maxs : float3 R)
       (vertices : List (float3 R)) (indices : List Nat)
       (children : List (S3DModelPiece R))

namespace S3DModelPiece

variable {R : Type}

/-- Field `name`. -/
def name : S3DModelPiece R → String
  | .mk n _ _ _ _ _ _ _ => n

/-- Field `offset`. -/
def offset : S3DModelPiece R → float3 R
  | .mk _ o _ _ _ _ _ _ => o

/-- Field `scales`. -/
def scales : S3DModelPiece R → float3 R
  | .mk _ _ s _ _ _ _ _ => s

/-- Field `mins`. -/
def mins : S3DModelPiece R → float3 R
  | .mk _ _ _ m _ _ _ _ => m

/-- Field `maxs`. -/
def maxs : S3DModelPiece R → float3 R
  | .mk _ _ _ _ m _ _ _ => m

/-- Vertex positions, `GetVertexPos(i)` is `vertices[i]`. -/
def vertices : S3DModelPiece R → List (float3 R)
  | .mk _ _ _ _ _ v _ _ => v

/-- Field `indices`. -/
def indices : S3DModelPiece R → List Nat
  | .mk _ _ _ _ _ _ i _ => i

/-- Field `children`. -/
def children : S3DModelPiece R → List (S3DModelPiece R)
  | .mk _ _ _ _ _ _ _ c => c

end S3DModelPiece

mutual
/-- Number of nodes of the piece tree rooted at a static piece. -/
def S3DModelPiece.numNodes {R : Type} : S3DModelPiece R → Nat
  | .mk _ _ _ _ _ _ _ c => 1 + numNodesList c
/-- Number of nodes of a forest of static pieces. -/
def numNodesList {R : Type} : List (S3DModelPiece R) → Nat
  | [] => 0
  | p :: ps => p.numNodes + numNodesList ps
end

mutual
/-- Depth-first pre-order listing of the piece tree rooted at a static piece. -/
def S3DModelPiece.preorder {R : Type} : S3DModelPiece R → List (S3DModelPiece R)
  | .mk n o s mi ma v i c => .mk n o s mi ma v i c :: preorderList c
/-- Depth-first pre-order listing of a forest of static pieces. -/
def preorderList {R : Type} : List (S3DModelPiece R) → List (S3DModelPiece R)
  | [] => []
  | p :: ps => p.preorder ++ preorderList ps
end

/-- Pre-order positions of the roots of a forest whose first root sits at
position `start`: every root is followed by the rest of its own tree. -/
def childSlots {R : Type} : Nat → List (S3DModelPiece R) → List Nat
  | _, [] => []
  | start, p :: ps => start :: childSlots (start + p.numNodes) ps

/-- Modelled from the spec: `S3DModelPiece::HasGeometryData` is declared in
`3DModel.h`, which is not part of the sources; the spec gives it as
"true iff index count > 0". -/
def S3DModelPiece.HasGeometryData {R : Type} (p : S3DModelPiece R) : Bool :=
  decide (0 < p.indices.length)

/-- Operations and constants that `3DModel.cpp` takes from headers outside the
sources.  They are parameters of the embedding. -/
structure Externals (R M O : Type) where
  /-- `CalcPieceSpaceMatrix(pos, rot, scales)` of `LocalModelPiece`. -/
  CalcPieceSpaceMatrix : float3 R → float3 R → float3 R → M
  /-- `CMatrix44f::operator>>=`: the left matrix composed with the right one. -/
  rshiftAssign : M → M → M
  /-- Default-constructed `CMatrix44f`. -/
  identity : M
  /-- `CMatrix44f::operator*(const float3&)`. -/
  mulVec : M → float3 R → float3 R
  /-- `CMatrix44f::GetPos`. -/
  GetPos : M → float3 R
  /-- `CMatrix44f::SetPos`. -/
  SetPos : M → float3 R → M
  /-- `CMatrix44f::RotateEulerZXY`. -/
  RotateEulerZXY : M → float3 R → M
  /-- `CMatrix44f::GetEulerAnglesLftHand`. -/
  GetEulerAnglesLftHand : M → float3 R
  /-- `float3::same`. -/
  same : float3 R → float3 R → Bool
  /-- `float3::LengthNormalize`: the normalized vector and the old length. -/
  LengthNormalize : float3 R → float3 R × R
  /-- `CSolidObject::GetTransformMatrix(synced)`. -/
  GetTransformMatrix : O → Bool → M
  /-- `CSolidObject::GetObjectSpaceVec`. -/
  GetObjectSpaceVec : O → float3 R → float3 R
  /-- Constant `WORLD_TO_OBJECT_SPACE`. -/
  WORLD_TO_OBJECT_SPACE : float3 R
  /-- Constant `ZeroVector`, also the default-constructed `float3`. -/
  ZeroVector : float3 R
  /-- Constant `FwdVector`. -/
  FwdVector : float3 R
  /-- Constant `DEF_MIN_SIZE`. -/
  DEF_MIN_SIZE : float3 R
  /-- Constant `DEF_MAX_SIZE`. -/
  DEF_MAX_SIZE : float3 R
  /-- Literal `0.5f`. -/
  half : R

/-- Source `S3DModelPiece::GetEmitPos`. -/
def S3DModelPiece.GetEmitPos {R M O : Type} (E : Externals R M O) (p : S3DModelPiece R) :
    float3 R :=
  match p.vertices with
  | [] => E.ZeroVector
  | [_] => E.ZeroVector
  | v0 :: _ :: _ => v0

/-- Source `S3DModelPiece::GetEmitDir`. -/
def S3DModelPiece.GetEmitDir {R M O : Type} [Sub R] (E : Externals R M O)
    (p : S3DModelPiece R) : float3 R :=
  match p.vertices with
  | [] => E.FwdVector
  | [v0] => v0
  | v0 :: v1 :: _ => float3.sub v1 v0

/-- Modelled from the spec: `S3DModel` is declared in `3DModel.h`, which is not
part of the sources; the spec gives it as owning "all StaticPieces in a flat
lookup array plus the root", with a piece count. -/
structure S3DModel (R : Type) where
  numPieces : Nat
  pieceObjects : List (S3DModelPiece R)
  rootPiece : Option (S3DModelPiece R)

/-- Modelled from the spec: `S3DModel::GetPiece(i)`, the piece at position `i`
of the flat lookup array. -/
def S3DModel.GetPiece {R : Type} (m : S3DModel R) (i : Nat) : Option (S3DModelPiece R) :=
  m.pieceObjects[i]?

/-- Modelled from the spec: `S3DModel::GetRootPiece`, the root of the piece
tree. -/
def S3DModel.GetRootPiece {R : Type} (m : S3DModel R) : Option (S3DModelPiece R) :=
  m.rootPiece

/-! ## Local model -/

/-- Per-instance piece `LocalModelPiece`.  `colvol` and `lodDispLists` take no
part in the transform and dirty state and are left out. -/
structure LocalModelPiece (R M : Type) where
  pos : float3 R
  rot : float3 R
  dir : float3 R
  pieceSpaceMat : M
  modelSpaceMat : M
  dirty : Bool
  customDirty : Bool
  scriptSetVisible : Bool
  blockScriptAnims : Bool
  lmodelPieceIndex : Int
  scriptPieceIndex : Int
  original : S3DModelPiece R
  parent : Option Nat
  children : List Nat
  pseudoWorldSpacePosition : Bool
  pseudoWorldSpaceRotation : Bool

/-- Modelled from the spec: the box stored by `CollisionVolume::InitBox`
(`CollisionVolume.h` is not part of the sources), "a box volume stored as
(size, center-offset-relative-to-object-origin)". -/
structure CollisionVolume (R : Type) where
  boxSize : float3 R
  boxOffset : float3 R

/-- Per-instance model `LocalModel`. -/
structure LocalModel (R M O : Type) where
  pieces : List (LocalModelPiece R M)
  boundingVolume : CollisionVolume R
  needsBoundariesRecalc : Bool
  owningObject : Option O

/-- The field a `SetPosOrRot` call writes: `dst` is `pos` (`SetPosition`) or
`rot` (`SetRotation`). -/
inductive PosOrRot where
  | pos
  | rot
deriving DecidableEq

section Model

variable {R M O : Type}

/-- Read the field selected by `dst`. -/
def LocalModelPiece.getDst (p : LocalModelPiece R M) : PosOrRot → float3 R
  | .pos => p.pos
  | .rot => p.rot

/-- Write the field selected by `dst`. -/
def LocalModelPiece.setDst (p : LocalModelPiece R M) (dst : PosOrRot) (v : float3 R) :
    LocalModelPiece R M :=
  match dst with
  | .pos => { p with pos := v }
  | .rot => { p with rot := v }

/-- Store through a piece pointer: overwrite `pieces[i]`. -/
def LocalModel.setPiece (lm : LocalModel R M O) (i : Nat) (p : LocalModelPiece R M) :
    LocalModel R M O :=
  { lm with pieces := lm.pieces.set i p }

/-- Update through a piece pointer: apply `f` to `pieces[i]`. -/
def LocalModel.modifyPiece (lm : LocalModel R M O) (i : Nat)
    (f : LocalModelPiece R M → LocalModelPiece R M) : LocalModel R M O :=
  match lm.pieces[i]? with
  | some p => lm.setPiece i (f p)
  | none => lm

/-- A range-for loop over child pointers with a body that may fail to return. -/
def forEachChild {S : Type} (body : S → Nat → Option S) : List Nat → S → Option S
  | [], s => some s
  | c :: cs, s =>
    match body s c with
    | none => none
    | some s1 => forEachChild body cs s1

/-- Source `LocalModelPiece::LocalModelPiece(const S3DModelPiece*)`.  `rot` is a
default-constructed `float3`, `modelSpaceMat` a default-constructed matrix; the
pseudo-world-space flags start cleared. -/
def LocalModelPiece.new [Sub R] (E : Externals R M O) (piece : S3DModelPiece R) :
    LocalModelPiece R M :=
  { pos := piece.offset
    rot := E.ZeroVector
    dir := piece.GetEmitDir E
    pieceSpaceMat := E.CalcPieceSpaceMatrix piece.offset E.ZeroVector piece.scales
    modelSpaceMat := E.identity
    dirty := true
    customDirty := true
    scriptSetVisible := true
    blockScriptAnims := false
    lmodelPieceIndex := -1
    scriptPieceIndex := -1
    original := piece
    parent := none
    children := []
    pseudoWorldSpacePosition := false
    pseudoWorldSpaceRotation := false }

/-- Source `LocalModelPiece::SetGetCustomDirty`: swap `cd` with `customDirty`
and return what `cd` holds afterwards. -/
def LocalModelPiece.SetGetCustomDirty (p : LocalModelPiece R M) (cd : Bool) :
    Bool × LocalModelPiece R M :=
  let swapped : Bool × Bool := (p.customDirty, cd)
  (swapped.1, { p with customDirty := swapped.2 })

/-- Body of the loop `if (child->dirty) continue; child->SetDirty();`. -/
def setDirtyUnlessDirty (setDirty : LocalModel R M O → Nat → Option (LocalModel R M O))
    (lm : LocalModel R M O) (child : Nat) : Option (LocalModel R M O) :=
  match lm.pieces[child]? with
  | none => none
  | some cp => if cp.dirty then some lm else setDirty lm child

/-- Source `LocalModelPiece::SetDirty` on the piece `pieces[i]`. -/
def SetDirty : Nat → LocalModel R M O → Nat → Option (LocalModel R M O)
  | 0, _, _ => none
  | fuel + 1, lm, i =>
    match lm.pieces[i]? with
    | none => none
    | some p =>
      let p1 := (LocalModelPiece.SetGetCustomDirty { p with dirty := true } true).2
      forEachChild (setDirtyUnlessDirty (SetDirty fuel)) p.children (lm.setPiece i p1)

/-- Source `LocalModelPiece::SetPosOrRot(src, dst)` on the piece `pieces[i]`. -/
def SetPosOrRot (E : Externals R M O) (fuel : Nat) (lm : LocalModel R M O) (i : Nat)
    (src : float3 R) (dst : PosOrRot) : Option (LocalModel R M O) :=
  match lm.pieces[i]? with
  | none => none
  | some p =>
    if p.blockScriptAnims then some lm
    else
      let marked : Option (LocalModel R M O) :=
        if !p.dirty && !E.same (p.getDst dst) src then
          match SetDirty fuel lm i with
          | none => none
          | some lm1 => some { lm1 with needsBoundariesRecalc := true }
        else some lm
      match marked with
      | none => none
      | some lm2 => some (lm2.modifyPiece i (fun q => q.setDst dst src))

/-- Source `LocalModelPiece::ApplyParentMatrix(inOutMat)` on the piece
`pieces[i]`.  Both callers pass the piece's own `modelSpaceMat`, so the
reference `inOutMat` is that field. -/
def ApplyParentMatrix [Sub R] [Mul R] [Neg R] (E : Externals R M O) (fuel : Nat)
    (lm : LocalModel R M O) (i : Nat) : Option (LocalModel R M O) :=
  match lm.pieces[i]? with
  | none => none
  | some p =>
    let composed : Option M :=
      match p.parent with
      | none => some p.modelSpaceMat
      | some j =>
        match lm.pieces[j]? with
        | none => none
        | some q => some (E.rshiftAssign p.modelSpaceMat q.modelSpaceMat)
    match composed with
    | none => none
    | some m1 =>
      match lm.owningObject with
      | none => some (lm.setPiece i { p with modelSpaceMat := m1 })
      | some obj =>
        if p.pseudoWorldSpacePosition || p.pseudoWorldSpaceRotation then
          let worldMat := E.GetTransformMatrix obj true
          let m2 :=
            if p.pseudoWorldSpacePosition then
              let target := float3.sub p.pos (E.GetPos worldMat)
              let normed := E.LengthNormalize target
              E.SetPos m1 (float3.scale
                (float3.mul (E.GetObjectSpaceVec obj normed.1) E.WORLD_TO_OBJECT_SPACE) normed.2)
            else m1
          let m3 :=
            if p.pseudoWorldSpaceRotation then
              E.RotateEulerZXY m2 (float3.neg (E.GetEulerAnglesLftHand worldMat))
            else m2
          let p1 := (LocalModelPiece.SetGetCustomDirty
            { p with modelSpaceMat := m3, dirty := true } true).2
          forEachChild (setDirtyUnlessDirty (SetDirty fuel)) p.children (lm.setPiece i p1)
        else some (lm.setPiece i { p with modelSpaceMat := m1 })

/-- Source `LocalModelPiece::UpdateChildMatricesRec(updateChildMatrices)` on the
piece `pieces[i]`. -/
def UpdateChildMatricesRec [Sub R] [Mul R] [Neg R] (E : Externals R M O) :
    Nat → LocalModel R M O → Nat → Bool → Option (LocalModel R M O)
  | 0, _, _, _ => none
  | fuel + 1, lm, i, updateChildMatrices =>
    match lm.pieces[i]? with
    | none => none
    | some p =>
      let update := p.dirty || updateChildMatrices
      let p1 : LocalModelPiece R M :=
        if p.dirty then
          { p with dirty := false
                   pieceSpaceMat := E.CalcPieceSpaceMatrix p.pos p.rot p.original.scales }
        else p
      let applied : Option (LocalModel R M O) :=
        if update then
          ApplyParentMatrix E fuel (lm.setPiece i { p1 with modelSpaceMat := p1.pieceSpaceMat }) i
        else some (lm.setPiece i p1)
      match applied with
      | none => none
      | some lm2 =>
        forEachChild (fun s c => UpdateChildMatricesRec E fuel s c update) p.children lm2

/-- Source `LocalModelPiece::UpdateParentMatricesRec` on the piece `pieces[i]`. -/
def UpdateParentMatricesRec [Sub R] [Mul R] [Neg R] (E : Externals R M O) :
    Nat → LocalModel R M O → Nat → Option (LocalModel R M O)
  | 0, _, _ => none
  | fuel + 1, lm, i =>
    match lm.pieces[i]? with
    | none => none
    | some p =>
      let resolved : Option (LocalModel R M O) :=
        match p.parent with
        | none => some lm
        | some j =>
          match lm.pieces[j]? with
          | none => none
          | some q => if q.dirty then UpdateParentMatricesRec E fuel lm j else some lm
      match resolved with
      | none => none
      | some lm1 =>
        match lm1.pieces[i]? with
        | none => none
        | some p1 =>
          let psm := E.CalcPieceSpaceMatrix p1.pos p1.rot p1.original.scales
          ApplyParentMatrix E fuel
            (lm1.setPiece i { p1 with dirty := false, pieceSpaceMat := psm, modelSpaceMat := psm })
            i

/-- The eight corners of the box `[pMins, pMaxs]`, in the order of the array
`verts` of `UpdateBoundingVolume`. -/
def boxCorners (pMins pMaxs : float3 R) : List (float3 R) :=
  [ ⟨pMins.x, pMins.y, pMins.z⟩, ⟨pMaxs.x, pMins.y, pMins.z⟩,
    ⟨pMaxs.x, pMins.y, pMaxs.z⟩, ⟨pMins.x, pMins.y, pMaxs.z⟩,
    ⟨pMins.x, pMaxs.y, pMins.z⟩, ⟨pMaxs.x, pMaxs.y, pMins.z⟩,
    ⟨pMaxs.x, pMaxs.y, pMaxs.z⟩, ⟨pMins.x, pMaxs.y, pMaxs.z⟩ ]

/-- Modelled from the spec: `LocalModelPiece::GetModelSpaceMatrix` is declared
in `3DModel.h`, which is not part of the sources; the bounding-volume pass
reads the "(already up-to-date) model-space matrix" of the piece, the cached
field. -/
def LocalModelPiece.GetModelSpaceMatrix (p : LocalModelPiece R M) : M :=
  p.modelSpaceMat

/-- The running extrema `(bbMins, bbMaxs)` computed by the loops of
`LocalModel::UpdateBoundingVolume`. -/
def boundingExtrema [Min R] [Max R] (E : Externals R M O) (lm : LocalModel R M O) :
    float3 R × float3 R :=
  lm.pieces.foldl
    (fun bb lmPiece =>
      if !lmPiece.original.HasGeometryData then bb
      else
        (boxCorners lmPiece.original.mins lmPiece.original.maxs).foldl
          (fun acc v =>
            let vertex := E.mulVec lmPiece.GetModelSpaceMatrix v
            (float3.min acc.1 vertex, float3.max acc.2 vertex))
          bb)
    (E.DEF_MIN_SIZE, E.DEF_MAX_SIZE)

/-- Source `LocalModel::UpdateBoundingVolume`. -/
def UpdateBoundingVolume [Add R] [Sub R] [Mul R] [Min R] [Max R] (E : Externals R M O)
    (lm : LocalModel R M O) : LocalModel R M O :=
  let bb := boundingExtrema E lm
  { lm with
    boundingVolume :=
      { boxSize := float3.sub bb.2 bb.1
        boxOffset := float3.scale (float3.add bb.2 bb.1) E.half }
    needsBoundariesRecalc := false }

mutual
/-- Source `LocalModel::CreateLocalModelPieces(mpParent)`: returns the new state
and the pointer (index) of the piece created for `mpParent`. -/
def CreateLocalModelPieces [Sub R] (E : Externals R M O) (lm : LocalModel R M O) :
    S3DModelPiece R → LocalModel R M O × Nat
  | .mk n o s mi ma v ix c =>
    let mpParent : S3DModelPiece R := .mk n o s mi ma v ix c
    let lm1 : LocalModel R M O :=
      { lm with pieces := lm.pieces ++ [LocalModelPiece.new E mpParent] }
    let lmpParent := lm1.pieces.length - 1
    let lm2 := lm1.modifyPiece lmpParent
      (fun q => { q with lmodelPieceIndex := ((lm1.pieces.length - 1 : Nat) : Int) })
    let lm3 := lm2.modifyPiece lmpParent
      (fun q => { q with scriptPieceIndex := ((lm2.pieces.length - 1 : Nat) : Int) })
    (CreateLocalModelChildren E lmpParent lm3 c, lmpParent)
/-- The loop `for (mpChild : mpParent->children)` of `CreateLocalModelPieces`. -/
def CreateLocalModelChildren [Sub R] (E : Externals R M O) (lmpParent : Nat)
    (lm : LocalModel R M O) : List (S3DModelPiece R) → LocalModel R M O
  | [] => lm
  | mpChild :: rest =>
    let created := CreateLocalModelPieces E lm mpChild
    let lmpChild := created.2
    let lm1 := created.1.modifyPiece lmpChild (fun q => { q with parent := some lmpParent })
    let lm2 := lm1.modifyPiece lmpParent (fun q => { q with children := q.children ++ [lmpChild] })
    CreateLocalModelChildren E lmpParent lm2 rest
end

/-- The loop `pieces[n].original = model->GetPiece(n)` of `SetModel`, from `n`
on. -/
def repointPieces (model : S3DModel R) :
    Nat → List (LocalModelPiece R M) → Option (List (LocalModelPiece R M))
  | _, [] => some []
  | n, p :: ps =>
    match model.GetPiece n with
    | none => none
    | some omp =>
      match repointPieces model (n + 1) ps with
      | none => none
      | some ps1 => some ({ p with original := omp } :: ps1)

/-- Source `LocalModel::SetModel(model, initialize)`.  A failed `assert` is
`none`. -/
def SetModel [Add R] [Sub R] [Mul R] [Neg R] [Min R] [Max R] (E : Externals R M O)
    (fuel : Nat) (lm : LocalModel R M O) (model : S3DModel R) (init : Bool) :
    Option (LocalModel R M O) :=
  if model.numPieces < 1 then none
  else if !init then
    if lm.pieces.length ≠ model.numPieces then none
    else
      match repointPieces model 0 lm.pieces with
      | none => none
      | some ps =>
        match UpdateChildMatricesRec E fuel { lm with pieces := ps } 0 true with
        | none => none
        | some lm1 => some (UpdateBoundingVolume E lm1)
  else if !lm.pieces.isEmpty then none
  else
    match model.GetRootPiece with
    | none => none
    | some root =>
      let lm1 := (CreateLocalModelPieces E { lm with pieces := [] } root).1
      match UpdateChildMatricesRec E fuel lm1 0 false with
      | none => none
      | some lm2 =>
        let lm3 := UpdateBoundingVolume E lm2
        if lm3.pieces.length = model.numPieces then some lm3 else none

/-! ## Tree shape, subtrees and frames -/

/-- Child pointers of `pieces[i]` (none for a wild index). -/
def LocalModel.childrenOf (lm : LocalModel R M O) (i : Nat) : List Nat :=
  match lm.pieces[i]? with
  | some p => p.children
  | none => []

/-- Parent pointer of `pieces[i]`. -/
def LocalModel.parentOf (lm : LocalModel R M O) (i : Nat) : Option Nat :=
  match lm.pieces[i]? with
  | some p => p.parent
  | none => none

/-- Flag `dirty` of `pieces[i]`. -/
def LocalModel.dirtyOf (lm : LocalModel R M O) (i : Nat) : Bool :=
  match lm.pieces[i]? with
  | some p => p.dirty
  | none => false

/-- The pieces form a tree rooted at `pieces[0]` whose links agree: child
pointers are distinct, point forward in the array to pieces that name the
pointing piece as parent, and every piece but the root hangs under its
parent.  This is the layout `CreateLocalModelPieces` builds. -/
def TreeShaped (lm : LocalModel R M O) : Prop :=
  ∀ i < lm.pieces.length,
    (lm.childrenOf i).Nodup ∧
    (∀ c ∈ lm.childrenOf i, i < c ∧ c < lm.pieces.length ∧ lm.parentOf c = some i) ∧
    ((lm.parentOf i = none ∧ i = 0) ∨ ∃ j < i, lm.parentOf i = some j ∧ i ∈ lm.childrenOf j)

instance (lm : LocalModel R M O) : Decidable (TreeShaped lm) := by
  unfold TreeShaped; infer_instance

/-- `InSubtree lm i j`: piece `j` is piece `i` or one of its descendants
(children, grandchildren, ...). -/
inductive InSubtree (lm : LocalModel R M O) : Nat → Nat → Prop where
  | refl (i : Nat) : InSubtree lm i i
  | step {i c j : Nat} : c ∈ lm.childrenOf i → InSubtree lm c j → InSubtree lm i j

/-- No pseudo-world-space override is active: the model has no owning object,
or no piece has a pseudo-world-space flag set. -/
def NoActiveOverride (lm : LocalModel R M O) : Prop :=
  lm.owningObject = none ∨
    ∀ p ∈ lm.pieces, p.pseudoWorldSpacePosition = false ∧ p.pseudoWorldSpaceRotation = false

/-- Dirty flags are closed downwards: every child of a dirty piece is dirty. -/
def DirtyClosed (lm : LocalModel R M O) : Prop :=
  ∀ i, lm.dirtyOf i = true → ∀ c ∈ lm.childrenOf i, lm.dirtyOf c = true

/-- The matrix `ApplyParentMatrix` leaves in `inOutMat` when no override is
active: `local` composed with the parent's model-space matrix, `local` itself
at the root. -/
def composeWithParent (E : Externals R M O) (lm : LocalModel R M O)
    (parent : Option Nat) (loc : M) : M :=
  match parent with
  | none => loc
  | some j =>
    match lm.pieces[j]? with
    | some q => E.rshiftAssign loc q.modelSpaceMat
    | none => loc

/-- Reference model-space transform of `pieces[i]`: the local transforms
recomputed from the current `pos`, `rot` and scales, composed along the path
from the piece up to the root. -/
def referenceMat (E : Externals R M O) : Nat → LocalModel R M O → Nat → Option M
  | 0, _, _ => none
  | fuel + 1, lm, i =>
    match lm.pieces[i]? with
    | none => none
    | some p =>
      let loc := E.CalcPieceSpaceMatrix p.pos p.rot p.original.scales
      match p.parent with
      | none => some loc
      | some j =>
        match referenceMat E fuel lm j with
        | none => none
        | some pm => some (E.rshiftAssign loc pm)

/-- States reachable from a fresh `SetModel(model, true)` by `SetPosOrRot`,
`SetDirty`, `UpdateParentMatricesRec` on any piece and
`UpdateChildMatricesRec` on the root. -/
inductive Reachable [Add R] [Sub R] [Mul R] [Neg R] [Min R] [Max R]
    (E : Externals R M O) (model : S3DModel R) : LocalModel R M O → Prop where
  | fresh {fuel : Nat} {lm0 lm : LocalModel R M O} :
      lm0.pieces = [] → SetModel E fuel lm0 model true = some lm → Reachable E model lm
  | setPosOrRot {fuel i : Nat} {src : float3 R} {dst : PosOrRot} {lm lm1 : LocalModel R M O} :
      Reachable E model lm → SetPosOrRot E fuel lm i src dst = some lm1 → Reachable E model lm1
  | setDirty {fuel i : Nat} {lm lm1 : LocalModel R M O} :
      Reachable E model lm → SetDirty fuel lm i = some lm1 → Reachable E model lm1
  | updateParent {fuel i : Nat} {lm lm1 : LocalModel R M O} :
      Reachable E model lm → UpdateParentMatricesRec E fuel lm i = some lm1 →
      Reachable E model lm1
  | updateChild {fuel : Nat} {force : Bool} {lm lm1 : LocalModel R M O} :
      Reachable E model lm → UpdateChildMatricesRec E fuel lm 0 force = some lm1 →
      Reachable E model lm1

end Model

section Posts

variable {R M O : Type}

/-- Piece `p1` is piece `p` with the flags `dirty` and `customDirty` possibly
raised and nothing else changed; a piece that turns dirty has `customDirty`
set. -/
structure RaisedFlags (p p1 : LocalModelPiece R M) : Prop where
  same : p1 = { p with dirty := p1.dirty, customDirty := p1.customDirty }
  dirty : p.dirty = true → p1.dirty = true
  customDirty : p.customDirty = true → p1.customDirty = true
  latched : p.dirty = false → p1.dirty = true → p1.customDirty = true

/-- Model `lm1` is model `lm` with some flags `dirty` and `customDirty` raised:
the model's own fields, the number of pieces and every other field of every
piece are the same. -/
structure FlagFrame (lm lm1 : LocalModel R M O) : Prop where
  boundingVolume : lm1.boundingVolume = lm.boundingVolume
  needsBoundariesRecalc : lm1.needsBoundariesRecalc = lm.needsBoundariesRecalc
  owningObject : lm1.owningObject = lm.owningObject
  length : lm1.pieces.length = lm.pieces.length
  piece : ∀ (j : Nat) (p : LocalModelPiece R M), lm.pieces[j]? = some p →
    ∃ p1 : LocalModelPiece R M, lm1.pieces[j]? = some p1 ∧ RaisedFlags p p1

/-- Effect of a `SetDirty` call on `pieces[i]` that takes `lm` to `lm1`. -/
structure SetDirtyPost (lm lm1 : LocalModel R M O) (i : Nat) : Prop where
  frame : FlagFrame lm lm1
  outside : ∀ j : Nat, ¬ InSubtree lm i j → lm1.pieces[j]? = lm.pieces[j]?
  self : ∃ p1 : LocalModelPiece R M,
    lm1.pieces[i]? = some p1 ∧ p1.dirty = true ∧ p1.customDirty = true
  children : ∀ c ∈ lm.childrenOf i, lm1.dirtyOf c = true
  cascade :
    (∀ k, InSubtree lm i k → k ≠ i → lm.dirtyOf k = true →
      ∀ c ∈ lm.childrenOf k, lm.dirtyOf c = true) →
    ∀ j, InSubtree lm i j → lm1.dirtyOf j = true

end Posts

section Posts2

variable {R M O : Type}

/-- Piece `p1` is piece `p` up to the flag `dirty` and the two cached
matrices. -/
structure CachesOnly (p p1 : LocalModelPiece R M) : Prop where
  same : p1 = { p with dirty := p1.dirty, pieceSpaceMat := p1.pieceSpaceMat,
                       modelSpaceMat := p1.modelSpaceMat }

/-- Model `lm1` is model `lm` up to the flag `dirty` and the cached matrices of
its pieces. -/
structure CacheFrame (lm lm1 : LocalModel R M O) : Prop where
  boundingVolume : lm1.boundingVolume = lm.boundingVolume
  needsBoundariesRecalc : lm1.needsBoundariesRecalc = lm.needsBoundariesRecalc
  owningObject : lm1.owningObject = lm.owningObject
  length : lm1.pieces.length = lm.pieces.length
  piece : ∀ (j : Nat) (p : LocalModelPiece R M), lm.pieces[j]? = some p →
    ∃ p1 : LocalModelPiece R M, lm1.pieces[j]? = some p1 ∧ CachesOnly p p1

/-- The local transform recomputed from the current fields of a piece. -/
def LocalModelPiece.freshLocal (E : Externals R M O) (p : LocalModelPiece R M) : M :=
  E.CalcPieceSpaceMatrix p.pos p.rot p.original.scales

/-- The piece as `UpdateChildMatricesRec(u)` leaves it when no
pseudo-world-space override is active: clean, with the local transform
recomputed if it was dirty and the model-space matrix recomposed if it was
dirty or `u` is set. -/
def updatedPiece (E : Externals R M O) (lm : LocalModel R M O) (p : LocalModelPiece R M)
    (u : Bool) : LocalModelPiece R M :=
  { p with
    dirty := false
    pieceSpaceMat := if p.dirty then p.freshLocal E else p.pieceSpaceMat
    modelSpaceMat :=
      if p.dirty || u then
        composeWithParent E lm p.parent (if p.dirty then p.freshLocal E else p.pieceSpaceMat)
      else p.modelSpaceMat }

/-- Effect of an `UpdateChildMatricesRec(u)` call on `pieces[i]` that takes `lm`
to `lm1`, when no pseudo-world-space override is active. -/
structure UpdateChildPost (E : Externals R M O) (lm lm1 : LocalModel R M O) (i : Nat)
    (u : Bool) : Prop where
  frame : CacheFrame lm lm1
  outside : ∀ j : Nat, ¬ InSubtree lm i j → lm1.pieces[j]? = lm.pieces[j]?
  clean : ∀ j, InSubtree lm i j → lm1.dirtyOf j = false
  loc : ∀ (j : Nat) (p p1 : LocalModelPiece R M), InSubtree lm i j →
    lm.pieces[j]? = some p → lm1.pieces[j]? = some p1 →
    p1.pieceSpaceMat = if p.dirty then p.freshLocal E else p.pieceSpaceMat
  idle : u = false → (∀ j, InSubtree lm i j → lm.dirtyOf j = false) → lm1 = lm
  model :
    (∀ k, InSubtree lm i k → lm.dirtyOf k = true →
      ∀ c ∈ lm.childrenOf k, lm.dirtyOf c = true) →
    ∀ (j : Nat) (p p1 : LocalModelPiece R M), InSubtree lm i j →
      lm.pieces[j]? = some p → lm1.pieces[j]? = some p1 →
      p1.modelSpaceMat =
        if p.dirty || u then composeWithParent E lm1 p.parent p1.pieceSpaceMat
        else p.modelSpaceMat

end Posts2

section Posts3

variable {R M O : Type}

/-- Every clean piece caches the transforms of its current fields: its local
transform is the recomputed one and its model-space matrix is that local
transform composed with the parent's cached model-space matrix. -/
def CleanConsistent (E : Externals R M O) (lm : LocalModel R M O) : Prop :=
  ∀ (j : Nat) (p : LocalModelPiece R M), lm.pieces[j]? = some p → p.dirty = false →
    p.pieceSpaceMat = p.freshLocal E ∧
    p.modelSpaceMat = composeWithParent E lm p.parent p.pieceSpaceMat

/-- The piece as `UpdateParentMatricesRec` leaves it when no pseudo-world-space
override is active. -/
def resolvedPiece (E : Externals R M O) (lm : LocalModel R M O) (p : LocalModelPiece R M) :
    LocalModelPiece R M :=
  { p with
    dirty := false
    pieceSpaceMat := p.freshLocal E
    modelSpaceMat := composeWithParent E lm p.parent (p.freshLocal E) }

/-- Effect of an `UpdateParentMatricesRec` call on `pieces[i]` that takes `lm`
to `lm1`, when no pseudo-world-space override is active. -/
structure UpdateParentPost (E : Externals R M O) (lm lm1 : LocalModel R M O) (i : Nat) :
    Prop where
  frame : CacheFrame lm lm1
  outside : ∀ j : Nat, ¬ InSubtree lm j i → lm1.pieces[j]? = lm.pieces[j]?
  self : ∃ p : LocalModelPiece R M, lm.pieces[i]? = some p ∧
    lm1.pieces[i]? = some (resolvedPiece E lm1 p)
  closed : DirtyClosed lm →
    DirtyClosed lm1 ∧ ∀ a, InSubtree lm a i → lm1.dirtyOf a = false
  consistent : DirtyClosed lm → CleanConsistent E lm → CleanConsistent E lm1

end Posts3

section Mirror

variable {R M O : Type}

mutual
/-- The local pieces that mirror the tree of a static piece, laid out in
pre-order from array position `base` on; the first piece gets the parent
pointer `parent`. -/
def mirrorPieces [Sub R] (E : Externals R M O) (base : Nat) (parent : Option Nat) :
    S3DModelPiece R → List (LocalModelPiece R M)
  | .mk n o s mi ma v ix c =>
    { LocalModelPiece.new E (.mk n o s mi ma v ix c) with
      lmodelPieceIndex := (base : Int)
      scriptPieceIndex := (base : Int)
      parent := parent
      children := childSlots (base + 1) c } :: mirrorForest E (base + 1) base c
/-- The local pieces that mirror a forest of static pieces, laid out tree after
tree from array position `base` on, every root pointing to `parentIdx`. -/
def mirrorForest [Sub R] (E : Externals R M O) (base : Nat) (parentIdx : Nat) :
    List (S3DModelPiece R) → List (LocalModelPiece R M)
  | [] => []
  | t :: ts =>
    mirrorPieces E base (some parentIdx) t ++ mirrorForest E (base + t.numNodes) parentIdx ts
end

end Mirror

section Segments

variable {R M O : Type}

/-- What holds of one pre-order position `i` of a freshly built piece array `A`
inside the segment `[lo, hi)`: dense indices, child pointers at the pre-order
positions of the static children and mirroring them, children pointing back,
and a parent pointer that is either the segment's outer parent (for the roots
of the segment) or an earlier piece of the segment listing `i` as child. -/
def PieceOK (lo hi : Nat) (A : List (LocalModelPiece R M)) (roots : List Nat)
    (rootParent : Option Nat) (i : Nat) (p : LocalModelPiece R M) : Prop :=
  p.lmodelPieceIndex = (i : Int) ∧ p.scriptPieceIndex = (i : Int) ∧
  p.children = childSlots (i + 1) p.original.children ∧
  p.children.map (fun c => (A[c]?).map (fun q => q.original)) = p.original.children.map some ∧
  (∀ c ∈ p.children, i < c ∧ c < hi ∧
    ∃ q : LocalModelPiece R M, A[c]? = some q ∧ q.parent = some i) ∧
  ((i ∈ roots ∧ p.parent = rootParent) ∨
    ∃ j, lo ≤ j ∧ j < i ∧ p.parent = some j ∧
      ∃ q : LocalModelPiece R M, A[j]? = some q ∧ i ∈ q.children)

/-- The segment `[lo, hi)` of the piece array `A` mirrors the forest `cs` of
static pieces, whose roots sit at the positions `roots` and point to
`rootParent`. -/
structure SegmentOK (lo hi : Nat) (A : List (LocalModelPiece R M)) (roots : List Nat)
    (rootParent : Option Nat) (cs : List (S3DModelPiece R)) : Prop where
  bound : hi ≤ A.length
  piece : ∀ (i : Nat) (p : LocalModelPiece R M), lo ≤ i → i < hi → A[i]? = some p →
    PieceOK lo hi A roots rootParent i p
  root : ∀ r ∈ roots, lo ≤ r ∧ r < hi ∧
    ∃ q : LocalModelPiece R M, A[r]? = some q ∧ q.parent = rootParent
  rootOriginal : roots.map (fun c => (A[c]?).map (fun q => q.original)) = cs.map some

end Segments

section Invariant

variable {R M O : Type}

/-- The invariant of the states reachable from a fresh `SetModel`: the pieces
form a tree, no pseudo-world-space flag is set, dirty flags are closed
downwards and clean pieces cache the transforms of their current fields. -/
structure ModelInv (E : Externals R M O) (lm : LocalModel R M O) : Prop where
  tree : TreeShaped lm
  nonempty : 0 < lm.pieces.length
  flags : ∀ p ∈ lm.pieces,
    p.pseudoWorldSpacePosition = false ∧ p.pseudoWorldSpaceRotation = false
  closed : DirtyClosed lm
  consistent : CleanConsistent E lm

/-- The state `SetModel(model, true)` builds before it updates the matrices:
the empty model with the mirror layout of the root's tree as pieces. -/
def createdModel [Sub R] (E : Externals R M O) (lm0 : LocalModel R M O)
    (root : S3DModelPiece R) : LocalModel R M O :=
  { lm0 with pieces := mirrorPieces E 0 none root }

end Invariant

section Invariant2

variable {R M O : Type}

/-- The part of the invariant of reachable states that does not mention
matrices: the pieces form a tree, no pseudo-world-space flag is set and dirty
flags are closed downwards. -/
structure DirtyInv (lm : LocalModel R M O) : Prop where
  tree : TreeShaped lm
  nonempty : 0 < lm.pieces.length
  flags : ∀ p ∈ lm.pieces,
    p.pseudoWorldSpacePosition = false ∧ p.pseudoWorldSpaceRotation = false
  closed : DirtyClosed lm

end Invariant2

section Demo

/-- Example instance of the externals over the integers: a matrix is the list
of the local transforms composed into it, root first, and a local transform is
a single number computed from `pos`, `rot` and the scales; `same` is
equality.  The integers have no `0.5`: `half` is 0, so the offset of an example
bounding box is zero; nothing below reads it. -/
def demoExternals : Externals Int (List Int) Unit :=
  { CalcPieceSpaceMatrix := fun pos rot scales => [pos.x * 100 + rot.x * 10 + scales.x]
    rshiftAssign := fun inOut parentMat => parentMat ++ inOut
    identity := []
    mulVec := fun _ v => v
    GetPos := fun _ => ⟨0, 0, 0⟩
    SetPos := fun m _ => m
    RotateEulerZXY := fun m _ => m
    GetEulerAnglesLftHand := fun _ => ⟨0, 0, 0⟩
    same := fun a b => decide (a = b)
    LengthNormalize := fun v => (v, 1)
    GetTransformMatrix := fun _ _ => []
    GetObjectSpaceVec := fun _ v => v
    WORLD_TO_OBJECT_SPACE := ⟨1, 1, 1⟩
    ZeroVector := ⟨0, 0, 0⟩
    FwdVector := ⟨0, 0, 1⟩
    DEF_MIN_SIZE := ⟨10000, 10000, 10000⟩
    DEF_MAX_SIZE := ⟨-10000, -10000, -10000⟩
    half := 0 }

/-- Example static piece with one triangle, offset `(x, 0, 0)` and unit
scales. -/
def demoStatic (name : String) (x : Int) (children : List (S3DModelPiece Int)) :
    S3DModelPiece Int :=
  .mk name ⟨x, 0, 0⟩ ⟨1, 1, 1⟩ ⟨0, 0, 0⟩ ⟨1, 1, 1⟩ [⟨0, 0, 0⟩, ⟨1, 0, 0⟩, ⟨0, 1, 0⟩] [0, 1, 2]
    children

/-- Example static tree: `base` with the children `arm` (which has the child
`hand`) and `flag`. -/
def demoRoot : S3DModelPiece Int :=
  demoStatic "base" 1 [demoStatic "arm" 2 [demoStatic "hand" 3 []], demoStatic "flag" 4 []]

/-- Example static model of four pieces. -/
def demoModel : S3DModel Int :=
  { numPieces := 4
    pieceObjects := [demoRoot, demoStatic "arm" 2 [demoStatic "hand" 3 []],
      demoStatic "hand" 3 [], demoStatic "flag" 4 []]
    rootPiece := some demoRoot }

/-- Example local model before `SetModel`: no pieces, no owning object. -/
def demoEmpty : LocalModel Int (List Int) Unit :=
  { pieces := []
    boundingVolume := ⟨⟨0, 0, 0⟩, ⟨0, 0, 0⟩⟩
    needsBoundariesRecalc := false
    owningObject := none }

/-- Example local model right after `SetModel(demoModel, true)`. -/
def demoFresh : LocalModel Int (List Int) Unit :=
  (SetModel demoExternals 4 demoEmpty demoModel true).getD demoEmpty

/-- Example state: `SetPosition` with a new value on the piece `arm` of
`demoFresh`, which marks `arm` and `hand` dirty. -/
def demoMoved : LocalModel Int (List Int) Unit :=
  (SetPosOrRot demoExternals 4 demoFresh 1 ⟨7, 0, 0⟩ PosOrRot.pos).getD demoFresh

/-- Example local piece with the given links and dirty flag. -/
def demoPiece (parent : Option Nat) (children : List Nat) (dirty : Bool) :
    LocalModelPiece Int (List Int) :=
  { LocalModelPiece.new demoExternals (demoStatic "piece" 0 []) with
    parent := parent
    children := children
    dirty := dirty
    customDirty := false }

/-- The piece `arm` of `demoFresh`. -/
def demoArm : LocalModelPiece Int (List Int) :=
  (demoFresh.pieces[1]?).getD (demoPiece none [] false)

/-- Example chain of three pieces in which the middle piece is dirty and the
pieces above and below it are clean. -/
def demoPrunedChain : LocalModel Int (List Int) Unit :=
  { demoEmpty with
    pieces := [demoPiece none [1] false, demoPiece (some 0) [2] true,
      demoPiece (some 1) [] false] }

/-- Example model of one dirty piece with a pseudo-world-space rotation and an
owning object. -/
def demoPseudo : LocalModel Int (List Int) Unit :=
  { demoEmpty with
    pieces := [{ demoPiece none [] true with pseudoWorldSpaceRotation := true }]
    owningObject := some () }

/-- Example model with an owning object: a dirty root and a clean child with a
pseudo-world-space rotation whose cached local transform (`[999]`) is not the
one of its current fields. -/
def demoPseudoStale : LocalModel Int (List Int) Unit :=
  { demoEmpty with
    pieces := [demoPiece none [1] true,
      { demoPiece (some 0) [] false with
        pseudoWorldSpaceRotation := true
        pieceSpaceMat := [999] }]
    owningObject := some () }

/-- Example chain of three clean pieces whose root blocks script animation. -/
def demoBlocked : LocalModel Int (List Int) Unit :=
  { demoEmpty with
    pieces := [{ demoPiece none [1] false with blockScriptAnims := true },
      demoPiece (some 0) [2] false, demoPiece (some 1) [] false] }

end Demo

/-! ## Name lookup -/

section Lookup

variable {R : Type}

/-- Source `S3DModel::FindPieceOffset(name)`.  The iterator returned by
`std::find_if` is the position it points at, `pieceObjects.end()` is the
length of the array, `size_t(-1)` is `2 ^ 64 - 1`. -/
def S3DModel.FindPieceOffset (m : S3DModel R) (name : String) : Nat :=
  let it := m.pieceObjects.findIdx (fun piece => decide (piece.name = name))
  if it = m.pieceObjects.length then 2 ^ 64 - 1 else it

/-- Source `S3DModel::FindPiece(name)` (both overloads); `nullptr` is `none`. -/
def S3DModel.FindPiece (m : S3DModel R) (name : String) : Option (S3DModelPiece R) :=
  let it := m.pieceObjects.findIdx (fun piece => decide (piece.name = name))
  if it = m.pieceObjects.length then none else m.pieceObjects[it]?

end Lookup

/-! ## Shatter fragments -/

/-- Dot product `float3::dot`. -/
def float3.dot {R : Type} [Add R] [Mul R] (a b : float3 R) : R :=
  a.x * b.x + a.y * b.y + a.z * b.z

/-- Operations and constants that the shatter code of `3DModel.cpp` takes from
headers outside the sources. -/
structure ShatterExternals (R : Type) where
  /-- Constant `S3DModelPiecePart::SHATTER_VARIATIONS`. -/
  SHATTER_VARIATIONS : Nat
  /-- Constant `S3DModelPiecePart::SHATTER_MAX_PARTS`. -/
  SHATTER_MAX_PARTS : Nat
  /-- `float3::ANormalize`. -/
  ANormalize : float3 R → float3 R
  /-- `float3::operator/=(float)`. -/
  divAssign : float3 R → R → float3 R
  /-- Default-constructed `float3`. -/
  zero : float3 R
  /-- Literal `3.0f`. -/
  three : R
  /-- Literal `-2.0f`. -/
  minusTwo : R

/-- The fields of `S3DModelPiecePart::RenderData` that `3DModel.cpp` writes.
`indexStart` and `indexCount` are `uint32_t`. -/
structure RenderData (R : Type) where
  dir : float3 R
  indexStart : Nat
  indexCount : Nat
deriving DecidableEq

/-- One slot of the buffer `shatterPartsBuf`: the pair of a `RenderData` and
the list of vertex indices collected for it. -/
structure ShatterPartDataPair (R : Type) where
  first : RenderData R
  second : List Nat
deriving DecidableEq

/-- The members of `S3DModelPiece` that the shatter code writes: the combined
index buffer `shatterIndices` and, per variation, `shatterParts[num].renderData`. -/
structure ShatterData (R : Type) where
  shatterIndices : List Nat
  shatterParts : List (List (RenderData R))
deriving DecidableEq

section Shatter

variable {R : Type}

/-- The lambda `GetPolygonDir(idx)` of `CreateShatterPiecesVariation`; a read
past the end of `indices` or `vertices` is `none`. -/
def GetPolygonDir [Add R] (S : ShatterExternals R) (piece : S3DModelPiece R) (idx : Nat) :
    Option (float3 R) :=
  match piece.indices[idx + 0]?, piece.indices[idx + 1]?, piece.indices[idx + 2]? with
  | some i0, some i1, some i2 =>
    match piece.vertices[i0]?, piece.vertices[i1]?, piece.vertices[i2]? with
    | some v0, some v1, some v2 =>
      let midPos := float3.add (float3.add (float3.add S.zero v0) v1) v2
      some (S.ANormalize (S.divAssign midPos S.three))
    | _, _, _ => none
  | _, _, _ => none

/-- The loop `for (ShatterPartDataPair& cp: shatterPartsBuf)` that looks for
the closest part, from the part at position `k` on: returns the final values of
`md` and `mcp` (a position in the buffer, `none` for `nullptr`). -/
def findClosestPart [Add R] [Mul R] [LT R] [DecidableRel (fun a b : R => a < b)]
    (dir : float3 R) : List (ShatterPartDataPair R) → Nat → R → Option Nat → R × Option Nat
  | [], _, md, mcp => (md, mcp)
  | cp :: rest, k, md, mcp =>
    if float3.dot cp.first.dir dir < md then findClosestPart dir rest (k + 1) md mcp
    else findClosestPart dir rest (k + 1) (float3.dot cp.first.dir dir) (some k)

/-- Body of the loop `for (size_t i = 0; i < indices.size(); i += 3)`: put the
triangle that starts at `indices[i]` into the closest part.  A failed
`assert(mcp)` is `none`. -/
def addTriangle [Add R] [Mul R] [LT R] [DecidableRel (fun a b : R => a < b)]
    (S : ShatterExternals R) (piece : S3DModelPiece R)
    (shatterPartsBuf : List (ShatterPartDataPair R)) (i : Nat) :
    Option (List (ShatterPartDataPair R)) :=
  match GetPolygonDir S piece i with
  | none => none
  | some dir =>
    match (findClosestPart dir shatterPartsBuf 0 S.minusTwo none).2 with
    | none => none
    | some mcp =>
      match piece.indices[i + 0]?, piece.indices[i + 1]?, piece.indices[i + 2]?,
        shatterPartsBuf[mcp]? with
      | some i0, some i1, some i2, some cp =>
        some (shatterPartsBuf.set mcp { cp with second := cp.second ++ [i0, i1, i2] })
      | _, _, _, _ => none

/-- The values `0, 3, 6, ...` below `size` that the loop variable `i` of
`for (size_t i = 0; i < size; i += 3)` takes. -/
def triangleStarts (size : Nat) : List Nat :=
  (List.range ((size + 2) / 3)).map (fun t => 3 * t)

/-- The loop `for (size_t i = 0; i < indices.size(); i += 3)` over the given
values of `i`. -/
def addTriangles [Add R] [Mul R] [LT R] [DecidableRel (fun a b : R => a < b)]
    (S : ShatterExternals R) (piece : S3DModelPiece R) :
    List Nat → List (ShatterPartDataPair R) → Option (List (ShatterPartDataPair R))
  | [], shatterPartsBuf => some shatterPartsBuf
  | i :: rest, shatterPartsBuf =>
    match addTriangle S piece shatterPartsBuf i with
    | none => none
    | some buf1 => addTriangles S piece rest buf1

/-- The loop that sets `indexCount` and `indexStart` of every part and appends
the indices of the non-empty parts to `shatterIndices`; `base` is
`static_cast<uint32_t>(num * mapSize)`.  Returns the parts, `indxPos` and
`shatterIndices`. -/
def assignRanges (base : Nat) :
    List (ShatterPartDataPair R) → Nat → List Nat →
      List (ShatterPartDataPair R) × Nat × List Nat
  | [], indxPos, shatterIndices => ([], indxPos, shatterIndices)
  | cp :: rest, indxPos, shatterIndices =>
    let indexCount := cp.second.length % 2 ^ 32
    let indexStart := (base + indxPos) % 2 ^ 32
    let rd : RenderData R := { cp.first with indexCount := indexCount, indexStart := indexStart }
    let next : Nat × List Nat :=
      if 0 < indexCount then ((indxPos + indexCount) % 2 ^ 32, shatterIndices ++ cp.second)
      else (indxPos, shatterIndices)
    let done := assignRanges base rest next.1 next.2
    ({ cp with first := rd } :: done.1, done.2.1, done.2.2)

/-- The loop `for (size_t j = 0; j < shatterPartsBuf.size() && j < backIdx; )`
that swaps empty parts to the back, from the values `j` and `backIdx` on;
`fuel` bounds the number of iterations.  Returns the buffer and `backIdx`. -/
def deleteEmptyParts :
    Nat → List (ShatterPartDataPair R) → Nat → Nat →
      Option (List (ShatterPartDataPair R) × Nat)
  | fuel, shatterPartsBuf, j, backIdx =>
    if j < shatterPartsBuf.length ∧ j < backIdx then
      match fuel with
      | 0 => none
      | fuel1 + 1 =>
        match shatterPartsBuf[j]? with
        | none => none
        | some a =>
          if a.first.indexCount = 0 then
            match shatterPartsBuf[backIdx]? with
            | none => none
            | some b =>
              deleteEmptyParts fuel1 ((shatterPartsBuf.set j b).set backIdx a) j (backIdx - 1)
          else deleteEmptyParts fuel1 shatterPartsBuf (j + 1) backIdx
    else some (shatterPartsBuf, backIdx)

/-- Source `S3DModelPiece::CreateShatterPiecesVariation(num)`.  `rng k` is the
vector the `k`-th call of `guRNG.NextVector()` returns.  The fields
`indexStart` and `indexCount` of a new part are written before they are read;
they start as 0 here.  `shatterPartsBuf.size() - 1` is computed in `size_t`.
A failed `assert` or a read past the end of an array is `none`. -/
def CreateShatterPiecesVariation [Add R] [Mul R] [LT R] [DecidableRel (fun a b : R => a < b)]
    (S : ShatterExternals R) (piece : S3DModelPiece R) (rng : Nat → float3 R)
    (st : ShatterData R) (num : Nat) : Option (ShatterData R) :=
  let shatterPartsBuf : List (ShatterPartDataPair R) :=
    (List.range S.SHATTER_MAX_PARTS).map
      (fun k => { first := { dir := S.ANormalize (rng k), indexStart := 0, indexCount := 0 }
                  second := [] })
  match addTriangles S piece (triangleStarts piece.indices.length) shatterPartsBuf with
  | none => none
  | some buf1 =>
    let mapSize := piece.indices.length
    let ranged := assignRanges (num * mapSize % 2 ^ 32) buf1 0 st.shatterIndices
    let backIdx := (ranged.1.length + 2 ^ 64 - 1) % 2 ^ 64
    match deleteEmptyParts ranged.1.length ranged.1 0 backIdx with
    | none => none
    | some compacted =>
      if compacted.2 < compacted.1.length ∧ num < st.shatterParts.length then
        some { shatterIndices := ranged.2.2
               shatterParts :=
                 st.shatterParts.set num
                   ((compacted.1.take (compacted.2 + 1)).map (fun cp => cp.first)) }
      else none

/-- The loop `for (int i = 0; i < SHATTER_VARIATIONS; ++i)` of
`CreateShatterPieces` over the given values of `i`; variation `i` draws the
vectors `rng (i * SHATTER_MAX_PARTS)` and following. -/
def createShatterVariations [Add R] [Mul R] [LT R] [DecidableRel (fun a b : R => a < b)]
    (S : ShatterExternals R) (piece : S3DModelPiece R) (rng : Nat → float3 R) :
    List Nat → ShatterData R → Option (ShatterData R)
  | [], st => some st
  | i :: rest, st =>
    match CreateShatterPiecesVariation S piece
        (fun k => rng (i * S.SHATTER_MAX_PARTS + k)) st i with
    | none => none
    | some st1 => createShatterVariations S piece rng rest st1

/-- Source `S3DModelPiece::CreateShatterPieces`. -/
def CreateShatterPieces [Add R] [Mul R] [LT R] [DecidableRel (fun a b : R => a < b)]
    (S : ShatterExternals R) (piece : S3DModelPiece R) (rng : Nat → float3 R)
    (st : ShatterData R) : Option (ShatterData R) :=
  if !piece.HasGeometryData then some st
  else createShatterVariations S piece rng (List.range S.SHATTER_VARIATIONS) st

end Shatter

section Posts4

variable {R M O : Type}

/-- A pseudo-world-space flag of the piece is set. -/
def LocalModelPiece.pseudoWorldSpace (p : LocalModelPiece R M) : Bool :=
  p.pseudoWorldSpacePosition || p.pseudoWorldSpaceRotation

/-- Piece `p1` is piece `p` up to the flags `dirty` and `customDirty` and the
two cached matrices. -/
structure StateOnly (p p1 : LocalModelPiece R M) : Prop where
  same : p1 = { p with dirty := p1.dirty, customDirty := p1.customDirty,
                       pieceSpaceMat := p1.pieceSpaceMat,
                       modelSpaceMat := p1.modelSpaceMat }

/-- Model `lm1` is model `lm` up to the flags `dirty` and `customDirty` and the
cached matrices of its pieces. -/
structure UpdateFrame (lm lm1 : LocalModel R M O) : Prop where
  boundingVolume : lm1.boundingVolume = lm.boundingVolume
  needsBoundariesRecalc : lm1.needsBoundariesRecalc = lm.needsBoundariesRecalc
  owningObject : lm1.owningObject = lm.owningObject
  length : lm1.pieces.length = lm.pieces.length
  piece : ∀ (j : Nat) (p : LocalModelPiece R M), lm.pieces[j]? = some p →
    ∃ p1 : LocalModelPiece R M, lm1.pieces[j]? = some p1 ∧ StateOnly p p1

/-- A top-down pass started at `pieces[r]` with the flag `u` recomputes the
model-space matrix of `pieces[j]`: the pass is forced, or `pieces[j]` or a
piece on the path from `pieces[r]` down to it is dirty. -/
def Recomputed (lm : LocalModel R M O) (r : Nat) (u : Bool) (j : Nat) : Prop :=
  u = true ∨ ∃ a, InSubtree lm r a ∧ InSubtree lm a j ∧ lm.dirtyOf a = true

/-- Effect of an `UpdateChildMatricesRec(u)` call on `pieces[i]` that takes `lm`
to `lm1`, whether a pseudo-world-space override is active or not. -/
structure UpdateChildAnyPost (lm lm1 : LocalModel R M O) (i : Nat) (u : Bool) : Prop where
  frame : UpdateFrame lm lm1
  outside : ∀ j : Nat, ¬ InSubtree lm i j → lm1.pieces[j]? = lm.pieces[j]?
  latched : lm.owningObject ≠ none →
    ∀ (j : Nat) (p : LocalModelPiece R M), InSubtree lm i j → lm.pieces[j]? = some p →
      p.pseudoWorldSpace = true → Recomputed lm i u j →
      ∃ p1 : LocalModelPiece R M, lm1.pieces[j]? = some p1 ∧
        p1.dirty = true ∧ p1.customDirty = true

/-- Effect of an `UpdateParentMatricesRec` call on `pieces[i]` that takes `lm`
to `lm1`, whether a pseudo-world-space override is active or not. -/
structure UpdateParentAnyPost (lm lm1 : LocalModel R M O) (i : Nat) : Prop where
  frame : UpdateFrame lm lm1
  latched : lm.owningObject ≠ none →
    ∀ p : LocalModelPiece R M, lm.pieces[i]? = some p → p.pseudoWorldSpace = true →
      (∃ p1 : LocalModelPiece R M, lm1.pieces[i]? = some p1 ∧
        p1.dirty = true ∧ p1.customDirty = true) ∧
      ∀ c ∈ lm.childrenOf i, lm1.dirtyOf c = true

/-- The model-space matrices are up to date: the model-space matrix of every
piece is its local transform (the cached one if the piece is clean, the one of
its current fields if it is dirty) composed with the model-space matrix of its
parent. -/
def MatricesUpToDate (E : Externals R M O) (lm : LocalModel R M O) : Prop :=
  ∀ p ∈ lm.pieces,
    p.modelSpaceMat =
      composeWithParent E lm p.parent (if p.dirty then p.freshLocal E else p.pieceSpaceMat)

instance [DecidableEq M] (E : Externals R M O) (lm : LocalModel R M O) :
    Decidable (MatricesUpToDate E lm) := by
  unfold MatricesUpToDate; infer_instance

/-- The corners a bounding volume is taken over: the eight corners of the box
of every piece with geometry, each transformed by the model-space matrix of the
piece. -/
def transformedCorners (E : Externals R M O) (lm : LocalModel R M O) : List (float3 R) :=
  lm.pieces.flatMap (fun lmPiece =>
    if lmPiece.original.HasGeometryData then
      (boxCorners lmPiece.original.mins lmPiece.original.maxs).map
        (fun v => E.mulVec lmPiece.GetModelSpaceMatrix v)
    else [])

/-- The seeds `DEF_MIN_SIZE` and `DEF_MAX_SIZE` of the running extrema do not
cut the box off: on every axis some transformed corner is at most the seed of
the minimum and some transformed corner is at least the seed of the maximum. -/
def SeedsCovered [LE R] (E : Externals R M O) (lm : LocalModel R M O) : Prop :=
  (∃ v ∈ transformedCorners E lm, v.x ≤ E.DEF_MIN_SIZE.x) ∧
  (∃ v ∈ transformedCorners E lm, v.y ≤ E.DEF_MIN_SIZE.y) ∧
  (∃ v ∈ transformedCorners E lm, v.z ≤ E.DEF_MIN_SIZE.z) ∧
  (∃ v ∈ transformedCorners E lm, E.DEF_MAX_SIZE.x ≤ v.x) ∧
  (∃ v ∈ transformedCorners E lm, E.DEF_MAX_SIZE.y ≤ v.y) ∧
  (∃ v ∈ transformedCorners E lm, E.DEF_MAX_SIZE.z ≤ v.z)

instance [LE R] [DecidableRel (fun a b : R => a ≤ b)] (E : Externals R M O)
    (lm : LocalModel R M O) : Decidable (SeedsCovered E lm) := by
  unfold SeedsCovered; infer_instance

/-- The model without its pieces that lack geometry. -/
def LocalModel.withoutEmptyPieces (lm : LocalModel R M O) : LocalModel R M O :=
  { lm with pieces := lm.pieces.filter (fun lmPiece => lmPiece.original.HasGeometryData) }

end Posts4

section ShatterPosts

variable {R : Type}

/-- The index range `[indexStart, indexStart + indexCount)` of a fragment
contains the position `x` of the combined index buffer. -/
def RenderData.covers (rd : RenderData R) (x : Nat) : Prop :=
  rd.indexStart ≤ x ∧ x < rd.indexStart + rd.indexCount

instance (rd : RenderData R) (x : Nat) : Decidable (rd.covers x) := by
  unfold RenderData.covers; infer_instance

/-- The index ranges of two fragments have no position in common. -/
def RenderData.disjoint (a b : RenderData R) : Prop :=
  ∀ x, a.covers x → ¬ b.covers x

/-- The direction of the slot at position `k` of the buffer `shatterPartsBuf`
of `CreateShatterPiecesVariation`. -/
def slotDir (S : ShatterExternals R) (rng : Nat → float3 R) (k : Nat) : float3 R :=
  S.ANormalize (rng k)

/-- The fragments stored for variation `num`. -/
def ShatterData.renderData (st : ShatterData R) (num : Nat) : List (RenderData R) :=
  (st.shatterParts[num]?).getD []

/-- The directions of the slots of the buffer, in slot order. -/
def slotDirs (S : ShatterExternals R) (rng : Nat → float3 R) : List (float3 R) :=
  (List.range S.SHATTER_MAX_PARTS).map (fun k => slotDir S rng k)

/-- Slot `k` is the last of the slots whose direction has the greatest dot
product with `dir`: no slot has a greater one and every later slot has a
smaller one. -/
def LastClosest [Add R] [Mul R] [LE R] [LT R] (dirs : List (float3 R)) (dir : float3 R)
    (k : Nat) : Prop :=
  ∃ d : float3 R, dirs[k]? = some d ∧
    (∀ d1 ∈ dirs, float3.dot d1 dir ≤ float3.dot d dir) ∧
    ∀ (k1 : Nat) (d1 : float3 R), k < k1 → dirs[k1]? = some d1 →
      float3.dot d1 dir < float3.dot d dir

/-- The index ranges follow one another from position `s` on: each starts
where the one before it ends. -/
def Consecutive : Nat → List (RenderData R) → Prop
  | _, [] => True
  | s, rd :: rest => rd.indexStart = s ∧ Consecutive (s + rd.indexCount) rest

/-- The three indices of the triangle that starts at `indices[i]`. -/
def S3DModelPiece.triangleAt (piece : S3DModelPiece R) (i : Nat) : List Nat :=
  (piece.indices.drop i).take 3

/-- The buffer of `CreateShatterPiecesVariation` after the triangles that start
at the positions `done` have been added: the slots keep their directions, and
every such triangle sits in the index list of the last closest slot. -/
structure TrianglesAdded [Add R] [Mul R] [LE R] [LT R] (S : ShatterExternals R)
    (piece : S3DModelPiece R) (dirs : List (float3 R))
    (buf : List (ShatterPartDataPair R)) (done : List Nat) : Prop where
  slots : buf.map (fun cp => cp.first.dir) = dirs
  total : (buf.map (fun cp => cp.second.length)).sum = 3 * done.length
  placed : ∀ i ∈ done, ∃ (k : Nat) (cp : ShatterPartDataPair R) (dir : float3 R) (pos : Nat),
    buf[k]? = some cp ∧ GetPolygonDir S piece i = some dir ∧ LastClosest dirs dir k ∧
    (piece.triangleAt i).length = 3 ∧ piece.triangleAt i <+: cp.second.drop pos

end ShatterPosts

section Demo2

/-- Example model of one piece with geometry whose box `[20000, 20001] x [0, 1]
x [0, 1]` lies beyond the seed `DEF_MIN_SIZE` of `demoExternals` on the first
axis. -/
def demoFar : LocalModel Int (List Int) Unit :=
  { demoEmpty with
    pieces := [LocalModelPiece.new demoExternals
      (.mk "far" ⟨0, 0, 0⟩ ⟨1, 1, 1⟩ ⟨20000, 0, 0⟩ ⟨20001, 1, 1⟩
        [⟨20000, 0, 0⟩, ⟨20001, 0, 0⟩, ⟨20000, 1, 0⟩] [0, 1, 2] [])] }

/-- Example local piece without geometry, with a box that spans `[-5, 5]` on
every axis. -/
def demoHollow : LocalModelPiece Int (List Int) :=
  LocalModelPiece.new demoExternals
    (.mk "hollow" ⟨0, 0, 0⟩ ⟨1, 1, 1⟩ ⟨-5, -5, -5⟩ ⟨5, 5, 5⟩ [] [] [])

/-- The piece `pieces[1]` of `demoPseudoStale`: clean, with a
pseudo-world-space rotation. -/
def demoPseudoChild : LocalModelPiece Int (List Int) :=
  { demoPiece (some 0) [] false with
    pseudoWorldSpaceRotation := true
    pieceSpaceMat := [999] }

/-- Example instance of the shatter externals over the integers: two
variations of two slots, `ANormalize` leaves a vector as it is, and the
division is the division of the integers. -/
def demoShatter : ShatterExternals Int :=
  { SHATTER_VARIATIONS := 2
    SHATTER_MAX_PARTS := 2
    ANormalize := fun v => v
    divAssign := fun v f => ⟨v.x / f, v.y / f, v.z / f⟩
    zero := ⟨0, 0, 0⟩
    three := 3
    minusTwo := -2 }

/-- Example piece with two triangles: the triangle `0, 1, 1` has the direction
`(1, 0, 0)` and the triangle `2, 1, 1` the direction `(0, 1, 0)`. -/
def demoShard : S3DModelPiece Int :=
  .mk "shard" ⟨0, 0, 0⟩ ⟨1, 1, 1⟩ ⟨0, 0, 0⟩ ⟨3, 3, 0⟩ [⟨3, 0, 0⟩, ⟨0, 0, 0⟩, ⟨0, 3, 0⟩]
    [0, 1, 1, 2, 1, 1] []

/-- Example draws: slot 0 gets the direction `(1, 0, 0)`, slot 1 the direction
`(0, 1, 0)`. -/
def demoDraws : Nat → float3 Int :=
  fun k => if k = 0 then ⟨1, 0, 0⟩ else ⟨0, 1, 0⟩

/-- Example draws: slot 0 gets the direction `(1, 1, 0)`, slot 1 the opposite
direction; both triangles of `demoShard` are closest to slot 0. -/
def demoDrawsOneSided : Nat → float3 Int :=
  fun k => if k = 0 then ⟨1, 1, 0⟩ else ⟨-1, -1, 0⟩

/-- Example draws: slot 0 gets the direction `(1, 0, 0)`, slot 1 the direction
`(1, 1, 0)`; both have the dot product 1 with the direction of the first
triangle of `demoShard`. -/
def demoDrawsTie : Nat → float3 Int :=
  fun k => if k = 0 then ⟨1, 0, 0⟩ else ⟨1, 1, 0⟩

/-- Example shatter members of a piece before `CreateShatterPieces`: no
indices, two variations without fragments. -/
def demoShatterData : ShatterData Int :=
  { shatterIndices := [], shatterParts := [[], []] }

end Demo2

section ShatterPosts2

variable {R : Type}

/-- The slot the search loop of `CreateShatterPiecesVariation` picks for the
triangle that starts at `indices[i]` when the slots have the directions
`dirs`: the loop run on a buffer with these directions (it reads nothing else
of a slot). -/
def closestSlot [Add R] [Mul R] [LT R] [DecidableRel (fun a b : R => a < b)]
    (S : ShatterExternals R) (piece : S3DModelPiece R) (dirs : List (float3 R)) (i : Nat) :
    Option Nat :=
  match GetPolygonDir S piece i with
  | none => none
  | some dir =>
    (findClosestPart dir
      (dirs.map (fun d =>
        ({ first := { dir := d, indexStart := 0, indexCount := 0 }
           second := [] } : ShatterPartDataPair R)))
      0 S.minusTwo none).2

/-- The triangles (by number, in the order of the index list of the piece)
among the first `T` that are assigned to slot `k`. -/
def trianglesOfSlot [Add R] [Mul R] [LT R] [DecidableRel (fun a b : R => a < b)]
    (S : ShatterExternals R) (piece : S3DModelPiece R) (dirs : List (float3 R)) (T k : Nat) :
    List Nat :=
  (List.range T).filter (fun t => decide (closestSlot S piece dirs (3 * t) = some k))

/-- The vectors variation `num` of `CreateShatterPieces` draws: the call
`CreateShatterPiecesVariation(num)` gets `rng (num * SHATTER_MAX_PARTS)` and
following. -/
def variationDraws (S : ShatterExternals R) (rng : Nat → float3 R) (num : Nat) :
    Nat → float3 R :=
  fun k => rng (num * S.SHATTER_MAX_PARTS + k)

/-- The buffer of `CreateShatterPiecesVariation` after the triangles that start
at the positions `done` have been added: the slots have the directions `dirs`
and the index list of slot `k` is made of the triangles of `done` assigned to
slot `k`, in order. -/
structure SlotContent [Add R] [Mul R] [LT R] [DecidableRel (fun a b : R => a < b)]
    (S : ShatterExternals R) (piece : S3DModelPiece R) (dirs : List (float3 R))
    (buf : List (ShatterPartDataPair R)) (done : List Nat) : Prop where
  slots : buf.map (fun cp => cp.first.dir) = dirs
  content : ∀ (k : Nat) (cp : ShatterPartDataPair R), buf[k]? = some cp →
    cp.second =
      (done.filter (fun i => decide (closestSlot S piece dirs i = some k))).flatMap
        (fun i => piece.triangleAt i)

/-- What `CreateShatterPieces` leaves for variation `num`, given the index
buffer `shatterIndices` and the fragments `frs` stored for the variation: the
block of the variation lies inside the buffer, the range of every fragment
lies inside the block and holds the indices of the triangles assigned to a slot
with the direction of the fragment, in the order of the index list of the
piece, and the block is made of the triangles of the piece in some order. -/
def VariationOK [Add R] [Mul R] [LT R] [DecidableRel (fun a b : R => a < b)]
    (S : ShatterExternals R) (piece : S3DModelPiece R) (dirs : List (float3 R))
    (T num : Nat) (shatterIndices : List Nat) (frs : List (RenderData R)) : Prop :=
  (num + 1) * (3 * T) ≤ shatterIndices.length ∧
  (∀ rd ∈ frs, num * (3 * T) ≤ rd.indexStart ∧
    rd.indexStart + rd.indexCount ≤ (num + 1) * (3 * T) ∧
    ∃ k : Nat, dirs[k]? = some rd.dir ∧
      (shatterIndices.drop rd.indexStart).take rd.indexCount =
        (trianglesOfSlot S piece dirs T k).flatMap (fun t => piece.triangleAt (3 * t))) ∧
  ∃ order : List Nat, order.Perm (List.range T) ∧
    (shatterIndices.drop (num * (3 * T))).take (3 * T) =
      order.flatMap (fun t => piece.triangleAt (3 * t))

end ShatterPosts2

section Demo3

/-- Example static piece with a single vertex at `(5, 0, 0)` and no
triangle. -/
def demoDot : S3DModelPiece Int :=
  .mk "dot" ⟨0, 0, 0⟩ ⟨1, 1, 1⟩ ⟨5, 0, 0⟩ ⟨5, 0, 0⟩ [⟨5, 0, 0⟩] [] []

/-- The buffer of `CreateShatterPiecesVariation` with the directions of
`demoDraws`, before any triangle has been added. -/
def demoBuffer : List (ShatterPartDataPair Int) :=
  [⟨⟨⟨1, 0, 0⟩, 0, 0⟩, []⟩, ⟨⟨⟨0, 1, 0⟩, 0, 0⟩, []⟩]

end Demo3

/-! # Theorems -/

section Basics

variable {R M O : Type}

/-! ## Basic facts on pointers, tree shape and subtrees -/

@[simp] theorem setPiece_pieces (lm : LocalModel R M O) (i : Nat) (p : LocalModelPiece R M) :
    (lm.setPiece i p).pieces = lm.pieces.set i p := rfl

@[simp] theorem setPiece_boundingVolume (lm : LocalModel R M O) (i : Nat)
    (p : LocalModelPiece R M) : (lm.setPiece i p).boundingVolume = lm.boundingVolume := rfl

@[simp] theorem setPiece_needsBoundariesRecalc (lm : LocalModel R M O) (i : Nat)
    (p : LocalModelPiece R M) :
    (lm.setPiece i p).needsBoundariesRecalc = lm.needsBoundariesRecalc := rfl

@[simp] theorem setPiece_owningObject (lm : LocalModel R M O) (i : Nat)
    (p : LocalModelPiece R M) : (lm.setPiece i p).owningObject = lm.owningObject := rfl

theorem setPiece_get_self {lm : LocalModel R M O} {i : Nat} {p : LocalModelPiece R M}
    (q : LocalModelPiece R M) (h : lm.pieces[i]? = some p) :
    (lm.setPiece i q).pieces[i]? = some q := by
  have hi : i < lm.pieces.length := by
    rcases List.getElem?_eq_some.1 h with ⟨hi, _⟩
    exact hi
  simp [List.getElem?_set, hi]

theorem setPiece_get_ne (lm : LocalModel R M O) {i j : Nat} (q : LocalModelPiece R M)
    (h : i ≠ j) : (lm.setPiece i q).pieces[j]? = lm.pieces[j]? := by
  simp [List.getElem?_set, h]

theorem setPiece_same {lm : LocalModel R M O} {i : Nat} {p : LocalModelPiece R M}
    (h : lm.pieces[i]? = some p) : lm.setPiece i p = lm := by
  cases lm with
  | mk ps bv nr oo =>
    simp only [LocalModel.setPiece, LocalModel.mk.injEq, and_true]
    apply List.ext_getElem?
    intro j
    by_cases hij : i = j
    · subst hij
      have hi : i < ps.length := (List.getElem?_eq_some.1 h).1
      simp only [List.getElem?_set, hi, if_true]
      exact h.symm
    · simp [List.getElem?_set, hij]

theorem lt_length_of_get {lm : LocalModel R M O} {i : Nat} {p : LocalModelPiece R M}
    (h : lm.pieces[i]? = some p) : i < lm.pieces.length :=
  (List.getElem?_eq_some.1 h).1

theorem get_of_lt_length {lm : LocalModel R M O} {i : Nat} (h : i < lm.pieces.length) :
    ∃ p, lm.pieces[i]? = some p :=
  ⟨lm.pieces[i], List.getElem?_eq_getElem h⟩

theorem childrenOf_eq {lm : LocalModel R M O} {i : Nat} {p : LocalModelPiece R M}
    (h : lm.pieces[i]? = some p) : lm.childrenOf i = p.children := by
  simp [LocalModel.childrenOf, h]

theorem parentOf_eq {lm : LocalModel R M O} {i : Nat} {p : LocalModelPiece R M}
    (h : lm.pieces[i]? = some p) : lm.parentOf i = p.parent := by
  simp [LocalModel.parentOf, h]

theorem dirtyOf_eq {lm : LocalModel R M O} {i : Nat} {p : LocalModelPiece R M}
    (h : lm.pieces[i]? = some p) : lm.dirtyOf i = p.dirty := by
  simp [LocalModel.dirtyOf, h]

theorem get_of_mem_childrenOf {lm : LocalModel R M O} {i c : Nat}
    (h : c ∈ lm.childrenOf i) : ∃ p, lm.pieces[i]? = some p ∧ c ∈ p.children := by
  unfold LocalModel.childrenOf at h
  cases hp : lm.pieces[i]? with
  | none => simp [hp] at h
  | some p => exact ⟨p, rfl, by simpa [hp] using h⟩

theorem get_of_parentOf {lm : LocalModel R M O} {i j : Nat}
    (h : lm.parentOf i = some j) : ∃ p, lm.pieces[i]? = some p ∧ p.parent = some j := by
  unfold LocalModel.parentOf at h
  cases hp : lm.pieces[i]? with
  | none => simp [hp] at h
  | some p => exact ⟨p, rfl, by simpa [hp] using h⟩

theorem get_of_dirtyOf {lm : LocalModel R M O} {i : Nat}
    (h : lm.dirtyOf i = true) : ∃ p, lm.pieces[i]? = some p ∧ p.dirty = true := by
  unfold LocalModel.dirtyOf at h
  cases hp : lm.pieces[i]? with
  | none => simp [hp] at h
  | some p => exact ⟨p, rfl, by simpa [hp] using h⟩

theorem lt_length_of_mem_childrenOf {lm : LocalModel R M O} {i c : Nat}
    (h : c ∈ lm.childrenOf i) : i < lm.pieces.length := by
  rcases get_of_mem_childrenOf h with ⟨p, hp, _⟩
  exact lt_length_of_get hp

theorem TreeShaped.child_gt {lm : LocalModel R M O} (ht : TreeShaped lm) {i c : Nat}
    (h : c ∈ lm.childrenOf i) : i < c ∧ c < lm.pieces.length ∧ lm.parentOf c = some i :=
  (ht i (lt_length_of_mem_childrenOf h)).2.1 c h

theorem TreeShaped.nodup_children {lm : LocalModel R M O} (ht : TreeShaped lm) (i : Nat) :
    (lm.childrenOf i).Nodup := by
  by_cases hi : i < lm.pieces.length
  · exact (ht i hi).1
  · have : lm.pieces[i]? = none := List.getElem?_eq_none (Nat.le_of_not_lt hi)
    simp [LocalModel.childrenOf, this]

theorem TreeShaped.parent_lt {lm : LocalModel R M O} (ht : TreeShaped lm) {i j : Nat}
    (h : lm.parentOf i = some j) : j < i ∧ i ∈ lm.childrenOf j := by
  rcases get_of_parentOf h with ⟨p, hp, _⟩
  rcases (ht i (lt_length_of_get hp)).2.2 with ⟨hn, _⟩ | ⟨k, hk, hpk, hmem⟩
  · rw [hn] at h; cases h
  · rw [hpk] at h; cases h; exact ⟨hk, hmem⟩

theorem TreeShaped.root_of_no_parent {lm : LocalModel R M O} (ht : TreeShaped lm) {i : Nat}
    (hi : i < lm.pieces.length) (h : lm.parentOf i = none) : i = 0 := by
  rcases (ht i hi).2.2 with ⟨_, h0⟩ | ⟨k, _, hpk, _⟩
  · exact h0
  · rw [hpk] at h; cases h

theorem TreeShaped.congr_tree {lm lm1 : LocalModel R M O} (ht : TreeShaped lm)
    (hlen : lm1.pieces.length = lm.pieces.length)
    (hc : ∀ i, lm1.childrenOf i = lm.childrenOf i)
    (hp : ∀ i, lm1.parentOf i = lm.parentOf i) : TreeShaped lm1 := by
  intro i hi
  rw [hlen] at hi
  simp only [hc, hp, hlen]
  exact ht i hi

theorem InSubtree.trans_sub {lm : LocalModel R M O} {a b c : Nat}
    (h1 : InSubtree lm a b) (h2 : InSubtree lm b c) : InSubtree lm a c := by
  induction h1 with
  | refl _ => exact h2
  | step hm _ ih => exact InSubtree.step hm (ih h2)

theorem InSubtree.snoc {lm : LocalModel R M O} {a j c : Nat}
    (h1 : InSubtree lm a j) (h2 : c ∈ lm.childrenOf j) : InSubtree lm a c :=
  h1.trans_sub (InSubtree.step h2 (InSubtree.refl c))

theorem InSubtree.congr_sub {lm lm1 : LocalModel R M O}
    (hc : ∀ i, lm1.childrenOf i = lm.childrenOf i) {a b : Nat}
    (h : InSubtree lm a b) : InSubtree lm1 a b := by
  induction h with
  | refl _ => exact InSubtree.refl _
  | step hm _ ih => exact InSubtree.step (by rw [hc]; exact hm) ih

theorem InSubtree.le_sub {lm : LocalModel R M O} (ht : TreeShaped lm) {a b : Nat}
    (h : InSubtree lm a b) : a ≤ b := by
  induction h with
  | refl _ => exact Nat.le_refl _
  | step hm _ ih => exact Nat.le_of_lt (Nat.lt_of_lt_of_le (ht.child_gt hm).1 ih)

theorem InSubtree.lt_length_sub {lm : LocalModel R M O} (ht : TreeShaped lm) {a b : Nat}
    (h : InSubtree lm a b) (ha : a < lm.pieces.length) : b < lm.pieces.length := by
  induction h with
  | refl _ => exact ha
  | step hm _ ih => exact ih (ht.child_gt hm).2.1

theorem InSubtree.up {lm : LocalModel R M O} (ht : TreeShaped lm) {a b : Nat}
    (h : InSubtree lm a b) : a = b ∨ ∃ k, lm.parentOf b = some k ∧ InSubtree lm a k := by
  induction h with
  | refl _ => exact Or.inl rfl
  | @step i c j hm _ ih =>
    right
    rcases ih with hcj | ⟨k, hk, hsub⟩
    · subst hcj
      exact ⟨i, (ht.child_gt hm).2.2, InSubtree.refl i⟩
    · exact ⟨k, hk, InSubtree.step hm hsub⟩

theorem InSubtree.of_parent {lm : LocalModel R M O} (ht : TreeShaped lm) {a b k : Nat}
    (hk : lm.parentOf b = some k) (h : InSubtree lm a k) : InSubtree lm a b :=
  h.snoc (ht.parent_lt hk).2

theorem InSubtree.comparable {lm : LocalModel R M O} (ht : TreeShaped lm) :
    ∀ (j a b : Nat), InSubtree lm a j → InSubtree lm b j →
      InSubtree lm a b ∨ InSubtree lm b a := by
  intro j
  induction j using Nat.strong_induction_on with
  | _ j ih =>
    intro a b ha hb
    rcases ha.up ht with haj | ⟨k, hk, hak⟩
    · subst haj; exact Or.inr hb
    · rcases hb.up ht with hbj | ⟨k2, hk2, hbk⟩
      · subst hbj; exact Or.inl ha
      · rw [hk] at hk2
        cases hk2
        exact ih k (ht.parent_lt hk).1 a b hak hbk

theorem sibling_disjoint {lm : LocalModel R M O} (ht : TreeShaped lm) {i c1 c2 j : Nat}
    (h1 : c1 ∈ lm.childrenOf i) (h2 : c2 ∈ lm.childrenOf i) (hne : c1 ≠ c2)
    (hs1 : InSubtree lm c1 j) : ¬ InSubtree lm c2 j := by
  intro hs2
  have key : ∀ {x y : Nat}, x ∈ lm.childrenOf i → y ∈ lm.childrenOf i → x ≠ y →
      ¬ InSubtree lm x y := by
    intro x y hx hy hxy hsub
    rcases hsub.up ht with hEq | ⟨k, hk, hxk⟩
    · exact hxy hEq
    · rw [(ht.child_gt hy).2.2] at hk
      cases hk
      have := hxk.le_sub ht
      have := (ht.child_gt hx).1
      omega
  rcases InSubtree.comparable ht j c1 c2 hs1 hs2 with h | h
  · exact key h1 h2 hne h
  · exact key h2 h1 (Ne.symm hne) h

theorem not_inSubtree_of_lt {lm : LocalModel R M O} (ht : TreeShaped lm) {c j : Nat}
    (h : j < c) : ¬ InSubtree lm c j := fun hs => by
  have := hs.le_sub ht
  omega

theorem inSubtree_root {lm : LocalModel R M O} (ht : TreeShaped lm) :
    ∀ i, i < lm.pieces.length → InSubtree lm 0 i := by
  intro i
  induction i using Nat.strong_induction_on with
  | _ i ih =>
    intro hi
    rcases (ht i hi).2.2 with ⟨_, h0⟩ | ⟨k, hk, hpk, hmem⟩
    · subst h0; exact InSubtree.refl 0
    · exact (ih k hk (Nat.lt_trans hk hi)).snoc hmem

/-- The generic loop rule: an invariant indexed by the children still to visit. -/
theorem forEachChild_inv {S : Type} (body : S → Nat → Option S) (P : List Nat → S → Prop)
    (hstep : ∀ c rest t, P (c :: rest) t → ∃ t1, body t c = some t1 ∧ P rest t1) :
    ∀ (cs : List Nat) (s : S), P cs s → ∃ t, forEachChild body cs s = some t ∧ P [] t := by
  intro cs
  induction cs with
  | nil => intro s hs; exact ⟨s, rfl, hs⟩
  | cons c rest ih =>
    intro s hs
    rcases hstep c rest s hs with ⟨t1, hb, hP⟩
    rcases ih t1 hP with ⟨t, ht, hPt⟩
    exact ⟨t, by simp [forEachChild, hb, ht], hPt⟩

end Basics

section SetDirtyLemmas

variable {R M O : Type}

/-! ## `SetDirty` -/

theorem RaisedFlags.refl_rf (p : LocalModelPiece R M) : RaisedFlags p p :=
  ⟨rfl, id, id, fun h1 h2 => by rw [h1] at h2; cases h2⟩

theorem RaisedFlags.trans_rf {p p1 p2 : LocalModelPiece R M} (h1 : RaisedFlags p p1)
    (h2 : RaisedFlags p1 p2) : RaisedFlags p p2 := by
  refine ⟨?_, fun h => h2.dirty (h1.dirty h), fun h => h2.customDirty (h1.customDirty h), ?_⟩
  · have e1 := h1.same
    have e2 := h2.same
    rw [e2]
    rw [e1]
  · intro hp hp2
    cases hd : p1.dirty with
    | true => exact h2.customDirty (h1.latched hp hd)
    | false => exact h2.latched hd hp2

theorem RaisedFlags.children_rf {p p1 : LocalModelPiece R M} (h : RaisedFlags p p1) :
    p1.children = p.children := by rw [h.same]

theorem RaisedFlags.parent_rf {p p1 : LocalModelPiece R M} (h : RaisedFlags p p1) :
    p1.parent = p.parent := by rw [h.same]

theorem RaisedFlags.raise (p : LocalModelPiece R M) :
    RaisedFlags p (LocalModelPiece.SetGetCustomDirty { p with dirty := true } true).2 :=
  ⟨rfl, fun _ => rfl, fun _ => rfl, fun _ _ => rfl⟩

theorem FlagFrame.refl_ff (lm : LocalModel R M O) : FlagFrame lm lm :=
  ⟨rfl, rfl, rfl, rfl, fun _ p h => ⟨p, h, RaisedFlags.refl_rf p⟩⟩

theorem FlagFrame.trans_ff {lm lm1 lm2 : LocalModel R M O} (h1 : FlagFrame lm lm1)
    (h2 : FlagFrame lm1 lm2) : FlagFrame lm lm2 := by
  refine ⟨h2.boundingVolume.trans h1.boundingVolume,
    h2.needsBoundariesRecalc.trans h1.needsBoundariesRecalc,
    h2.owningObject.trans h1.owningObject, h2.length.trans h1.length, ?_⟩
  intro j p hp
  rcases h1.piece j p hp with ⟨p1, hp1, r1⟩
  rcases h2.piece j p1 hp1 with ⟨p2, hp2, r2⟩
  exact ⟨p2, hp2, r1.trans_rf r2⟩

theorem FlagFrame.get_none_ff {lm lm1 : LocalModel R M O} (h : FlagFrame lm lm1) {j : Nat}
    (hj : lm.pieces[j]? = none) : lm1.pieces[j]? = none := by
  rw [List.getElem?_eq_none_iff] at hj ⊢
  rw [h.length]; exact hj

theorem FlagFrame.childrenOf_ff {lm lm1 : LocalModel R M O} (h : FlagFrame lm lm1) (j : Nat) :
    lm1.childrenOf j = lm.childrenOf j := by
  cases hp : lm.pieces[j]? with
  | none => simp [LocalModel.childrenOf, hp, h.get_none_ff hp]
  | some p =>
    rcases h.piece j p hp with ⟨p1, hp1, r⟩
    rw [childrenOf_eq hp, childrenOf_eq hp1, r.children_rf]

theorem FlagFrame.parentOf_ff {lm lm1 : LocalModel R M O} (h : FlagFrame lm lm1) (j : Nat) :
    lm1.parentOf j = lm.parentOf j := by
  cases hp : lm.pieces[j]? with
  | none => simp [LocalModel.parentOf, hp, h.get_none_ff hp]
  | some p =>
    rcases h.piece j p hp with ⟨p1, hp1, r⟩
    rw [parentOf_eq hp, parentOf_eq hp1, r.parent_rf]

theorem FlagFrame.dirtyOf_ff {lm lm1 : LocalModel R M O} (h : FlagFrame lm lm1) {j : Nat}
    (hd : lm.dirtyOf j = true) : lm1.dirtyOf j = true := by
  rcases get_of_dirtyOf hd with ⟨p, hp, hpd⟩
  rcases h.piece j p hp with ⟨p1, hp1, r⟩
  rw [dirtyOf_eq hp1]; exact r.dirty hpd

theorem FlagFrame.treeShaped_ff {lm lm1 : LocalModel R M O} (h : FlagFrame lm lm1)
    (ht : TreeShaped lm) : TreeShaped lm1 :=
  ht.congr_tree h.length h.childrenOf_ff h.parentOf_ff

theorem FlagFrame.inSubtree_ff {lm lm1 : LocalModel R M O} (h : FlagFrame lm lm1) {a b : Nat} :
    InSubtree lm1 a b ↔ InSubtree lm a b :=
  ⟨InSubtree.congr_sub (fun i => (h.childrenOf_ff i).symm), InSubtree.congr_sub h.childrenOf_ff⟩

theorem FlagFrame.setPiece_ff {lm : LocalModel R M O} {i : Nat} {p p1 : LocalModelPiece R M}
    (hp : lm.pieces[i]? = some p) (r : RaisedFlags p p1) : FlagFrame lm (lm.setPiece i p1) := by
  refine ⟨rfl, rfl, rfl, by simp, ?_⟩
  intro j q hq
  by_cases hij : i = j
  · subst hij
    rw [hp] at hq; cases hq
    exact ⟨p1, setPiece_get_self p1 hp, r⟩
  · exact ⟨q, by rw [setPiece_get_ne lm p1 hij]; exact hq, RaisedFlags.refl_rf q⟩

/-- Inside a subtree whose dirty flags are closed downwards, a dirty root means
that the whole subtree is dirty. -/
theorem dirty_of_closed_below {lm : LocalModel R M O} {a j : Nat} (h : InSubtree lm a j) :
    (∀ k, InSubtree lm a k → lm.dirtyOf k = true →
      ∀ x ∈ lm.childrenOf k, lm.dirtyOf x = true) →
    lm.dirtyOf a = true → lm.dirtyOf j = true := by
  induction h with
  | refl _ => intro _ hd; exact hd
  | @step a x j hm _ ih =>
    intro hcl hd
    exact ih (fun k hk => hcl k (InSubtree.step hm hk)) (hcl a (InSubtree.refl a) hd x hm)

theorem setDirty_spec : ∀ (fuel : Nat) (lm : LocalModel R M O) (i : Nat),
    TreeShaped lm → i < lm.pieces.length → lm.pieces.length ≤ fuel + i →
    ∃ lm1, SetDirty fuel lm i = some lm1 ∧ SetDirtyPost lm lm1 i := by
  intro fuel
  induction fuel with
  | zero => intro lm i _ hi hf; omega
  | succ fuel ih =>
    intro lm i ht hi hf
    rcases get_of_lt_length hi with ⟨p, hp⟩
    have hch : lm.childrenOf i = p.children := childrenOf_eq hp
    let p1 := (LocalModelPiece.SetGetCustomDirty { p with dirty := true } true).2
    have hp1d : p1.dirty = true := rfl
    have hp1c : p1.customDirty = true := rfl
    -- the loop invariant, indexed by the children still to visit
    let P : List Nat → LocalModel R M O → Prop := fun rest t =>
      ∃ done, p.children = done ++ rest ∧ FlagFrame lm t ∧
        (∀ j : Nat, j ≠ i → (∀ d ∈ done, ¬ InSubtree lm d j) → t.pieces[j]? = lm.pieces[j]?) ∧
        t.pieces[i]? = some p1 ∧
        (∀ d ∈ done, t.dirtyOf d = true) ∧
        ((∀ k, InSubtree lm i k → k ≠ i → lm.dirtyOf k = true →
            ∀ c ∈ lm.childrenOf k, lm.dirtyOf c = true) →
          ∀ d ∈ done, ∀ j, InSubtree lm d j → t.dirtyOf j = true)
    have hstart : P p.children (lm.setPiece i p1) := by
      refine ⟨[], rfl, FlagFrame.setPiece_ff hp (RaisedFlags.raise p), ?_, setPiece_get_self p1 hp,
        ?_, ?_⟩
      · intro j hj _
        exact setPiece_get_ne lm p1 (Ne.symm hj)
      · intro d hd; cases hd
      · intro _ d hd; cases hd
    have hstep : ∀ c rest t, P (c :: rest) t →
        ∃ t1, setDirtyUnlessDirty (SetDirty fuel) t c = some t1 ∧ P rest t1 := by
      intro c rest t hP
      rcases hP with ⟨done, hsplit, hfr, hunt, hself, hdone, hcas⟩
      have hcmem : c ∈ lm.childrenOf i := by rw [hch, hsplit]; simp
      have hdmem : ∀ d ∈ done, d ∈ lm.childrenOf i := by
        intro d hd; rw [hch, hsplit]; simp [hd]
      have hnd : (done ++ c :: rest).Nodup := by
        have := ht.nodup_children i
        rw [hch, hsplit] at this; exact this
      have hcd : ∀ d ∈ done, d ≠ c := by
        intro d hd hEq
        subst hEq
        have := (List.nodup_append.1 hnd).2.2
        exact this hd (by simp)
      rcases ht.child_gt hcmem with ⟨hic, hcn, hpc⟩
      have hsplit1 : p.children = (done ++ [c]) ++ rest := by rw [hsplit]; simp
      -- everything in the subtree of `c` is still untouched
      have hsub : ∀ j, InSubtree lm c j → t.pieces[j]? = lm.pieces[j]? := by
        intro j hj
        refine hunt j ?_ ?_
        · have := hj.le_sub ht; omega
        · intro d hd
          exact sibling_disjoint ht hcmem (hdmem d hd) (Ne.symm (hcd d hd)) hj
      rcases get_of_lt_length hcn with ⟨cp, hcp⟩
      have htc : t.pieces[c]? = some cp := by rw [hsub c (InSubtree.refl c)]; exact hcp
      have hclosed_sub : (∀ k, InSubtree lm i k → k ≠ i → lm.dirtyOf k = true →
            ∀ x ∈ lm.childrenOf k, lm.dirtyOf x = true) →
          ∀ k, InSubtree lm c k → lm.dirtyOf k = true →
            ∀ x ∈ lm.childrenOf k, lm.dirtyOf x = true := by
        intro hcl k hk
        refine hcl k (InSubtree.step hcmem hk) ?_
        have := hk.le_sub ht; omega
      cases hdirty : cp.dirty with
      | true =>
        refine ⟨t, by simp [setDirtyUnlessDirty, htc, hdirty], done ++ [c], hsplit1, hfr, ?_,
          hself, ?_, ?_⟩
        · intro j hj hnot
          exact hunt j hj (fun d hd => hnot d (by simp [hd]))
        · intro d hd
          rcases List.mem_append.1 hd with hd | hd
          · exact hdone d hd
          · simp at hd; subst hd
            rw [dirtyOf_eq htc]; exact hdirty
        · intro hcl d hd j hj
          rcases List.mem_append.1 hd with hd | hd
          · exact hcas hcl d hd j hj
          · simp at hd; subst hd
            apply hfr.dirtyOf_ff
            exact dirty_of_closed_below hj (hclosed_sub hcl) (by rw [dirtyOf_eq hcp]; exact hdirty)
      | false =>
        have htt : TreeShaped t := hfr.treeShaped_ff ht
        have hlen : t.pieces.length = lm.pieces.length := hfr.length
        rcases ih t c htt (by omega) (by omega) with ⟨t1, hrun, hpost⟩
        refine ⟨t1, by simp [setDirtyUnlessDirty, htc, hdirty, hrun], done ++ [c], hsplit1,
          hfr.trans_ff hpost.frame, ?_, ?_, ?_, ?_⟩
        · intro j hj hnot
          rw [hpost.outside j (fun h => hnot c (by simp) (hfr.inSubtree_ff.1 h))]
          exact hunt j hj (fun d hd => hnot d (by simp [hd]))
        · rw [hpost.outside i (fun h => not_inSubtree_of_lt ht hic (hfr.inSubtree_ff.1 h))]
          exact hself
        · intro d hd
          rcases List.mem_append.1 hd with hd | hd
          · exact hpost.frame.dirtyOf_ff (hdone d hd)
          · simp at hd; subst hd
            rcases hpost.self with ⟨q, hq, hqd, _⟩
            rw [dirtyOf_eq hq]; exact hqd
        · intro hcl d hd j hj
          rcases List.mem_append.1 hd with hd | hd
          · exact hpost.frame.dirtyOf_ff (hcas hcl d hd j hj)
          · simp at hd; subst hd
            refine hpost.cascade ?_ j (hfr.inSubtree_ff.2 hj)
            intro k hk _ hkd x hx
            have hk1 : InSubtree lm d k := hfr.inSubtree_ff.1 hk
            rw [hfr.childrenOf_ff] at hx
            have hx1 : InSubtree lm d x := hk1.snoc hx
            have ek : t.dirtyOf k = lm.dirtyOf k := by
              simp only [LocalModel.dirtyOf, hsub k hk1]
            have ex : t.dirtyOf x = lm.dirtyOf x := by
              simp only [LocalModel.dirtyOf, hsub x hx1]
            rw [ex]
            exact hclosed_sub hcl k hk1 (by rw [← ek]; exact hkd) x hx
    rcases forEachChild_inv (setDirtyUnlessDirty (SetDirty fuel)) P hstep p.children
      (lm.setPiece i p1) hstart with ⟨t, hrun, hP⟩
    rcases hP with ⟨done, hsplit, hfr, hunt, hself, hdone, hcas⟩
    have hdone_eq : done = p.children := by simpa using hsplit.symm
    subst hdone_eq
    refine ⟨t, ?_, hfr, ?_, ⟨p1, hself, hp1d, hp1c⟩, ?_, ?_⟩
    · simp only [SetDirty, hp]
      exact hrun
    · intro j hj
      refine hunt j ?_ ?_
      · intro h; subst h; exact hj (InSubtree.refl _)
      · intro d hd hs
        exact hj (InSubtree.step (by rw [hch]; exact hd) hs)
    · intro c hc
      rw [hch] at hc
      exact hdone c hc
    · intro hcl j hj
      cases hj with
      | refl _ => rw [dirtyOf_eq hself]; exact hp1d
      | step hm hs =>
        rw [hch] at hm
        exact hcas hcl _ hm j hs

end SetDirtyLemmas

section UpdateChildLemmas

variable {R M O : Type}

/-! ## `ApplyParentMatrix` and `UpdateChildMatricesRec` without override -/

theorem CachesOnly.refl_co (p : LocalModelPiece R M) : CachesOnly p p := ⟨rfl⟩

theorem CachesOnly.trans_co {p p1 p2 : LocalModelPiece R M} (h1 : CachesOnly p p1)
    (h2 : CachesOnly p1 p2) : CachesOnly p p2 := by
  constructor
  have e1 := h1.same
  have e2 := h2.same
  rw [e2]
  rw [e1]

theorem CachesOnly.children_co {p p1 : LocalModelPiece R M} (h : CachesOnly p p1) :
    p1.children = p.children := by rw [h.same]

theorem CachesOnly.parent_co {p p1 : LocalModelPiece R M} (h : CachesOnly p p1) :
    p1.parent = p.parent := by rw [h.same]

theorem CachesOnly.pos_co {p p1 : LocalModelPiece R M} (h : CachesOnly p p1) :
    p1.pos = p.pos := by rw [h.same]

theorem CachesOnly.rot_co {p p1 : LocalModelPiece R M} (h : CachesOnly p p1) :
    p1.rot = p.rot := by rw [h.same]

theorem CachesOnly.original_co {p p1 : LocalModelPiece R M} (h : CachesOnly p p1) :
    p1.original = p.original := by rw [h.same]

theorem CachesOnly.customDirty_co {p p1 : LocalModelPiece R M} (h : CachesOnly p p1) :
    p1.customDirty = p.customDirty := by rw [h.same]

theorem CachesOnly.pseudoPos_co {p p1 : LocalModelPiece R M} (h : CachesOnly p p1) :
    p1.pseudoWorldSpacePosition = p.pseudoWorldSpacePosition := by rw [h.same]

theorem CachesOnly.pseudoRot_co {p p1 : LocalModelPiece R M} (h : CachesOnly p p1) :
    p1.pseudoWorldSpaceRotation = p.pseudoWorldSpaceRotation := by rw [h.same]

theorem CachesOnly.freshLocal_co (E : Externals R M O) {p p1 : LocalModelPiece R M}
    (h : CachesOnly p p1) : p1.freshLocal E = p.freshLocal E := by
  simp only [LocalModelPiece.freshLocal, h.pos_co, h.rot_co, h.original_co]

theorem CacheFrame.refl_cf (lm : LocalModel R M O) : CacheFrame lm lm :=
  ⟨rfl, rfl, rfl, rfl, fun _ p h => ⟨p, h, CachesOnly.refl_co p⟩⟩

theorem CacheFrame.trans_cf {lm lm1 lm2 : LocalModel R M O} (h1 : CacheFrame lm lm1)
    (h2 : CacheFrame lm1 lm2) : CacheFrame lm lm2 := by
  refine ⟨h2.boundingVolume.trans h1.boundingVolume,
    h2.needsBoundariesRecalc.trans h1.needsBoundariesRecalc,
    h2.owningObject.trans h1.owningObject, h2.length.trans h1.length, ?_⟩
  intro j p hp
  rcases h1.piece j p hp with ⟨p1, hp1, r1⟩
  rcases h2.piece j p1 hp1 with ⟨p2, hp2, r2⟩
  exact ⟨p2, hp2, r1.trans_co r2⟩

theorem CacheFrame.get_none_cf {lm lm1 : LocalModel R M O} (h : CacheFrame lm lm1) {j : Nat}
    (hj : lm.pieces[j]? = none) : lm1.pieces[j]? = none := by
  rw [List.getElem?_eq_none_iff] at hj ⊢
  rw [h.length]; exact hj

theorem CacheFrame.childrenOf_cf {lm lm1 : LocalModel R M O} (h : CacheFrame lm lm1) (j : Nat) :
    lm1.childrenOf j = lm.childrenOf j := by
  cases hp : lm.pieces[j]? with
  | none => simp [LocalModel.childrenOf, hp, h.get_none_cf hp]
  | some p =>
    rcases h.piece j p hp with ⟨p1, hp1, r⟩
    rw [childrenOf_eq hp, childrenOf_eq hp1, r.children_co]

theorem CacheFrame.parentOf_cf {lm lm1 : LocalModel R M O} (h : CacheFrame lm lm1) (j : Nat) :
    lm1.parentOf j = lm.parentOf j := by
  cases hp : lm.pieces[j]? with
  | none => simp [LocalModel.parentOf, hp, h.get_none_cf hp]
  | some p =>
    rcases h.piece j p hp with ⟨p1, hp1, r⟩
    rw [parentOf_eq hp, parentOf_eq hp1, r.parent_co]

theorem CacheFrame.treeShaped_cf {lm lm1 : LocalModel R M O} (h : CacheFrame lm lm1)
    (ht : TreeShaped lm) : TreeShaped lm1 :=
  ht.congr_tree h.length h.childrenOf_cf h.parentOf_cf

theorem CacheFrame.inSubtree_cf {lm lm1 : LocalModel R M O} (h : CacheFrame lm lm1) {a b : Nat} :
    InSubtree lm1 a b ↔ InSubtree lm a b :=
  ⟨InSubtree.congr_sub (fun i => (h.childrenOf_cf i).symm), InSubtree.congr_sub h.childrenOf_cf⟩

theorem CacheFrame.setPiece_cf {lm : LocalModel R M O} {i : Nat} {p p1 : LocalModelPiece R M}
    (hp : lm.pieces[i]? = some p) (r : CachesOnly p p1) : CacheFrame lm (lm.setPiece i p1) := by
  refine ⟨rfl, rfl, rfl, by simp, ?_⟩
  intro j q hq
  by_cases hij : i = j
  · subst hij
    rw [hp] at hq; cases hq
    exact ⟨p1, setPiece_get_self p1 hp, r⟩
  · exact ⟨q, by rw [setPiece_get_ne lm p1 hij]; exact hq, CachesOnly.refl_co q⟩

theorem CacheFrame.noActiveOverride_cf {lm lm1 : LocalModel R M O} (h : CacheFrame lm lm1)
    (hno : NoActiveOverride lm) : NoActiveOverride lm1 := by
  rcases hno with hno | hno
  · exact Or.inl (by rw [h.owningObject]; exact hno)
  · right
    intro p1 hp1
    rcases List.getElem?_of_mem hp1 with ⟨j, hj⟩
    have hjl : j < lm.pieces.length := by
      rw [← h.length]; exact (List.getElem?_eq_some.1 hj).1
    rcases get_of_lt_length hjl with ⟨p, hp⟩
    rcases h.piece j p hp with ⟨p2, hp2, r⟩
    rw [hj] at hp2; cases hp2
    have := hno p (List.getElem?_mem hp)
    rw [r.pseudoPos_co, r.pseudoRot_co]; exact this

theorem setPiece_setPiece (lm : LocalModel R M O) (i : Nat) (p q : LocalModelPiece R M) :
    (lm.setPiece i p).setPiece i q = lm.setPiece i q := by
  simp [LocalModel.setPiece]

theorem composeWithParent_congr (E : Externals R M O) {lm lm1 : LocalModel R M O}
    {parent : Option Nat} (h : ∀ k, parent = some k → lm1.pieces[k]? = lm.pieces[k]?) (m : M) :
    composeWithParent E lm1 parent m = composeWithParent E lm parent m := by
  cases parent with
  | none => rfl
  | some k => simp only [composeWithParent, h k rfl]

theorem applyParentMatrix_plain [Sub R] [Mul R] [Neg R] (E : Externals R M O) (fuel : Nat)
    {lm : LocalModel R M O} {i : Nat} {p : LocalModelPiece R M}
    (hno : NoActiveOverride lm) (hp : lm.pieces[i]? = some p)
    (hpar : ∀ j, p.parent = some j → j < lm.pieces.length) :
    ApplyParentMatrix E fuel lm i =
      some (lm.setPiece i
        { p with modelSpaceMat := composeWithParent E lm p.parent p.modelSpaceMat }) := by
  have hflags : lm.owningObject = none ∨
      (p.pseudoWorldSpacePosition = false ∧ p.pseudoWorldSpaceRotation = false) := by
    rcases hno with h | h
    · exact Or.inl h
    · exact Or.inr (h p (List.getElem?_mem hp))
  unfold ApplyParentMatrix
  simp only [hp]
  cases hpp : p.parent with
  | none =>
    simp only [composeWithParent]
    rcases hflags with h | ⟨h1, h2⟩
    · simp [h]
    · cases lm.owningObject <;> simp [h1, h2]
  | some j =>
    rcases get_of_lt_length (hpar j hpp) with ⟨q, hq⟩
    simp only [composeWithParent, hq]
    rcases hflags with h | ⟨h1, h2⟩
    · simp [h]
    · cases lm.owningObject <;> simp [h1, h2]

theorem updatedPiece_cachesOnly (E : Externals R M O) (lm : LocalModel R M O)
    (p : LocalModelPiece R M) (u : Bool) : CachesOnly p (updatedPiece E lm p u) := ⟨rfl⟩

theorem updatedPiece_idle (E : Externals R M O) (lm : LocalModel R M O)
    (p : LocalModelPiece R M) (hd : p.dirty = false) : updatedPiece E lm p false = p := by
  cases p
  simp only [updatedPiece] at hd ⊢
  simp [hd]

theorem updateChild_unfold [Sub R] [Mul R] [Neg R] (E : Externals R M O) (fuel : Nat)
    {lm : LocalModel R M O} {i : Nat} {p : LocalModelPiece R M} (u : Bool)
    (ht : TreeShaped lm) (hno : NoActiveOverride lm) (hp : lm.pieces[i]? = some p) :
    UpdateChildMatricesRec E (fuel + 1) lm i u =
      forEachChild (fun s c => UpdateChildMatricesRec E fuel s c (p.dirty || u)) p.children
        (lm.setPiece i (updatedPiece E lm p u)) := by
  have hpar : ∀ j, p.parent = some j → j < i := by
    intro j hj
    exact (ht.parent_lt (by rw [parentOf_eq hp]; exact hj)).1
  have hi := lt_length_of_get hp
  have happly : ∀ x : LocalModelPiece R M, CachesOnly p x →
      ApplyParentMatrix E fuel (lm.setPiece i x) i =
        some (lm.setPiece i
          { x with modelSpaceMat := composeWithParent E lm p.parent x.modelSpaceMat }) := by
    intro x hx
    have hfr := CacheFrame.setPiece_cf hp hx
    rw [applyParentMatrix_plain E fuel (hfr.noActiveOverride_cf hno) (setPiece_get_self x hp)
      (by
        intro j hj
        rw [hx.parent_co] at hj
        have := hpar j hj
        simp only [setPiece_pieces, List.length_set]
        omega)]
    rw [setPiece_setPiece, hx.parent_co]
    congr 3
    apply composeWithParent_congr
    intro k hk
    have := hpar k hk
    exact setPiece_get_ne lm x (by omega)
  simp only [UpdateChildMatricesRec, hp]
  cases hd : p.dirty with
  | true =>
    simp only [Bool.true_or, if_true]
    rw [happly _ ⟨rfl⟩]
    simp [updatedPiece, hd, LocalModelPiece.freshLocal]
  | false =>
    cases u with
    | true =>
      simp only [Bool.or_true, if_true]
      rw [happly _ ⟨rfl⟩]
      simp only [Bool.false_eq_true, if_false]
      congr 2
      cases p
      simp only [updatedPiece] at hd ⊢
      simp [hd]
    | false =>
      simp only [Bool.or_false, Bool.false_eq_true, if_false]
      rw [updatedPiece_idle E lm p hd]

end UpdateChildLemmas

section UpdateChildSpec

variable {R M O : Type}

theorem dirtyOf_congr {lm lm1 : LocalModel R M O} {j : Nat}
    (h : lm1.pieces[j]? = lm.pieces[j]?) : lm1.dirtyOf j = lm.dirtyOf j := by
  simp only [LocalModel.dirtyOf, h]

theorem updateChild_spec [Sub R] [Mul R] [Neg R] (E : Externals R M O) :
    ∀ (fuel : Nat) (lm : LocalModel R M O) (i : Nat) (u : Bool),
    TreeShaped lm → NoActiveOverride lm → i < lm.pieces.length →
    lm.pieces.length ≤ fuel + i →
    ∃ lm1, UpdateChildMatricesRec E fuel lm i u = some lm1 ∧ UpdateChildPost E lm lm1 i u := by
  intro fuel
  induction fuel with
  | zero => intro lm i u _ _ hi hf; omega
  | succ fuel ih =>
    intro lm i u ht hno hi hf
    rcases get_of_lt_length hi with ⟨p, hp⟩
    have hch : lm.childrenOf i = p.children := childrenOf_eq hp
    have hpar : ∀ k, p.parent = some k → k < i := by
      intro k hk
      exact (ht.parent_lt (by rw [parentOf_eq hp]; exact hk)).1
    have hpd : lm.dirtyOf i = p.dirty := dirtyOf_eq hp
    let q := updatedPiece E lm p u
    let P : List Nat → LocalModel R M O → Prop := fun rest t =>
      ∃ done, p.children = done ++ rest ∧ CacheFrame lm t ∧
        (∀ j : Nat, j ≠ i → (∀ d ∈ done, ¬ InSubtree lm d j) → t.pieces[j]? = lm.pieces[j]?) ∧
        t.pieces[i]? = some q ∧
        (∀ d ∈ done, ∀ j, InSubtree lm d j → t.dirtyOf j = false) ∧
        (∀ d ∈ done, ∀ (j : Nat) (x x1 : LocalModelPiece R M), InSubtree lm d j →
          lm.pieces[j]? = some x → t.pieces[j]? = some x1 →
          x1.pieceSpaceMat = if x.dirty then x.freshLocal E else x.pieceSpaceMat) ∧
        ((p.dirty || u) = false → (∀ j, InSubtree lm i j → lm.dirtyOf j = false) → t = lm) ∧
        ((∀ k, InSubtree lm i k → lm.dirtyOf k = true →
            ∀ c ∈ lm.childrenOf k, lm.dirtyOf c = true) →
          ∀ d ∈ done, ∀ (j : Nat) (x x1 : LocalModelPiece R M), InSubtree lm d j →
            lm.pieces[j]? = some x → t.pieces[j]? = some x1 →
            x1.modelSpaceMat =
              if x.dirty || u then composeWithParent E t x.parent x1.pieceSpaceMat
              else x.modelSpaceMat)
    have hstart : P p.children (lm.setPiece i q) := by
      refine ⟨[], rfl, CacheFrame.setPiece_cf hp (updatedPiece_cachesOnly E lm p u), ?_,
        setPiece_get_self q hp, ?_, ?_, ?_, ?_⟩
      · intro j hj _
        exact setPiece_get_ne lm q (Ne.symm hj)
      · intro d hd; cases hd
      · intro d hd; cases hd
      · intro hu hall
        have hd : p.dirty = false := by
          rw [← hpd]; exact hall i (InSubtree.refl i)
        have hu' : u = false := by
          rw [hd] at hu; simpa using hu
        have hq : q = p := by
          show updatedPiece E lm p u = p
          rw [hu']; exact updatedPiece_idle E lm p hd
        rw [hq]; exact setPiece_same hp
      · intro _ d hd; cases hd
    have hstep : ∀ c rest t, P (c :: rest) t →
        ∃ t1, UpdateChildMatricesRec E fuel t c (p.dirty || u) = some t1 ∧ P rest t1 := by
      intro c rest t hP
      rcases hP with ⟨done, hsplit, hfr, hunt, hself, hclean, hloc, hidle, hmodel⟩
      have hcmem : c ∈ lm.childrenOf i := by rw [hch, hsplit]; simp
      have hdmem : ∀ d ∈ done, d ∈ lm.childrenOf i := by
        intro d hd; rw [hch, hsplit]; simp [hd]
      have hnd : (done ++ c :: rest).Nodup := by
        have := ht.nodup_children i
        rw [hch, hsplit] at this; exact this
      have hcd : ∀ d ∈ done, d ≠ c := by
        intro d hd hEq
        subst hEq
        exact (List.nodup_append.1 hnd).2.2 hd (by simp)
      rcases ht.child_gt hcmem with ⟨hic, hcn, hpc⟩
      have hsplit1 : p.children = (done ++ [c]) ++ rest := by rw [hsplit]; simp
      have hsub : ∀ j, InSubtree lm c j → t.pieces[j]? = lm.pieces[j]? := by
        intro j hj
        refine hunt j ?_ ?_
        · have := hj.le_sub ht; omega
        · intro d hd
          exact sibling_disjoint ht hcmem (hdmem d hd) (Ne.symm (hcd d hd)) hj
      have htt : TreeShaped t := hfr.treeShaped_cf ht
      have hlen : t.pieces.length = lm.pieces.length := hfr.length
      rcases ih t c (p.dirty || u) htt (hfr.noActiveOverride_cf hno) (by omega) (by omega)
        with ⟨t1, hrun, hpost⟩
      -- pieces in subtrees visited earlier, and the piece `i`, are not touched again
      have hkeep : ∀ d ∈ done, ∀ j, InSubtree lm d j → t1.pieces[j]? = t.pieces[j]? := by
        intro d hd j hj
        apply hpost.outside
        intro h
        exact sibling_disjoint ht (hdmem d hd) hcmem (hcd d hd) hj (hfr.inSubtree_cf.1 h)
      have hkeepi : t1.pieces[i]? = t.pieces[i]? :=
        hpost.outside i (fun h => not_inSubtree_of_lt ht hic (hfr.inSubtree_cf.1 h))
      refine ⟨t1, hrun, done ++ [c], hsplit1, hfr.trans_cf hpost.frame, ?_, ?_, ?_, ?_, ?_, ?_⟩
      · intro j hj hnot
        rw [hpost.outside j (fun h => hnot c (by simp) (hfr.inSubtree_cf.1 h))]
        exact hunt j hj (fun d hd => hnot d (by simp [hd]))
      · rw [hkeepi]; exact hself
      · intro d hd j hj
        rcases List.mem_append.1 hd with hd | hd
        · rw [dirtyOf_congr (hkeep d hd j hj)]; exact hclean d hd j hj
        · simp at hd; subst hd
          exact hpost.clean j (hfr.inSubtree_cf.2 hj)
      · intro d hd j x x1 hj hx hx1
        rcases List.mem_append.1 hd with hd | hd
        · rw [hkeep d hd j hj] at hx1
          exact hloc d hd j x x1 hj hx hx1
        · simp at hd; subst hd
          exact hpost.loc j x x1 (hfr.inSubtree_cf.2 hj) (by rw [hsub j hj]; exact hx) hx1
      · intro hu hall
        have htl : t = lm := hidle hu hall
        have : t1 = t := by
          apply hpost.idle hu
          intro j hj
          rw [htl] at hj ⊢
          exact hall j (InSubtree.step hcmem hj)
        rw [this, htl]
      · intro hcl d hd j x x1 hj hx hx1
        rcases List.mem_append.1 hd with hd | hd
        · have hx1t : t.pieces[j]? = some x1 := by rw [← hkeep d hd j hj]; exact hx1
          rw [hmodel hcl d hd j x x1 hj hx hx1t]
          have : composeWithParent E t1 x.parent x1.pieceSpaceMat =
              composeWithParent E t x.parent x1.pieceSpaceMat := by
            apply composeWithParent_congr
            intro k hk
            have hpk : lm.parentOf j = some k := by rw [parentOf_eq hx]; exact hk
            rcases hj.up ht with hEq | ⟨k2, hk2, hdk⟩
            · subst hEq
              rw [(ht.child_gt (hdmem d hd)).2.2] at hpk
              cases hpk
              exact hkeepi
            · rw [hpk] at hk2; cases hk2
              exact hkeep d hd k hdk
          rw [this]
        · simp at hd; subst hd
          have hxt : t.pieces[j]? = some x := by rw [hsub j hj]; exact hx
          have hclt : ∀ k, InSubtree t d k → t.dirtyOf k = true →
              ∀ y ∈ t.childrenOf k, t.dirtyOf y = true := by
            intro k hk hkd y hy
            have hk1 : InSubtree lm d k := hfr.inSubtree_cf.1 hk
            rw [hfr.childrenOf_cf] at hy
            have hy1 : InSubtree lm d y := hk1.snoc hy
            rw [dirtyOf_congr (hsub y hy1)]
            rw [dirtyOf_congr (hsub k hk1)] at hkd
            exact hcl k (InSubtree.step hcmem hk1) hkd y hy
          rw [hpost.model hclt j x x1 (hfr.inSubtree_cf.2 hj) hxt hx1]
          cases hpdirty : p.dirty with
          | false => simp
          | true =>
            have hxd : x.dirty = true := by
              have := dirty_of_closed_below (InSubtree.step hcmem hj) hcl
                (by rw [hpd]; exact hpdirty)
              rw [dirtyOf_eq hx] at this; exact this
            simp [hxd]
    rcases forEachChild_inv (fun s c => UpdateChildMatricesRec E fuel s c (p.dirty || u)) P
      hstep p.children (lm.setPiece i q) hstart with ⟨t, hrun, hP⟩
    rcases hP with ⟨done, hsplit, hfr, hunt, hself, hclean, hloc, hidle, hmodel⟩
    have hdone_eq : done = p.children := by simpa using hsplit.symm
    subst hdone_eq
    have hout : ∀ j : Nat, ¬ InSubtree lm i j → t.pieces[j]? = lm.pieces[j]? := by
      intro j hj
      refine hunt j ?_ ?_
      · intro h; subst h; exact hj (InSubtree.refl _)
      · intro d hd hs
        exact hj (InSubtree.step (by rw [hch]; exact hd) hs)
    refine ⟨t, ?_, hfr, hout, ?_, ?_, ?_, ?_⟩
    · rw [updateChild_unfold E fuel u ht hno hp]
      exact hrun
    · intro j hj
      cases hj with
      | refl _ => rw [dirtyOf_eq hself]; rfl
      | step hm hs =>
        rw [hch] at hm
        exact hclean _ hm j hs
    · intro j x x1 hj hx hx1
      cases hj with
      | refl _ =>
        rw [hp] at hx; cases hx
        rw [hself] at hx1; cases hx1
        rfl
      | step hm hs =>
        rw [hch] at hm
        exact hloc _ hm j x x1 hs hx hx1
    · intro hu hall
      have hd : p.dirty = false := by
        rw [← hpd]; exact hall i (InSubtree.refl i)
      exact hidle (by simp [hd, hu]) hall
    · intro hcl j x x1 hj hx hx1
      cases hj with
      | refl _ =>
        rw [hp] at hx; cases hx
        rw [hself] at hx1; cases hx1
        have : composeWithParent E t p.parent (updatedPiece E lm p u).pieceSpaceMat =
            composeWithParent E lm p.parent (updatedPiece E lm p u).pieceSpaceMat := by
          apply composeWithParent_congr
          intro k hk
          exact hout k (not_inSubtree_of_lt ht (hpar k hk))
        rw [this]
        rfl
      | step hm hs =>
        rw [hch] at hm
        exact hmodel hcl _ hm j x x1 hs hx hx1

end UpdateChildSpec

section UpdateParentSpec

variable {R M O : Type}

/-! ## `UpdateParentMatricesRec` without override -/

theorem resolvedPiece_cachesOnly (E : Externals R M O) (lm : LocalModel R M O)
    (p : LocalModelPiece R M) : CachesOnly p (resolvedPiece E lm p) := ⟨rfl⟩

theorem resolvedPiece_congr (E : Externals R M O) {lm lm1 : LocalModel R M O}
    {p : LocalModelPiece R M} (h : ∀ k, p.parent = some k → lm1.pieces[k]? = lm.pieces[k]?) :
    resolvedPiece E lm1 p = resolvedPiece E lm p := by
  simp only [resolvedPiece, composeWithParent_congr E h]

/-- With dirty flags closed downwards, everything above a clean piece is clean. -/
theorem clean_above {lm : LocalModel R M O} (hcl : DirtyClosed lm) {i : Nat}
    (hi : lm.dirtyOf i = false) {a : Nat} (ha : InSubtree lm a i) : lm.dirtyOf a = false := by
  cases hd : lm.dirtyOf a with
  | false => rfl
  | true =>
    have := dirty_of_closed_below ha (fun k _ hk => hcl k hk) hd
    rw [hi] at this; cases this

theorem updateParent_node_closed (E : Externals R M O) {s : LocalModel R M O} {i : Nat}
    {p : LocalModelPiece R M} (ht : TreeShaped s) (hp : s.pieces[i]? = some p)
    (hpar : ∀ j, p.parent = some j → s.dirtyOf j = false) (hcl : DirtyClosed s) :
    DirtyClosed (s.setPiece i (resolvedPiece E s p)) ∧
    ∀ a, InSubtree s a i → (s.setPiece i (resolvedPiece E s p)).dirtyOf a = false := by
  have hpi : ∀ j, p.parent = some j → j < i := by
    intro j hj
    exact (ht.parent_lt (by rw [parentOf_eq hp]; exact hj)).1
  have hfr : CacheFrame s (s.setPiece i (resolvedPiece E s p)) :=
    CacheFrame.setPiece_cf hp (resolvedPiece_cachesOnly E s p)
  have hself : (s.setPiece i (resolvedPiece E s p)).pieces[i]? = some (resolvedPiece E s p) :=
    setPiece_get_self _ hp
  have hne : ∀ j, j ≠ i →
      (s.setPiece i (resolvedPiece E s p)).pieces[j]? = s.pieces[j]? := by
    intro j hj
    exact setPiece_get_ne s _ (Ne.symm hj)
  refine ⟨?_, ?_⟩
  · intro k hk c hc
    rw [hfr.childrenOf_cf] at hc
    have hki : k ≠ i := by
      intro h; subst h
      rw [dirtyOf_eq hself] at hk; cases hk
    rw [dirtyOf_congr (hne k hki)] at hk
    have hci : c ≠ i := by
      intro h; subst h
      have hpk := (ht.child_gt hc).2.2
      rw [parentOf_eq hp] at hpk
      rw [hpar k hpk] at hk; cases hk
    rw [dirtyOf_congr (hne c hci)]
    exact hcl k hk c hc
  · intro a ha
    rcases ha.up ht with hEq | ⟨k, hk, hak⟩
    · subst hEq
      rw [dirtyOf_eq hself]; rfl
    · have hpk : p.parent = some k := by rw [← parentOf_eq hp]; exact hk
      have hai : a ≠ i := by
        have := hak.le_sub ht
        have := hpi k hpk
        omega
      rw [dirtyOf_congr (hne a hai)]
      exact clean_above hcl (hpar k hpk) hak

theorem updateParent_node_consistent (E : Externals R M O) {s : LocalModel R M O} {i : Nat}
    {p : LocalModelPiece R M} (ht : TreeShaped s) (hp : s.pieces[i]? = some p)
    (hcl : DirtyClosed s) (hcc : CleanConsistent E s) :
    CleanConsistent E (s.setPiece i (resolvedPiece E s p)) := by
  have hpi : ∀ j, p.parent = some j → j < i := by
    intro j hj
    exact (ht.parent_lt (by rw [parentOf_eq hp]; exact hj)).1
  cases hd : p.dirty with
  | false =>
    have hq : resolvedPiece E s p = p := by
      rcases hcc i p hp hd with ⟨h1, h2⟩
      have e : resolvedPiece E s p =
          { p with dirty := false, pieceSpaceMat := p.pieceSpaceMat,
                   modelSpaceMat := p.modelSpaceMat } := by
        simp only [resolvedPiece]
        rw [← h1, ← h2]
      rw [e]
      cases p
      dsimp only at hd
      subst hd
      rfl
    rw [hq, setPiece_same hp]
    exact hcc
  | true =>
    have hself : (s.setPiece i (resolvedPiece E s p)).pieces[i]? = some (resolvedPiece E s p) :=
      setPiece_get_self _ hp
    have hne : ∀ j, j ≠ i →
        (s.setPiece i (resolvedPiece E s p)).pieces[j]? = s.pieces[j]? := by
      intro j hj
      exact setPiece_get_ne s _ (Ne.symm hj)
    have hkids : ∀ c ∈ s.childrenOf i, s.dirtyOf c = true :=
      hcl i (by rw [dirtyOf_eq hp]; exact hd)
    intro j x hx hxd
    by_cases hji : j = i
    · subst hji
      rw [hself] at hx; cases hx
      refine ⟨rfl, ?_⟩
      show composeWithParent E s p.parent (p.freshLocal E) = _
      symm
      apply composeWithParent_congr
      intro k hk
      exact hne k (by have := hpi k hk; omega)
    · rw [hne j hji] at hx
      rcases hcc j x hx hxd with ⟨h1, h2⟩
      refine ⟨h1, ?_⟩
      rw [h2]
      symm
      apply composeWithParent_congr
      intro k hk
      apply hne
      intro hki
      subst hki
      have hmem := (ht.parent_lt (by rw [parentOf_eq hx]; exact hk)).2
      have := hkids j hmem
      rw [dirtyOf_eq hx, hxd] at this; cases this

theorem updateParent_spec [Sub R] [Mul R] [Neg R] (E : Externals R M O) :
    ∀ (fuel : Nat) (lm : LocalModel R M O) (i : Nat),
    TreeShaped lm → NoActiveOverride lm → i < lm.pieces.length → i + 1 ≤ fuel →
    ∃ lm1, UpdateParentMatricesRec E fuel lm i = some lm1 ∧ UpdateParentPost E lm lm1 i := by
  intro fuel
  induction fuel with
  | zero => intro lm i _ _ _ hf; omega
  | succ fuel ih =>
    intro lm i ht hno hi hf
    rcases get_of_lt_length hi with ⟨p, hp⟩
    have hpi : ∀ j, p.parent = some j → j < i ∧ i ∈ lm.childrenOf j := by
      intro j hj
      exact ht.parent_lt (by rw [parentOf_eq hp]; exact hj)
    -- the state after the parent has been resolved
    have hres : ∃ s,
        UpdateParentMatricesRec E (fuel + 1) lm i =
          ApplyParentMatrix E fuel
            (s.setPiece i
              { p with dirty := false, pieceSpaceMat := p.freshLocal E,
                       modelSpaceMat := p.freshLocal E }) i ∧
        CacheFrame lm s ∧
        (∀ j : Nat, ¬ InSubtree lm j i → s.pieces[j]? = lm.pieces[j]?) ∧
        s.pieces[i]? = some p ∧
        (∀ j, p.parent = some j → s.dirtyOf j = false) ∧
        (DirtyClosed lm → DirtyClosed s) ∧
        (DirtyClosed lm → CleanConsistent E lm → CleanConsistent E s) := by
      cases hpp : p.parent with
      | none =>
        refine ⟨lm, ?_, CacheFrame.refl_cf lm, fun _ _ => rfl, hp, ?_, fun h1 => h1,
          fun _ h2 => h2⟩
        · simp [UpdateParentMatricesRec, hp, hpp, LocalModelPiece.freshLocal]
        · intro j hj
          cases hj
      | some j =>
        rcases hpi j hpp with ⟨hji, hmem⟩
        rcases get_of_lt_length (Nat.lt_trans hji hi) with ⟨q, hq⟩
        cases hqd : q.dirty with
        | false =>
          refine ⟨lm, ?_, CacheFrame.refl_cf lm, fun _ _ => rfl, hp, ?_, fun h1 => h1,
            fun _ h2 => h2⟩
          · simp [UpdateParentMatricesRec, hp, hpp, hq, hqd, LocalModelPiece.freshLocal]
          · intro k hk
            cases hk
            rw [dirtyOf_eq hq]; exact hqd
        | true =>
          rcases ih lm j ht hno (Nat.lt_trans hji hi) (by omega) with ⟨s, hrun, hpost⟩
          have hsp : s.pieces[i]? = some p := by
            rw [hpost.outside i (not_inSubtree_of_lt ht hji)]
            exact hp
          refine ⟨s, ?_, hpost.frame, ?_, hsp, ?_, fun h1 => (hpost.closed h1).1,
            hpost.consistent⟩
          · simp [UpdateParentMatricesRec, hp, hpp, hq, hqd, hrun, hsp,
              LocalModelPiece.freshLocal]
          · intro k hk
            exact hpost.outside k (fun h => hk (h.snoc hmem))
          · intro k hk
            cases hk
            rcases hpost.self with ⟨x, _, hx1⟩
            rw [dirtyOf_eq hx1]; rfl
    rcases hres with ⟨s, hrun, hfr, hout, hsp, hparclean, hinvc, hinvk⟩
    have hts : TreeShaped s := hfr.treeShaped_cf ht
    let p0 : LocalModelPiece R M :=
      { p with dirty := false, pieceSpaceMat := p.freshLocal E, modelSpaceMat := p.freshLocal E }
    have hfr0 : CacheFrame s (s.setPiece i p0) := CacheFrame.setPiece_cf hsp ⟨rfl⟩
    have happly : ApplyParentMatrix E fuel (s.setPiece i p0) i =
        some (s.setPiece i (resolvedPiece E s p)) := by
      rw [applyParentMatrix_plain E fuel (hfr0.noActiveOverride_cf (hfr.noActiveOverride_cf hno))
        (setPiece_get_self p0 hsp)
        (by
          intro j hj
          have := (hpi j hj).1
          have := hfr.length
          simp only [setPiece_pieces, List.length_set]
          omega)]
      rw [setPiece_setPiece]
      congr 2
      have : composeWithParent E (s.setPiece i p0) p.parent (p.freshLocal E) =
          composeWithParent E s p.parent (p.freshLocal E) := by
        apply composeWithParent_congr
        intro k hk
        exact setPiece_get_ne s p0 (by have := (hpi k hk).1; omega)
      show ({ p0 with modelSpaceMat :=
        (composeWithParent E (s.setPiece i p0) p.parent (p.freshLocal E)) } :
          LocalModelPiece R M) = resolvedPiece E s p
      rw [this]
      rfl
    have hfinal : UpdateParentMatricesRec E (fuel + 1) lm i =
        some (s.setPiece i (resolvedPiece E s p)) := by
      rw [hrun]
      exact happly
    have hfr1 : CacheFrame s (s.setPiece i (resolvedPiece E s p)) :=
      CacheFrame.setPiece_cf hsp (resolvedPiece_cachesOnly E s p)
    refine ⟨_, hfinal, hfr.trans_cf hfr1, ?_, ⟨p, hp, ?_⟩, ?_, ?_⟩
    · intro j hj
      have hji : j ≠ i := by
        intro h; subst h; exact hj (InSubtree.refl _)
      rw [setPiece_get_ne s _ (Ne.symm hji)]
      exact hout j hj
    · rw [setPiece_get_self _ hsp]
      congr 1
      symm
      apply resolvedPiece_congr
      intro k hk
      exact setPiece_get_ne s _ (by have := (hpi k hk).1; omega)
    · intro h1
      rcases updateParent_node_closed E hts hsp hparclean (hinvc h1) with ⟨a1, a3⟩
      exact ⟨a1, fun a ha => a3 a (hfr.inSubtree_cf.2 ha)⟩
    · intro h1 h2
      exact updateParent_node_consistent E hts hsp (hinvc h1) (hinvk h1 h2)

end UpdateParentSpec

section Creation

variable {R M O : Type}

/-! ## `CreateLocalModelPieces` builds the mirror layout -/

theorem S3DModelPiece.numNodes_pos (t : S3DModelPiece R) : 0 < t.numNodes := by
  cases t
  simp only [S3DModelPiece.numNodes]
  omega

theorem S3DModelPiece.eta (t : S3DModelPiece R) :
    S3DModelPiece.mk t.name t.offset t.scales t.mins t.maxs t.vertices t.indices t.children = t := by
  cases t; rfl

theorem S3DModelPiece.numNodes_eq (t : S3DModelPiece R) :
    t.numNodes = 1 + numNodesList t.children := by
  cases t; rfl

theorem S3DModelPiece.preorder_eq (t : S3DModelPiece R) :
    t.preorder = t :: preorderList t.children := by
  cases t; rfl

mutual
theorem mirrorPieces_length [Sub R] (E : Externals R M O) (base : Nat) (parent : Option Nat) :
    ∀ t : S3DModelPiece R, (mirrorPieces E base parent t : List (LocalModelPiece R M)).length
      = t.numNodes
  | .mk n o s mi ma v ix c => by
    simp only [mirrorPieces, List.length_cons, S3DModelPiece.numNodes,
      mirrorForest_length E (base + 1) base c]
    omega
theorem mirrorForest_length [Sub R] (E : Externals R M O) (base : Nat) (parentIdx : Nat) :
    ∀ ts : List (S3DModelPiece R),
      (mirrorForest E base parentIdx ts : List (LocalModelPiece R M)).length = numNodesList ts
  | [] => rfl
  | t :: ts => by
    simp only [mirrorForest, List.length_append, numNodesList,
      mirrorPieces_length E base (some parentIdx) t,
      mirrorForest_length E (base + t.numNodes) parentIdx ts]
end

mutual
theorem mirrorPieces_original [Sub R] (E : Externals R M O) (base : Nat) (parent : Option Nat) :
    ∀ t : S3DModelPiece R,
      (mirrorPieces E base parent t : List (LocalModelPiece R M)).map (fun p => p.original)
        = t.preorder
  | .mk n o s mi ma v ix c => by
    simp only [mirrorPieces, List.map_cons, S3DModelPiece.preorder,
      mirrorForest_original E (base + 1) base c]
    rfl
theorem mirrorForest_original [Sub R] (E : Externals R M O) (base : Nat) (parentIdx : Nat) :
    ∀ ts : List (S3DModelPiece R),
      (mirrorForest E base parentIdx ts : List (LocalModelPiece R M)).map (fun p => p.original)
        = preorderList ts
  | [] => rfl
  | t :: ts => by
    simp only [mirrorForest, List.map_append, preorderList,
      mirrorPieces_original E base (some parentIdx) t,
      mirrorForest_original E (base + t.numNodes) parentIdx ts]
end

/-- The first piece of a mirrored tree carries the parent pointer; nothing else
depends on it. -/
theorem mirrorPieces_parent [Sub R] (E : Externals R M O) (base : Nat) (parent : Option Nat)
    (t : S3DModelPiece R) :
    ∃ (hd : LocalModelPiece R M) (tl : List (LocalModelPiece R M)),
      mirrorPieces E base none t = hd :: tl ∧
      mirrorPieces E base parent t = { hd with parent := parent } :: tl := by
  cases t
  exact ⟨_, _, rfl, rfl⟩

theorem modifyPiece_at {lm : LocalModel R M O} (pre : List (LocalModelPiece R M))
    (x : LocalModelPiece R M) (post : List (LocalModelPiece R M))
    (h : lm.pieces = pre ++ x :: post) {k : Nat}
    (hk : k = pre.length) (f : LocalModelPiece R M → LocalModelPiece R M) :
    lm.modifyPiece k f = { lm with pieces := pre ++ f x :: post } := by
  subst hk
  have hget : lm.pieces[pre.length]? = some x := by
    rw [h, List.getElem?_append_right (Nat.le_refl _)]; simp
  simp only [LocalModel.modifyPiece, hget, LocalModel.setPiece]
  rw [h]
  simp

mutual
theorem createLocalModelPieces_eq [Sub R] (E : Externals R M O) :
    ∀ (t : S3DModelPiece R) (lm : LocalModel R M O),
      CreateLocalModelPieces E lm t =
        ({ lm with pieces := lm.pieces ++ mirrorPieces E lm.pieces.length none t },
          lm.pieces.length)
  | .mk n o s mi ma v ix c, lm => by
    simp only [CreateLocalModelPieces, List.length_append, List.length_singleton,
      Nat.add_sub_cancel]
    have h1 : (({ lm with pieces := lm.pieces ++
        [LocalModelPiece.new E (.mk n o s mi ma v ix c)] } : LocalModel R M O)).pieces =
        lm.pieces ++ LocalModelPiece.new E (.mk n o s mi ma v ix c) :: [] := rfl
    rw [modifyPiece_at _ _ _ h1 rfl]
    rw [modifyPiece_at lm.pieces _ [] rfl (by simp)]
    rw [createLocalModelChildren_eq E c _ lm.pieces.length _ lm.pieces [] rfl rfl]
    simp [mirrorPieces, LocalModelPiece.new]
theorem createLocalModelChildren_eq [Sub R] (E : Externals R M O) :
    ∀ (cs : List (S3DModelPiece R)) (lm : LocalModel R M O) (lmpParent : Nat)
      (par : LocalModelPiece R M) (pre mid : List (LocalModelPiece R M)),
      lm.pieces = pre ++ par :: mid → lmpParent = pre.length →
      CreateLocalModelChildren E lmpParent lm cs =
        { lm with pieces :=
            pre ++ { par with children := par.children ++ childSlots lm.pieces.length cs } ::
              (mid ++ mirrorForest E lm.pieces.length lmpParent cs) }
  | [], lm, lmpParent, par, pre, mid, h, _ => by
    simp only [CreateLocalModelChildren, childSlots, mirrorForest, List.append_nil]
    rw [← h]
  | t :: ts, lm, lmpParent, par, pre, mid, h, hpi => by
    simp only [CreateLocalModelChildren]
    rw [createLocalModelPieces_eq E t lm]
    rcases mirrorPieces_parent E lm.pieces.length (some lmpParent) t with ⟨hd, tl, e1, e2⟩
    simp only [e1]
    rw [modifyPiece_at lm.pieces hd tl rfl rfl]
    have h2 : (({ lm with pieces := lm.pieces ++ { hd with parent := some lmpParent } :: tl } :
        LocalModel R M O)).pieces =
        pre ++ par :: (mid ++ mirrorPieces E lm.pieces.length (some lmpParent) t) := by
      rw [e2]
      show lm.pieces ++ _ = _
      rw [h]
      simp
    rw [modifyPiece_at _ _ _ h2 hpi]
    rw [createLocalModelChildren_eq E ts _ lmpParent _ pre
      (mid ++ mirrorPieces E lm.pieces.length (some lmpParent) t) rfl hpi]
    have hlen : (pre ++ { par with children := par.children ++ [lm.pieces.length] } ::
        (mid ++ mirrorPieces E lm.pieces.length (some lmpParent) t)).length =
        lm.pieces.length + t.numNodes := by
      rw [h]
      simp [mirrorPieces_length]
      omega
    simp only [hlen, childSlots, mirrorForest]
    simp
end

end Creation

section Layout

variable {R M O : Type}

/-! ## Shape of the mirror layout -/

theorem childSlots_bounds : ∀ (cs : List (S3DModelPiece R)) (start r : Nat),
    r ∈ childSlots start cs → start ≤ r ∧ r < start + numNodesList cs
  | [], _, _, h => by simp [childSlots] at h
  | t :: ts, start, r, h => by
    simp only [childSlots, List.mem_cons] at h
    have hpos := t.numNodes_pos
    simp only [numNodesList]
    rcases h with h | h
    · subst h; omega
    · have := childSlots_bounds ts (start + t.numNodes) r h
      omega

theorem childSlots_nodup : ∀ (cs : List (S3DModelPiece R)) (start : Nat),
    (childSlots start cs).Nodup
  | [], _ => by simp [childSlots]
  | t :: ts, start => by
    simp only [childSlots, List.nodup_cons]
    refine ⟨?_, childSlots_nodup ts _⟩
    intro h
    have := childSlots_bounds ts _ _ h
    have := t.numNodes_pos
    omega

theorem PieceOK.congr_piece {lo hi : Nat} {A B : List (LocalModelPiece R M)} {roots : List Nat}
    {rootParent : Option Nat} {i : Nat} {p : LocalModelPiece R M}
    (hAB : ∀ k, k < hi → B[k]? = A[k]?) (hi' : i < hi)
    (h : PieceOK lo hi A roots rootParent i p) : PieceOK lo hi B roots rootParent i p := by
  rcases h with ⟨h1, h2, h3, h4, h5, h6⟩
  refine ⟨h1, h2, h3, ?_, ?_, ?_⟩
  · rw [← h4]
    apply List.map_congr_left
    intro c hc
    rw [hAB c (h5 c hc).2.1]
  · intro c hc
    rcases h5 c hc with ⟨a, b, q, hq, hqp⟩
    exact ⟨a, b, q, by rw [hAB c b]; exact hq, hqp⟩
  · rcases h6 with h6 | ⟨j, hj1, hj2, hj3, q, hq, hqi⟩
    · exact Or.inl h6
    · exact Or.inr ⟨j, hj1, hj2, hj3, q, by rw [hAB j (by omega)]; exact hq, hqi⟩

theorem SegmentOK.congr_segment {lo hi : Nat} {A B : List (LocalModelPiece R M)} {roots : List Nat}
    {rootParent : Option Nat} {cs : List (S3DModelPiece R)}
    (hAB : ∀ k, k < hi → B[k]? = A[k]?) (hB : hi ≤ B.length)
    (h : SegmentOK lo hi A roots rootParent cs) : SegmentOK lo hi B roots rootParent cs := by
  refine ⟨hB, ?_, ?_, ?_⟩
  · intro i p h1 h2 hp
    exact (h.piece i p h1 h2 (by rw [← hAB i h2]; exact hp)).congr_piece hAB h2
  · intro r hr
    rcases h.root r hr with ⟨a, b, q, hq, hqp⟩
    exact ⟨a, b, q, by rw [hAB r b]; exact hq, hqp⟩
  · rw [← h.rootOriginal]
    apply List.map_congr_left
    intro c hc
    rw [hAB c (h.root c hc).2.1]

theorem PieceOK.widen_piece {lo lo1 hi hi1 : Nat} {A : List (LocalModelPiece R M)}
    {roots roots1 : List Nat} {rootParent : Option Nat} {i : Nat} {p : LocalModelPiece R M}
    (hlo : lo1 ≤ lo) (hhi : hi ≤ hi1) (hr : ∀ r ∈ roots, r ∈ roots1)
    (h : PieceOK lo hi A roots rootParent i p) : PieceOK lo1 hi1 A roots1 rootParent i p := by
  rcases h with ⟨h1, h2, h3, h4, h5, h6⟩
  refine ⟨h1, h2, h3, h4, ?_, ?_⟩
  · intro c hc
    rcases h5 c hc with ⟨a, b, q⟩
    exact ⟨a, by omega, q⟩
  · rcases h6 with ⟨h6, h7⟩ | ⟨j, hj1, hj2, hj3⟩
    · exact Or.inl ⟨hr _ h6, h7⟩
    · exact Or.inr ⟨j, by omega, hj2, hj3⟩

theorem SegmentOK.append_segment {lo mid hi : Nat} {A : List (LocalModelPiece R M)}
    {r1 r2 : List Nat} {rootParent : Option Nat} {c1 c2 : List (S3DModelPiece R)}
    (hlm : lo ≤ mid) (hmh : mid ≤ hi)
    (h1 : SegmentOK lo mid A r1 rootParent c1) (h2 : SegmentOK mid hi A r2 rootParent c2) :
    SegmentOK lo hi A (r1 ++ r2) rootParent (c1 ++ c2) := by
  refine ⟨h2.bound, ?_, ?_, ?_⟩
  · intro i p hi1 hi2 hp
    by_cases hlt : i < mid
    · exact (h1.piece i p hi1 hlt hp).widen_piece (Nat.le_refl _) hmh
        (fun r hr => List.mem_append.2 (Or.inl hr))
    · exact (h2.piece i p (by omega) hi2 hp).widen_piece hlm (Nat.le_refl _)
        (fun r hr => List.mem_append.2 (Or.inr hr))
  · intro r hr
    rcases List.mem_append.1 hr with hr | hr
    · rcases h1.root r hr with ⟨a, b, q⟩
      exact ⟨a, by omega, q⟩
    · rcases h2.root r hr with ⟨a, b, q⟩
      exact ⟨by omega, b, q⟩
  · rw [List.map_append, List.map_append, h1.rootOriginal, h2.rootOriginal]

theorem SegmentOK.nil_segment (lo : Nat) (A : List (LocalModelPiece R M)) (rootParent : Option Nat)
    (h : lo ≤ A.length) : SegmentOK lo lo A [] rootParent ([] : List (S3DModelPiece R)) := by
  refine ⟨h, ?_, ?_, rfl⟩
  · intro i p h1 h2; omega
  · intro r hr; cases hr

/-- A piece at position `lo` whose children are the roots of a good segment
`[lo + 1, hi)` heads a good segment `[lo, hi)`. -/
theorem SegmentOK.node_segment {lo hi : Nat} {A : List (LocalModelPiece R M)}
    {par : Option Nat} (hd : LocalModelPiece R M)
    (hget : A[lo]? = some hd) (hidx : hd.lmodelPieceIndex = (lo : Int))
    (hsidx : hd.scriptPieceIndex = (lo : Int)) (hpar : hd.parent = par)
    (hch : hd.children = childSlots (lo + 1) hd.original.children)
    (hhi : lo + 1 ≤ hi)
    (h : SegmentOK (lo + 1) hi A hd.children (some lo) hd.original.children) :
    SegmentOK lo hi A [lo] par [hd.original] := by
  refine ⟨h.bound, ?_, ?_, ?_⟩
  · intro i p h1 h2 hp
    by_cases hEq : i = lo
    · subst hEq
      rw [hget] at hp; cases hp
      refine ⟨hidx, hsidx, hch, h.rootOriginal, ?_, Or.inl ⟨by simp, hpar⟩⟩
      intro c hc
      rcases h.root c hc with ⟨a, b, q⟩
      exact ⟨by omega, b, q⟩
    · have hp1 := h.piece i p (by omega) h2 hp
      rcases hp1 with ⟨a1, a2, a3, a4, a5, a6⟩
      refine ⟨a1, a2, a3, a4, a5, ?_⟩
      right
      rcases a6 with ⟨hr, hpp⟩ | ⟨j, hj1, hj2, hj3⟩
      · exact ⟨lo, Nat.le_refl _, by omega, hpp, hd, hget, hr⟩
      · exact ⟨j, by omega, hj2, hj3⟩
  · intro r hr
    simp only [List.mem_singleton] at hr
    subst hr
    exact ⟨Nat.le_refl _, by omega, hd, hget, hpar⟩
  · simp [hget]

mutual
theorem mirrorPieces_segment [Sub R] (E : Externals R M O) :
    ∀ (t : S3DModelPiece R) (pre : List (LocalModelPiece R M)) (par : Option Nat),
      SegmentOK pre.length (pre.length + t.numNodes)
        (pre ++ mirrorPieces E pre.length par t) [pre.length] par [t]
  | .mk n o s mi ma v ix c, pre, par => by
    have hF := mirrorForest_segment E c
      (pre ++ [({ LocalModelPiece.new E (.mk n o s mi ma v ix c) with
        lmodelPieceIndex := (pre.length : Int)
        scriptPieceIndex := (pre.length : Int)
        parent := par
        children := childSlots (pre.length + 1) c } : LocalModelPiece R M)]) pre.length
    simp only [List.length_append, List.length_singleton, List.append_assoc,
      List.singleton_append] at hF
    have hnum : (S3DModelPiece.mk n o s mi ma v ix c).numNodes = 1 + numNodesList c := rfl
    rw [hnum]
    simp only [mirrorPieces]
    have hhi : pre.length + 1 + numNodesList c = pre.length + (1 + numNodesList c) := by omega
    rw [hhi] at hF
    exact SegmentOK.node_segment { LocalModelPiece.new E (.mk n o s mi ma v ix c) with
        lmodelPieceIndex := (pre.length : Int)
        scriptPieceIndex := (pre.length : Int)
        parent := par
        children := childSlots (pre.length + 1) c }
      (by rw [List.getElem?_append_right (Nat.le_refl _)]; simp) rfl rfl rfl rfl (by omega) hF
theorem mirrorForest_segment [Sub R] (E : Externals R M O) :
    ∀ (ts : List (S3DModelPiece R)) (pre : List (LocalModelPiece R M)) (parentIdx : Nat),
      SegmentOK pre.length (pre.length + numNodesList ts)
        (pre ++ mirrorForest E pre.length parentIdx ts) (childSlots pre.length ts)
        (some parentIdx) ts
  | [], pre, parentIdx => by
    simp only [numNodesList, mirrorForest, childSlots, List.append_nil, Nat.add_zero]
    exact SegmentOK.nil_segment _ _ _ (Nat.le_refl _)
  | t :: ts, pre, parentIdx => by
    have hT := mirrorPieces_segment E t pre (some parentIdx)
    have hF := mirrorForest_segment E ts (pre ++ mirrorPieces E pre.length (some parentIdx) t)
      parentIdx
    simp only [List.length_append, mirrorPieces_length, List.append_assoc] at hF
    simp only [numNodesList, mirrorForest, childSlots]
    have hlenT : (pre ++ mirrorPieces E pre.length (some parentIdx) t :
        List (LocalModelPiece R M)).length = pre.length + t.numNodes := by
      simp [mirrorPieces_length]
    have hT1 : SegmentOK pre.length (pre.length + t.numNodes)
        (pre ++ (mirrorPieces E pre.length (some parentIdx) t ++
          mirrorForest E (pre.length + t.numNodes) parentIdx ts))
        [pre.length] (some parentIdx) [t] := by
      refine hT.congr_segment ?_ ?_
      · intro k hk
        rw [← List.append_assoc, List.getElem?_append_left (by rw [hlenT]; exact hk)]
      · simp [mirrorPieces_length]
    have := SegmentOK.append_segment (Nat.le_add_right _ _) (Nat.le_add_right _ _) hT1 hF
    simpa [Nat.add_assoc] using this
end

end Layout

section Fuel

variable {R M O : Type}

/-! ## More fuel never changes a result -/

theorem forEachChild_mono {S : Type} {b1 b2 : S → Nat → Option S}
    (h : ∀ s c r, b1 s c = some r → b2 s c = some r) :
    ∀ (cs : List Nat) (s r : S), forEachChild b1 cs s = some r → forEachChild b2 cs s = some r
  | [], s, r, hr => hr
  | c :: cs, s, r, hr => by
    simp only [forEachChild] at hr ⊢
    cases hb : b1 s c with
    | none => rw [hb] at hr; cases hr
    | some s1 =>
      rw [hb] at hr
      rw [h s c s1 hb]
      exact forEachChild_mono h cs s1 r hr

theorem setDirtyUnlessDirty_mono {f1 f2 : LocalModel R M O → Nat → Option (LocalModel R M O)}
    (h : ∀ s c r, f1 s c = some r → f2 s c = some r) (s : LocalModel R M O) (c : Nat)
    (r : LocalModel R M O) (hr : setDirtyUnlessDirty f1 s c = some r) :
    setDirtyUnlessDirty f2 s c = some r := by
  unfold setDirtyUnlessDirty at hr ⊢
  cases hp : s.pieces[c]? with
  | none => rw [hp] at hr; cases hr
  | some cp =>
    rw [hp] at hr
    simp only at hr ⊢
    cases hd : cp.dirty with
    | true => rw [hd] at hr; simpa using hr
    | false =>
      rw [hd] at hr
      simp only [Bool.false_eq_true, if_false] at hr ⊢
      exact h s c r hr

theorem setDirty_succ : ∀ (fuel : Nat) (lm : LocalModel R M O) (i : Nat)
    (r : LocalModel R M O), SetDirty fuel lm i = some r → SetDirty (fuel + 1) lm i = some r := by
  intro fuel
  induction fuel with
  | zero => intro lm i r h; simp [SetDirty] at h
  | succ fuel ih =>
    intro lm i r h
    rw [SetDirty] at h ⊢
    cases hp : lm.pieces[i]? with
    | none => rw [hp] at h; cases h
    | some p =>
      rw [hp] at h
      simp only at h ⊢
      exact forEachChild_mono (setDirtyUnlessDirty_mono ih) _ _ _ h

theorem setDirty_mono {fuel fuel1 : Nat} (hle : fuel ≤ fuel1) {lm : LocalModel R M O} {i : Nat}
    {r : LocalModel R M O} (h : SetDirty fuel lm i = some r) : SetDirty fuel1 lm i = some r := by
  induction hle with
  | refl => exact h
  | step _ ih => exact setDirty_succ _ _ _ _ ih

theorem applyParentMatrix_mono [Sub R] [Mul R] [Neg R] (E : Externals R M O)
    {fuel fuel1 : Nat} (hle : fuel ≤ fuel1) {lm : LocalModel R M O} {i : Nat}
    {r : LocalModel R M O} (h : ApplyParentMatrix E fuel lm i = some r) :
    ApplyParentMatrix E fuel1 lm i = some r := by
  have hsd : ∀ (cs : List Nat) (s : LocalModel R M O),
      forEachChild (setDirtyUnlessDirty (SetDirty fuel)) cs s = some r →
      forEachChild (setDirtyUnlessDirty (SetDirty fuel1)) cs s = some r := fun cs s hr =>
    forEachChild_mono (setDirtyUnlessDirty_mono (fun s c r hr => setDirty_mono hle hr)) cs s r hr
  unfold ApplyParentMatrix at h ⊢
  cases hp : lm.pieces[i]? with
  | none => rw [hp] at h; cases h
  | some p =>
    rw [hp] at h
    simp only at h ⊢
    cases hpp : p.parent with
    | none =>
      rw [hpp] at h
      simp only at h ⊢
      cases ho : lm.owningObject with
      | none => rw [ho] at h; exact h
      | some obj =>
        rw [ho] at h
        simp only at h ⊢
        by_cases hc : (p.pseudoWorldSpacePosition || p.pseudoWorldSpaceRotation) = true
        · rw [if_pos hc] at h ⊢
          exact hsd _ _ h
        · rw [if_neg hc] at h ⊢
          exact h
    | some j =>
      rw [hpp] at h
      simp only at h ⊢
      cases hq : lm.pieces[j]? with
      | none => rw [hq] at h; cases h
      | some q =>
        rw [hq] at h
        simp only at h ⊢
        cases ho : lm.owningObject with
        | none => rw [ho] at h; exact h
        | some obj =>
          rw [ho] at h
          simp only at h ⊢
          by_cases hc : (p.pseudoWorldSpacePosition || p.pseudoWorldSpaceRotation) = true
          · rw [if_pos hc] at h ⊢
            exact hsd _ _ h
          · rw [if_neg hc] at h ⊢
            exact h

theorem updateChild_succ [Sub R] [Mul R] [Neg R] (E : Externals R M O) :
    ∀ (fuel : Nat) (lm : LocalModel R M O) (i : Nat) (u : Bool) (r : LocalModel R M O),
      UpdateChildMatricesRec E fuel lm i u = some r →
      UpdateChildMatricesRec E (fuel + 1) lm i u = some r := by
  intro fuel
  induction fuel with
  | zero => intro lm i u r h; simp [UpdateChildMatricesRec] at h
  | succ fuel ih =>
    intro lm i u r h
    rw [UpdateChildMatricesRec] at h ⊢
    cases hp : lm.pieces[i]? with
    | none => rw [hp] at h; cases h
    | some p =>
      rw [hp] at h
      simp only at h ⊢
      by_cases hc : (p.dirty || u) = true
      · rw [if_pos hc] at h ⊢
        cases ha : ApplyParentMatrix E fuel
            (lm.setPiece i
              { (if p.dirty = true then
                  { p with dirty := false
                           pieceSpaceMat :=
                             E.CalcPieceSpaceMatrix p.pos p.rot p.original.scales }
                else p) with
                modelSpaceMat :=
                  (if p.dirty = true then
                    { p with dirty := false
                             pieceSpaceMat :=
                               E.CalcPieceSpaceMatrix p.pos p.rot p.original.scales }
                  else p).pieceSpaceMat }) i with
        | none => rw [ha] at h; cases h
        | some lm2 =>
          rw [ha] at h
          rw [applyParentMatrix_mono E (Nat.le_succ fuel) ha]
          simp only at h ⊢
          exact forEachChild_mono (fun s c r hr => ih s c _ r hr) _ _ _ h
      · rw [if_neg hc] at h ⊢
        simp only at h ⊢
        exact forEachChild_mono (fun s c r hr => ih s c _ r hr) _ _ _ h

theorem updateChild_mono [Sub R] [Mul R] [Neg R] (E : Externals R M O) {fuel fuel1 : Nat}
    (hle : fuel ≤ fuel1) {lm : LocalModel R M O} {i : Nat} {u : Bool} {r : LocalModel R M O}
    (h : UpdateChildMatricesRec E fuel lm i u = some r) :
    UpdateChildMatricesRec E fuel1 lm i u = some r := by
  induction hle with
  | refl => exact h
  | step _ ih => exact updateChild_succ E _ _ _ _ _ ih

theorem updateParent_succ [Sub R] [Mul R] [Neg R] (E : Externals R M O) :
    ∀ (fuel : Nat) (lm : LocalModel R M O) (i : Nat) (r : LocalModel R M O),
      UpdateParentMatricesRec E fuel lm i = some r →
      UpdateParentMatricesRec E (fuel + 1) lm i = some r := by
  intro fuel
  induction fuel with
  | zero => intro lm i r h; simp [UpdateParentMatricesRec] at h
  | succ fuel ih =>
    intro lm i r h
    have hfin : ∀ lm1 : LocalModel R M O,
        (match lm1.pieces[i]? with
          | none => none
          | some p1 =>
            ApplyParentMatrix E fuel
              (lm1.setPiece i
                { p1 with dirty := false
                          pieceSpaceMat :=
                            E.CalcPieceSpaceMatrix p1.pos p1.rot p1.original.scales
                          modelSpaceMat :=
                            E.CalcPieceSpaceMatrix p1.pos p1.rot p1.original.scales }) i)
          = some r →
        (match lm1.pieces[i]? with
          | none => none
          | some p1 =>
            ApplyParentMatrix E (fuel + 1)
              (lm1.setPiece i
                { p1 with dirty := false
                          pieceSpaceMat :=
                            E.CalcPieceSpaceMatrix p1.pos p1.rot p1.original.scales
                          modelSpaceMat :=
                            E.CalcPieceSpaceMatrix p1.pos p1.rot p1.original.scales }) i)
          = some r := by
      intro lm1 h1
      cases hp1 : lm1.pieces[i]? with
      | none => rw [hp1] at h1; cases h1
      | some p1 =>
        rw [hp1] at h1
        simp only at h1 ⊢
        exact applyParentMatrix_mono E (Nat.le_succ fuel) h1
    rw [UpdateParentMatricesRec] at h ⊢
    cases hp : lm.pieces[i]? with
    | none => rw [hp] at h; cases h
    | some p =>
      rw [hp] at h
      simp only at h ⊢
      cases hpp : p.parent with
      | none =>
        rw [hpp] at h
        simp only at h ⊢
        exact hfin lm h
      | some j =>
        rw [hpp] at h
        simp only at h ⊢
        cases hq : lm.pieces[j]? with
        | none => rw [hq] at h; cases h
        | some q =>
          rw [hq] at h
          simp only at h ⊢
          by_cases hc : q.dirty = true
          · rw [if_pos hc] at h ⊢
            cases hrec : UpdateParentMatricesRec E fuel lm j with
            | none => rw [hrec] at h; cases h
            | some lm1 =>
              rw [hrec] at h
              rw [ih lm j lm1 hrec]
              simp only at h ⊢
              exact hfin lm1 h
          · rw [if_neg hc] at h ⊢
            simp only at h ⊢
            exact hfin lm h

theorem updateParent_mono [Sub R] [Mul R] [Neg R] (E : Externals R M O) {fuel fuel1 : Nat}
    (hle : fuel ≤ fuel1) {lm : LocalModel R M O} {i : Nat} {r : LocalModel R M O}
    (h : UpdateParentMatricesRec E fuel lm i = some r) :
    UpdateParentMatricesRec E fuel1 lm i = some r := by
  induction hle with
  | refl => exact h
  | step _ ih => exact updateParent_succ E _ _ _ _ ih

/-! ## What a returning call has done -/

theorem setDirty_lt {fuel : Nat} {lm : LocalModel R M O} {i : Nat} {r : LocalModel R M O}
    (h : SetDirty fuel lm i = some r) : i < lm.pieces.length := by
  cases fuel with
  | zero => simp [SetDirty] at h
  | succ fuel =>
    rw [SetDirty] at h
    cases hp : lm.pieces[i]? with
    | none => rw [hp] at h; cases h
    | some p => exact lt_length_of_get hp

theorem updateChild_lt [Sub R] [Mul R] [Neg R] {E : Externals R M O} {fuel : Nat}
    {lm : LocalModel R M O} {i : Nat} {u : Bool} {r : LocalModel R M O}
    (h : UpdateChildMatricesRec E fuel lm i u = some r) : i < lm.pieces.length := by
  cases fuel with
  | zero => simp [UpdateChildMatricesRec] at h
  | succ fuel =>
    rw [UpdateChildMatricesRec] at h
    cases hp : lm.pieces[i]? with
    | none => rw [hp] at h; cases h
    | some p => exact lt_length_of_get hp

theorem updateParent_lt [Sub R] [Mul R] [Neg R] {E : Externals R M O} {fuel : Nat}
    {lm : LocalModel R M O} {i : Nat} {r : LocalModel R M O}
    (h : UpdateParentMatricesRec E fuel lm i = some r) : i < lm.pieces.length := by
  cases fuel with
  | zero => simp [UpdateParentMatricesRec] at h
  | succ fuel =>
    rw [UpdateParentMatricesRec] at h
    cases hp : lm.pieces[i]? with
    | none => rw [hp] at h; cases h
    | some p => exact lt_length_of_get hp

theorem setDirty_post {fuel : Nat} {lm : LocalModel R M O} {i : Nat} {r : LocalModel R M O}
    (ht : TreeShaped lm) (h : SetDirty fuel lm i = some r) : SetDirtyPost lm r i := by
  have hi := setDirty_lt h
  rcases setDirty_spec (fuel + lm.pieces.length) lm i ht hi (by omega) with ⟨r1, hr1, hpost⟩
  have := setDirty_mono (Nat.le_add_right fuel lm.pieces.length) h
  rw [this] at hr1; cases hr1
  exact hpost

theorem updateChild_post [Sub R] [Mul R] [Neg R] {E : Externals R M O} {fuel : Nat}
    {lm : LocalModel R M O} {i : Nat} {u : Bool} {r : LocalModel R M O}
    (ht : TreeShaped lm) (hno : NoActiveOverride lm)
    (h : UpdateChildMatricesRec E fuel lm i u = some r) : UpdateChildPost E lm r i u := by
  have hi := updateChild_lt h
  rcases updateChild_spec E (fuel + lm.pieces.length) lm i u ht hno hi (by omega)
    with ⟨r1, hr1, hpost⟩
  have := updateChild_mono E (Nat.le_add_right fuel lm.pieces.length) h
  rw [this] at hr1; cases hr1
  exact hpost

theorem updateParent_post [Sub R] [Mul R] [Neg R] {E : Externals R M O} {fuel : Nat}
    {lm : LocalModel R M O} {i : Nat} {r : LocalModel R M O}
    (ht : TreeShaped lm) (hno : NoActiveOverride lm)
    (h : UpdateParentMatricesRec E fuel lm i = some r) : UpdateParentPost E lm r i := by
  have hi := updateParent_lt h
  rcases updateParent_spec E (fuel + lm.pieces.length) lm i ht hno hi (by omega)
    with ⟨r1, hr1, hpost⟩
  have := updateParent_mono E (Nat.le_add_right fuel lm.pieces.length) h
  rw [this] at hr1; cases hr1
  exact hpost

end Fuel

section InvariantLemmas

variable {R M O : Type}

/-! ## The invariant of reachable states -/

theorem ModelInv.noOverride_model {E : Externals R M O} {lm : LocalModel R M O}
    (h : ModelInv E lm) : NoActiveOverride lm := Or.inr h.flags

theorem treeShaped_of_pieces {lm lm1 : LocalModel R M O} (h : lm1.pieces = lm.pieces)
    (ht : TreeShaped lm) : TreeShaped lm1 := by
  apply ht.congr_tree (by rw [h])
  · intro i; simp only [LocalModel.childrenOf, h]
  · intro i; simp only [LocalModel.parentOf, h]

theorem ModelInv.of_pieces_model {E : Externals R M O} {lm lm1 : LocalModel R M O}
    (h : lm1.pieces = lm.pieces) (hi : ModelInv E lm) : ModelInv E lm1 := by
  refine ⟨treeShaped_of_pieces h hi.tree, by rw [h]; exact hi.nonempty,
    by rw [h]; exact hi.flags, ?_, ?_⟩
  · intro i hd c hc
    have := hi.closed i (by simpa only [LocalModel.dirtyOf, h] using hd) c
      (by simpa only [LocalModel.childrenOf, h] using hc)
    simpa only [LocalModel.dirtyOf, h] using this
  · intro j p hp hd
    have := hi.consistent j p (by rw [← h]; exact hp) hd
    refine ⟨this.1, ?_⟩
    rw [this.2]
    symm
    apply composeWithParent_congr
    intro k _
    rw [h]

theorem flags_of_frame {lm lm1 : LocalModel R M O}
    (hlen : lm1.pieces.length = lm.pieces.length)
    (hp : ∀ (j : Nat) (p : LocalModelPiece R M), lm.pieces[j]? = some p →
      ∃ p1 : LocalModelPiece R M, lm1.pieces[j]? = some p1 ∧
        p1.pseudoWorldSpacePosition = p.pseudoWorldSpacePosition ∧
        p1.pseudoWorldSpaceRotation = p.pseudoWorldSpaceRotation)
    (h : ∀ p ∈ lm.pieces,
      p.pseudoWorldSpacePosition = false ∧ p.pseudoWorldSpaceRotation = false) :
    ∀ p ∈ lm1.pieces,
      p.pseudoWorldSpacePosition = false ∧ p.pseudoWorldSpaceRotation = false := by
  intro p1 hp1
  rcases List.getElem?_of_mem hp1 with ⟨j, hj⟩
  have hjl : j < lm.pieces.length := by
    rw [← hlen]; exact (List.getElem?_eq_some.1 hj).1
  rcases get_of_lt_length hjl with ⟨p, hpj⟩
  rcases hp j p hpj with ⟨p2, hp2, e1, e2⟩
  rw [hj] at hp2; cases hp2
  rw [e1, e2]
  exact h p (List.getElem?_mem hpj)

theorem RaisedFlags.pseudoPos_rf {p p1 : LocalModelPiece R M} (h : RaisedFlags p p1) :
    p1.pseudoWorldSpacePosition = p.pseudoWorldSpacePosition := by rw [h.same]

theorem RaisedFlags.pseudoRot_rf {p p1 : LocalModelPiece R M} (h : RaisedFlags p p1) :
    p1.pseudoWorldSpaceRotation = p.pseudoWorldSpaceRotation := by rw [h.same]

theorem RaisedFlags.pieceSpaceMat_rf {p p1 : LocalModelPiece R M} (h : RaisedFlags p p1) :
    p1.pieceSpaceMat = p.pieceSpaceMat := by rw [h.same]

theorem RaisedFlags.modelSpaceMat_rf {p p1 : LocalModelPiece R M} (h : RaisedFlags p p1) :
    p1.modelSpaceMat = p.modelSpaceMat := by rw [h.same]

theorem RaisedFlags.freshLocal_rf (E : Externals R M O) {p p1 : LocalModelPiece R M}
    (h : RaisedFlags p p1) : p1.freshLocal E = p.freshLocal E := by
  rw [h.same]; rfl

theorem composeWithParent_of_msm (E : Externals R M O) {lm lm1 : LocalModel R M O}
    {parent : Option Nat}
    (h : ∀ k, parent = some k →
      (lm1.pieces[k]?).map (fun q => q.modelSpaceMat) =
        (lm.pieces[k]?).map (fun q => q.modelSpaceMat)) (m : M) :
    composeWithParent E lm1 parent m = composeWithParent E lm parent m := by
  cases parent with
  | none => rfl
  | some k =>
    have := h k rfl
    simp only [composeWithParent]
    cases h1 : lm1.pieces[k]? with
    | none =>
      cases h2 : lm.pieces[k]? with
      | none => rfl
      | some q => rw [h1, h2] at this; cases this
    | some q1 =>
      cases h2 : lm.pieces[k]? with
      | none => rw [h1, h2] at this; cases this
      | some q =>
        rw [h1, h2] at this
        simp only [Option.map_some', Option.some.injEq] at this
        simp only [this]

theorem FlagFrame.msm_ff {lm lm1 : LocalModel R M O} (h : FlagFrame lm lm1) (k : Nat) :
    (lm1.pieces[k]?).map (fun q => q.modelSpaceMat) =
      (lm.pieces[k]?).map (fun q => q.modelSpaceMat) := by
  cases hp : lm.pieces[k]? with
  | none => rw [h.get_none_ff hp]
  | some p =>
    rcases h.piece k p hp with ⟨p1, hp1, r⟩
    rw [hp1]
    simp only [Option.map_some', r.modelSpaceMat_rf]

/-- Raising dirty flags so that the result is closed downwards keeps the
invariant. -/
theorem ModelInv.of_flagFrame {E : Externals R M O} {lm lm1 : LocalModel R M O}
    (hi : ModelInv E lm) (hfr : FlagFrame lm lm1) (hcl : DirtyClosed lm1) : ModelInv E lm1 := by
  refine ⟨hfr.treeShaped_ff hi.tree, by rw [hfr.length]; exact hi.nonempty, ?_, hcl, ?_⟩
  · apply flags_of_frame hfr.length _ hi.flags
    intro j p hp
    rcases hfr.piece j p hp with ⟨p1, hp1, r⟩
    exact ⟨p1, hp1, r.pseudoPos_rf, r.pseudoRot_rf⟩
  · intro j p1 hp1 hd
    have hjl : j < lm.pieces.length := by
      rw [← hfr.length]; exact lt_length_of_get hp1
    rcases get_of_lt_length hjl with ⟨p, hp⟩
    rcases hfr.piece j p hp with ⟨p2, hp2, r⟩
    rw [hp1] at hp2; cases hp2
    have hpd : p.dirty = false := by
      cases hx : p.dirty with
      | false => rfl
      | true => rw [r.dirty hx] at hd; cases hd
    rcases hi.consistent j p hp hpd with ⟨c1, c2⟩
    refine ⟨by rw [r.pieceSpaceMat_rf, r.freshLocal_rf E]; exact c1, ?_⟩
    rw [r.modelSpaceMat_rf, r.pieceSpaceMat_rf, r.parent_rf, c2]
    symm
    apply composeWithParent_of_msm
    intro k _
    exact hfr.msm_ff k

theorem setDirty_closed {lm lm1 : LocalModel R M O} {i : Nat}
    (hcl : DirtyClosed lm) (hpost : SetDirtyPost lm lm1 i) : DirtyClosed lm1 := by
  have hall := hpost.cascade (fun k _ _ hk => hcl k hk)
  intro k hk c hc
  rw [hpost.frame.childrenOf_ff] at hc
  by_cases hin : InSubtree lm i k
  · exact hall c (hin.snoc hc)
  · have hk0 : lm.dirtyOf k = true := by
      rw [← dirtyOf_congr (hpost.outside k hin)]; exact hk
    exact hpost.frame.dirtyOf_ff (hcl k hk0 c hc)

theorem setDirty_inv {E : Externals R M O} {fuel : Nat} {lm lm1 : LocalModel R M O} {i : Nat}
    (hi : ModelInv E lm) (h : SetDirty fuel lm i = some lm1) : ModelInv E lm1 := by
  have hpost := setDirty_post hi.tree h
  exact hi.of_flagFrame hpost.frame (setDirty_closed hi.closed hpost)

theorem CacheFrame.flags_cf {lm lm1 : LocalModel R M O} (hfr : CacheFrame lm lm1)
    (h : ∀ p ∈ lm.pieces,
      p.pseudoWorldSpacePosition = false ∧ p.pseudoWorldSpaceRotation = false) :
    ∀ p ∈ lm1.pieces,
      p.pseudoWorldSpacePosition = false ∧ p.pseudoWorldSpaceRotation = false := by
  apply flags_of_frame hfr.length _ h
  intro j p hp
  rcases hfr.piece j p hp with ⟨p1, hp1, r⟩
  exact ⟨p1, hp1, r.pseudoPos_co, r.pseudoRot_co⟩

theorem updateChild_root_inv [Sub R] [Mul R] [Neg R] {E : Externals R M O} {fuel : Nat}
    {lm lm1 : LocalModel R M O} {u : Bool} (hi : ModelInv E lm)
    (h : UpdateChildMatricesRec E fuel lm 0 u = some lm1) :
    ModelInv E lm1 ∧ ∀ j, lm1.dirtyOf j = false := by
  have hpost := updateChild_post hi.tree hi.noOverride_model h
  have hclean : ∀ j, lm1.dirtyOf j = false := by
    intro j
    by_cases hj : j < lm.pieces.length
    · exact hpost.clean j (inSubtree_root hi.tree j hj)
    · have : lm1.pieces[j]? = none := by
        apply List.getElem?_eq_none
        rw [hpost.frame.length]; omega
      simp [LocalModel.dirtyOf, this]
  refine ⟨⟨hpost.frame.treeShaped_cf hi.tree, by rw [hpost.frame.length]; exact hi.nonempty,
    hpost.frame.flags_cf hi.flags, ?_, ?_⟩, hclean⟩
  · intro k hk
    rw [hclean k] at hk; cases hk
  · intro j p1 hp1 _
    have hjl : j < lm.pieces.length := by
      rw [← hpost.frame.length]; exact lt_length_of_get hp1
    rcases get_of_lt_length hjl with ⟨p, hp⟩
    rcases hpost.frame.piece j p hp with ⟨p2, hp2, r⟩
    rw [hp1] at hp2; cases hp2
    have hin := inSubtree_root hi.tree j hjl
    have hloc := hpost.loc j p p1 hin hp hp1
    have hmod := hpost.model (fun k _ hk => hi.closed k hk) j p p1 hin hp hp1
    have hpsm : p1.pieceSpaceMat = p1.freshLocal E := by
      rw [hloc, r.freshLocal_co E]
      cases hd : p.dirty with
      | true => simp
      | false => simpa using (hi.consistent j p hp hd).1
    refine ⟨hpsm, ?_⟩
    rw [hmod, r.parent_co]
    cases hd : p.dirty with
    | true => simp
    | false =>
      cases u with
      | true => simp
      | false =>
        simp only [Bool.or_false, Bool.false_eq_true, if_false]
        rcases hi.consistent j p hp hd with ⟨c1, c2⟩
        have hpsm1 : p1.pieceSpaceMat = p.pieceSpaceMat := by rw [hloc, hd]; simp
        rw [c2, hpsm1]
        symm
        apply composeWithParent_of_msm
        intro k hk
        -- the parent of a clean piece is clean, so its matrix is kept
        have hpk : lm.parentOf j = some k := by rw [parentOf_eq hp]; exact hk
        rcases hi.tree.parent_lt hpk with ⟨hkj, hmem⟩
        have hkd : lm.dirtyOf k = false := by
          cases hx : lm.dirtyOf k with
          | false => rfl
          | true =>
            have := hi.closed k hx j hmem
            rw [dirtyOf_eq hp, hd] at this; cases this
        rcases get_of_lt_length (Nat.lt_trans hkj hjl) with ⟨q, hq⟩
        rcases hpost.frame.piece k q hq with ⟨q1, hq1, _⟩
        have hqd : q.dirty = false := by rw [← dirtyOf_eq hq]; exact hkd
        have := hpost.model (fun k _ hk => hi.closed k hk) k q q1
          (inSubtree_root hi.tree k (Nat.lt_trans hkj hjl)) hq hq1
        rw [hq1, hq]
        simp only [Option.map_some', Option.some.injEq]
        rw [this, hqd]
        simp

theorem updateParent_inv [Sub R] [Mul R] [Neg R] {E : Externals R M O} {fuel : Nat}
    {lm lm1 : LocalModel R M O} {i : Nat} (hi : ModelInv E lm)
    (h : UpdateParentMatricesRec E fuel lm i = some lm1) : ModelInv E lm1 := by
  have hpost := updateParent_post hi.tree hi.noOverride_model h
  exact ⟨hpost.frame.treeShaped_cf hi.tree, by rw [hpost.frame.length]; exact hi.nonempty,
    hpost.frame.flags_cf hi.flags, (hpost.closed hi.closed).1,
    hpost.consistent hi.closed hi.consistent⟩

end InvariantLemmas

section SetModelLemmas

variable {R M O : Type}

/-! ## `SetPosOrRot`, `SetModel` and the reference transform -/

theorem modifyPiece_eq {lm : LocalModel R M O} {i : Nat} {p : LocalModelPiece R M}
    (h : lm.pieces[i]? = some p) (f : LocalModelPiece R M → LocalModelPiece R M) :
    lm.modifyPiece i f = lm.setPiece i (f p) := by
  simp only [LocalModel.modifyPiece, h]

theorem setDst_getDst (p : LocalModelPiece R M) (dst : PosOrRot) :
    p.setDst dst (p.getDst dst) = p := by
  cases dst <;> rfl

theorem getDst_setDst (p : LocalModelPiece R M) (dst : PosOrRot) (v : float3 R) :
    (p.setDst dst v).getDst dst = v := by
  cases dst <;> rfl

theorem setDst_dirty (p : LocalModelPiece R M) (dst : PosOrRot) (v : float3 R) :
    (p.setDst dst v).dirty = p.dirty := by
  cases dst <;> rfl

theorem setDst_customDirty (p : LocalModelPiece R M) (dst : PosOrRot) (v : float3 R) :
    (p.setDst dst v).customDirty = p.customDirty := by
  cases dst <;> rfl

theorem setDst_children (p : LocalModelPiece R M) (dst : PosOrRot) (v : float3 R) :
    (p.setDst dst v).children = p.children := by
  cases dst <;> rfl

theorem setDst_parent (p : LocalModelPiece R M) (dst : PosOrRot) (v : float3 R) :
    (p.setDst dst v).parent = p.parent := by
  cases dst <;> rfl

theorem setDst_modelSpaceMat (p : LocalModelPiece R M) (dst : PosOrRot) (v : float3 R) :
    (p.setDst dst v).modelSpaceMat = p.modelSpaceMat := by
  cases dst <;> rfl

theorem setDst_pseudo (p : LocalModelPiece R M) (dst : PosOrRot) (v : float3 R) :
    (p.setDst dst v).pseudoWorldSpacePosition = p.pseudoWorldSpacePosition ∧
    (p.setDst dst v).pseudoWorldSpaceRotation = p.pseudoWorldSpaceRotation := by
  cases dst <;> exact ⟨rfl, rfl⟩

/-- Storing a new `pos` or `rot` in a dirty piece keeps the invariant. -/
theorem storeDst_inv {E : Externals R M O} {lm : LocalModel R M O} {i : Nat}
    {p : LocalModelPiece R M} (hi : ModelInv E lm) (hp : lm.pieces[i]? = some p)
    (hd : p.dirty = true) (dst : PosOrRot) (src : float3 R) :
    ModelInv E (lm.setPiece i (p.setDst dst src)) := by
  have hself : (lm.setPiece i (p.setDst dst src)).pieces[i]? = some (p.setDst dst src) :=
    setPiece_get_self _ hp
  have hne : ∀ j, j ≠ i → (lm.setPiece i (p.setDst dst src)).pieces[j]? = lm.pieces[j]? :=
    fun j hj => setPiece_get_ne lm _ (Ne.symm hj)
  have hch : ∀ j, (lm.setPiece i (p.setDst dst src)).childrenOf j = lm.childrenOf j := by
    intro j
    by_cases hj : j = i
    · subst hj; rw [childrenOf_eq hself, childrenOf_eq hp, setDst_children]
    · simp only [LocalModel.childrenOf, hne j hj]
  have hpa : ∀ j, (lm.setPiece i (p.setDst dst src)).parentOf j = lm.parentOf j := by
    intro j
    by_cases hj : j = i
    · subst hj; rw [parentOf_eq hself, parentOf_eq hp, setDst_parent]
    · simp only [LocalModel.parentOf, hne j hj]
  have hdi : ∀ j, (lm.setPiece i (p.setDst dst src)).dirtyOf j = lm.dirtyOf j := by
    intro j
    by_cases hj : j = i
    · subst hj; rw [dirtyOf_eq hself, dirtyOf_eq hp, setDst_dirty]
    · simp only [LocalModel.dirtyOf, hne j hj]
  have hlen : (lm.setPiece i (p.setDst dst src)).pieces.length = lm.pieces.length := by simp
  refine ⟨hi.tree.congr_tree hlen hch hpa, by rw [hlen]; exact hi.nonempty, ?_, ?_, ?_⟩
  · apply flags_of_frame hlen _ hi.flags
    intro j q hq
    by_cases hj : j = i
    · subst hj
      rw [hp] at hq; cases hq
      exact ⟨_, hself, (setDst_pseudo _ _ _).1, (setDst_pseudo _ _ _).2⟩
    · exact ⟨q, by rw [hne j hj]; exact hq, rfl, rfl⟩
  · intro k hk c hc
    rw [hdi] at hk ⊢
    rw [hch] at hc
    exact hi.closed k hk c hc
  · intro j q hq hqd
    have hj : j ≠ i := by
      intro h; subst h
      rw [hself] at hq; cases hq
      rw [setDst_dirty, hd] at hqd; cases hqd
    rw [hne j hj] at hq
    rcases hi.consistent j q hq hqd with ⟨c1, c2⟩
    refine ⟨c1, ?_⟩
    rw [c2]
    symm
    apply composeWithParent_of_msm
    intro k _
    by_cases hk : k = i
    · subst hk
      rw [hself, hp]
      simp only [Option.map_some', setDst_modelSpaceMat]
    · rw [hne k hk]

theorem setPosOrRot_inv {E : Externals R M O}
    (hsame : ∀ a b : float3 R, E.same a b = true ↔ a = b) {fuel : Nat}
    {lm lm1 : LocalModel R M O} {i : Nat} {src : float3 R} {dst : PosOrRot}
    (hi : ModelInv E lm) (h : SetPosOrRot E fuel lm i src dst = some lm1) :
    ModelInv E lm1 := by
  unfold SetPosOrRot at h
  cases hp : lm.pieces[i]? with
  | none => rw [hp] at h; cases h
  | some p =>
    rw [hp] at h
    simp only at h
    by_cases hb : p.blockScriptAnims = true
    · rw [if_pos hb] at h
      cases h
      exact hi
    · rw [if_neg hb] at h
      by_cases hc : (!p.dirty && !E.same (p.getDst dst) src) = true
      · rw [if_pos hc] at h
        cases hsd : SetDirty fuel lm i with
        | none => rw [hsd] at h; cases h
        | some lm2 =>
          rw [hsd] at h
          simp only [Option.some.injEq] at h
          subst h
          have hi2 := setDirty_inv hi hsd
          have hpost := setDirty_post hi.tree hsd
          rcases hpost.self with ⟨p2, hp2, hp2d, _⟩
          have hpieces : ({ lm2 with needsBoundariesRecalc := true } :
              LocalModel R M O).pieces = lm2.pieces := rfl
          have hi3 : ModelInv E ({ lm2 with needsBoundariesRecalc := true } : LocalModel R M O) :=
            hi2.of_pieces_model hpieces
          have hp3 : ({ lm2 with needsBoundariesRecalc := true } : LocalModel R M O).pieces[i]?
              = some p2 := hp2
          rw [modifyPiece_eq hp3]
          exact storeDst_inv hi3 hp3 hp2d dst src
      · rw [if_neg hc] at h
        simp only [Option.some.injEq] at h
        subst h
        rw [modifyPiece_eq hp]
        cases hd : p.dirty with
        | true => exact storeDst_inv hi hp hd dst src
        | false =>
          have hs : E.same (p.getDst dst) src = true := by
            cases hx : E.same (p.getDst dst) src with
            | true => rfl
            | false => rw [hd, hx] at hc; simp at hc
          have : p.getDst dst = src := (hsame _ _).1 hs
          rw [← this, setDst_getDst, setPiece_same hp]
          exact hi

mutual
theorem mirrorPieces_fresh [Sub R] (E : Externals R M O) (base : Nat) (parent : Option Nat) :
    ∀ (t : S3DModelPiece R) (p : LocalModelPiece R M), p ∈ mirrorPieces E base parent t →
      p.dirty = true ∧ p.pseudoWorldSpacePosition = false ∧ p.pseudoWorldSpaceRotation = false
  | .mk n o s mi ma v ix c, p, hp => by
    simp only [mirrorPieces, List.mem_cons] at hp
    rcases hp with hp | hp
    · subst hp; exact ⟨rfl, rfl, rfl⟩
    · exact mirrorForest_fresh E (base + 1) base c p hp
theorem mirrorForest_fresh [Sub R] (E : Externals R M O) (base : Nat) (parentIdx : Nat) :
    ∀ (ts : List (S3DModelPiece R)) (p : LocalModelPiece R M),
      p ∈ mirrorForest E base parentIdx ts →
      p.dirty = true ∧ p.pseudoWorldSpacePosition = false ∧ p.pseudoWorldSpaceRotation = false
  | [], p, hp => by simp [mirrorForest] at hp
  | t :: ts, p, hp => by
    simp only [mirrorForest, List.mem_append] at hp
    rcases hp with hp | hp
    · exact mirrorPieces_fresh E base (some parentIdx) t p hp
    · exact mirrorForest_fresh E (base + t.numNodes) parentIdx ts p hp
end

theorem createdModel_segment [Sub R] (E : Externals R M O) (lm0 : LocalModel R M O)
    (root : S3DModelPiece R) :
    SegmentOK 0 root.numNodes (createdModel E lm0 root).pieces [0] none [root] := by
  have := mirrorPieces_segment E root ([] : List (LocalModelPiece R M)) none
  simpa [createdModel] using this

theorem treeShaped_of_segment {lm : LocalModel R M O} {root : S3DModelPiece R}
    (hlen : lm.pieces.length = root.numNodes)
    (h : SegmentOK 0 root.numNodes lm.pieces [0] none [root]) : TreeShaped lm := by
  intro i hi
  rcases get_of_lt_length hi with ⟨p, hp⟩
  rcases h.piece i p (Nat.zero_le _) (by omega) hp with ⟨_, _, h3, _, h5, h6⟩
  refine ⟨?_, ?_, ?_⟩
  · rw [childrenOf_eq hp, h3]; exact childSlots_nodup _ _
  · intro c hc
    rw [childrenOf_eq hp] at hc
    rcases h5 c hc with ⟨a, b, q, hq, hqp⟩
    exact ⟨a, by omega, by rw [parentOf_eq hq]; exact hqp⟩
  · rcases h6 with ⟨hr, hpp⟩ | ⟨j, _, hj2, hj3, q, hq, hqi⟩
    · left
      simp only [List.mem_singleton] at hr
      exact ⟨by rw [parentOf_eq hp]; exact hpp, hr⟩
    · right
      exact ⟨j, hj2, by rw [parentOf_eq hp]; exact hj3, by rw [childrenOf_eq hq]; exact hqi⟩

theorem createdModel_inv [Sub R] (E : Externals R M O) (lm0 : LocalModel R M O)
    (root : S3DModelPiece R) : ModelInv E (createdModel E lm0 root) := by
  have hlen : (createdModel E lm0 root).pieces.length = root.numNodes := by
    simp [createdModel, mirrorPieces_length]
  have hfresh : ∀ p ∈ (createdModel E lm0 root).pieces,
      p.dirty = true ∧ p.pseudoWorldSpacePosition = false ∧ p.pseudoWorldSpaceRotation = false :=
    fun p hp => mirrorPieces_fresh E 0 none root p hp
  have ht := treeShaped_of_segment hlen (createdModel_segment E lm0 root)
  refine ⟨ht, by rw [hlen]; exact root.numNodes_pos, fun p hp => (hfresh p hp).2, ?_, ?_⟩
  · intro i _ c hc
    rcases get_of_lt_length (ht.child_gt hc).2.1 with ⟨q, hq⟩
    rw [dirtyOf_eq hq]
    exact (hfresh q (List.getElem?_mem hq)).1
  · intro j p hp hd
    rw [(hfresh p (List.getElem?_mem hp)).1] at hd; cases hd

theorem createLocalModelPieces_fresh [Sub R] (E : Externals R M O) (lm0 : LocalModel R M O)
    (root : S3DModelPiece R) :
    (CreateLocalModelPieces E { lm0 with pieces := [] } root).1 = createdModel E lm0 root := by
  rw [createLocalModelPieces_eq]
  simp [createdModel]

theorem updateBoundingVolume_pieces [Add R] [Sub R] [Mul R] [Min R] [Max R]
    (E : Externals R M O) (lm : LocalModel R M O) :
    (UpdateBoundingVolume E lm).pieces = lm.pieces := rfl

theorem setModel_fresh_some [Add R] [Sub R] [Mul R] [Neg R] [Min R] [Max R]
    {E : Externals R M O} {fuel : Nat} {lm0 lm : LocalModel R M O} {model : S3DModel R}
    (h : SetModel E fuel lm0 model true = some lm) :
    ∃ root lm2, model.GetRootPiece = some root ∧
      UpdateChildMatricesRec E fuel (createdModel E lm0 root) 0 false = some lm2 ∧
      lm = UpdateBoundingVolume E lm2 ∧ lm2.pieces.length = model.numPieces := by
  unfold SetModel at h
  by_cases h1 : model.numPieces < 1
  · rw [if_pos h1] at h; cases h
  · rw [if_neg h1] at h
    simp only [Bool.not_true, Bool.false_eq_true, if_false] at h
    by_cases h2 : (!lm0.pieces.isEmpty) = true
    · rw [if_pos h2] at h; cases h
    · rw [if_neg h2] at h
      cases hr : model.GetRootPiece with
      | none => rw [hr] at h; cases h
      | some root =>
        rw [hr] at h
        simp only [createLocalModelPieces_fresh] at h
        cases hu : UpdateChildMatricesRec E fuel (createdModel E lm0 root) 0 false with
        | none => rw [hu] at h; cases h
        | some lm2 =>
          rw [hu] at h
          simp only at h
          by_cases h3 : (UpdateBoundingVolume E lm2).pieces.length = model.numPieces
          · rw [if_pos h3] at h
            cases h
            exact ⟨root, lm2, rfl, hu, rfl, h3⟩
          · rw [if_neg h3] at h; cases h

theorem setModel_fresh_run [Add R] [Sub R] [Mul R] [Neg R] [Min R] [Max R]
    {E : Externals R M O} {fuel : Nat} {lm0 lm2 : LocalModel R M O} {model : S3DModel R}
    {root : S3DModelPiece R} (h0 : lm0.pieces = []) (hr : model.GetRootPiece = some root)
    (hn : 1 ≤ model.numPieces)
    (hu : UpdateChildMatricesRec E fuel (createdModel E lm0 root) 0 false = some lm2)
    (hlen : lm2.pieces.length = model.numPieces) :
    SetModel E fuel lm0 model true = some (UpdateBoundingVolume E lm2) := by
  unfold SetModel
  rw [if_neg (by omega)]
  simp only [Bool.not_true, Bool.false_eq_true, if_false]
  rw [if_neg (by simp [h0])]
  simp only [hr, createLocalModelPieces_fresh, hu]
  rw [if_pos (by rw [updateBoundingVolume_pieces]; exact hlen)]

theorem setModel_fresh_inv [Add R] [Sub R] [Mul R] [Neg R] [Min R] [Max R]
    {E : Externals R M O} {fuel : Nat} {lm0 lm : LocalModel R M O} {model : S3DModel R}
    (h : SetModel E fuel lm0 model true = some lm) : ModelInv E lm := by
  rcases setModel_fresh_some h with ⟨root, lm2, _, hu, hlm, _⟩
  have := (updateChild_root_inv (createdModel_inv E lm0 root) hu).1
  rw [hlm]
  exact this.of_pieces_model (updateBoundingVolume_pieces E lm2)

theorem reachable_inv [Add R] [Sub R] [Mul R] [Neg R] [Min R] [Max R]
    {E : Externals R M O} (hsame : ∀ a b : float3 R, E.same a b = true ↔ a = b)
    {model : S3DModel R} {lm : LocalModel R M O} (h : Reachable E model lm) :
    ModelInv E lm := by
  induction h with
  | fresh _ hs => exact setModel_fresh_inv hs
  | setPosOrRot _ hs ih => exact setPosOrRot_inv hsame ih hs
  | setDirty _ hs ih => exact setDirty_inv ih hs
  | updateParent _ hs ih => exact updateParent_inv ih hs
  | updateChild _ hs ih => exact (updateChild_root_inv ih hs).1

/-- Where a piece and everything above it is clean, its cached model-space
matrix is the reference transform. -/
theorem referenceMat_of_clean {E : Externals R M O} {lm : LocalModel R M O}
    (ht : TreeShaped lm) (hcc : CleanConsistent E lm) :
    ∀ (i fuel : Nat) (p : LocalModelPiece R M), i < fuel → lm.pieces[i]? = some p →
      (∀ a, InSubtree lm a i → lm.dirtyOf a = false) →
      referenceMat E fuel lm i = some p.modelSpaceMat := by
  intro i
  induction i using Nat.strong_induction_on with
  | _ i ih =>
    intro fuel p hf hp hclean
    cases fuel with
    | zero => omega
    | succ fuel =>
      have hpd : p.dirty = false := by
        rw [← dirtyOf_eq hp]; exact hclean i (InSubtree.refl i)
      rcases hcc i p hp hpd with ⟨c1, c2⟩
      simp only [referenceMat, hp]
      cases hpp : p.parent with
      | none =>
        simp only
        rw [c2, hpp, c1]
        rfl
      | some j =>
        have hpj : lm.parentOf i = some j := by rw [parentOf_eq hp]; exact hpp
        rcases ht.parent_lt hpj with ⟨hji, hmem⟩
        rcases get_of_lt_length (Nat.lt_trans hji (lt_length_of_get hp)) with ⟨q, hq⟩
        have := ih j hji fuel q (by omega) hq
          (fun a ha => hclean a (ha.snoc hmem))
        simp only [this]
        rw [c2, hpp, c1]
        simp only [composeWithParent, hq]
        rfl

end SetModelLemmas

section DirtyInvLemmas

variable {R M O : Type}

/-! ## The matrix-free invariant -/

theorem ModelInv.dirtyInv {E : Externals R M O} {lm : LocalModel R M O}
    (h : ModelInv E lm) : DirtyInv lm := ⟨h.tree, h.nonempty, h.flags, h.closed⟩

theorem DirtyInv.noOverride_dirty {lm : LocalModel R M O} (h : DirtyInv lm) : NoActiveOverride lm :=
  Or.inr h.flags

theorem DirtyInv.of_pieces_dirty {lm lm1 : LocalModel R M O} (h : lm1.pieces = lm.pieces)
    (hi : DirtyInv lm) : DirtyInv lm1 := by
  refine ⟨treeShaped_of_pieces h hi.tree, by rw [h]; exact hi.nonempty,
    by rw [h]; exact hi.flags, ?_⟩
  intro i hd c hc
  have := hi.closed i (by simpa only [LocalModel.dirtyOf, h] using hd) c
    (by simpa only [LocalModel.childrenOf, h] using hc)
  simpa only [LocalModel.dirtyOf, h] using this

theorem setDirty_dirtyInv {fuel : Nat} {lm lm1 : LocalModel R M O} {i : Nat}
    (hi : DirtyInv lm) (h : SetDirty fuel lm i = some lm1) : DirtyInv lm1 := by
  have hpost := setDirty_post hi.tree h
  refine ⟨hpost.frame.treeShaped_ff hi.tree, by rw [hpost.frame.length]; exact hi.nonempty, ?_,
    setDirty_closed hi.closed hpost⟩
  apply flags_of_frame hpost.frame.length _ hi.flags
  intro j p hp
  rcases hpost.frame.piece j p hp with ⟨p1, hp1, r⟩
  exact ⟨p1, hp1, r.pseudoPos_rf, r.pseudoRot_rf⟩

/-- Storing a new `pos` or `rot` touches neither the links nor the flags. -/
theorem storeDst_dirtyInv {lm : LocalModel R M O} {i : Nat} {p : LocalModelPiece R M}
    (hi : DirtyInv lm) (hp : lm.pieces[i]? = some p) (dst : PosOrRot) (src : float3 R) :
    DirtyInv (lm.setPiece i (p.setDst dst src)) := by
  have hself : (lm.setPiece i (p.setDst dst src)).pieces[i]? = some (p.setDst dst src) :=
    setPiece_get_self _ hp
  have hne : ∀ j, j ≠ i → (lm.setPiece i (p.setDst dst src)).pieces[j]? = lm.pieces[j]? :=
    fun j hj => setPiece_get_ne lm _ (Ne.symm hj)
  have hch : ∀ j, (lm.setPiece i (p.setDst dst src)).childrenOf j = lm.childrenOf j := by
    intro j
    by_cases hj : j = i
    · subst hj; rw [childrenOf_eq hself, childrenOf_eq hp, setDst_children]
    · simp only [LocalModel.childrenOf, hne j hj]
  have hpa : ∀ j, (lm.setPiece i (p.setDst dst src)).parentOf j = lm.parentOf j := by
    intro j
    by_cases hj : j = i
    · subst hj; rw [parentOf_eq hself, parentOf_eq hp, setDst_parent]
    · simp only [LocalModel.parentOf, hne j hj]
  have hdi : ∀ j, (lm.setPiece i (p.setDst dst src)).dirtyOf j = lm.dirtyOf j := by
    intro j
    by_cases hj : j = i
    · subst hj; rw [dirtyOf_eq hself, dirtyOf_eq hp, setDst_dirty]
    · simp only [LocalModel.dirtyOf, hne j hj]
  have hlen : (lm.setPiece i (p.setDst dst src)).pieces.length = lm.pieces.length := by simp
  refine ⟨hi.tree.congr_tree hlen hch hpa, by rw [hlen]; exact hi.nonempty, ?_, ?_⟩
  · apply flags_of_frame hlen _ hi.flags
    intro j q hq
    by_cases hj : j = i
    · subst hj
      rw [hp] at hq; cases hq
      exact ⟨_, hself, (setDst_pseudo _ _ _).1, (setDst_pseudo _ _ _).2⟩
    · exact ⟨q, by rw [hne j hj]; exact hq, rfl, rfl⟩
  · intro k hk c hc
    rw [hdi] at hk ⊢
    rw [hch] at hc
    exact hi.closed k hk c hc

theorem setPosOrRot_dirtyInv {E : Externals R M O} {fuel : Nat}
    {lm lm1 : LocalModel R M O} {i : Nat} {src : float3 R} {dst : PosOrRot}
    (hi : DirtyInv lm) (h : SetPosOrRot E fuel lm i src dst = some lm1) : DirtyInv lm1 := by
  unfold SetPosOrRot at h
  cases hp : lm.pieces[i]? with
  | none => rw [hp] at h; cases h
  | some p =>
    rw [hp] at h
    simp only at h
    by_cases hb : p.blockScriptAnims = true
    · rw [if_pos hb] at h
      cases h
      exact hi
    · rw [if_neg hb] at h
      by_cases hc : (!p.dirty && !E.same (p.getDst dst) src) = true
      · rw [if_pos hc] at h
        cases hsd : SetDirty fuel lm i with
        | none => rw [hsd] at h; cases h
        | some lm2 =>
          rw [hsd] at h
          simp only [Option.some.injEq] at h
          subst h
          have hi2 := setDirty_dirtyInv hi hsd
          have hpost := setDirty_post hi.tree hsd
          rcases hpost.self with ⟨p2, hp2, _, _⟩
          have hpieces : ({ lm2 with needsBoundariesRecalc := true } :
              LocalModel R M O).pieces = lm2.pieces := rfl
          have hi3 : DirtyInv ({ lm2 with needsBoundariesRecalc := true } : LocalModel R M O) :=
            hi2.of_pieces_dirty hpieces
          have hp3 : ({ lm2 with needsBoundariesRecalc := true } : LocalModel R M O).pieces[i]?
              = some p2 := hp2
          rw [modifyPiece_eq hp3]
          exact storeDst_dirtyInv hi3 hp3 dst src
      · rw [if_neg hc] at h
        simp only [Option.some.injEq] at h
        subst h
        rw [modifyPiece_eq hp]
        exact storeDst_dirtyInv hi hp dst src

theorem updateChild_root_dirtyInv [Sub R] [Mul R] [Neg R] {E : Externals R M O} {fuel : Nat}
    {lm lm1 : LocalModel R M O} {u : Bool} (hi : DirtyInv lm)
    (h : UpdateChildMatricesRec E fuel lm 0 u = some lm1) :
    DirtyInv lm1 ∧ ∀ j, lm1.dirtyOf j = false := by
  have hpost := updateChild_post hi.tree hi.noOverride_dirty h
  have hclean : ∀ j, lm1.dirtyOf j = false := by
    intro j
    by_cases hj : j < lm.pieces.length
    · exact hpost.clean j (inSubtree_root hi.tree j hj)
    · have : lm1.pieces[j]? = none := by
        apply List.getElem?_eq_none
        rw [hpost.frame.length]; omega
      simp [LocalModel.dirtyOf, this]
  refine ⟨⟨hpost.frame.treeShaped_cf hi.tree, by rw [hpost.frame.length]; exact hi.nonempty,
    hpost.frame.flags_cf hi.flags, ?_⟩, hclean⟩
  intro k hk
  rw [hclean k] at hk; cases hk

theorem updateParent_dirtyInv [Sub R] [Mul R] [Neg R] {E : Externals R M O} {fuel : Nat}
    {lm lm1 : LocalModel R M O} {i : Nat} (hi : DirtyInv lm)
    (h : UpdateParentMatricesRec E fuel lm i = some lm1) : DirtyInv lm1 := by
  have hpost := updateParent_post hi.tree hi.noOverride_dirty h
  exact ⟨hpost.frame.treeShaped_cf hi.tree, by rw [hpost.frame.length]; exact hi.nonempty,
    hpost.frame.flags_cf hi.flags, (hpost.closed hi.closed).1⟩

theorem reachable_dirtyInv [Add R] [Sub R] [Mul R] [Neg R] [Min R] [Max R]
    {E : Externals R M O} {model : S3DModel R} {lm : LocalModel R M O}
    (h : Reachable E model lm) : DirtyInv lm := by
  induction h with
  | fresh _ hs => exact (setModel_fresh_inv hs).dirtyInv
  | setPosOrRot _ hs ih => exact setPosOrRot_dirtyInv ih hs
  | setDirty _ hs ih => exact setDirty_dirtyInv ih hs
  | updateParent _ hs ih => exact updateParent_dirtyInv ih hs
  | updateChild _ hs ih => exact (updateChild_root_dirtyInv ih hs).1

theorem referenceMat_congr (E : Externals R M O) {lm lm1 : LocalModel R M O}
    (hfr : CacheFrame lm lm1) : ∀ (fuel i : Nat),
    referenceMat E fuel lm1 i = referenceMat E fuel lm i := by
  intro fuel
  induction fuel with
  | zero => intro i; rfl
  | succ fuel ih =>
    intro i
    simp only [referenceMat]
    cases hp : lm.pieces[i]? with
    | none => rw [hfr.get_none_cf hp]
    | some p =>
      rcases hfr.piece i p hp with ⟨p1, hp1, r⟩
      rw [hp1]
      simp only [r.pos_co, r.rot_co, r.original_co, r.parent_co, ih]

theorem CacheFrame.get_back_cf {lm lm1 : LocalModel R M O} (hfr : CacheFrame lm lm1) {j : Nat}
    {p1 : LocalModelPiece R M} (h : lm1.pieces[j]? = some p1) :
    ∃ p, lm.pieces[j]? = some p ∧ CachesOnly p p1 := by
  have hjl : j < lm.pieces.length := by
    rw [← hfr.length]; exact lt_length_of_get h
  rcases get_of_lt_length hjl with ⟨p, hp⟩
  rcases hfr.piece j p hp with ⟨p2, hp2, r⟩
  rw [h] at hp2; cases hp2
  exact ⟨p, hp, r⟩

theorem CacheFrame.original_at_cf {lm lm1 : LocalModel R M O} (hfr : CacheFrame lm lm1)
    (k : Nat) :
    (lm1.pieces[k]?).map (fun q => q.original) = (lm.pieces[k]?).map (fun q => q.original) := by
  cases hp : lm.pieces[k]? with
  | none => rw [hfr.get_none_cf hp]
  | some p =>
    rcases hfr.piece k p hp with ⟨p1, hp1, r⟩
    rw [hp1]
    simp only [Option.map_some', r.original_co]

theorem CacheFrame.map_original_cf {lm lm1 : LocalModel R M O} (hfr : CacheFrame lm lm1) :
    lm1.pieces.map (fun q => q.original) = lm.pieces.map (fun q => q.original) := by
  apply List.ext_getElem?
  intro k
  rw [List.getElem?_map, List.getElem?_map]
  exact hfr.original_at_cf k

end DirtyInvLemmas

section Claims

variable {R M O : Type}

/-! ## Claims -/

/-- A bounded check of downward closure is enough: pieces outside the array
are never dirty. -/
theorem dirtyClosed_of_bounded {lm : LocalModel R M O}
    (h : ∀ i < lm.pieces.length, lm.dirtyOf i = true →
      ∀ c ∈ lm.childrenOf i, lm.dirtyOf c = true) : DirtyClosed lm := by
  intro i hd c hc
  rcases get_of_dirtyOf hd with ⟨p, hp, _⟩
  exact h i (lt_length_of_get hp) hd c hc

/-- C1: for a static model whose piece tree has `numPieces` nodes,
`SetModel(model, true)` on a model without pieces returns, and the result has
exactly `numPieces` pieces laid out in depth-first pre-order of the static
tree: `pieces[i].original` is the `i`-th static piece in pre-order, `pieces[0]`
mirrors the root and has no parent, the children of `pieces[i]` are, in order,
the pieces at the pre-order positions of the static children and mirror them,
and each of them has `pieces[i]` as parent. -/
theorem C1_setModel_builds_preorder_mirror [Add R] [Sub R] [Mul R] [Neg R] [Min R] [Max R]
    (E : Externals R M O) (fuel : Nat) (lm0 : LocalModel R M O) (model : S3DModel R)
    (root : S3DModelPiece R) (h0 : lm0.pieces = []) (hr : model.GetRootPiece = some root)
    (hn : model.numPieces = root.numNodes) (hf : root.numNodes ≤ fuel) :
    ∃ lm, SetModel E fuel lm0 model true = some lm ∧
      lm.pieces.length = model.numPieces ∧
      lm.pieces.map (fun p => p.original) = root.preorder ∧
      (∃ p0 : LocalModelPiece R M,
        lm.pieces[0]? = some p0 ∧ p0.original = root ∧ p0.parent = none) ∧
      ∀ (i : Nat) (p : LocalModelPiece R M), lm.pieces[i]? = some p →
        p.children = childSlots (i + 1) p.original.children ∧
        p.children.map (fun c => (lm.pieces[c]?).map (fun q => q.original)) =
          p.original.children.map some ∧
        ∀ c ∈ p.children,
          ∃ q : LocalModelPiece R M, lm.pieces[c]? = some q ∧ q.parent = some i := by
  have hinv := createdModel_inv E lm0 root
  have hseg := createdModel_segment E lm0 root
  have hlenc : (createdModel E lm0 root).pieces.length = root.numNodes := by
    simp [createdModel, mirrorPieces_length]
  have hpos := root.numNodes_pos
  rcases updateChild_spec E fuel (createdModel E lm0 root) 0 false hinv.tree hinv.noOverride_model
    (by omega) (by omega) with ⟨lm2, hu, hpost⟩
  have hlen2 : lm2.pieces.length = model.numPieces := by
    rw [hpost.frame.length, hlenc, hn]
  have hrun := setModel_fresh_run h0 hr (by omega) hu hlen2
  refine ⟨UpdateBoundingVolume E lm2, hrun, hlen2, ?_, ?_, ?_⟩
  · show lm2.pieces.map (fun p => p.original) = root.preorder
    rw [hpost.frame.map_original_cf]
    exact mirrorPieces_original E 0 none root
  · show ∃ p0 : LocalModelPiece R M,
      lm2.pieces[0]? = some p0 ∧ p0.original = root ∧ p0.parent = none
    rcases hseg.root 0 (by simp) with ⟨_, _, q, hq, hqp⟩
    rcases hpost.frame.piece 0 q hq with ⟨q1, hq1, r⟩
    refine ⟨q1, hq1, ?_, by rw [r.parent_co]; exact hqp⟩
    have := hseg.rootOriginal
    simp only [List.map_cons, List.map_nil, hq, Option.map_some', List.cons.injEq,
      Option.some.injEq, and_true] at this
    rw [r.original_co]; exact this
  · intro i p hp
    have hp2 : lm2.pieces[i]? = some p := hp
    rcases hpost.frame.get_back_cf hp2 with ⟨p0, hp0, r⟩
    have hi : i < root.numNodes := by rw [← hlenc]; exact lt_length_of_get hp0
    rcases hseg.piece i p0 (Nat.zero_le _) hi hp0 with ⟨_, _, h3, h4, h5, _⟩
    refine ⟨by rw [r.children_co, r.original_co]; exact h3, ?_, ?_⟩
    · rw [r.children_co, r.original_co, ← h4]
      apply List.map_congr_left
      intro c _
      exact hpost.frame.original_at_cf c
    · intro c hc
      rw [r.children_co] at hc
      rcases h5 c hc with ⟨_, _, q, hq, hqp⟩
      rcases hpost.frame.piece c q hq with ⟨q1, hq1, rq⟩
      exact ⟨q1, hq1, by rw [rq.parent_co]; exact hqp⟩

/-- Witness for C1 on the example model of four pieces. -/
theorem C1_witness :
    demoEmpty.pieces = [] ∧ demoModel.GetRootPiece = some demoRoot ∧
    demoModel.numPieces = demoRoot.numNodes ∧ demoRoot.numNodes ≤ 4 ∧
    ∃ lm, SetModel demoExternals 4 demoEmpty demoModel true = some lm ∧
      lm.pieces.length = demoModel.numPieces ∧
      lm.pieces.map (fun p => p.original) = demoRoot.preorder ∧
      (∃ p0 : LocalModelPiece Int (List Int),
        lm.pieces[0]? = some p0 ∧ p0.original = demoRoot ∧ p0.parent = none) ∧
      ∀ (i : Nat) (p : LocalModelPiece Int (List Int)), lm.pieces[i]? = some p →
        p.children = childSlots (i + 1) p.original.children ∧
        p.children.map (fun c => (lm.pieces[c]?).map (fun q => q.original)) =
          p.original.children.map some ∧
        ∀ c ∈ p.children,
          ∃ q : LocalModelPiece Int (List Int), lm.pieces[c]? = some q ∧ q.parent = some i :=
  ⟨rfl, rfl, by decide, by decide,
    C1_setModel_builds_preorder_mirror demoExternals 4 demoEmpty demoModel demoRoot rfl rfl
      (by decide) (by decide)⟩

/-- C2: taking `float3::same` as equality, in every state reachable from a
fresh `SetModel(model, true)` by `SetPosOrRot`, `SetDirty`,
`UpdateParentMatricesRec` and root-started `UpdateChildMatricesRec` calls, the
call `UpdateChildMatricesRec(false)` on the root returns, and afterwards every
piece is clean, its local transform is `CalcPieceSpaceMatrix` of its current
fields and its model-space matrix is the reference transform composed from the
fresh local transforms along the path to the root. -/
theorem C2_topDown_pass_resolves_all [Add R] [Sub R] [Mul R] [Neg R] [Min R] [Max R]
    (E : Externals R M O) (hsame : ∀ a b : float3 R, E.same a b = true ↔ a = b)
    (model : S3DModel R) (lm : LocalModel R M O) (h : Reachable E model lm)
    (fuel : Nat) (hf : lm.pieces.length ≤ fuel) :
    ∃ lm1, UpdateChildMatricesRec E fuel lm 0 false = some lm1 ∧
      ∀ (i : Nat) (p : LocalModelPiece R M), lm1.pieces[i]? = some p →
        p.dirty = false ∧
        p.pieceSpaceMat = E.CalcPieceSpaceMatrix p.pos p.rot p.original.scales ∧
        referenceMat E lm1.pieces.length lm1 i = some p.modelSpaceMat ∧
        referenceMat E lm.pieces.length lm i = some p.modelSpaceMat := by
  have hinv := reachable_inv hsame h
  rcases updateChild_spec E fuel lm 0 false hinv.tree hinv.noOverride_model hinv.nonempty
    (by omega) with ⟨lm1, hu, hpost⟩
  rcases updateChild_root_inv hinv hu with ⟨hinv1, hclean⟩
  refine ⟨lm1, hu, ?_⟩
  intro i p hp
  have hpd : p.dirty = false := by rw [← dirtyOf_eq hp]; exact hclean i
  have href := referenceMat_of_clean hinv1.tree hinv1.consistent i lm1.pieces.length p
    (lt_length_of_get hp) hp (fun a _ => hclean a)
  refine ⟨hpd, (hinv1.consistent i p hp hpd).1, href, ?_⟩
  rw [← hpost.frame.length, ← referenceMat_congr E hpost.frame]
  exact href

/-- Witness for C2 on the example state with two dirty pieces. -/
theorem C2_witness :
    (∀ a b : float3 Int, demoExternals.same a b = true ↔ a = b) ∧
    Reachable demoExternals demoModel demoMoved ∧ demoMoved.pieces.length ≤ 4 ∧
    ∃ lm1, UpdateChildMatricesRec demoExternals 4 demoMoved 0 false = some lm1 ∧
      ∀ (i : Nat) (p : LocalModelPiece Int (List Int)), lm1.pieces[i]? = some p →
        p.dirty = false ∧
        p.pieceSpaceMat = demoExternals.CalcPieceSpaceMatrix p.pos p.rot p.original.scales ∧
        referenceMat demoExternals lm1.pieces.length lm1 i = some p.modelSpaceMat ∧
        referenceMat demoExternals demoMoved.pieces.length demoMoved i =
          some p.modelSpaceMat :=
  ⟨fun a b => by simp [demoExternals],
    Reachable.setPosOrRot (Reachable.fresh rfl
      (show SetModel demoExternals 4 demoEmpty demoModel true = some demoFresh from rfl))
      (show SetPosOrRot demoExternals 4 demoFresh 1 ⟨7, 0, 0⟩ PosOrRot.pos = some demoMoved
        from rfl),
    by decide,
    C2_topDown_pass_resolves_all demoExternals (fun a b => by simp [demoExternals]) demoModel
      demoMoved
      (Reachable.setPosOrRot (Reachable.fresh rfl
        (show SetModel demoExternals 4 demoEmpty demoModel true = some demoFresh from rfl))
        (show SetPosOrRot demoExternals 4 demoFresh 1 ⟨7, 0, 0⟩ PosOrRot.pos = some demoMoved
          from rfl))
      4 (by decide)⟩

end Claims

section Claims2

variable {R M O : Type}

/-- C3: with `float3::same` taken as equality (the convention under which the
top-down pass is stated), in every state reachable from a fresh
`SetModel(model, true)` by `SetPosOrRot`, `SetDirty`, `UpdateParentMatricesRec`
and root-started `UpdateChildMatricesRec` calls, the call
`UpdateParentMatricesRec` on a piece `i` returns; afterwards `i` and every
ancestor of `i` are clean, the model-space matrix of `i` is the reference
transform recomputed from the current fields of `i` and its ancestors, and no
piece other than `i` and its ancestors is modified. -/
theorem C3_bottomUp_pass_resolves_path [Add R] [Sub R] [Mul R] [Neg R] [Min R] [Max R]
    (E : Externals R M O) (hsame : ∀ a b : float3 R, E.same a b = true ↔ a = b)
    (model : S3DModel R) (lm : LocalModel R M O) (h : Reachable E model lm)
    (i : Nat) (hi : i < lm.pieces.length) (fuel : Nat) (hf : i + 1 ≤ fuel) :
    ∃ lm1 p1, UpdateParentMatricesRec E fuel lm i = some lm1 ∧
      (∀ a, InSubtree lm a i → lm1.dirtyOf a = false) ∧
      lm1.pieces[i]? = some p1 ∧
      referenceMat E lm1.pieces.length lm1 i = some p1.modelSpaceMat ∧
      referenceMat E lm.pieces.length lm i = some p1.modelSpaceMat ∧
      ∀ j : Nat, ¬ InSubtree lm j i → lm1.pieces[j]? = lm.pieces[j]? := by
  have hinv := reachable_inv hsame h
  rcases updateParent_spec E fuel lm i hinv.tree hinv.noOverride_model hi hf with ⟨lm1, hu, hpost⟩
  rcases hpost.closed hinv.closed with ⟨_, hclean⟩
  have hcc := hpost.consistent hinv.closed hinv.consistent
  rcases hpost.self with ⟨p, _, hp1⟩
  have href := referenceMat_of_clean (hpost.frame.treeShaped_cf hinv.tree) hcc i
    lm1.pieces.length _ (lt_length_of_get hp1) hp1
    (fun a ha => hclean a (hpost.frame.inSubtree_cf.1 ha))
  refine ⟨lm1, _, hu, hclean, hp1, href, ?_, hpost.outside⟩
  rw [← hpost.frame.length, ← referenceMat_congr E hpost.frame]
  exact href

/-- Witness for C3: `UpdateParentMatricesRec` on the dirty piece
`hand` of the example state, below the dirty piece `arm`. -/
theorem C3_witness :
    (∀ a b : float3 Int, demoExternals.same a b = true ↔ a = b) ∧
    Reachable demoExternals demoModel demoMoved ∧ 2 < demoMoved.pieces.length ∧ 2 + 1 ≤ 4 ∧
    ∃ lm1 p1, UpdateParentMatricesRec demoExternals 4 demoMoved 2 = some lm1 ∧
      (∀ a, InSubtree demoMoved a 2 → lm1.dirtyOf a = false) ∧
      lm1.pieces[2]? = some p1 ∧
      referenceMat demoExternals lm1.pieces.length lm1 2 = some p1.modelSpaceMat ∧
      referenceMat demoExternals demoMoved.pieces.length demoMoved 2 =
        some p1.modelSpaceMat ∧
      ∀ j : Nat, ¬ InSubtree demoMoved j 2 → lm1.pieces[j]? = demoMoved.pieces[j]? :=
  ⟨fun a b => by simp [demoExternals],
    Reachable.setPosOrRot (Reachable.fresh rfl
      (show SetModel demoExternals 4 demoEmpty demoModel true = some demoFresh from rfl))
      (show SetPosOrRot demoExternals 4 demoFresh 1 ⟨7, 0, 0⟩ PosOrRot.pos = some demoMoved
        from rfl),
    by decide, by decide,
    C3_bottomUp_pass_resolves_path demoExternals (fun a b => by simp [demoExternals])
      demoModel demoMoved
      (Reachable.setPosOrRot (Reachable.fresh rfl
        (show SetModel demoExternals 4 demoEmpty demoModel true = some demoFresh from rfl))
        (show SetPosOrRot demoExternals 4 demoFresh 1 ⟨7, 0, 0⟩ PosOrRot.pos = some demoMoved
          from rfl))
      2 (by decide) 4 (by decide)⟩

/-- C4 as stated fails: in the chain `0 → 1 → 2` with only piece 1 dirty,
`SetDirty` on piece 0 skips the already dirty piece 1, so its descendant
piece 2 stays clean. -/
theorem C4_counterexample_pruned_chain :
    TreeShaped demoPrunedChain ∧ InSubtree demoPrunedChain 0 2 ∧
    ∃ lm1, SetDirty 3 demoPrunedChain 0 = some lm1 ∧ lm1.dirtyOf 2 = false :=
  ⟨by decide,
    InSubtree.step (show 1 ∈ demoPrunedChain.childrenOf 0 by decide)
      (InSubtree.step (show 2 ∈ demoPrunedChain.childrenOf 1 by decide) (InSubtree.refl 2)),
    _, rfl, rfl⟩

/-- C4, amended: for every piece tree, every piece `i` and every configuration
of the dirty flags in which every dirty piece strictly below `i` has only dirty
children (the dirty flags are closed downwards below `i`), `SetDirty` on `i`
returns, and afterwards `i` and every descendant of `i` are dirty. -/
theorem C4_setDirty_marks_subtree (fuel : Nat) (lm : LocalModel R M O) (i : Nat)
    (ht : TreeShaped lm) (hi : i < lm.pieces.length) (hf : lm.pieces.length ≤ fuel + i)
    (hcl : ∀ k, InSubtree lm i k → k ≠ i → lm.dirtyOf k = true →
      ∀ c ∈ lm.childrenOf k, lm.dirtyOf c = true) :
    ∃ lm1, SetDirty fuel lm i = some lm1 ∧
      ∀ j, InSubtree lm i j → lm1.dirtyOf j = true := by
  rcases setDirty_spec fuel lm i ht hi hf with ⟨lm1, hrun, hpost⟩
  exact ⟨lm1, hrun, hpost.cascade hcl⟩

/-- Witness for the amended C4: `SetDirty` on the root of the example state in
which `arm` and `hand` are dirty and `flag` is clean. -/
theorem C4_witness :
    TreeShaped demoMoved ∧ 0 < demoMoved.pieces.length ∧ demoMoved.pieces.length ≤ 4 + 0 ∧
    (∀ k, InSubtree demoMoved 0 k → k ≠ 0 → demoMoved.dirtyOf k = true →
      ∀ c ∈ demoMoved.childrenOf k, demoMoved.dirtyOf c = true) ∧
    ∃ lm1, SetDirty 4 demoMoved 0 = some lm1 ∧
      ∀ j, InSubtree demoMoved 0 j → lm1.dirtyOf j = true :=
  ⟨by decide, by decide, by decide,
    fun k _ _ hk => dirtyClosed_of_bounded (by decide) k hk,
    C4_setDirty_marks_subtree 4 demoMoved 0 (by decide) (by decide) (by decide)
      (fun k _ _ hk => dirtyClosed_of_bounded (by decide) k hk)⟩

/-- C5: for every piece tree and every piece `i`, `SetDirty` on `i` returns
and leaves the model's own fields (among them `needsBoundariesRecalc`) and the
number of pieces unchanged, leaves every piece outside the subtree of `i`
unchanged, and changes no field of any piece other than `dirty` and
`customDirty`. -/
theorem C5_setDirty_frame (fuel : Nat) (lm : LocalModel R M O) (i : Nat)
    (ht : TreeShaped lm) (hi : i < lm.pieces.length) (hf : lm.pieces.length ≤ fuel + i) :
    ∃ lm1, SetDirty fuel lm i = some lm1 ∧
      lm1.needsBoundariesRecalc = lm.needsBoundariesRecalc ∧
      lm1.boundingVolume = lm.boundingVolume ∧
      lm1.owningObject = lm.owningObject ∧
      lm1.pieces.length = lm.pieces.length ∧
      (∀ j : Nat, ¬ InSubtree lm i j → lm1.pieces[j]? = lm.pieces[j]?) ∧
      ∀ (j : Nat) (p : LocalModelPiece R M), lm.pieces[j]? = some p →
        ∃ p1 : LocalModelPiece R M, lm1.pieces[j]? = some p1 ∧
          p1 = { p with dirty := p1.dirty, customDirty := p1.customDirty } := by
  rcases setDirty_spec fuel lm i ht hi hf with ⟨lm1, hrun, hpost⟩
  refine ⟨lm1, hrun, hpost.frame.needsBoundariesRecalc, hpost.frame.boundingVolume,
    hpost.frame.owningObject, hpost.frame.length, hpost.outside, ?_⟩
  intro j p hp
  rcases hpost.frame.piece j p hp with ⟨p1, hp1, r⟩
  exact ⟨p1, hp1, r.same⟩

/-- Witness for C5: `SetDirty` on the piece `arm` of the fresh example model. -/
theorem C5_witness :
    TreeShaped demoFresh ∧ 1 < demoFresh.pieces.length ∧ demoFresh.pieces.length ≤ 3 + 1 ∧
    ∃ lm1, SetDirty 3 demoFresh 1 = some lm1 ∧
      lm1.needsBoundariesRecalc = demoFresh.needsBoundariesRecalc ∧
      lm1.boundingVolume = demoFresh.boundingVolume ∧
      lm1.owningObject = demoFresh.owningObject ∧
      lm1.pieces.length = demoFresh.pieces.length ∧
      (∀ j : Nat, ¬ InSubtree demoFresh 1 j → lm1.pieces[j]? = demoFresh.pieces[j]?) ∧
      ∀ (j : Nat) (p : LocalModelPiece Int (List Int)), demoFresh.pieces[j]? = some p →
        ∃ p1 : LocalModelPiece Int (List Int), lm1.pieces[j]? = some p1 ∧
          p1 = { p with dirty := p1.dirty, customDirty := p1.customDirty } :=
  ⟨by decide, by decide, by decide,
    C5_setDirty_frame 3 demoFresh 1 (by decide) (by decide) (by decide)⟩

/-- C6: in every state reachable from a fresh `SetModel(model, true)` by
`SetPosOrRot`, `SetDirty`, `UpdateParentMatricesRec` and root-started
`UpdateChildMatricesRec` calls, every descendant of a dirty piece is dirty. -/
theorem C6_dirty_closed_downwards [Add R] [Sub R] [Mul R] [Neg R] [Min R] [Max R]
    (E : Externals R M O) (model : S3DModel R) (lm : LocalModel R M O)
    (h : Reachable E model lm) (i j : Nat) (hd : lm.dirtyOf i = true)
    (hs : InSubtree lm i j) : lm.dirtyOf j = true :=
  dirty_of_closed_below hs (fun k _ hk => (reachable_dirtyInv h).closed k hk) hd

/-- Witness for C6: in the example state the dirty piece `arm` has the dirty
descendant `hand`. -/
theorem C6_witness :
    Reachable demoExternals demoModel demoMoved ∧ demoMoved.dirtyOf 1 = true ∧
    InSubtree demoMoved 1 2 ∧ demoMoved.dirtyOf 2 = true :=
  ⟨Reachable.setPosOrRot (Reachable.fresh rfl
      (show SetModel demoExternals 4 demoEmpty demoModel true = some demoFresh from rfl))
      (show SetPosOrRot demoExternals 4 demoFresh 1 ⟨7, 0, 0⟩ PosOrRot.pos = some demoMoved
        from rfl),
    by decide,
    InSubtree.step (show 2 ∈ demoMoved.childrenOf 1 by decide) (InSubtree.refl 2),
    C6_dirty_closed_downwards demoExternals demoModel demoMoved
      (Reachable.setPosOrRot (Reachable.fresh rfl
        (show SetModel demoExternals 4 demoEmpty demoModel true = some demoFresh from rfl))
        (show SetPosOrRot demoExternals 4 demoFresh 1 ⟨7, 0, 0⟩ PosOrRot.pos = some demoMoved
          from rfl))
      1 2 (by decide)
      (InSubtree.step (show 2 ∈ demoMoved.childrenOf 1 by decide) (InSubtree.refl 2))⟩

/-- C7 as stated fails when a pseudo-world-space override is active.  A piece
with a pseudo-world-space rotation in a model with an owning object is dirty
again after `UpdateChildMatricesRec(false)` on the root, so the second call does
not find every dirty flag clear (first part, on `demoPseudo`); and the second
call recomputes such a piece, which changes its model-space matrix when the
first call composed it from a cached local transform (second part, on
`demoPseudoStale`: `[1, 999]` after the first call, `[1, 1]` after the
second). -/
theorem C7_counterexample_pseudo_piece :
    (TreeShaped demoPseudo ∧
      ∃ lm1, UpdateChildMatricesRec demoExternals 1 demoPseudo 0 false = some lm1 ∧
        lm1.dirtyOf 0 = true) ∧
    (TreeShaped demoPseudoStale ∧
      ∃ lm1 lm2, UpdateChildMatricesRec demoExternals 2 demoPseudoStale 0 false = some lm1 ∧
        UpdateChildMatricesRec demoExternals 2 lm1 0 false = some lm2 ∧
        lm1.dirtyOf 1 = true ∧
        (lm1.pieces[1]?).map (fun p => p.modelSpaceMat) = some [1, 999] ∧
        (lm2.pieces[1]?).map (fun p => p.modelSpaceMat) = some [1, 1]) :=
  ⟨⟨by decide, _, rfl, rfl⟩, ⟨by decide, _, _, rfl, rfl, rfl, rfl, rfl⟩⟩

/-- C7, amended: for every piece tree with no active pseudo-world-space
override, `UpdateChildMatricesRec(false)` on the root returns a state in which
every piece is clean, and a second call right after it returns that same
state: every matrix keeps its value and nothing is recomputed. -/
theorem C7_clean_pass_idempotent [Sub R] [Mul R] [Neg R] (E : Externals R M O)
    (fuel : Nat) (lm : LocalModel R M O) (ht : TreeShaped lm) (hno : NoActiveOverride lm)
    (hne : 0 < lm.pieces.length) (hf : lm.pieces.length ≤ fuel) :
    ∃ lm1, UpdateChildMatricesRec E fuel lm 0 false = some lm1 ∧
      (∀ j, lm1.dirtyOf j = false) ∧
      UpdateChildMatricesRec E fuel lm1 0 false = some lm1 := by
  rcases updateChild_spec E fuel lm 0 false ht hno hne (by omega) with ⟨lm1, hu, hpost⟩
  have ht1 := hpost.frame.treeShaped_cf ht
  have hno1 := hpost.frame.noActiveOverride_cf hno
  have hlen := hpost.frame.length
  have hclean : ∀ j, lm1.dirtyOf j = false := by
    intro j
    by_cases hj : j < lm.pieces.length
    · exact hpost.clean j (inSubtree_root ht j hj)
    · have : lm1.pieces[j]? = none := by
        apply List.getElem?_eq_none
        rw [hlen]; omega
      simp [LocalModel.dirtyOf, this]
  rcases updateChild_spec E fuel lm1 0 false ht1 hno1 (by omega) (by omega)
    with ⟨lm2, hu2, hpost2⟩
  have : lm2 = lm1 := hpost2.idle rfl (fun j _ => hclean j)
  rw [this] at hu2
  exact ⟨lm1, hu, hclean, hu2⟩

/-- Witness for the amended C7 on the example state with two dirty pieces. -/
theorem C7_witness :
    TreeShaped demoMoved ∧ NoActiveOverride demoMoved ∧ 0 < demoMoved.pieces.length ∧
    demoMoved.pieces.length ≤ 4 ∧
    ∃ lm1, UpdateChildMatricesRec demoExternals 4 demoMoved 0 false = some lm1 ∧
      (∀ j, lm1.dirtyOf j = false) ∧
      UpdateChildMatricesRec demoExternals 4 lm1 0 false = some lm1 :=
  ⟨by decide, Or.inl rfl, by decide, by decide,
    C7_clean_pass_idempotent demoExternals 4 demoMoved (by decide) (Or.inl rfl) (by decide)
      (by decide)⟩

/-- C8: `SetGetCustomDirty(cd)` returns the value `customDirty` had before the
call and leaves the piece with `customDirty` equal to `cd` and every other
field unchanged; two calls `SetGetCustomDirty(false)` in a row return the old
value and then `false`. -/
theorem C8_setGetCustomDirty_swaps (p : LocalModelPiece R M) (cd : Bool) :
    (p.SetGetCustomDirty cd).1 = p.customDirty ∧
    (p.SetGetCustomDirty cd).2 = { p with customDirty := cd } ∧
    ((p.SetGetCustomDirty false).2.SetGetCustomDirty false).1 = false ∧
    ((p.SetGetCustomDirty false).2.SetGetCustomDirty false).2 = (p.SetGetCustomDirty false).2 :=
  ⟨rfl, rfl, rfl, rfl⟩

/-- C9: on a piece with `blockScriptAnims` set, `SetPosOrRot(src, dst)` returns
the state it was called in: `dst`, every flag of every piece and
`needsBoundariesRecalc` are unchanged. -/
theorem C9_setPosOrRot_blocked (E : Externals R M O) (fuel : Nat) (lm : LocalModel R M O)
    (i : Nat) (p : LocalModelPiece R M) (src : float3 R) (dst : PosOrRot)
    (hp : lm.pieces[i]? = some p) (hb : p.blockScriptAnims = true) :
    SetPosOrRot E fuel lm i src dst = some lm := by
  simp [SetPosOrRot, hp, hb]

/-- Witness for C9: `SetPosition` on the blocking root of the example chain. -/
theorem C9_witness :
    demoBlocked.pieces[0]? =
      some { demoPiece none [1] false with blockScriptAnims := true } ∧
    ({ demoPiece none [1] false with blockScriptAnims := true } :
      LocalModelPiece Int (List Int)).blockScriptAnims = true ∧
    SetPosOrRot demoExternals 0 demoBlocked 0 ⟨5, 0, 0⟩ PosOrRot.pos = some demoBlocked :=
  ⟨rfl, rfl,
    C9_setPosOrRot_blocked demoExternals 0 demoBlocked 0
      { demoPiece none [1] false with blockScriptAnims := true } ⟨5, 0, 0⟩ PosOrRot.pos
      rfl rfl⟩

/-- C10: on a piece `i` without `blockScriptAnims`, `SetPosOrRot(src, dst)`
returns with `dst` equal to `src`.  If the piece was clean and `src` is not the
`same` as the old `dst`, the flags `dirty` and `customDirty` of every piece are
those that `SetDirty` on `i` leaves, piece `i` is dirty with `customDirty` set,
and `needsBoundariesRecalc` is set.  Otherwise no `dirty` or `customDirty` flag
of any piece changes and `needsBoundariesRecalc` keeps its value. -/
theorem C10_setPosOrRot_unblocked (E : Externals R M O) (fuel : Nat)
    (lm : LocalModel R M O) (i : Nat) (p : LocalModelPiece R M) (src : float3 R)
    (dst : PosOrRot) (ht : TreeShaped lm) (hp : lm.pieces[i]? = some p)
    (hb : p.blockScriptAnims = false) (hf : lm.pieces.length ≤ fuel + i) :
    ∃ lm1 p1, SetPosOrRot E fuel lm i src dst = some lm1 ∧
      lm1.pieces[i]? = some p1 ∧ p1.getDst dst = src ∧
      ((p.dirty = false ∧ E.same (p.getDst dst) src = false) →
        (∃ lm2, SetDirty fuel lm i = some lm2 ∧
          ∀ (j : Nat) (q2 : LocalModelPiece R M), lm2.pieces[j]? = some q2 →
            ∃ q1 : LocalModelPiece R M, lm1.pieces[j]? = some q1 ∧
              q1.dirty = q2.dirty ∧ q1.customDirty = q2.customDirty) ∧
        p1.dirty = true ∧ p1.customDirty = true ∧ lm1.needsBoundariesRecalc = true) ∧
      (¬ (p.dirty = false ∧ E.same (p.getDst dst) src = false) →
        lm1.needsBoundariesRecalc = lm.needsBoundariesRecalc ∧
        ∀ (j : Nat) (q : LocalModelPiece R M), lm.pieces[j]? = some q →
          ∃ q1 : LocalModelPiece R M, lm1.pieces[j]? = some q1 ∧
            q1.dirty = q.dirty ∧ q1.customDirty = q.customDirty) := by
  have hi := lt_length_of_get hp
  -- flags after the store are the flags before it
  have hstore : ∀ (s : LocalModel R M O) (x : LocalModelPiece R M), s.pieces[i]? = some x →
      (s.setPiece i (x.setDst dst src)).pieces[i]? = some (x.setDst dst src) ∧
      ∀ (j : Nat) (q : LocalModelPiece R M), s.pieces[j]? = some q →
        ∃ q1 : LocalModelPiece R M, (s.setPiece i (x.setDst dst src)).pieces[j]? = some q1 ∧
          q1.dirty = q.dirty ∧ q1.customDirty = q.customDirty := by
    intro s x hx
    refine ⟨setPiece_get_self _ hx, ?_⟩
    intro j q hq
    by_cases hj : i = j
    · subst hj
      rw [hx] at hq; cases hq
      exact ⟨_, setPiece_get_self _ hx, setDst_dirty _ _ _, setDst_customDirty _ _ _⟩
    · exact ⟨q, by rw [setPiece_get_ne s _ hj]; exact hq, rfl, rfl⟩
  by_cases hc : p.dirty = false ∧ E.same (p.getDst dst) src = false
  · rcases setDirty_spec fuel lm i ht hi hf with ⟨lm2, hrun, hpost⟩
    rcases hpost.self with ⟨p2, hp2, hp2d, hp2c⟩
    have hp3 : ({ lm2 with needsBoundariesRecalc := true } : LocalModel R M O).pieces[i]?
        = some p2 := hp2
    have hres : SetPosOrRot E fuel lm i src dst =
        some (({ lm2 with needsBoundariesRecalc := true } : LocalModel R M O).setPiece i
          (p2.setDst dst src)) := by
      simp only [SetPosOrRot, hp, hb, hc.1, hc.2, hrun]
      simp [modifyPiece_eq hp3]
    rcases hstore _ p2 hp3 with ⟨hs1, hs2⟩
    refine ⟨_, _, hres, hs1, getDst_setDst _ _ _, ?_, fun hn => absurd hc hn⟩
    intro _
    exact ⟨⟨lm2, hrun, fun j q2 hq2 => hs2 j q2 hq2⟩,
      by rw [setDst_dirty]; exact hp2d, by rw [setDst_customDirty]; exact hp2c, rfl⟩
  · have hres : SetPosOrRot E fuel lm i src dst = some (lm.setPiece i (p.setDst dst src)) := by
      have hcond : (!p.dirty && !E.same (p.getDst dst) src) = false := by
        cases hd : p.dirty with
        | true => simp
        | false =>
          cases hs : E.same (p.getDst dst) src with
          | true => simp
          | false => exact absurd ⟨hd, hs⟩ hc
      simp only [SetPosOrRot, hp, hb, hcond]
      simp [modifyPiece_eq hp]
    rcases hstore lm p hp with ⟨hs1, hs2⟩
    exact ⟨_, _, hres, hs1, getDst_setDst _ _ _, fun h => absurd h hc, fun _ => ⟨rfl, hs2⟩⟩

/-- Witness for C10: `SetPosition` with a new value on the clean piece `arm` of
the fresh example model. -/
theorem C10_witness :
    TreeShaped demoFresh ∧ demoFresh.pieces[1]? = some demoArm ∧
    demoArm.blockScriptAnims = false ∧ demoFresh.pieces.length ≤ 3 + 1 ∧
    ∃ lm1 p1, SetPosOrRot demoExternals 3 demoFresh 1 ⟨7, 0, 0⟩ PosOrRot.pos = some lm1 ∧
      lm1.pieces[1]? = some p1 ∧ p1.getDst PosOrRot.pos = ⟨7, 0, 0⟩ ∧
      ((demoArm.dirty = false ∧
          demoExternals.same (demoArm.getDst PosOrRot.pos) ⟨7, 0, 0⟩ = false) →
        (∃ lm2, SetDirty 3 demoFresh 1 = some lm2 ∧
          ∀ (j : Nat) (q2 : LocalModelPiece Int (List Int)), lm2.pieces[j]? = some q2 →
            ∃ q1 : LocalModelPiece Int (List Int), lm1.pieces[j]? = some q1 ∧
              q1.dirty = q2.dirty ∧ q1.customDirty = q2.customDirty) ∧
        p1.dirty = true ∧ p1.customDirty = true ∧ lm1.needsBoundariesRecalc = true) ∧
      (¬ (demoArm.dirty = false ∧
          demoExternals.same (demoArm.getDst PosOrRot.pos) ⟨7, 0, 0⟩ = false) →
        lm1.needsBoundariesRecalc = demoFresh.needsBoundariesRecalc ∧
        ∀ (j : Nat) (q : LocalModelPiece Int (List Int)), demoFresh.pieces[j]? = some q →
          ∃ q1 : LocalModelPiece Int (List Int), lm1.pieces[j]? = some q1 ∧
            q1.dirty = q.dirty ∧ q1.customDirty = q.customDirty) :=
  ⟨by decide, rfl, rfl, by decide,
    C10_setPosOrRot_unblocked demoExternals 3 demoFresh 1 demoArm ⟨7, 0, 0⟩ PosOrRot.pos
      (by decide) rfl rfl (by decide)⟩

end Claims2

section Bounding

variable {R M O : Type}

/-- One step of the running extrema of `UpdateBoundingVolume`. -/
theorem boundingExtrema_fold [Min R] [Max R] (E : Externals R M O)
    (ps : List (LocalModelPiece R M)) (lm : LocalModel R M O) (bb : float3 R × float3 R) :
    ps.foldl
      (fun bb lmPiece =>
        if !lmPiece.original.HasGeometryData then bb
        else
          (boxCorners lmPiece.original.mins lmPiece.original.maxs).foldl
            (fun acc v =>
              let vertex := E.mulVec lmPiece.GetModelSpaceMatrix v
              (float3.min acc.1 vertex, float3.max acc.2 vertex))
            bb)
      bb =
    (transformedCorners E { lm with pieces := ps }).foldl
      (fun acc vertex => (float3.min acc.1 vertex, float3.max acc.2 vertex)) bb := by
  induction ps generalizing bb with
  | nil => rfl
  | cons p ps ih =>
    simp only [List.foldl_cons, transformedCorners, List.flatMap_cons, List.foldl_append]
    rw [ih]
    congr 1
    cases hg : p.original.HasGeometryData with
    | false => simp
    | true => simp [List.foldl_map]

theorem boundingExtrema_eq [Min R] [Max R] (E : Externals R M O) (lm : LocalModel R M O) :
    boundingExtrema E lm =
      (transformedCorners E lm).foldl
        (fun acc vertex => (float3.min acc.1 vertex, float3.max acc.2 vertex))
        (E.DEF_MIN_SIZE, E.DEF_MAX_SIZE) := by
  unfold boundingExtrema
  exact boundingExtrema_fold E lm.pieces lm _

theorem transformedCorners_withoutEmpty (E : Externals R M O) (lm : LocalModel R M O) :
    transformedCorners E lm.withoutEmptyPieces = transformedCorners E lm := by
  unfold transformedCorners LocalModel.withoutEmptyPieces
  simp only
  induction lm.pieces with
  | nil => rfl
  | cons p ps ih =>
    cases hg : p.original.HasGeometryData with
    | false => simp [List.filter_cons, hg, ih]
    | true => simp [List.filter_cons, hg, ih]

theorem boundingExtrema_withoutEmpty [Min R] [Max R] (E : Externals R M O)
    (lm : LocalModel R M O) :
    boundingExtrema E lm.withoutEmptyPieces = boundingExtrema E lm := by
  rw [boundingExtrema_eq, boundingExtrema_eq, transformedCorners_withoutEmpty]

/-- Components of the running extrema: each is a fold of `min` or `max` over
one coordinate. -/
theorem extrema_fold_fst [Min R] [Max R] (l : List (float3 R)) (bb : float3 R × float3 R) :
    (l.foldl (fun acc vertex => (float3.min acc.1 vertex, float3.max acc.2 vertex)) bb).1 =
      ⟨(l.map (fun v => v.x)).foldl Min.min bb.1.x,
       (l.map (fun v => v.y)).foldl Min.min bb.1.y,
       (l.map (fun v => v.z)).foldl Min.min bb.1.z⟩ := by
  induction l generalizing bb with
  | nil => rfl
  | cons v l ih => simp only [List.foldl_cons, List.map_cons]; rw [ih]; rfl

theorem extrema_fold_snd [Min R] [Max R] (l : List (float3 R)) (bb : float3 R × float3 R) :
    (l.foldl (fun acc vertex => (float3.min acc.1 vertex, float3.max acc.2 vertex)) bb).2 =
      ⟨(l.map (fun v => v.x)).foldl Max.max bb.2.x,
       (l.map (fun v => v.y)).foldl Max.max bb.2.y,
       (l.map (fun v => v.z)).foldl Max.max bb.2.z⟩ := by
  induction l generalizing bb with
  | nil => rfl
  | cons v l ih => simp only [List.foldl_cons, List.map_cons]; rw [ih]; rfl

theorem foldl_min_le_seed [LinearOrder R] (l : List R) (s : R) : l.foldl Min.min s ≤ s := by
  induction l generalizing s with
  | nil => exact le_refl _
  | cons a l ih => exact le_trans (ih _) (min_le_left _ _)

theorem foldl_min_le_mem [LinearOrder R] (l : List R) (s : R) :
    ∀ a ∈ l, l.foldl Min.min s ≤ a := by
  induction l generalizing s with
  | nil => intro a ha; cases ha
  | cons b l ih =>
    intro a ha
    rcases List.mem_cons.1 ha with h | h
    · subst h; exact le_trans (foldl_min_le_seed l _) (min_le_right _ _)
    · exact ih _ a h

theorem foldl_min_mem [LinearOrder R] (l : List R) (s : R) :
    l.foldl Min.min s = s ∨ l.foldl Min.min s ∈ l := by
  induction l generalizing s with
  | nil => exact Or.inl rfl
  | cons b l ih =>
    rcases ih (Min.min s b) with h | h
    · rcases min_choice s b with h2 | h2
      · left; simp only [List.foldl_cons]; rw [h, h2]
      · right; simp only [List.foldl_cons]; rw [h, h2]; simp
    · right; simp only [List.foldl_cons]; exact List.mem_cons_of_mem _ h

theorem foldl_min_isLeast [LinearOrder R] (l : List R) (s : R) (h : ∃ a ∈ l, a ≤ s) :
    IsLeast {a | a ∈ l} (l.foldl Min.min s) := by
  refine ⟨?_, fun a ha => foldl_min_le_mem l s a ha⟩
  rcases foldl_min_mem l s with h1 | h1
  · rcases h with ⟨a, ha, has⟩
    have h2 := foldl_min_le_mem l s a ha
    have : a = l.foldl Min.min s := le_antisymm (by rw [h1]; exact has) h2
    show l.foldl Min.min s ∈ l
    rw [← this]; exact ha
  · exact h1

theorem foldl_max_ge_seed [LinearOrder R] (l : List R) (s : R) : s ≤ l.foldl Max.max s := by
  induction l generalizing s with
  | nil => exact le_refl _
  | cons a l ih => exact le_trans (le_max_left _ _) (ih _)

theorem foldl_max_ge_mem [LinearOrder R] (l : List R) (s : R) :
    ∀ a ∈ l, a ≤ l.foldl Max.max s := by
  induction l generalizing s with
  | nil => intro a ha; cases ha
  | cons b l ih =>
    intro a ha
    rcases List.mem_cons.1 ha with h | h
    · subst h; exact le_trans (le_max_right _ _) (foldl_max_ge_seed l _)
    · exact ih _ a h

theorem foldl_max_mem [LinearOrder R] (l : List R) (s : R) :
    l.foldl Max.max s = s ∨ l.foldl Max.max s ∈ l := by
  induction l generalizing s with
  | nil => exact Or.inl rfl
  | cons b l ih =>
    rcases ih (Max.max s b) with h | h
    · rcases max_choice s b with h2 | h2
      · left; simp only [List.foldl_cons]; rw [h, h2]
      · right; simp only [List.foldl_cons]; rw [h, h2]; simp
    · right; simp only [List.foldl_cons]; exact List.mem_cons_of_mem _ h

theorem foldl_max_isGreatest [LinearOrder R] (l : List R) (s : R) (h : ∃ a ∈ l, s ≤ a) :
    IsGreatest {a | a ∈ l} (l.foldl Max.max s) := by
  refine ⟨?_, fun a ha => foldl_max_ge_mem l s a ha⟩
  rcases foldl_max_mem l s with h1 | h1
  · rcases h with ⟨a, ha, has⟩
    have h2 := foldl_max_ge_mem l s a ha
    have : a = l.foldl Max.max s := le_antisymm h2 (by rw [h1]; exact has)
    show l.foldl Max.max s ∈ l
    rw [← this]; exact ha
  · exact h1

end Bounding

section UpdateAny

variable {R M O : Type}

/-! ## Update passes with or without override -/

theorem StateOnly.refl_so (p : LocalModelPiece R M) : StateOnly p p := ⟨rfl⟩

theorem StateOnly.trans_so {p p1 p2 : LocalModelPiece R M} (h1 : StateOnly p p1)
    (h2 : StateOnly p1 p2) : StateOnly p p2 := by
  constructor
  have e1 := h1.same
  have e2 := h2.same
  rw [e2]
  rw [e1]

theorem StateOnly.children_so {p p1 : LocalModelPiece R M} (h : StateOnly p p1) :
    p1.children = p.children := by rw [h.same]

theorem StateOnly.parent_so {p p1 : LocalModelPiece R M} (h : StateOnly p p1) :
    p1.parent = p.parent := by rw [h.same]

theorem StateOnly.pseudo_so {p p1 : LocalModelPiece R M} (h : StateOnly p p1) :
    p1.pseudoWorldSpace = p.pseudoWorldSpace := by
  rw [h.same]; rfl

theorem StateOnly.of_raised {p p1 : LocalModelPiece R M} (h : RaisedFlags p p1) :
    StateOnly p p1 := by
  constructor
  have e := h.same
  cases p; cases p1
  simp only [LocalModelPiece.mk.injEq] at e ⊢
  simp [e]

theorem StateOnly.of_caches {p p1 : LocalModelPiece R M} (h : CachesOnly p p1) :
    StateOnly p p1 := by
  constructor
  have e := h.same
  cases p; cases p1
  simp only [LocalModelPiece.mk.injEq] at e ⊢
  simp [e]

theorem UpdateFrame.refl_uf (lm : LocalModel R M O) : UpdateFrame lm lm :=
  ⟨rfl, rfl, rfl, rfl, fun _ p h => ⟨p, h, StateOnly.refl_so p⟩⟩

theorem UpdateFrame.trans_uf {lm lm1 lm2 : LocalModel R M O} (h1 : UpdateFrame lm lm1)
    (h2 : UpdateFrame lm1 lm2) : UpdateFrame lm lm2 := by
  refine ⟨h2.boundingVolume.trans h1.boundingVolume,
    h2.needsBoundariesRecalc.trans h1.needsBoundariesRecalc,
    h2.owningObject.trans h1.owningObject, h2.length.trans h1.length, ?_⟩
  intro j p hp
  rcases h1.piece j p hp with ⟨p1, hp1, r1⟩
  rcases h2.piece j p1 hp1 with ⟨p2, hp2, r2⟩
  exact ⟨p2, hp2, r1.trans_so r2⟩

theorem UpdateFrame.of_flagFrame_uf {lm lm1 : LocalModel R M O} (h : FlagFrame lm lm1) :
    UpdateFrame lm lm1 := by
  refine ⟨h.boundingVolume, h.needsBoundariesRecalc, h.owningObject, h.length, ?_⟩
  intro j p hp
  rcases h.piece j p hp with ⟨p1, hp1, r⟩
  exact ⟨p1, hp1, StateOnly.of_raised r⟩

theorem UpdateFrame.get_none_uf {lm lm1 : LocalModel R M O} (h : UpdateFrame lm lm1) {j : Nat}
    (hj : lm.pieces[j]? = none) : lm1.pieces[j]? = none := by
  rw [List.getElem?_eq_none_iff] at hj ⊢
  rw [h.length]; exact hj

theorem UpdateFrame.childrenOf_uf {lm lm1 : LocalModel R M O} (h : UpdateFrame lm lm1)
    (j : Nat) : lm1.childrenOf j = lm.childrenOf j := by
  cases hp : lm.pieces[j]? with
  | none => simp [LocalModel.childrenOf, hp, h.get_none_uf hp]
  | some p =>
    rcases h.piece j p hp with ⟨p1, hp1, r⟩
    rw [childrenOf_eq hp, childrenOf_eq hp1, r.children_so]

theorem UpdateFrame.parentOf_uf {lm lm1 : LocalModel R M O} (h : UpdateFrame lm lm1)
    (j : Nat) : lm1.parentOf j = lm.parentOf j := by
  cases hp : lm.pieces[j]? with
  | none => simp [LocalModel.parentOf, hp, h.get_none_uf hp]
  | some p =>
    rcases h.piece j p hp with ⟨p1, hp1, r⟩
    rw [parentOf_eq hp, parentOf_eq hp1, r.parent_so]

theorem UpdateFrame.treeShaped_uf {lm lm1 : LocalModel R M O} (h : UpdateFrame lm lm1)
    (ht : TreeShaped lm) : TreeShaped lm1 :=
  ht.congr_tree h.length h.childrenOf_uf h.parentOf_uf

theorem UpdateFrame.inSubtree_uf {lm lm1 : LocalModel R M O} (h : UpdateFrame lm lm1)
    {a b : Nat} : InSubtree lm1 a b ↔ InSubtree lm a b :=
  ⟨InSubtree.congr_sub (fun i => (h.childrenOf_uf i).symm), InSubtree.congr_sub h.childrenOf_uf⟩

theorem UpdateFrame.setPiece_uf {lm : LocalModel R M O} {i : Nat} {p p1 : LocalModelPiece R M}
    (hp : lm.pieces[i]? = some p) (r : StateOnly p p1) : UpdateFrame lm (lm.setPiece i p1) := by
  refine ⟨rfl, rfl, rfl, by simp, ?_⟩
  intro j q hq
  by_cases hij : i = j
  · subst hij
    rw [hp] at hq; cases hq
    exact ⟨p1, setPiece_get_self p1 hp, r⟩
  · exact ⟨q, by rw [setPiece_get_ne lm p1 hij]; exact hq, StateOnly.refl_so q⟩

/-- `ApplyParentMatrix` on `pieces[i]`, override or not: the call returns; it
stores a matrix in `pieces[i].modelSpaceMat` and beyond that only raises flags,
inside the subtree of `pieces[i]`; when the override applies, `pieces[i]` and
its children end dirty. -/
theorem applyParentMatrix_any [Sub R] [Mul R] [Neg R] (E : Externals R M O) (fuel : Nat)
    {lm : LocalModel R M O} {i : Nat} {p : LocalModelPiece R M}
    (ht : TreeShaped lm) (hp : lm.pieces[i]? = some p)
    (hf : lm.pieces.length ≤ fuel + 1 + i) :
    ∃ (m : M) (lmA : LocalModel R M O), ApplyParentMatrix E fuel lm i = some lmA ∧
      FlagFrame (lm.setPiece i { p with modelSpaceMat := m }) lmA ∧
      (∀ j : Nat, ¬ InSubtree lm i j → lmA.pieces[j]? = lm.pieces[j]?) ∧
      (lm.owningObject ≠ none → p.pseudoWorldSpace = true →
        (∃ pA : LocalModelPiece R M, lmA.pieces[i]? = some pA ∧
          pA.dirty = true ∧ pA.customDirty = true) ∧
        ∀ c ∈ p.children, lmA.dirtyOf c = true) := by
  have hi := lt_length_of_get hp
  have hout : ∀ (x : LocalModelPiece R M) (j : Nat), ¬ InSubtree lm i j →
      (lm.setPiece i x).pieces[j]? = lm.pieces[j]? := by
    intro x j hj
    apply setPiece_get_ne
    intro h; subst h; exact hj (InSubtree.refl _)
  have hpar : ∀ j, p.parent = some j → ∃ q, lm.pieces[j]? = some q := by
    intro j hpp
    have hj := (ht.parent_lt (by rw [parentOf_eq hp]; exact hpp)).1
    exact get_of_lt_length (Nat.lt_trans hj hi)
  unfold ApplyParentMatrix
  simp only [hp]
  split
  · rename_i hc
    exfalso
    cases hpp : p.parent with
    | none => simp [hpp] at hc
    | some j =>
      rcases hpar j hpp with ⟨q, hq⟩
      simp [hpp, hq] at hc
  rename_i m1 hm1
  clear hm1
  cases hoo : lm.owningObject with
  | none =>
    refine ⟨m1, _, rfl, FlagFrame.refl_ff _, hout _, ?_⟩
    intro h; exact absurd rfl h
  | some obj =>
    cases hps : p.pseudoWorldSpace with
    | false =>
      have hps' : (p.pseudoWorldSpacePosition || p.pseudoWorldSpaceRotation) = false := hps
      simp only [hps', Bool.false_eq_true, if_false]
      refine ⟨m1, _, rfl, FlagFrame.refl_ff _, hout _, ?_⟩
      intro _ h; cases h
    | true =>
      have hps' : (p.pseudoWorldSpacePosition || p.pseudoWorldSpaceRotation) = true := hps
      simp only [hps', if_true]
      generalize hm3 :
        (if p.pseudoWorldSpaceRotation = true then
          E.RotateEulerZXY
            (if p.pseudoWorldSpacePosition = true then
              E.SetPos m1
                (float3.scale
                  (float3.mul
                    (E.GetObjectSpaceVec obj
                      (E.LengthNormalize
                        (float3.sub p.pos (E.GetPos (E.GetTransformMatrix obj true)))).1)
                    E.WORLD_TO_OBJECT_SPACE)
                  (E.LengthNormalize
                    (float3.sub p.pos (E.GetPos (E.GetTransformMatrix obj true)))).2)
            else m1)
            (float3.neg (E.GetEulerAnglesLftHand (E.GetTransformMatrix obj true)))
        else
          if p.pseudoWorldSpacePosition = true then
            E.SetPos m1
              (float3.scale
                (float3.mul
                  (E.GetObjectSpaceVec obj
                    (E.LengthNormalize
                      (float3.sub p.pos (E.GetPos (E.GetTransformMatrix obj true)))).1)
                  E.WORLD_TO_OBJECT_SPACE)
                (E.LengthNormalize
                  (float3.sub p.pos (E.GetPos (E.GetTransformMatrix obj true)))).2)
          else m1) = m3
      have hmid : (lm.setPiece i { p with modelSpaceMat := m3 }).pieces[i]? =
          some { p with modelSpaceMat := m3 } := setPiece_get_self _ hp
      have htm : TreeShaped (lm.setPiece i { p with modelSpaceMat := m3 }) :=
        (UpdateFrame.setPiece_uf hp ⟨rfl⟩).treeShaped_uf ht
      have hrun : SetDirty (fuel + 1) (lm.setPiece i { p with modelSpaceMat := m3 }) i =
          forEachChild (setDirtyUnlessDirty (SetDirty fuel)) p.children
            (lm.setPiece i (LocalModelPiece.SetGetCustomDirty
              { p with modelSpaceMat := m3, dirty := true } true).2) := by
        simp only [SetDirty, hmid]
        rw [setPiece_setPiece]
      rcases setDirty_spec (fuel + 1) (lm.setPiece i { p with modelSpaceMat := m3 }) i htm
        (by simpa using hi) (by simp only [setPiece_pieces, List.length_set]; omega)
        with ⟨lmA, hA, hpost⟩
      rw [hrun] at hA
      refine ⟨m3, lmA, hA, hpost.frame, ?_, ?_⟩
      · intro j hj
        rw [hpost.outside j ?_]
        · exact hout _ j hj
        · intro h
          exact hj ((UpdateFrame.setPiece_uf hp ⟨rfl⟩).inSubtree_uf.1 h)
      · intro _ _
        refine ⟨hpost.self, ?_⟩
        intro c hc
        apply hpost.children
        rw [childrenOf_eq hmid]
        exact hc

/-- One level of `UpdateChildMatricesRec` when the piece is clean and the pass
is not forced. -/
theorem updateChild_unfold_skip [Sub R] [Mul R] [Neg R] (E : Externals R M O) (fuel : Nat)
    {lm : LocalModel R M O} {i : Nat} {p : LocalModelPiece R M} {u : Bool}
    (hp : lm.pieces[i]? = some p) (hu : (p.dirty || u) = false) :
    UpdateChildMatricesRec E (fuel + 1) lm i u =
      forEachChild (fun s c => UpdateChildMatricesRec E fuel s c false) p.children lm := by
  have hd : p.dirty = false := by
    cases h : p.dirty with
    | false => rfl
    | true => rw [h] at hu; simp at hu
  have hu' : u = false := by rw [hd] at hu; simpa using hu
  subst hu'
  simp only [UpdateChildMatricesRec, hp, hd, Bool.or_false, Bool.false_eq_true, if_false]
  rw [setPiece_same hp]

/-- One level of `UpdateChildMatricesRec` when the piece is dirty or the pass
is forced. -/
theorem updateChild_unfold_apply [Sub R] [Mul R] [Neg R] (E : Externals R M O) (fuel : Nat)
    {lm : LocalModel R M O} {i : Nat} {p : LocalModelPiece R M} {u : Bool}
    (hp : lm.pieces[i]? = some p) (hu : (p.dirty || u) = true) :
    ∃ x : LocalModelPiece R M, StateOnly p x ∧
      ∀ lmA, ApplyParentMatrix E fuel (lm.setPiece i x) i = some lmA →
        UpdateChildMatricesRec E (fuel + 1) lm i u =
          forEachChild (fun s c => UpdateChildMatricesRec E fuel s c true) p.children lmA := by
  cases hd : p.dirty with
  | true =>
    refine ⟨{ p with dirty := false
                     pieceSpaceMat := E.CalcPieceSpaceMatrix p.pos p.rot p.original.scales
                     modelSpaceMat := E.CalcPieceSpaceMatrix p.pos p.rot p.original.scales },
      ⟨rfl⟩, ?_⟩
    intro lmA hA
    simp only [UpdateChildMatricesRec, hp, hd, Bool.true_or, if_true]
    rw [hA]
  | false =>
    have hu' : u = true := by rw [hd] at hu; simpa using hu
    subst hu'
    refine ⟨{ p with modelSpaceMat := p.pieceSpaceMat, dirty := false }, ⟨rfl⟩, ?_⟩
    intro lmA hA
    simp only [UpdateChildMatricesRec, hp, hd, Bool.or_true, Bool.false_eq_true, if_false,
      if_true]
    rw [hA]

end UpdateAny

section UpdateChildAny

variable {R M O : Type}

/-- The first half of `UpdateChildMatricesRec(u)` on `pieces[i]` (refresh the
piece itself), override or not: what it leaves for the loop over the
children. -/
theorem updateChild_head_any [Sub R] [Mul R] [Neg R] (E : Externals R M O) (fuel : Nat)
    {lm : LocalModel R M O} {i : Nat} {p : LocalModelPiece R M} (u : Bool)
    (ht : TreeShaped lm) (hp : lm.pieces[i]? = some p)
    (hf : lm.pieces.length ≤ fuel + 1 + i) :
    ∃ lmA : LocalModel R M O,
      UpdateChildMatricesRec E (fuel + 1) lm i u =
        forEachChild (fun s c => UpdateChildMatricesRec E fuel s c (p.dirty || u))
          p.children lmA ∧
      UpdateFrame lm lmA ∧
      (∀ j : Nat, ¬ InSubtree lm i j → lmA.pieces[j]? = lm.pieces[j]?) ∧
      (∀ j : Nat, j ≠ i → lm.dirtyOf j = true → lmA.dirtyOf j = true) ∧
      (lm.owningObject ≠ none → p.pseudoWorldSpace = true → (p.dirty || u) = true →
        ∃ pA : LocalModelPiece R M, lmA.pieces[i]? = some pA ∧
          pA.dirty = true ∧ pA.customDirty = true) := by
  cases hu : (p.dirty || u) with
  | false =>
    refine ⟨lm, updateChild_unfold_skip E fuel hp hu, UpdateFrame.refl_uf lm,
      fun _ _ => rfl, fun _ _ h => h, ?_⟩
    intro _ _ h; cases h
  | true =>
    rcases updateChild_unfold_apply E fuel hp hu with ⟨x, hx, hunf⟩
    have hfrX : UpdateFrame lm (lm.setPiece i x) := UpdateFrame.setPiece_uf hp hx
    have hxi : (lm.setPiece i x).pieces[i]? = some x := setPiece_get_self x hp
    rcases applyParentMatrix_any E fuel (hfrX.treeShaped_uf ht) hxi
      (by rw [hfrX.length]; exact hf) with ⟨m, lmA, hrun, hff, hout, hself⟩
    rw [setPiece_setPiece] at hff
    have hfrM : UpdateFrame lm (lm.setPiece i { x with modelSpaceMat := m }) :=
      UpdateFrame.setPiece_uf hp (hx.trans_so ⟨rfl⟩)
    refine ⟨lmA, hunf lmA hrun, hfrM.trans_uf (UpdateFrame.of_flagFrame_uf hff), ?_, ?_, ?_⟩
    · intro j hj
      rw [hout j (fun h => hj (hfrX.inSubtree_uf.1 h))]
      apply setPiece_get_ne
      intro h; subst h; exact hj (InSubtree.refl _)
    · intro j hj hd
      apply hff.dirtyOf_ff
      rw [dirtyOf_congr (setPiece_get_ne lm _ (Ne.symm hj))]
      exact hd
    · intro ho hps _
      exact (hself (by rw [hfrX.owningObject]; exact ho) (by rw [hx.pseudo_so]; exact hps)).1

/-- `UpdateChildMatricesRec(u)` on `pieces[i]` of a piece tree, override or
not: with fuel for the depth of the tree the call returns, and
`UpdateChildAnyPost` describes the result. -/
theorem updateChild_any [Sub R] [Mul R] [Neg R] (E : Externals R M O) :
    ∀ (fuel : Nat) (lm : LocalModel R M O) (i : Nat) (u : Bool),
    TreeShaped lm → i < lm.pieces.length → lm.pieces.length ≤ fuel + i →
    ∃ lm1, UpdateChildMatricesRec E fuel lm i u = some lm1 ∧ UpdateChildAnyPost lm lm1 i u := by
  intro fuel
  induction fuel with
  | zero => intro lm i u _ hi hf; omega
  | succ fuel ih =>
    intro lm i u ht hi hf
    rcases get_of_lt_length hi with ⟨p, hp⟩
    have hch : lm.childrenOf i = p.children := childrenOf_eq hp
    have hpd : lm.dirtyOf i = p.dirty := dirtyOf_eq hp
    rcases updateChild_head_any E fuel u ht hp (by omega)
      with ⟨lmA, hunf, hAfr, hAout, hAraise, hAself⟩
    let P : List Nat → LocalModel R M O → Prop := fun rest t =>
      ∃ done, p.children = done ++ rest ∧ UpdateFrame lm t ∧
        (∀ j : Nat, j ≠ i → (∀ d ∈ done, ¬ InSubtree lm d j) → t.pieces[j]? = lmA.pieces[j]?) ∧
        t.pieces[i]? = lmA.pieces[i]? ∧
        (lm.owningObject ≠ none →
          ∀ d ∈ done, ∀ (j : Nat) (q : LocalModelPiece R M), InSubtree lm d j →
            lm.pieces[j]? = some q → q.pseudoWorldSpace = true → Recomputed lm i u j →
            ∃ q1 : LocalModelPiece R M, t.pieces[j]? = some q1 ∧
              q1.dirty = true ∧ q1.customDirty = true)
    have hstart : P p.children lmA := by
      refine ⟨[], rfl, hAfr, fun _ _ _ => rfl, rfl, ?_⟩
      intro _ d hd; cases hd
    have hstep : ∀ c rest t, P (c :: rest) t →
        ∃ t1, UpdateChildMatricesRec E fuel t c (p.dirty || u) = some t1 ∧ P rest t1 := by
      intro c rest t hP
      rcases hP with ⟨done, hsplit, hfr, hunt, hself, hlat⟩
      have hcmem : c ∈ lm.childrenOf i := by rw [hch, hsplit]; simp
      have hdmem : ∀ d ∈ done, d ∈ lm.childrenOf i := by
        intro d hd; rw [hch, hsplit]; simp [hd]
      have hnd : (done ++ c :: rest).Nodup := by
        have := ht.nodup_children i
        rw [hch, hsplit] at this; exact this
      have hcd : ∀ d ∈ done, d ≠ c := by
        intro d hd hEq
        subst hEq
        exact (List.nodup_append.1 hnd).2.2 hd (by simp)
      rcases ht.child_gt hcmem with ⟨hic, hcn, hpc⟩
      have hsplit1 : p.children = (done ++ [c]) ++ rest := by rw [hsplit]; simp
      have hsub : ∀ j, InSubtree lm c j → t.pieces[j]? = lmA.pieces[j]? := by
        intro j hj
        refine hunt j ?_ ?_
        · have := hj.le_sub ht; omega
        · intro d hd
          exact sibling_disjoint ht hcmem (hdmem d hd) (Ne.symm (hcd d hd)) hj
      have htt : TreeShaped t := hfr.treeShaped_uf ht
      have hlen : t.pieces.length = lm.pieces.length := hfr.length
      rcases ih t c (p.dirty || u) htt (by omega) (by omega) with ⟨t1, hrun, hpost⟩
      have hkeep : ∀ d ∈ done, ∀ j, InSubtree lm d j → t1.pieces[j]? = t.pieces[j]? := by
        intro d hd j hj
        apply hpost.outside
        intro h
        exact sibling_disjoint ht (hdmem d hd) hcmem (hcd d hd) hj (hfr.inSubtree_uf.1 h)
      have hkeepi : t1.pieces[i]? = t.pieces[i]? :=
        hpost.outside i (fun h => not_inSubtree_of_lt ht hic (hfr.inSubtree_uf.1 h))
      refine ⟨t1, hrun, done ++ [c], hsplit1, hfr.trans_uf hpost.frame, ?_, ?_, ?_⟩
      · intro j hj hnot
        rw [hpost.outside j (fun h => hnot c (by simp) (hfr.inSubtree_uf.1 h))]
        exact hunt j hj (fun d hd => hnot d (by simp [hd]))
      · rw [hkeepi]; exact hself
      · intro ho d hd j q hj hq hps hrec
        rcases List.mem_append.1 hd with hd | hd
        · rw [hkeep d hd j hj]
          exact hlat ho d hd j q hj hq hps hrec
        · simp at hd; subst hd
          rcases hfr.piece j q hq with ⟨qt, hqt, rq⟩
          have hrec1 : Recomputed t d (p.dirty || u) j := by
            rcases hrec with hu | ⟨a, hia, haj, had⟩
            · left; rw [hu]; simp
            · cases hia with
              | refl _ =>
                left
                rw [hpd] at had
                rw [had]; rfl
              | @step _ c2 _ hm hs =>
                have hc2 : c2 = d := by
                  by_contra hne
                  exact sibling_disjoint ht hm hcmem hne (hs.trans_sub haj) hj
                subst hc2
                right
                refine ⟨a, hfr.inSubtree_uf.2 hs, hfr.inSubtree_uf.2 haj, ?_⟩
                have hai : a ≠ i := by
                  have := hs.le_sub ht; omega
                rw [dirtyOf_congr (hsub a hs)]
                exact hAraise a hai had
          exact hpost.latched (by rw [hfr.owningObject]; exact ho) j qt
            (hfr.inSubtree_uf.2 hj) hqt (by rw [rq.pseudo_so]; exact hps) hrec1
    rcases forEachChild_inv (fun s c => UpdateChildMatricesRec E fuel s c (p.dirty || u)) P
      hstep p.children lmA hstart with ⟨t, hrun, hP⟩
    rcases hP with ⟨done, hsplit, hfr, hunt, hself, hlat⟩
    have hdone_eq : done = p.children := by simpa using hsplit.symm
    subst hdone_eq
    refine ⟨t, by rw [hunf]; exact hrun, hfr, ?_, ?_⟩
    · intro j hj
      rw [← hAout j hj]
      refine hunt j ?_ ?_
      · intro h; subst h; exact hj (InSubtree.refl _)
      · intro d hd hs
        exact hj (InSubtree.step (by rw [hch]; exact hd) hs)
    · intro ho j q hj hq hps hrec
      cases hj with
      | refl _ =>
        rw [hp] at hq; cases hq
        have hu : (p.dirty || u) = true := by
          rcases hrec with hu | ⟨a, hia, hai, had⟩
          · rw [hu]; simp
          · have h1 := hia.le_sub ht
            have h2 := hai.le_sub ht
            have : a = i := by omega
            subst this
            rw [hpd] at had
            rw [had]; rfl
        rw [hself]
        exact hAself ho hps hu
      | step hm hs =>
        rw [hch] at hm
        exact hlat ho _ hm j q hs hq hps hrec

end UpdateChildAny

section UpdateParentAny

variable {R M O : Type}

/-- `UpdateParentMatricesRec` on `pieces[i]` of a piece tree, override or not:
with fuel for the depth of the tree the call returns, and
`UpdateParentAnyPost` describes the result. -/
theorem updateParent_any [Sub R] [Mul R] [Neg R] (E : Externals R M O) :
    ∀ (fuel : Nat) (lm : LocalModel R M O) (i : Nat),
    TreeShaped lm → i < lm.pieces.length → lm.pieces.length + i < fuel →
    ∃ lm1, UpdateParentMatricesRec E fuel lm i = some lm1 ∧ UpdateParentAnyPost lm lm1 i := by
  intro fuel
  induction fuel with
  | zero => intro lm i _ _ hf; omega
  | succ fuel ih =>
    intro lm i ht hi hf
    rcases get_of_lt_length hi with ⟨p, hp⟩
    have hpi : ∀ j, p.parent = some j → j < i ∧ i ∈ lm.childrenOf j := by
      intro j hj
      exact ht.parent_lt (by rw [parentOf_eq hp]; exact hj)
    -- the state after the parent has been resolved
    have hres : ∃ (s : LocalModel R M O) (ps : LocalModelPiece R M),
        UpdateParentMatricesRec E (fuel + 1) lm i =
          ApplyParentMatrix E fuel
            (s.setPiece i
              { ps with dirty := false, pieceSpaceMat := ps.freshLocal E,
                        modelSpaceMat := ps.freshLocal E }) i ∧
        UpdateFrame lm s ∧ s.pieces[i]? = some ps ∧ StateOnly p ps := by
      cases hpp : p.parent with
      | none =>
        refine ⟨lm, p, ?_, UpdateFrame.refl_uf lm, hp, StateOnly.refl_so p⟩
        simp [UpdateParentMatricesRec, hp, hpp, LocalModelPiece.freshLocal]
      | some j =>
        rcases hpi j hpp with ⟨hji, hmem⟩
        rcases get_of_lt_length (Nat.lt_trans hji hi) with ⟨q, hq⟩
        cases hqd : q.dirty with
        | false =>
          refine ⟨lm, p, ?_, UpdateFrame.refl_uf lm, hp, StateOnly.refl_so p⟩
          simp [UpdateParentMatricesRec, hp, hpp, hq, hqd, LocalModelPiece.freshLocal]
        | true =>
          rcases ih lm j ht (Nat.lt_trans hji hi) (by omega) with ⟨s, hrun, hpost⟩
          rcases hpost.frame.piece i p hp with ⟨ps, hps, rs⟩
          refine ⟨s, ps, ?_, hpost.frame, hps, rs⟩
          simp [UpdateParentMatricesRec, hp, hpp, hq, hqd, hrun, hps,
            LocalModelPiece.freshLocal]
    rcases hres with ⟨s, ps, hrun, hfr, hsp, rs⟩
    have hts : TreeShaped s := hfr.treeShaped_uf ht
    have hfr0 : UpdateFrame s (s.setPiece i
        { ps with dirty := false, pieceSpaceMat := ps.freshLocal E,
                  modelSpaceMat := ps.freshLocal E }) := UpdateFrame.setPiece_uf hsp ⟨rfl⟩
    rcases applyParentMatrix_any E fuel (hfr0.treeShaped_uf hts) (setPiece_get_self _ hsp)
      (by rw [hfr0.length, hfr.length]; omega) with ⟨m, lmA, happly, hff, hout, hself⟩
    rw [setPiece_setPiece] at hff
    have hfrM : UpdateFrame s (s.setPiece i
        { ps with dirty := false, pieceSpaceMat := ps.freshLocal E, modelSpaceMat := m }) :=
      UpdateFrame.setPiece_uf hsp ⟨rfl⟩
    refine ⟨lmA, by rw [hrun]; exact happly,
      (hfr.trans_uf hfrM).trans_uf (UpdateFrame.of_flagFrame_uf hff), ?_⟩
    intro ho p' hp' hps'
    rw [hp] at hp'; cases hp'
    have := hself (by rw [hfr0.owningObject, hfr.owningObject]; exact ho)
      (by
        have : ps.pseudoWorldSpace = true := by rw [rs.pseudo_so]; exact hps'
        exact this)
    refine ⟨this.1, ?_⟩
    intro c hc
    apply this.2
    show c ∈ ps.children
    rw [rs.children_so, ← childrenOf_eq hp]
    exact hc

end UpdateParentAny

section Reload

variable {R M O : Type}

/-! ## `SetModel(model, false)` -/

/-- The loop that re-points `original`: with a static piece at every position
it returns, and changes nothing but `original`. -/
theorem repointPieces_spec (model : S3DModel R) :
    ∀ (ps : List (LocalModelPiece R M)) (n : Nat),
    n + ps.length ≤ model.pieceObjects.length →
    ∃ ps1, repointPieces model n ps = some ps1 ∧ ps1.length = ps.length ∧
      ∀ (k : Nat) (p : LocalModelPiece R M), ps[k]? = some p →
        ∃ omp : S3DModelPiece R, model.GetPiece (n + k) = some omp ∧
          ps1[k]? = some { p with original := omp } := by
  intro ps
  induction ps with
  | nil => intro n _; exact ⟨[], rfl, rfl, fun k p h => by simp at h⟩
  | cons p ps ih =>
    intro n hn
    simp only [List.length_cons] at hn
    have hlt : n < model.pieceObjects.length := by omega
    have hget : model.GetPiece n = some model.pieceObjects[n] := by
      unfold S3DModel.GetPiece
      exact List.getElem?_eq_getElem hlt
    rcases ih (n + 1) (by omega) with ⟨ps1, hrun, hlen, hall⟩
    refine ⟨{ p with original := model.pieceObjects[n] } :: ps1, ?_, by simp [hlen], ?_⟩
    · simp only [repointPieces, hget, hrun]
    · intro k q hq
      cases k with
      | zero =>
        simp only [List.getElem?_cons_zero, Option.some.injEq] at hq
        subst hq
        exact ⟨_, hget, by simp⟩
      | succ k =>
        simp only [List.getElem?_cons_succ] at hq
        rcases hall k q hq with ⟨omp, h1, h2⟩
        refine ⟨omp, ?_, by simpa using h2⟩
        rw [← h1]; congr 1; omega

/-- The model with re-pointed pieces has the links of the model it came
from. -/
theorem treeShaped_of_repoint {lm : LocalModel R M O} {ps1 : List (LocalModelPiece R M)}
    (ht : TreeShaped lm) (hlen : ps1.length = lm.pieces.length)
    (hall : ∀ (k : Nat) (p : LocalModelPiece R M), lm.pieces[k]? = some p →
      ∃ p1 : LocalModelPiece R M, ps1[k]? = some p1 ∧
        p1.children = p.children ∧ p1.parent = p.parent) :
    TreeShaped { lm with pieces := ps1 } := by
  have hnone : ∀ k : Nat, lm.pieces[k]? = none →
      ({ lm with pieces := ps1 } : LocalModel R M O).pieces[k]? = none := by
    intro k hk
    rw [List.getElem?_eq_none_iff] at hk ⊢
    show ps1.length ≤ k
    rw [hlen]; exact hk
  apply ht.congr_tree hlen
  · intro k
    cases hk : lm.pieces[k]? with
    | none => simp [LocalModel.childrenOf, hk, hnone k hk]
    | some p =>
      rcases hall k p hk with ⟨p1, hp1, hc, _⟩
      have hp1' : ({ lm with pieces := ps1 } : LocalModel R M O).pieces[k]? = some p1 := hp1
      rw [childrenOf_eq hk, childrenOf_eq hp1', hc]
  · intro k
    cases hk : lm.pieces[k]? with
    | none => simp [LocalModel.parentOf, hk, hnone k hk]
    | some p =>
      rcases hall k p hk with ⟨p1, hp1, _, hpa⟩
      have hp1' : ({ lm with pieces := ps1 } : LocalModel R M O).pieces[k]? = some p1 := hp1
      rw [parentOf_eq hk, parentOf_eq hp1', hpa]

/-- `SetModel(model, false)` runs the re-pointing loop, a forced top-down pass
from the root and `UpdateBoundingVolume`. -/
theorem setModel_reload_run [Add R] [Sub R] [Mul R] [Neg R] [Min R] [Max R]
    {E : Externals R M O} {fuel : Nat} {lm lm1 : LocalModel R M O} {model : S3DModel R}
    {ps1 : List (LocalModelPiece R M)}
    (hpos : 1 ≤ model.numPieces) (hn : lm.pieces.length = model.numPieces)
    (hre : repointPieces model 0 lm.pieces = some ps1)
    (hrun : UpdateChildMatricesRec E fuel { lm with pieces := ps1 } 0 true = some lm1) :
    SetModel E fuel lm model false = some (UpdateBoundingVolume E lm1) := by
  unfold SetModel
  rw [if_neg (by omega)]
  simp only [Bool.not_false, if_true]
  rw [if_neg (by simpa using hn)]
  simp only [hre, hrun]

end Reload

section ShatterSelect

variable {R : Type}

/-! ## Shatter: choice of the closest part -/

/-- The loop that looks for the closest part: either no part is taken, or the
part taken is the last one with the greatest dot product. -/
theorem findClosestPart_spec [LinearOrder R] [Add R] [Mul R] (dir : float3 R) :
    ∀ (parts : List (ShatterPartDataPair R)) (k : Nat) (md : R) (mcp : Option Nat),
    ((findClosestPart dir parts k md mcp).2 = mcp ∧
      ∀ cp ∈ parts, float3.dot cp.first.dir dir < md) ∨
    ∃ (n : Nat) (cp : ShatterPartDataPair R), parts[n]? = some cp ∧
      (findClosestPart dir parts k md mcp).2 = some (k + n) ∧
      md ≤ float3.dot cp.first.dir dir ∧
      (∀ cp1 ∈ parts, float3.dot cp1.first.dir dir ≤ float3.dot cp.first.dir dir) ∧
      ∀ (n1 : Nat) (cp1 : ShatterPartDataPair R), n < n1 → parts[n1]? = some cp1 →
        float3.dot cp1.first.dir dir < float3.dot cp.first.dir dir := by
  intro parts
  induction parts with
  | nil => intro k md mcp; exact Or.inl ⟨rfl, fun cp h => by cases h⟩
  | cons c rest ih =>
    intro k md mcp
    by_cases hlt : float3.dot c.first.dir dir < md
    · simp only [findClosestPart, hlt, if_true]
      rcases ih (k + 1) md mcp with ⟨h1, h2⟩ | ⟨n, cp, hn, hr, hmd, hall, hlater⟩
      · left
        refine ⟨h1, ?_⟩
        intro cp hcp
        rcases List.mem_cons.1 hcp with h | h
        · rw [h]; exact hlt
        · exact h2 cp h
      · right
        refine ⟨n + 1, cp, by simpa using hn, by rw [hr]; congr 1; omega, hmd, ?_, ?_⟩
        · intro cp1 hcp1
          rcases List.mem_cons.1 hcp1 with h | h
          · rw [h]; exact le_of_lt (lt_of_lt_of_le hlt hmd)
          · exact hall cp1 h
        · intro n1 cp1 hn1 hget
          cases n1 with
          | zero => omega
          | succ n1 =>
            exact hlater n1 cp1 (by omega) (by simpa using hget)
    · simp only [findClosestPart, hlt, if_false]
      have hge : md ≤ float3.dot c.first.dir dir := not_lt.1 hlt
      rcases ih (k + 1) (float3.dot c.first.dir dir) (some k)
        with ⟨h1, h2⟩ | ⟨n, cp, hn, hr, hmd, hall, hlater⟩
      · right
        refine ⟨0, c, by simp, by rw [h1]; rfl, hge, ?_, ?_⟩
        · intro cp1 hcp1
          rcases List.mem_cons.1 hcp1 with h | h
          · rw [h]
          · exact le_of_lt (h2 cp1 h)
        · intro n1 cp1 hn1 hget
          cases n1 with
          | zero => omega
          | succ n1 =>
            exact h2 cp1 (List.getElem?_mem (by simpa using hget))
      · right
        refine ⟨n + 1, cp, by simpa using hn, by rw [hr]; congr 1; omega,
          le_trans hge hmd, ?_, ?_⟩
        · intro cp1 hcp1
          rcases List.mem_cons.1 hcp1 with h | h
          · rw [h]; exact hmd
          · exact hall cp1 h
        · intro n1 cp1 hn1 hget
          cases n1 with
          | zero => omega
          | succ n1 =>
            exact hlater n1 cp1 (by omega) (by simpa using hget)

/-- When some part is not below the start value `-2.0f`, the loop finds the
last closest part. -/
theorem findClosestPart_found [LinearOrder R] [Add R] [Mul R] (dir : float3 R)
    (parts : List (ShatterPartDataPair R)) (md : R)
    (h : ∃ cp ∈ parts, ¬ float3.dot cp.first.dir dir < md) :
    ∃ (n : Nat) (cp : ShatterPartDataPair R), parts[n]? = some cp ∧
      (findClosestPart dir parts 0 md none).2 = some n ∧
      LastClosest (parts.map (fun cp => cp.first.dir)) dir n := by
  rcases findClosestPart_spec dir parts 0 md none
    with ⟨_, h2⟩ | ⟨n, cp, hn, hr, _, hall, hlater⟩
  · rcases h with ⟨cp, hcp, hnot⟩
    exact absurd (h2 cp hcp) hnot
  · refine ⟨n, cp, hn, by rw [hr]; congr 1; omega, cp.first.dir, ?_, ?_, ?_⟩
    · simp [List.getElem?_map, hn]
    · intro d1 hd1
      rcases List.mem_map.1 hd1 with ⟨cp1, hcp1, rfl⟩
      exact hall cp1 hcp1
    · intro k1 d1 hk1 hget
      rw [List.getElem?_map] at hget
      cases hc : parts[k1]? with
      | none => rw [hc] at hget; cases hget
      | some cp1 =>
        rw [hc] at hget
        simp only [Option.map_some', Option.some.injEq] at hget
        rw [← hget]
        exact hlater k1 cp1 hk1 hc

end ShatterSelect

section ShatterAssign

variable {R : Type}

/-! ## Shatter: the loop over the triangles -/

theorem getPolygonDir_indices [Add R] {S : ShatterExternals R} {piece : S3DModelPiece R}
    {i : Nat} {dir : float3 R} (h : GetPolygonDir S piece i = some dir) :
    ∃ i0 i1 i2 : Nat, piece.indices[i + 0]? = some i0 ∧ piece.indices[i + 1]? = some i1 ∧
      piece.indices[i + 2]? = some i2 := by
  unfold GetPolygonDir at h
  split at h
  · rename_i i0 i1 i2 h0 h1 h2
    exact ⟨i0, i1, i2, h0, h1, h2⟩
  · cases h

theorem triangleAt_eq {piece : S3DModelPiece R} {i i0 i1 i2 : Nat}
    (h0 : piece.indices[i + 0]? = some i0) (h1 : piece.indices[i + 1]? = some i1)
    (h2 : piece.indices[i + 2]? = some i2) : piece.triangleAt i = [i0, i1, i2] := by
  unfold S3DModelPiece.triangleAt
  rcases List.getElem?_eq_some.1 h0 with ⟨l0, e0⟩
  rcases List.getElem?_eq_some.1 h1 with ⟨l1, e1⟩
  rcases List.getElem?_eq_some.1 h2 with ⟨l2, e2⟩
  rw [List.drop_eq_getElem_cons (by simpa using l0), List.drop_eq_getElem_cons l1,
    List.drop_eq_getElem_cons l2]
  simp only [Nat.add_zero] at e0
  simp [e0, e1, e2]

theorem split_at_get {α : Type} {l : List α} {n : Nat} {x : α} (h : l[n]? = some x) :
    ∃ A B : List α, l = A ++ x :: B ∧ A.length = n := by
  rcases List.getElem?_eq_some.1 h with ⟨hn, e⟩
  refine ⟨l.take n, l.drop (n + 1), ?_, by simp; omega⟩
  rw [← e, ← List.drop_eq_getElem_cons hn, List.take_append_drop]

theorem prefix_drop_append {l tri : List Nat} {pos : Nat} (x : List Nat)
    (hlen : tri.length = 3) (h : tri <+: l.drop pos) : tri <+: (l ++ x).drop pos := by
  have hpos : pos ≤ l.length := by
    have := h.length_le
    rw [List.length_drop] at this
    omega
  rw [List.drop_append_of_le_length hpos]
  exact h.trans (List.prefix_append _ _)

/-- One triangle more: the body of the loop returns when the triangle has a
direction and some slot is not below `-2.0f`, and keeps `TrianglesAdded`. -/
theorem addTriangle_spec [LinearOrder R] [Add R] [Mul R] (S : ShatterExternals R)
    (piece : S3DModelPiece R) (dirs : List (float3 R)) (buf : List (ShatterPartDataPair R))
    (done : List Nat) (i : Nat) (hinv : TrianglesAdded S piece dirs buf done)
    (hdir : ∃ dir, GetPolygonDir S piece i = some dir ∧
      ∃ d ∈ dirs, ¬ float3.dot d dir < S.minusTwo) :
    ∃ buf1, addTriangle S piece buf i = some buf1 ∧
      TrianglesAdded S piece dirs buf1 (done ++ [i]) := by
  rcases hdir with ⟨dir, hg, d, hd, hnot⟩
  rcases getPolygonDir_indices hg with ⟨i0, i1, i2, h0, h1, h2⟩
  have htri := triangleAt_eq h0 h1 h2
  have hex : ∃ cp ∈ buf, ¬ float3.dot cp.first.dir dir < S.minusTwo := by
    rw [← hinv.slots] at hd
    rcases List.mem_map.1 hd with ⟨cp, hcp, rfl⟩
    exact ⟨cp, hcp, hnot⟩
  rcases findClosestPart_found dir buf S.minusTwo hex with ⟨n, cp, hn, hr, hlast⟩
  rw [hinv.slots] at hlast
  rcases split_at_get hn with ⟨A, B, hAB, hA⟩
  have hset : buf.set n { cp with second := cp.second ++ [i0, i1, i2] } =
      A ++ { cp with second := cp.second ++ [i0, i1, i2] } :: B := by
    rw [hAB, ← hA]; simp
  refine ⟨buf.set n { cp with second := cp.second ++ [i0, i1, i2] }, ?_, ?_, ?_, ?_⟩
  · simp only [addTriangle, hg, hr, h0, h1, h2, hn]
  · rw [hset, ← hinv.slots, hAB]; simp
  · rw [hset]
    have := hinv.total
    rw [hAB] at this
    simp only [List.map_append, List.map_cons, List.sum_append, List.sum_cons,
      List.length_append, List.length_cons, List.length_nil] at this ⊢
    omega
  · have hnl : n < buf.length := (List.getElem?_eq_some.1 hn).1
    intro j hj
    rcases List.mem_append.1 hj with hj | hj
    · rcases hinv.placed j hj with ⟨k, cpk, dirj, pos, hk, hgj, hlj, hlen, hpre⟩
      by_cases hkn : n = k
      · subst hkn
        rw [hn] at hk; cases hk
        refine ⟨n, { cp with second := cp.second ++ [i0, i1, i2] }, dirj, pos, ?_, hgj, hlj,
          hlen, prefix_drop_append _ hlen hpre⟩
        simp [List.getElem?_set, hnl]
      · refine ⟨k, cpk, dirj, pos, ?_, hgj, hlj, hlen, hpre⟩
        rw [List.getElem?_set]; simp [hkn, hk]
    · simp only [List.mem_singleton] at hj
      subst hj
      refine ⟨n, { cp with second := cp.second ++ [i0, i1, i2] }, dir, cp.second.length, ?_,
        hg, hlast, by rw [htri]; rfl, ?_⟩
      · simp [List.getElem?_set, hnl]
      · rw [htri]; simp

/-- The loop over the triangles returns when every triangle has a direction and
some slot that is not below `-2.0f`, and keeps `TrianglesAdded`. -/
theorem addTriangles_spec [LinearOrder R] [Add R] [Mul R] (S : ShatterExternals R)
    (piece : S3DModelPiece R) (dirs : List (float3 R)) :
    ∀ (todo : List Nat) (buf : List (ShatterPartDataPair R)) (done : List Nat),
    TrianglesAdded S piece dirs buf done →
    (∀ i ∈ todo, ∃ dir, GetPolygonDir S piece i = some dir ∧
      ∃ d ∈ dirs, ¬ float3.dot d dir < S.minusTwo) →
    ∃ buf1, addTriangles S piece todo buf = some buf1 ∧
      TrianglesAdded S piece dirs buf1 (done ++ todo) := by
  intro todo
  induction todo with
  | nil => intro buf done hinv _; exact ⟨buf, rfl, by simpa using hinv⟩
  | cons i rest ih =>
    intro buf done hinv hall
    rcases addTriangle_spec S piece dirs buf done i hinv (hall i (by simp))
      with ⟨buf1, hrun1, hinv1⟩
    rcases ih buf1 (done ++ [i]) hinv1 (fun j hj => hall j (by simp [hj]))
      with ⟨buf2, hrun2, hinv2⟩
    refine ⟨buf2, by simp only [addTriangles, hrun1, hrun2], ?_⟩
    simpa using hinv2

end ShatterAssign

section ShatterRanges

variable {R : Type}

/-! ## Shatter: index ranges -/

theorem consecutive_start_le : ∀ (l : List (RenderData R)) (s : Nat), Consecutive s l →
    ∀ rd ∈ l, s ≤ rd.indexStart := by
  intro l
  induction l with
  | nil => intro s _ rd h; cases h
  | cons r rest ih =>
    intro s hc rd hrd
    rcases List.mem_cons.1 hrd with h | h
    · rw [h, hc.1]
    · have := ih _ hc.2 rd h
      omega

theorem consecutive_pairwise : ∀ (l : List (RenderData R)) (s : Nat), Consecutive s l →
    l.Pairwise RenderData.disjoint := by
  intro l
  induction l with
  | nil => intro s _; exact List.Pairwise.nil
  | cons r rest ih =>
    intro s hc
    refine List.Pairwise.cons ?_ (ih _ hc.2)
    intro rd hrd x hx hy
    have h1 := consecutive_start_le rest _ hc.2 rd hrd
    have h2 := hc.1
    unfold RenderData.covers at hx hy
    omega

theorem consecutive_covers : ∀ (l : List (RenderData R)) (s : Nat), Consecutive s l →
    ∀ x, (∃ rd ∈ l, rd.covers x) ↔
      (s ≤ x ∧ x < s + (l.map (fun rd => rd.indexCount)).sum) := by
  intro l
  induction l with
  | nil => intro s _ x; simp
  | cons r rest ih =>
    intro s hc x
    have h1 := hc.1
    have h2 := ih _ hc.2 x
    simp only [List.mem_cons, exists_eq_or_imp, List.map_cons, List.sum_cons]
    rw [h2]
    unfold RenderData.covers
    omega

theorem disjoint_symm {a b : RenderData R} (h : a.disjoint b) : b.disjoint a :=
  fun x hb ha => h x ha hb

/-- The loop that assigns the index ranges, when the positions fit into
`uint32_t`: the parts keep their directions and index lists, the count of a
part is the length of its index list, the ranges follow one another from
`base + indxPos` on, the index lists are appended to `shatterIndices` in slot
order, and the range of a part starts where its index list starts in the
appended block. -/
theorem assignRanges_spec (base : Nat) :
    ∀ (buf : List (ShatterPartDataPair R)) (indxPos : Nat) (shatterIndices : List Nat),
    base + indxPos + (buf.map (fun cp => cp.second.length)).sum < 2 ^ 32 →
    (assignRanges base buf indxPos shatterIndices).1.map (fun cp => cp.second) =
      buf.map (fun cp => cp.second) ∧
    (assignRanges base buf indxPos shatterIndices).1.map (fun cp => cp.first.dir) =
      buf.map (fun cp => cp.first.dir) ∧
    (assignRanges base buf indxPos shatterIndices).1.map (fun cp => cp.first.indexCount) =
      buf.map (fun cp => cp.second.length) ∧
    Consecutive (base + indxPos)
      ((assignRanges base buf indxPos shatterIndices).1.map (fun cp => cp.first)) ∧
    (assignRanges base buf indxPos shatterIndices).2.2 =
      shatterIndices ++ (buf.map (fun cp => cp.second)).flatten ∧
    ∀ (k : Nat) (cp1 : ShatterPartDataPair R),
      (assignRanges base buf indxPos shatterIndices).1[k]? = some cp1 →
      ∃ A B : List Nat, (buf.map (fun cp => cp.second)).flatten = A ++ cp1.second ++ B ∧
        cp1.first.indexStart = base + indxPos + A.length := by
  intro buf
  induction buf with
  | nil =>
    intro a sI _
    refine ⟨rfl, rfl, rfl, trivial, by simp [assignRanges], ?_⟩
    intro k cp1 h
    simp [assignRanges] at h
  | cons cp rest ih =>
    intro a sI hfit
    simp only [List.map_cons, List.sum_cons] at hfit
    have hcount : cp.second.length % 2 ^ 32 = cp.second.length :=
      Nat.mod_eq_of_lt (by omega)
    have hstart : (base + a) % 2 ^ 32 = base + a := Nat.mod_eq_of_lt (by omega)
    have hnext : (if 0 < cp.second.length then
        ((a + cp.second.length) % 2 ^ 32, sI ++ cp.second) else (a, sI)) =
        (a + cp.second.length, sI ++ cp.second) := by
      by_cases h0 : 0 < cp.second.length
      · rw [if_pos h0, Nat.mod_eq_of_lt (by omega)]
      · rw [if_neg h0]
        have hz : cp.second.length = 0 := by omega
        have hnil : cp.second = [] := List.length_eq_zero.1 hz
        rw [hz, hnil]; simp
    rcases ih (a + cp.second.length) (sI ++ cp.second) (by omega)
      with ⟨i1, i2, i3, i4, i5, i6⟩
    simp only [assignRanges, -Nat.reducePow, hcount, hstart, hnext]
    refine ⟨by simp [i1], by simp [i2], by simp [i3], ?_, ?_, ?_⟩
    · refine ⟨rfl, ?_⟩
      show Consecutive (base + a + cp.second.length) _
      have : base + a + cp.second.length = base + (a + cp.second.length) := by omega
      rw [this]; exact i4
    · rw [i5]; simp
    · intro k cp1 hk
      cases k with
      | zero =>
        simp only [List.getElem?_cons_zero, Option.some.injEq] at hk
        subst hk
        exact ⟨[], (rest.map (fun cp => cp.second)).flatten, by simp, by simp⟩
      | succ k =>
        simp only [List.getElem?_cons_succ] at hk
        rcases i6 k cp1 hk with ⟨A, B, hf, hs⟩
        refine ⟨cp.second ++ A, B, by simp [hf], ?_⟩
        rw [hs]; simp; omega

end ShatterRanges

section ShatterCompact

variable {R : Type}

/-! ## Shatter: the loop that swaps empty parts to the back -/

theorem perm_set_head {α : Type} (x : α) : ∀ (xs : List α) (j : Nat) (y : α),
    xs[j]? = some y → (y :: xs.set j x).Perm (x :: xs) := by
  intro xs
  induction xs with
  | nil => intro j y h; simp at h
  | cons z t ih =>
    intro j y h
    cases j with
    | zero =>
      simp only [List.getElem?_cons_zero, Option.some.injEq] at h
      subst h
      exact List.Perm.swap x z t
    | succ k =>
      simp only [List.getElem?_cons_succ] at h
      have h1 : (y :: z :: t.set k x).Perm (z :: y :: t.set k x) := List.Perm.swap z y _
      have h2 : (z :: y :: t.set k x).Perm (z :: x :: t) := List.Perm.cons z (ih k y h)
      have h3 : (z :: x :: t).Perm (x :: z :: t) := List.Perm.swap x z t
      exact (h1.trans h2).trans h3

/-- Swapping two entries of a list gives a permutation of it. -/
theorem perm_swap_entries {α : Type} : ∀ (l : List α) (i j : Nat) (a b : α), i < j →
    l[i]? = some a → l[j]? = some b → ((l.set i b).set j a).Perm l := by
  intro l
  induction l with
  | nil => intro i j a b _ h; simp at h
  | cons x xs ih =>
    intro i j a b hij hi hj
    cases j with
    | zero => omega
    | succ j1 =>
      simp only [List.getElem?_cons_succ] at hj
      cases i with
      | zero =>
        simp only [List.getElem?_cons_zero, Option.some.injEq] at hi
        subst hi
        simp only [List.set_cons_zero, List.set_cons_succ]
        exact perm_set_head x xs j1 b hj
      | succ i1 =>
        simp only [List.getElem?_cons_succ] at hi
        simp only [List.set_cons_succ]
        exact List.Perm.cons x (ih i1 j1 a b (by omega) hi hj)

/-- The loop that swaps empty parts to the back: from `j ≤ backIdx` inside the
buffer, with enough fuel for `backIdx - j` iterations and only empty parts
behind `backIdx`, it returns a permutation of the buffer and a `backIdx`
inside it with only empty parts behind it. -/
theorem deleteEmptyParts_spec :
    ∀ (fuel : Nat) (buf : List (ShatterPartDataPair R)) (j backIdx : Nat),
    j ≤ backIdx → backIdx < buf.length → backIdx ≤ fuel + j →
    (∀ (n : Nat) (cp : ShatterPartDataPair R), backIdx < n → buf[n]? = some cp →
      cp.first.indexCount = 0) →
    ∃ (buf1 : List (ShatterPartDataPair R)) (backIdx1 : Nat),
      deleteEmptyParts fuel buf j backIdx = some (buf1, backIdx1) ∧
      buf1.Perm buf ∧ backIdx1 < buf1.length ∧
      ∀ (n : Nat) (cp : ShatterPartDataPair R), backIdx1 < n → buf1[n]? = some cp →
        cp.first.indexCount = 0 := by
  intro fuel
  induction fuel with
  | zero =>
    intro buf j b hjb hb hf hemp
    have : ¬ (j < buf.length ∧ j < b) := by omega
    exact ⟨buf, b, by simp only [deleteEmptyParts, this, if_false], List.Perm.refl _, hb, hemp⟩
  | succ fuel ih =>
    intro buf j b hjb hb hf hemp
    by_cases hc : j < buf.length ∧ j < b
    · have hja : buf[j]? = some buf[j] := List.getElem?_eq_getElem hc.1
      have hbb : buf[b]? = some buf[b] := List.getElem?_eq_getElem hb
      by_cases hz : buf[j].first.indexCount = 0
      · have hperm := perm_swap_entries buf j b buf[j] buf[b] hc.2 hja hbb
        rcases ih ((buf.set j buf[b]).set b buf[j]) j (b - 1) (by omega)
          (by simp only [List.length_set]; omega) (by omega)
          (by
            intro n cp hn hget
            by_cases hnb : n = b
            · subst hnb
              rw [List.getElem?_set] at hget
              simp only [List.length_set, hb, if_true] at hget
              cases hget
              exact hz
            · rw [List.getElem?_set, if_neg (Ne.symm hnb), List.getElem?_set,
                if_neg (by omega)] at hget
              exact hemp n cp (by omega) hget)
          with ⟨buf1, b1, hrun, hp1, hb1, hemp1⟩
        refine ⟨buf1, b1, ?_, hp1.trans hperm, hb1, hemp1⟩
        rw [deleteEmptyParts]
        simp only [hc, and_self, if_true, hja, hbb, hz]
        exact hrun
      · rcases ih buf (j + 1) b (by omega) hb (by omega) hemp with ⟨buf1, b1, hrun, hp1, hb1, hemp1⟩
        refine ⟨buf1, b1, ?_, hp1, hb1, hemp1⟩
        rw [deleteEmptyParts]
        simp only [hc, and_self, if_true, hja, hbb, hz, if_false]
        exact hrun
    · exact ⟨buf, b, by rw [deleteEmptyParts]; simp only [hc, if_false], List.Perm.refl _, hb,
        hemp⟩

end ShatterCompact

section ShatterSpec

variable {R : Type}

/-! ## Shatter: one variation -/

theorem triangleStarts_mul (T : Nat) :
    triangleStarts (3 * T) = (List.range T).map (fun t => 3 * t) := by
  unfold triangleStarts
  have : (3 * T + 2) / 3 = T := by omega
  rw [this]

/-- `CreateShatterPiecesVariation(num)` on a piece with `T` triangles, when
every triangle has a direction and a slot that is not below `-2.0f` and the
positions of the block fit into `uint32_t`: the call returns; `slots` is the
buffer after the ranges have been assigned, `kept` the fragments stored and
`dropped` the parts left out. -/
theorem createShatterPiecesVariation_spec [LinearOrder R] [Add R] [Mul R]
    (S : ShatterExternals R) (piece : S3DModelPiece R) (rng : Nat → float3 R)
    (st : ShatterData R) (num T : Nat)
    (hT : piece.indices.length = 3 * T)
    (hM : 0 < S.SHATTER_MAX_PARTS) (hM64 : S.SHATTER_MAX_PARTS < 2 ^ 64)
    (hnum : num < st.shatterParts.length)
    (hfit : num * (3 * T) + 3 * T < 2 ^ 32)
    (hdirs : ∀ t < T, ∃ d ∈ slotDirs S rng, ∃ dir ∈ GetPolygonDir S piece (3 * t),
      ¬ float3.dot d dir < S.minusTwo) :
    ∃ (slots : List (ShatterPartDataPair R)) (kept dropped : List (RenderData R)),
      CreateShatterPiecesVariation S piece rng st num =
        some { shatterIndices := st.shatterIndices ++ (slots.map (fun cp => cp.second)).flatten
               shatterParts := st.shatterParts.set num kept } ∧
      slots.map (fun cp => cp.first.dir) = slotDirs S rng ∧
      slots.map (fun cp => cp.first.indexCount) = slots.map (fun cp => cp.second.length) ∧
      (slots.map (fun cp => cp.second.length)).sum = 3 * T ∧
      Consecutive (num * (3 * T)) (slots.map (fun cp => cp.first)) ∧
      (kept ++ dropped).Perm (slots.map (fun cp => cp.first)) ∧
      (∀ rd ∈ dropped, rd.indexCount = 0) ∧
      (∀ (k : Nat) (cp : ShatterPartDataPair R), slots[k]? = some cp →
        ∃ A B : List Nat, (slots.map (fun cp => cp.second)).flatten = A ++ cp.second ++ B ∧
          cp.first.indexStart = num * (3 * T) + A.length) ∧
      ∀ t < T, ∃ (k : Nat) (cp : ShatterPartDataPair R) (dir : float3 R) (pos : Nat),
        slots[k]? = some cp ∧ GetPolygonDir S piece (3 * t) = some dir ∧
        LastClosest (slotDirs S rng) dir k ∧ (piece.triangleAt (3 * t)).length = 3 ∧
        piece.triangleAt (3 * t) <+: cp.second.drop pos := by
  -- the buffer with the directions drawn
  have hinit : TrianglesAdded S piece (slotDirs S rng)
      ((List.range S.SHATTER_MAX_PARTS).map
        (fun k => ({ first := { dir := S.ANormalize (rng k), indexStart := 0, indexCount := 0 }
                     second := [] } : ShatterPartDataPair R))) [] := by
    refine ⟨?_, ?_, ?_⟩
    · simp [slotDirs, slotDir, List.map_map, Function.comp_def]
    · simp [List.map_map, Function.comp_def]
    · intro i hi; cases hi
  have htodo : ∀ i ∈ triangleStarts piece.indices.length,
      ∃ dir, GetPolygonDir S piece i = some dir ∧
        ∃ d ∈ slotDirs S rng, ¬ float3.dot d dir < S.minusTwo := by
    intro i hi
    rw [hT, triangleStarts_mul] at hi
    rcases List.mem_map.1 hi with ⟨t, ht, rfl⟩
    rcases hdirs t (List.mem_range.1 ht) with ⟨d, hd, dir, hdir, hnot⟩
    exact ⟨dir, hdir, d, hd, hnot⟩
  rcases addTriangles_spec S piece (slotDirs S rng) (triangleStarts piece.indices.length) _ []
    hinit htodo with ⟨buf1, hadd, hinv⟩
  simp only [List.nil_append] at hinv
  have htotal : (buf1.map (fun cp => cp.second.length)).sum = 3 * T := by
    rw [hinv.total, hT, triangleStarts_mul]; simp
  have hbase : num * piece.indices.length % 2 ^ 32 = num * (3 * T) := by
    rw [hT]; exact Nat.mod_eq_of_lt (by omega)
  rcases assignRanges_spec (num * (3 * T)) buf1 0 st.shatterIndices (by omega)
    with ⟨r1, r2, r3, r4, r5, r6⟩
  have hlen1 : buf1.length = S.SHATTER_MAX_PARTS := by
    have := congrArg List.length hinv.slots
    simpa [slotDirs] using this
  have hlenr : (assignRanges (num * (3 * T)) buf1 0 st.shatterIndices).1.length =
      S.SHATTER_MAX_PARTS := by
    have := congrArg List.length r1
    simp only [List.length_map] at this
    omega
  have hback : ((assignRanges (num * (3 * T)) buf1 0 st.shatterIndices).1.length + 2 ^ 64 - 1)
      % 2 ^ 64 = S.SHATTER_MAX_PARTS - 1 := by
    rw [hlenr]
    have : S.SHATTER_MAX_PARTS + 2 ^ 64 - 1 = (S.SHATTER_MAX_PARTS - 1) + 2 ^ 64 := by omega
    rw [this, Nat.add_mod_right]
    exact Nat.mod_eq_of_lt (by omega)
  rcases deleteEmptyParts_spec S.SHATTER_MAX_PARTS
    (assignRanges (num * (3 * T)) buf1 0 st.shatterIndices).1 0 (S.SHATTER_MAX_PARTS - 1)
    (by omega) (by omega) (by omega)
    (by
      intro n cp hn hget
      have := (List.getElem?_eq_some.1 hget).1
      omega)
    with ⟨buf3, b3, hdel, hperm, hb3, hemp⟩
  refine ⟨(assignRanges (num * (3 * T)) buf1 0 st.shatterIndices).1,
    (buf3.take (b3 + 1)).map (fun cp => cp.first),
    (buf3.drop (b3 + 1)).map (fun cp => cp.first), ?_, ?_, ?_, ?_, ?_, ?_, ?_, ?_, ?_⟩
  · unfold CreateShatterPiecesVariation
    simp only [hadd, hbase, hlenr]
    rw [hlenr] at hback
    simp only [hback, hdel, hb3, hnum, and_self, if_true]
    rw [r5, r1]
  · rw [r2]; exact hinv.slots
  · rw [r3]
    have := congrArg (List.map List.length) r1
    simpa [List.map_map, Function.comp_def] using this.symm
  · have := congrArg (List.map List.length) r1
    simp only [List.map_map, Function.comp_def] at this
    rw [this]; exact htotal
  · simpa using r4
  · rw [← List.map_append, List.take_append_drop]
    exact hperm.map _
  · intro rd hrd
    rcases List.mem_map.1 hrd with ⟨cp, hcp, rfl⟩
    rcases List.getElem?_of_mem hcp with ⟨n, hn⟩
    rw [List.getElem?_drop] at hn
    exact hemp _ cp (by omega) hn
  · intro k cp hk
    rcases r6 k cp hk with ⟨A, B, hf, hs⟩
    refine ⟨A, B, ?_, by simpa using hs⟩
    rw [r1]; exact hf
  · intro t ht
    have hmem : 3 * t ∈ triangleStarts piece.indices.length := by
      rw [hT, triangleStarts_mul]
      exact List.mem_map.2 ⟨t, List.mem_range.2 ht, rfl⟩
    rcases hinv.placed (3 * t) hmem with ⟨k, cp, dir, pos, hk, hg, hl, hlen, hpre⟩
    have hkr : k < (assignRanges (num * (3 * T)) buf1 0 st.shatterIndices).1.length := by
      rw [hlenr, ← hlen1]; exact (List.getElem?_eq_some.1 hk).1
    refine ⟨k, (assignRanges (num * (3 * T)) buf1 0 st.shatterIndices).1[k], dir, pos,
      List.getElem?_eq_getElem hkr, hg, hl, hlen, ?_⟩
    have h2 := congrArg (fun l => l[k]?) r1
    simp only [List.getElem?_map, hk, List.getElem?_eq_getElem hkr, Option.map_some'] at h2
    have h3 : (assignRanges (num * (3 * T)) buf1 0 st.shatterIndices).1[k].second = cp.second := by
      simpa using h2
    rw [h3]; exact hpre

end ShatterSpec

section ShatterFragments

variable {R : Type}

/-! ## Shatter: the stored fragments -/

theorem renderData_set (st : ShatterData R) (sI : List Nat) (num : Nat)
    (kept : List (RenderData R)) (hnum : num < st.shatterParts.length) :
    ShatterData.renderData
      { shatterIndices := sI, shatterParts := st.shatterParts.set num kept } num = kept := by
  simp [ShatterData.renderData, List.getElem?_set, hnum]

theorem sum_eq_zero_of_all_zero : ∀ (l : List (RenderData R)),
    (∀ rd ∈ l, rd.indexCount = 0) → (l.map (fun rd => rd.indexCount)).sum = 0 := by
  intro l
  induction l with
  | nil => intro _; rfl
  | cons r rest ih =>
    intro h
    simp only [List.map_cons, List.sum_cons]
    rw [h r (by simp), ih (fun rd hrd => h rd (by simp [hrd]))]

/-- A part with a non-empty range is among the parts kept. -/
theorem mem_kept_of_count_pos {kept dropped all : List (RenderData R)} {rd : RenderData R}
    (hperm : (kept ++ dropped).Perm all) (hdrop : ∀ r ∈ dropped, r.indexCount = 0)
    (hmem : rd ∈ all) (hpos : 0 < rd.indexCount) : rd ∈ kept := by
  have := hperm.mem_iff.2 hmem
  rcases List.mem_append.1 this with h | h
  · exact h
  · have := hdrop rd h
    omega

/-- Where `CreateShatterPiecesVariation` puts a triangle: the fragment stored
for the last closest slot covers the positions of the triangle in the block
appended to `shatterIndices`. -/
theorem shatter_triangle_fragment [LinearOrder R] [Add R] [Mul R]
    (S : ShatterExternals R) (piece : S3DModelPiece R) (rng : Nat → float3 R)
    (st : ShatterData R) (num T : Nat)
    (hT : piece.indices.length = 3 * T)
    (hM : 0 < S.SHATTER_MAX_PARTS) (hM64 : S.SHATTER_MAX_PARTS < 2 ^ 64)
    (hnum : num < st.shatterParts.length)
    (hfit : num * (3 * T) + 3 * T < 2 ^ 32)
    (hdirs : ∀ t < T, ∃ d ∈ slotDirs S rng, ∃ dir ∈ GetPolygonDir S piece (3 * t),
      ¬ float3.dot d dir < S.minusTwo) :
    ∃ (out : ShatterData R) (block : List Nat),
      CreateShatterPiecesVariation S piece rng st num = some out ∧
      out.shatterIndices = st.shatterIndices ++ block ∧
      (∀ rd1 ∈ out.renderData num, rd1.dir ∈ slotDirs S rng) ∧
      ∀ t < T, ∃ rd ∈ out.renderData num, ∃ (q : Nat) (dir : float3 R) (k : Nat),
        GetPolygonDir S piece (3 * t) = some dir ∧
        rd.covers (num * (3 * T) + q) ∧ rd.covers (num * (3 * T) + q + 2) ∧
        (block.drop q).take 3 = piece.triangleAt (3 * t) ∧
        (slotDirs S rng)[k]? = some rd.dir ∧ LastClosest (slotDirs S rng) dir k := by
  rcases createShatterPiecesVariation_spec S piece rng st num T hT hM hM64 hnum hfit hdirs
    with ⟨slots, kept, dropped, hrun, hsl, hcount, hsum, hcons, hperm, hdrop, hpos, hplaced⟩
  refine ⟨_, _, hrun, rfl, ?_, ?_⟩
  · intro rd1 hrd1
    rw [renderData_set st _ num kept hnum] at hrd1
    have h1 : rd1 ∈ slots.map (fun cp => cp.first) :=
      hperm.mem_iff.1 (List.mem_append_left _ hrd1)
    rcases List.mem_map.1 h1 with ⟨cp, hcp, rfl⟩
    rw [← hsl]
    exact List.mem_map.2 ⟨cp, hcp, rfl⟩
  · intro t ht
    rcases hplaced t ht with ⟨k, cp, dir, pos, hk, hg, hl, hlen, hpre⟩
    rcases hpos k cp hk with ⟨A, B, hfl, hstart⟩
    have hc : cp.first.indexCount = cp.second.length := by
      have := congrArg (fun l => l[k]?) hcount
      simpa [List.getElem?_map, hk] using this
    have hposle : pos + 3 ≤ cp.second.length := by
      have := hpre.length_le
      rw [List.length_drop, hlen] at this
      have hne : 3 ≤ cp.second.length - pos := this
      omega
    have hdir : (slotDirs S rng)[k]? = some cp.first.dir := by
      rw [← hsl, List.getElem?_map, hk]; rfl
    refine ⟨cp.first, ?_, A.length + pos, dir, k, hg, ?_, ?_, ?_, hdir, hl⟩
    · rw [renderData_set st _ num kept hnum]
      exact mem_kept_of_count_pos hperm hdrop
        (List.mem_map.2 ⟨cp, List.getElem?_mem hk, rfl⟩) (by omega)
    · unfold RenderData.covers; omega
    · unfold RenderData.covers; omega
    · rw [hfl, List.append_assoc, List.drop_append, List.drop_append_of_le_length (by omega)]
      have h3 : piece.triangleAt (3 * t) <+: cp.second.drop pos ++ B :=
        hpre.trans (List.prefix_append _ _)
      have := List.prefix_iff_eq_take.1 h3
      rw [hlen] at this
      exact this.symm

end ShatterFragments

section Claims3

variable {R M O : Type}

/-- C11: in a piece tree with an owning object, for a piece `P = pieces[i]`
with a pseudo-world-space flag set, every update pass that recomputes the
model-space matrix of `P` returns (given fuel for the depth of the tree) and
ends with `P` dirty and `customDirty` set: `UpdateParentMatricesRec` on `P`,
after which all children of `P` are dirty as well, and
`UpdateChildMatricesRec(u)` started at any piece `r` above `P` when the pass
is forced or `P` or a piece on the path from `r` to `P` is dirty (`Recomputed`;
these are the passes that reach `P` while it is dirty or with the update flag
set).  In particular a `P` that is dirty before a top-down pass from the root
is dirty after it. -/
theorem C11_pseudo_piece_never_clean [Sub R] [Mul R] [Neg R] (E : Externals R M O)
    (fuel : Nat) (lm : LocalModel R M O) (i : Nat) (p : LocalModelPiece R M)
    (ht : TreeShaped lm) (hobj : lm.owningObject ≠ none) (hp : lm.pieces[i]? = some p)
    (hps : p.pseudoWorldSpacePosition = true ∨ p.pseudoWorldSpaceRotation = true)
    (hf : lm.pieces.length + i < fuel) :
    (∃ lm1, UpdateParentMatricesRec E fuel lm i = some lm1 ∧
      (∃ p1 : LocalModelPiece R M, lm1.pieces[i]? = some p1 ∧
        p1.dirty = true ∧ p1.customDirty = true) ∧
      ∀ c ∈ lm.childrenOf i, lm1.dirtyOf c = true) ∧
    (∀ (r : Nat) (u : Bool), InSubtree lm r i → Recomputed lm r u i →
      ∃ lm1, UpdateChildMatricesRec E fuel lm r u = some lm1 ∧
        ∃ p1 : LocalModelPiece R M, lm1.pieces[i]? = some p1 ∧
          p1.dirty = true ∧ p1.customDirty = true) ∧
    (p.dirty = true → ∀ u : Bool,
      ∃ lm1, UpdateChildMatricesRec E fuel lm 0 u = some lm1 ∧ lm1.dirtyOf i = true) := by
  have hi := lt_length_of_get hp
  have hps1 : p.pseudoWorldSpace = true := by
    unfold LocalModelPiece.pseudoWorldSpace
    rcases hps with h | h <;> simp [h]
  have hdown : ∀ (r : Nat) (u : Bool), InSubtree lm r i → Recomputed lm r u i →
      ∃ lm1, UpdateChildMatricesRec E fuel lm r u = some lm1 ∧
        ∃ p1 : LocalModelPiece R M, lm1.pieces[i]? = some p1 ∧
          p1.dirty = true ∧ p1.customDirty = true := by
    intro r u hr hrec
    have hri := hr.le_sub ht
    rcases updateChild_any E fuel lm r u ht (by omega) (by omega) with ⟨lm1, hrun, hpost⟩
    exact ⟨lm1, hrun, hpost.latched hobj i p hr hp hps1 hrec⟩
  refine ⟨?_, hdown, ?_⟩
  · rcases updateParent_any E fuel lm i ht hi hf with ⟨lm1, hrun, hpost⟩
    rcases hpost.latched hobj p hp hps1 with ⟨h1, h2⟩
    exact ⟨lm1, hrun, h1, h2⟩
  · intro hd u
    have h0 := inSubtree_root ht i hi
    rcases hdown 0 u h0
      (Or.inr ⟨i, h0, InSubtree.refl i, by rw [dirtyOf_eq hp]; exact hd⟩)
      with ⟨lm1, hrun, p1, hp1, hd1, _⟩
    exact ⟨lm1, hrun, by rw [dirtyOf_eq hp1]; exact hd1⟩

/-- Witness for C11: the clean child with a pseudo-world-space rotation below
the dirty root of the example model with an owning object. -/
theorem C11_witness :
    TreeShaped demoPseudoStale ∧ demoPseudoStale.owningObject ≠ none ∧
    demoPseudoStale.pieces[1]? = some demoPseudoChild ∧
    (demoPseudoChild.pseudoWorldSpacePosition = true ∨
      demoPseudoChild.pseudoWorldSpaceRotation = true) ∧
    demoPseudoStale.pieces.length + 1 < 4 ∧
    (∃ lm1, UpdateParentMatricesRec demoExternals 4 demoPseudoStale 1 = some lm1 ∧
      (∃ p1 : LocalModelPiece Int (List Int), lm1.pieces[1]? = some p1 ∧
        p1.dirty = true ∧ p1.customDirty = true) ∧
      ∀ c ∈ demoPseudoStale.childrenOf 1, lm1.dirtyOf c = true) ∧
    (∀ (r : Nat) (u : Bool), InSubtree demoPseudoStale r 1 →
      Recomputed demoPseudoStale r u 1 →
      ∃ lm1, UpdateChildMatricesRec demoExternals 4 demoPseudoStale r u = some lm1 ∧
        ∃ p1 : LocalModelPiece Int (List Int), lm1.pieces[1]? = some p1 ∧
          p1.dirty = true ∧ p1.customDirty = true) ∧
    (demoPseudoChild.dirty = true → ∀ u : Bool,
      ∃ lm1, UpdateChildMatricesRec demoExternals 4 demoPseudoStale 0 u = some lm1 ∧
        lm1.dirtyOf 1 = true) :=
  ⟨by decide, by decide, rfl, Or.inr rfl, by decide,
    C11_pseudo_piece_never_clean demoExternals 4 demoPseudoStale 1 demoPseudoChild
      (by decide) (by decide) rfl (Or.inr rfl) (by decide)⟩

/-- C16 as stated fails: the running extrema start from the seeds
`DEF_MIN_SIZE` and `DEF_MAX_SIZE`, not from a corner.  The example model has
one piece with geometry, and the first coordinate of each of its transformed
corners lies between 20000 and 20001, so the exact box has size 1 on that
axis; with the seed 10000 `UpdateBoundingVolume` stores the size
`20001 - 10000`. -/
theorem C16_counterexample_seed_clips :
    (∃ p ∈ demoFar.pieces, p.original.HasGeometryData = true) ∧
    (∀ v ∈ transformedCorners demoExternals demoFar, 20000 ≤ v.x ∧ v.x ≤ 20001) ∧
    (∃ v ∈ transformedCorners demoExternals demoFar, v.x = 20000) ∧
    (∃ v ∈ transformedCorners demoExternals demoFar, v.x = 20001) ∧
    demoExternals.DEF_MIN_SIZE.x = 10000 ∧
    (UpdateBoundingVolume demoExternals demoFar).boundingVolume.boxSize.x = 10001 := by
  decide

/-- C16, amended: over a linearly ordered scalar type, when the seeds
`DEF_MIN_SIZE` and `DEF_MAX_SIZE` do not cut the box off (on every axis some
transformed corner is at most the seed of the minimum and some is at least the
seed of the maximum), `UpdateBoundingVolume` stores the box with size
`maxs - mins` and offset `(maxs + mins) * 0.5f`, where on every axis `mins` is
the least and `maxs` the greatest coordinate among the eight corners of every
piece with geometry, each transformed by the model-space matrix of its piece;
it clears `needsBoundariesRecalc` and changes no piece. -/
theorem C16_boundingVolume_box [LinearOrder R] [Add R] [Sub R] [Mul R]
    (E : Externals R M O) (lm : LocalModel R M O) (hseed : SeedsCovered E lm) :
    ∃ mins maxs : float3 R,
      (UpdateBoundingVolume E lm).boundingVolume =
        { boxSize := float3.sub maxs mins
          boxOffset := float3.scale (float3.add maxs mins) E.half } ∧
      IsLeast {a | ∃ v ∈ transformedCorners E lm, v.x = a} mins.x ∧
      IsLeast {a | ∃ v ∈ transformedCorners E lm, v.y = a} mins.y ∧
      IsLeast {a | ∃ v ∈ transformedCorners E lm, v.z = a} mins.z ∧
      IsGreatest {a | ∃ v ∈ transformedCorners E lm, v.x = a} maxs.x ∧
      IsGreatest {a | ∃ v ∈ transformedCorners E lm, v.y = a} maxs.y ∧
      IsGreatest {a | ∃ v ∈ transformedCorners E lm, v.z = a} maxs.z ∧
      (UpdateBoundingVolume E lm).needsBoundariesRecalc = false ∧
      (UpdateBoundingVolume E lm).pieces = lm.pieces := by
  rcases hseed with ⟨⟨v1, hv1, h1⟩, ⟨v2, hv2, h2⟩, ⟨v3, hv3, h3⟩, ⟨v4, hv4, h4⟩,
    ⟨v5, hv5, h5⟩, ⟨v6, hv6, h6⟩⟩
  have hset : ∀ f : float3 R → R,
      {a | ∃ v ∈ transformedCorners E lm, f v = a} =
        {a | a ∈ (transformedCorners E lm).map f} := by
    intro f; ext a; simp
  refine ⟨(boundingExtrema E lm).1, (boundingExtrema E lm).2, rfl, ?_, ?_, ?_, ?_, ?_, ?_,
    rfl, rfl⟩
  · rw [boundingExtrema_eq, extrema_fold_fst, hset]
    exact foldl_min_isLeast _ _ ⟨v1.x, List.mem_map.2 ⟨v1, hv1, rfl⟩, h1⟩
  · rw [boundingExtrema_eq, extrema_fold_fst, hset]
    exact foldl_min_isLeast _ _ ⟨v2.y, List.mem_map.2 ⟨v2, hv2, rfl⟩, h2⟩
  · rw [boundingExtrema_eq, extrema_fold_fst, hset]
    exact foldl_min_isLeast _ _ ⟨v3.z, List.mem_map.2 ⟨v3, hv3, rfl⟩, h3⟩
  · rw [boundingExtrema_eq, extrema_fold_snd, hset]
    exact foldl_max_isGreatest _ _ ⟨v4.x, List.mem_map.2 ⟨v4, hv4, rfl⟩, h4⟩
  · rw [boundingExtrema_eq, extrema_fold_snd, hset]
    exact foldl_max_isGreatest _ _ ⟨v5.y, List.mem_map.2 ⟨v5, hv5, rfl⟩, h5⟩
  · rw [boundingExtrema_eq, extrema_fold_snd, hset]
    exact foldl_max_isGreatest _ _ ⟨v6.z, List.mem_map.2 ⟨v6, hv6, rfl⟩, h6⟩

/-- Witness for the amended C16: the fresh example model, whose boxes lie
inside the seeds. -/
theorem C16_witness :
    SeedsCovered demoExternals demoFresh ∧
    ∃ mins maxs : float3 Int,
      (UpdateBoundingVolume demoExternals demoFresh).boundingVolume =
        { boxSize := float3.sub maxs mins
          boxOffset := float3.scale (float3.add maxs mins) demoExternals.half } ∧
      IsLeast {a | ∃ v ∈ transformedCorners demoExternals demoFresh, v.x = a} mins.x ∧
      IsLeast {a | ∃ v ∈ transformedCorners demoExternals demoFresh, v.y = a} mins.y ∧
      IsLeast {a | ∃ v ∈ transformedCorners demoExternals demoFresh, v.z = a} mins.z ∧
      IsGreatest {a | ∃ v ∈ transformedCorners demoExternals demoFresh, v.x = a} maxs.x ∧
      IsGreatest {a | ∃ v ∈ transformedCorners demoExternals demoFresh, v.y = a} maxs.y ∧
      IsGreatest {a | ∃ v ∈ transformedCorners demoExternals demoFresh, v.z = a} maxs.z ∧
      (UpdateBoundingVolume demoExternals demoFresh).needsBoundariesRecalc = false ∧
      (UpdateBoundingVolume demoExternals demoFresh).pieces = demoFresh.pieces :=
  ⟨by decide, C16_boundingVolume_box demoExternals demoFresh (by decide)⟩

/-- C17: the box `UpdateBoundingVolume` stores is the box it stores for the
same model without the pieces that lack geometry, whatever the boxes and
matrices of those pieces are; in particular a piece without geometry followed
by a piece with geometry yields the box of the second piece alone. -/
theorem C17_empty_piece_contributes_nothing [Add R] [Sub R] [Mul R] [Min R] [Max R]
    (E : Externals R M O) (lm : LocalModel R M O) :
    (UpdateBoundingVolume E lm).boundingVolume =
      (UpdateBoundingVolume E lm.withoutEmptyPieces).boundingVolume ∧
    ∀ e p : LocalModelPiece R M,
      e.original.HasGeometryData = false → p.original.HasGeometryData = true →
      (UpdateBoundingVolume E { lm with pieces := [e, p] }).boundingVolume =
        (UpdateBoundingVolume E { lm with pieces := [p] }).boundingVolume := by
  refine ⟨?_, ?_⟩
  · simp only [UpdateBoundingVolume, boundingExtrema_withoutEmpty]
  · intro e p he hp
    have h := boundingExtrema_withoutEmpty E { lm with pieces := [e, p] }
    have hw : ({ lm with pieces := [e, p] } : LocalModel R M O).withoutEmptyPieces =
        { lm with pieces := [p] } := by
      simp [LocalModel.withoutEmptyPieces, List.filter_cons, he, hp]
    rw [hw] at h
    simp only [UpdateBoundingVolume, h]

/-- Witness for C17: the hollow example piece (box `[-5, 5]` on every axis, no
geometry) in front of the piece `arm` of the fresh example model. -/
theorem C17_witness :
    demoHollow.original.HasGeometryData = false ∧
    demoArm.original.HasGeometryData = true ∧
    (UpdateBoundingVolume demoExternals
        { demoEmpty with pieces := [demoHollow, demoArm] }).boundingVolume =
      (UpdateBoundingVolume demoExternals { demoEmpty with pieces := [demoArm] }).boundingVolume :=
  ⟨by decide, by decide,
    (C17_empty_piece_contributes_nothing demoExternals demoEmpty).2 demoHollow demoArm
      (by decide) (by decide)⟩

/-- C18: for a model whose piece array has fewer than `2 ^ 64` entries,
`FindPieceOffset(name)` is `size_t(-1)` exactly when no piece has the name, and
otherwise the position of the first piece with that name; `FindPiece(name)` is
the piece at that position and null exactly when no piece has the name. -/
theorem C18_findPiece_sentinel (m : S3DModel R) (name : String)
    (hsize : m.pieceObjects.length < 2 ^ 64) :
    (m.FindPieceOffset name = 2 ^ 64 - 1 ↔ ∀ p ∈ m.pieceObjects, p.name ≠ name) ∧
    ((∃ p ∈ m.pieceObjects, p.name = name) →
      ∃ p : S3DModelPiece R, m.pieceObjects[m.FindPieceOffset name]? = some p ∧
        p.name = name ∧
        ∀ (j : Nat) (q : S3DModelPiece R), j < m.FindPieceOffset name →
          m.pieceObjects[j]? = some q → q.name ≠ name) ∧
    m.FindPiece name = m.pieceObjects[m.FindPieceOffset name]? ∧
    (m.FindPiece name = none ↔ ∀ p ∈ m.pieceObjects, p.name ≠ name) := by
  have hle : List.findIdx (fun piece : S3DModelPiece R => decide (piece.name = name))
      m.pieceObjects ≤ m.pieceObjects.length := List.findIdx_le_length _
  have hnone : List.findIdx (fun piece : S3DModelPiece R => decide (piece.name = name))
      m.pieceObjects = m.pieceObjects.length ↔ ∀ p ∈ m.pieceObjects, p.name ≠ name := by
    rw [List.findIdx_eq_length]
    simp
  refine ⟨?_, ?_, ?_, ?_⟩
  · unfold S3DModel.FindPieceOffset
    simp only
    split
    · rename_i h; simpa using hnone.1 h
    · rename_i h
      constructor
      · intro h2; omega
      · intro h2; exact absurd (hnone.2 h2) h
  · rintro ⟨p, hp, hpn⟩
    have hlt : List.findIdx (fun piece : S3DModelPiece R => decide (piece.name = name))
        m.pieceObjects < m.pieceObjects.length :=
      List.findIdx_lt_length.2 ⟨p, hp, by simp [hpn]⟩
    have hoff : m.FindPieceOffset name =
        List.findIdx (fun piece : S3DModelPiece R => decide (piece.name = name))
          m.pieceObjects := by
      unfold S3DModel.FindPieceOffset
      simp only
      rw [if_neg (Nat.ne_of_lt hlt)]
    rw [hoff]
    refine ⟨m.pieceObjects[List.findIdx
      (fun piece : S3DModelPiece R => decide (piece.name = name)) m.pieceObjects],
      List.getElem?_eq_getElem hlt, ?_, ?_⟩
    · have : decide (m.pieceObjects[List.findIdx
          (fun piece : S3DModelPiece R => decide (piece.name = name)) m.pieceObjects].name =
          name) = true :=
        @List.findIdx_getElem _ (fun piece : S3DModelPiece R => decide (piece.name = name))
          m.pieceObjects hlt
      simpa using this
    · intro j q hj hq
      have hjl : j < m.pieceObjects.length := Nat.lt_trans hj hlt
      have := List.not_of_lt_findIdx hj
      rw [List.getElem?_eq_getElem hjl] at hq
      cases hq
      simpa using this
  · unfold S3DModel.FindPiece S3DModel.FindPieceOffset
    simp only
    split
    · rw [List.getElem?_eq_none]; omega
    · rfl
  · unfold S3DModel.FindPiece
    simp only
    split
    · rename_i h; simpa using hnone.1 h
    · rename_i h
      have hlt : List.findIdx (fun piece : S3DModelPiece R => decide (piece.name = name))
          m.pieceObjects < m.pieceObjects.length := by omega
      constructor
      · intro h2
        rw [List.getElem?_eq_getElem hlt] at h2
        cases h2
      · intro h2; exact absurd (hnone.2 h2) h

/-- Witness for C18: the name `arm` in the example model of four pieces. -/
theorem C18_witness :
    demoModel.pieceObjects.length < 2 ^ 64 ∧
    demoModel.FindPieceOffset "arm" = 1 ∧
    demoModel.FindPieceOffset "wing" = 2 ^ 64 - 1 ∧
    (demoModel.FindPieceOffset "arm" = 2 ^ 64 - 1 ↔
      ∀ p ∈ demoModel.pieceObjects, p.name ≠ "arm") :=
  ⟨by decide, by decide, by decide,
    (C18_findPiece_sentinel demoModel "arm" (by decide)).1⟩

/-- C19: for a piece tree with as many pieces as the static model counts, and
a static piece for every position, `SetModel(model, false)` returns (given fuel
for the depth of the tree); it leaves the number of pieces unchanged, sets
`pieces[n].original` to `model.GetPiece(n)` for every `n`, and leaves `pos`,
`rot`, the visibility, block and pseudo-world-space flags, the local and script
indices, the parent and the ordered children of every piece unchanged. -/
theorem C19_reload_repoints_and_preserves [Add R] [Sub R] [Mul R] [Neg R] [Min R] [Max R]
    (E : Externals R M O) (fuel : Nat) (lm : LocalModel R M O) (model : S3DModel R)
    (ht : TreeShaped lm) (hpos : 1 ≤ model.numPieces)
    (hn : lm.pieces.length = model.numPieces)
    (hobjs : model.numPieces ≤ model.pieceObjects.length)
    (hf : lm.pieces.length ≤ fuel) :
    ∃ lm1, SetModel E fuel lm model false = some lm1 ∧
      lm1.pieces.length = lm.pieces.length ∧
      ∀ (n : Nat) (p : LocalModelPiece R M), lm.pieces[n]? = some p →
        ∃ p1 : LocalModelPiece R M, lm1.pieces[n]? = some p1 ∧
          some p1.original = model.GetPiece n ∧
          p1.pos = p.pos ∧ p1.rot = p.rot ∧
          p1.scriptSetVisible = p.scriptSetVisible ∧
          p1.blockScriptAnims = p.blockScriptAnims ∧
          p1.pseudoWorldSpacePosition = p.pseudoWorldSpacePosition ∧
          p1.pseudoWorldSpaceRotation = p.pseudoWorldSpaceRotation ∧
          p1.lmodelPieceIndex = p.lmodelPieceIndex ∧
          p1.scriptPieceIndex = p.scriptPieceIndex ∧
          p1.parent = p.parent ∧ p1.children = p.children := by
  rcases repointPieces_spec model lm.pieces 0 (by omega) with ⟨ps1, hre, hlen, hall⟩
  have htr : TreeShaped { lm with pieces := ps1 } := by
    apply treeShaped_of_repoint ht hlen
    intro k p hk
    rcases hall k p hk with ⟨omp, _, h2⟩
    exact ⟨_, h2, rfl, rfl⟩
  rcases updateChild_any E fuel { lm with pieces := ps1 } 0 true htr
    (by show 0 < ps1.length; omega) (by show ps1.length ≤ fuel + 0; omega)
    with ⟨lm1, hrun, hpost⟩
  refine ⟨UpdateBoundingVolume E lm1, setModel_reload_run hpos hn hre hrun, ?_, ?_⟩
  · show lm1.pieces.length = lm.pieces.length
    rw [hpost.frame.length]; exact hlen
  · intro n p hnp
    rcases hall n p hnp with ⟨omp, hget, h2⟩
    rcases hpost.frame.piece n _ h2 with ⟨p1, hp1, r⟩
    refine ⟨p1, hp1, ?_⟩
    have e := r.same
    rw [Nat.zero_add] at hget
    rw [hget, e]
    exact ⟨rfl, rfl, rfl, rfl, rfl, rfl, rfl, rfl, rfl, rfl, rfl⟩

/-- Witness for C19: reloading the example state with two dirty pieces. -/
theorem C19_witness :
    TreeShaped demoMoved ∧ 1 ≤ demoModel.numPieces ∧
    demoMoved.pieces.length = demoModel.numPieces ∧
    demoModel.numPieces ≤ demoModel.pieceObjects.length ∧ demoMoved.pieces.length ≤ 4 ∧
    ∃ lm1, SetModel demoExternals 4 demoMoved demoModel false = some lm1 ∧
      lm1.pieces.length = demoMoved.pieces.length ∧
      ∀ (n : Nat) (p : LocalModelPiece Int (List Int)), demoMoved.pieces[n]? = some p →
        ∃ p1 : LocalModelPiece Int (List Int), lm1.pieces[n]? = some p1 ∧
          some p1.original = demoModel.GetPiece n ∧
          p1.pos = p.pos ∧ p1.rot = p.rot ∧
          p1.scriptSetVisible = p.scriptSetVisible ∧
          p1.blockScriptAnims = p.blockScriptAnims ∧
          p1.pseudoWorldSpacePosition = p.pseudoWorldSpacePosition ∧
          p1.pseudoWorldSpaceRotation = p.pseudoWorldSpaceRotation ∧
          p1.lmodelPieceIndex = p.lmodelPieceIndex ∧
          p1.scriptPieceIndex = p.scriptPieceIndex ∧
          p1.parent = p.parent ∧ p1.children = p.children :=
  ⟨by decide, by decide, by decide, by decide, by decide,
    C19_reload_repoints_and_preserves demoExternals 4 demoMoved demoModel (by decide)
      (by decide) (by decide) (by decide) (by decide)⟩

/-- C20: for a piece tree with no active pseudo-world-space override whose
dirty flags are closed downwards and whose model-space matrices are up to date
(`MatricesUpToDate`), and a static model with the same piece count whose
pieces have, position by position, the scales of the current static pieces,
`SetModel(model, false)` returns (given fuel for the depth of the tree) and the
model-space matrix of every piece is the one it had before. -/
theorem C20_reload_keeps_matrices [Add R] [Sub R] [Mul R] [Neg R] [Min R] [Max R]
    (E : Externals R M O) (fuel : Nat) (lm : LocalModel R M O) (model : S3DModel R)
    (ht : TreeShaped lm) (hno : NoActiveOverride lm) (hcl : DirtyClosed lm)
    (hup : MatricesUpToDate E lm) (hpos : 1 ≤ model.numPieces)
    (hn : lm.pieces.length = model.numPieces)
    (hstatic : model.pieceObjects.map (fun omp => omp.scales) =
      lm.pieces.map (fun p => p.original.scales))
    (hf : lm.pieces.length ≤ fuel) :
    ∃ lm1, SetModel E fuel lm model false = some lm1 ∧
      ∀ (n : Nat) (p : LocalModelPiece R M), lm.pieces[n]? = some p →
        ∃ p1 : LocalModelPiece R M, lm1.pieces[n]? = some p1 ∧
          p1.modelSpaceMat = p.modelSpaceMat := by
  have hlenobj : model.pieceObjects.length = lm.pieces.length := by
    have := congrArg List.length hstatic
    simpa using this
  rcases repointPieces_spec model lm.pieces 0 (by omega) with ⟨ps1, hre, hlen, hall⟩
  have hscale : ∀ (k : Nat) (p : LocalModelPiece R M) (omp : S3DModelPiece R),
      lm.pieces[k]? = some p → model.GetPiece k = some omp →
      omp.scales = p.original.scales := by
    intro k p omp hk hg
    have h1 := congrArg (fun l => l[k]?) hstatic
    simp only [List.getElem?_map] at h1
    unfold S3DModel.GetPiece at hg
    rw [hg, hk] at h1
    simpa using h1
  have hallR : ∀ (k : Nat) (p : LocalModelPiece R M), lm.pieces[k]? = some p →
      ∃ pR : LocalModelPiece R M,
        ({ lm with pieces := ps1 } : LocalModel R M O).pieces[k]? = some pR ∧
        pR.original.scales = p.original.scales ∧
        pR = { p with original := pR.original } := by
    intro k p hk
    rcases hall k p hk with ⟨omp, hg, h2⟩
    rw [Nat.zero_add] at hg
    exact ⟨_, h2, hscale k p omp hk hg, rfl⟩
  have htr : TreeShaped { lm with pieces := ps1 } := by
    apply treeShaped_of_repoint ht hlen
    intro k p hk
    rcases hall k p hk with ⟨omp, _, h2⟩
    exact ⟨_, h2, rfl, rfl⟩
  have hnoR : NoActiveOverride { lm with pieces := ps1 } := by
    rcases hno with h | h
    · exact Or.inl h
    · right
      intro q hq
      rcases List.getElem?_of_mem hq with ⟨k, hk⟩
      have hkl : k < lm.pieces.length := by
        rw [← hlen]; exact (List.getElem?_eq_some.1 hk).1
      rcases get_of_lt_length hkl with ⟨p, hp⟩
      rcases hallR k p hp with ⟨pR, hpR, _, e⟩
      have hk' : ({ lm with pieces := ps1 } : LocalModel R M O).pieces[k]? = some q := hk
      rw [hk'] at hpR; cases hpR
      rw [e]
      exact h p (List.getElem?_mem hp)
  have hdirty : ∀ k, ({ lm with pieces := ps1 } : LocalModel R M O).dirtyOf k = lm.dirtyOf k := by
    intro k
    cases hk : lm.pieces[k]? with
    | none =>
      have : ({ lm with pieces := ps1 } : LocalModel R M O).pieces[k]? = none := by
        rw [List.getElem?_eq_none_iff] at hk ⊢
        show ps1.length ≤ k
        omega
      simp [LocalModel.dirtyOf, hk, this]
    | some p =>
      rcases hallR k p hk with ⟨pR, hpR, _, e⟩
      rw [dirtyOf_eq hk, dirtyOf_eq hpR, e]
  have hchild : ∀ k, ({ lm with pieces := ps1 } : LocalModel R M O).childrenOf k =
      lm.childrenOf k := by
    intro k
    cases hk : lm.pieces[k]? with
    | none =>
      have : ({ lm with pieces := ps1 } : LocalModel R M O).pieces[k]? = none := by
        rw [List.getElem?_eq_none_iff] at hk ⊢
        show ps1.length ≤ k
        omega
      simp [LocalModel.childrenOf, hk, this]
    | some p =>
      rcases hallR k p hk with ⟨pR, hpR, _, e⟩
      rw [childrenOf_eq hk, childrenOf_eq hpR, e]
  rcases updateChild_spec E fuel { lm with pieces := ps1 } 0 true htr hnoR
    (by show 0 < ps1.length; omega) (by show ps1.length ≤ fuel + 0; omega)
    with ⟨lm1, hrun, hpost⟩
  refine ⟨UpdateBoundingVolume E lm1, setModel_reload_run hpos hn hre hrun, ?_⟩
  show ∀ (n : Nat) (p : LocalModelPiece R M), lm.pieces[n]? = some p →
    ∃ p1 : LocalModelPiece R M, lm1.pieces[n]? = some p1 ∧ p1.modelSpaceMat = p.modelSpaceMat
  have hclR : ∀ k, InSubtree { lm with pieces := ps1 } 0 k →
      ({ lm with pieces := ps1 } : LocalModel R M O).dirtyOf k = true →
      ∀ c ∈ ({ lm with pieces := ps1 } : LocalModel R M O).childrenOf k,
        ({ lm with pieces := ps1 } : LocalModel R M O).dirtyOf c = true := by
    intro k _ hd c hc
    rw [hdirty] at hd ⊢
    rw [hchild] at hc
    exact hcl k hd c hc
  intro n
  induction n using Nat.strong_induction_on with
  | _ n ih =>
    intro p hp
    rcases hallR n p hp with ⟨pR, hpR, hsc, e⟩
    rcases hpost.frame.piece n pR hpR with ⟨p1, hp1, r⟩
    have hsub : InSubtree { lm with pieces := ps1 } 0 n :=
      inSubtree_root htr n (by show n < ps1.length; rw [hlen]; exact lt_length_of_get hp)
    have hloc := hpost.loc n pR p1 hsub hpR hp1
    have hmod := hpost.model hclR n pR p1 hsub hpR hp1
    have hpRd : pR.dirty = p.dirty := by rw [e]
    have hpRp : pR.parent = p.parent := by rw [e]
    have hpRl : pR.pieceSpaceMat = p.pieceSpaceMat := by rw [e]
    have hpRf : pR.freshLocal E = p.freshLocal E := by
      unfold LocalModelPiece.freshLocal
      rw [hsc, e]
    rw [hpRd, hpRf, hpRl] at hloc
    rw [hpRp] at hmod
    simp only [Bool.or_true, if_true] at hmod
    refine ⟨p1, hp1, ?_⟩
    rw [hmod, hup p (List.getElem?_mem hp), hloc]
    cases hpp : p.parent with
    | none => rfl
    | some k =>
      have hk := (ht.parent_lt (by rw [parentOf_eq hp]; exact hpp)).1
      rcases get_of_lt_length (Nat.lt_trans hk (lt_length_of_get hp)) with ⟨q, hq⟩
      rcases ih k hk q hq with ⟨q1, hq1, hqm⟩
      simp only [composeWithParent, hq, hq1, hqm]

/-- Witness for C20: reloading the fresh example model, whose pieces are all
clean, with the static model it was built from. -/
theorem C20_witness :
    TreeShaped demoFresh ∧ NoActiveOverride demoFresh ∧ DirtyClosed demoFresh ∧
    MatricesUpToDate demoExternals demoFresh ∧ 1 ≤ demoModel.numPieces ∧
    demoFresh.pieces.length = demoModel.numPieces ∧
    demoModel.pieceObjects.map (fun omp => omp.scales) =
      demoFresh.pieces.map (fun p => p.original.scales) ∧
    demoFresh.pieces.length ≤ 4 ∧
    ∃ lm1, SetModel demoExternals 4 demoFresh demoModel false = some lm1 ∧
      ∀ (n : Nat) (p : LocalModelPiece Int (List Int)), demoFresh.pieces[n]? = some p →
        ∃ p1 : LocalModelPiece Int (List Int), lm1.pieces[n]? = some p1 ∧
          p1.modelSpaceMat = p.modelSpaceMat :=
  ⟨by decide, Or.inl rfl, dirtyClosed_of_bounded (by decide), by decide, by decide, by decide,
    by decide, by decide,
    C20_reload_keeps_matrices demoExternals 4 demoFresh demoModel (by decide) (Or.inl rfl)
      (dirtyClosed_of_bounded (by decide)) (by decide) (by decide) (by decide) (by decide)
      (by decide)⟩

end Claims3

section Claims4

variable {R : Type}

/-- C12: for a piece with `3 * T` indices, when the slot count is positive,
`num` is one of the variations, the positions of the block fit into `uint32_t`
and every triangle has a direction (all reads in range) and a slot that is not
below `-2.0f`, `CreateShatterPiecesVariation(num)` returns; it appends `3 * T`
indices to `shatterIndices`, and the index ranges of the fragments it stores
are pairwise disjoint, have counts that sum to `3 * T`, and cover exactly the
positions from `num * 3 * T` up to `num * 3 * T + 3 * T`. -/
theorem C12_shatter_partition [LinearOrder R] [Add R] [Mul R]
    (S : ShatterExternals R) (piece : S3DModelPiece R) (rng : Nat → float3 R)
    (st : ShatterData R) (num T : Nat)
    (hT : piece.indices.length = 3 * T)
    (hM : 0 < S.SHATTER_MAX_PARTS) (hM64 : S.SHATTER_MAX_PARTS < 2 ^ 64)
    (hnum : num < st.shatterParts.length)
    (hfit : num * (3 * T) + 3 * T < 2 ^ 32)
    (hdirs : ∀ t < T, ∃ d ∈ slotDirs S rng, ∃ dir ∈ GetPolygonDir S piece (3 * t),
      ¬ float3.dot d dir < S.minusTwo) :
    ∃ out : ShatterData R, CreateShatterPiecesVariation S piece rng st num = some out ∧
      out.shatterIndices.length = st.shatterIndices.length + 3 * T ∧
      (out.renderData num).Pairwise RenderData.disjoint ∧
      ((out.renderData num).map (fun rd => rd.indexCount)).sum = 3 * T ∧
      ∀ x, (∃ rd ∈ out.renderData num, rd.covers x) ↔
        (num * (3 * T) ≤ x ∧ x < num * (3 * T) + 3 * T) := by
  rcases createShatterPiecesVariation_spec S piece rng st num T hT hM hM64 hnum hfit hdirs
    with ⟨slots, kept, dropped, hrun, hsl, hcount, hsum, hcons, hperm, hdrop, hpos, hplaced⟩
  have hcsum : ((slots.map (fun cp => cp.first)).map (fun rd => rd.indexCount)).sum = 3 * T := by
    rw [List.map_map]
    have : ((fun rd : RenderData R => rd.indexCount) ∘ fun cp : ShatterPartDataPair R =>
        cp.first) = fun cp => cp.first.indexCount := rfl
    rw [this, hcount, hsum]
  refine ⟨_, hrun, ?_, ?_, ?_, ?_⟩
  · simp only [List.length_append, List.length_flatten, List.map_map]
    have : (List.length ∘ fun cp : ShatterPartDataPair R => cp.second) =
        fun cp => cp.second.length := rfl
    rw [this, hsum]
  · rw [renderData_set st _ num kept hnum]
    have h1 := consecutive_pairwise _ _ hcons
    have h2 := (hperm.pairwise_iff (fun {a b} h => disjoint_symm h)).2 h1
    exact (List.pairwise_append.1 h2).1
  · rw [renderData_set st _ num kept hnum]
    have h1 := (hperm.map (fun rd => rd.indexCount)).sum_eq
    rw [hcsum, List.map_append, List.sum_append, sum_eq_zero_of_all_zero dropped hdrop] at h1
    omega
  · intro x
    rw [renderData_set st _ num kept hnum]
    have h1 := consecutive_covers _ _ hcons x
    rw [hcsum] at h1
    rw [← h1]
    constructor
    · rintro ⟨rd, hrd, hx⟩
      exact ⟨rd, hperm.mem_iff.1 (List.mem_append_left _ hrd), hx⟩
    · rintro ⟨rd, hrd, hx⟩
      refine ⟨rd, ?_, hx⟩
      apply mem_kept_of_count_pos hperm hdrop hrd
      unfold RenderData.covers at hx
      omega

/-- Witness for C12: the example piece of two triangles with the example draws
that send one triangle to each of the two slots. -/
theorem C12_witness :
    demoShard.indices.length = 3 * 2 ∧ 0 < demoShatter.SHATTER_MAX_PARTS ∧
    demoShatter.SHATTER_MAX_PARTS < 2 ^ 64 ∧ 1 < demoShatterData.shatterParts.length ∧
    1 * (3 * 2) + 3 * 2 < 2 ^ 32 ∧
    (∀ t < 2, ∃ d ∈ slotDirs demoShatter demoDraws,
      ∃ dir ∈ GetPolygonDir demoShatter demoShard (3 * t),
        ¬ float3.dot d dir < demoShatter.minusTwo) ∧
    ∃ out : ShatterData Int,
      CreateShatterPiecesVariation demoShatter demoShard demoDraws demoShatterData 1 =
        some out ∧
      out.shatterIndices.length = demoShatterData.shatterIndices.length + 3 * 2 ∧
      (out.renderData 1).Pairwise RenderData.disjoint ∧
      ((out.renderData 1).map (fun rd => rd.indexCount)).sum = 3 * 2 ∧
      ∀ x, (∃ rd ∈ out.renderData 1, rd.covers x) ↔ (1 * (3 * 2) ≤ x ∧ x < 1 * (3 * 2) + 3 * 2) :=
  ⟨by decide, by decide, by decide, by decide, by decide, by decide,
    C12_shatter_partition demoShatter demoShard demoDraws demoShatterData 1 2 (by decide)
      (by decide) (by decide) (by decide) (by decide) (by decide)⟩

/-- C13 fails on the code: the loop that swaps empty parts to the back stops
when `j` meets `backIdx` and never looks at the part at that position.  With
two slots of which only slot 0 receives triangles, the part of slot 1 is
stored with `indexCount = 0`. -/
theorem C13_empty_fragment_survives :
    ∃ out : ShatterData Int,
      CreateShatterPiecesVariation demoShatter demoShard demoDrawsOneSided demoShatterData 0 =
        some out ∧
      out.shatterIndices = [0, 1, 1, 2, 1, 1] ∧
      out.renderData 0 = [⟨⟨1, 1, 0⟩, 0, 6⟩, ⟨⟨-1, -1, 0⟩, 6, 0⟩] ∧
      ∃ rd ∈ out.renderData 0, rd.indexCount = 0 :=
  ⟨{ shatterIndices := [0, 1, 1, 2, 1, 1]
     shatterParts := [[⟨⟨1, 1, 0⟩, 0, 6⟩, ⟨⟨-1, -1, 0⟩, 6, 0⟩], []] },
    by decide, rfl, by decide, by decide⟩

/-- C14: under the conditions of C12, `CreateShatterPiecesVariation(num)`
returns, and for every triangle `t` of the piece there is a stored fragment
whose index range covers the three positions at which the indices of the
triangle stand in the block appended to `shatterIndices`; the dot product of
the direction of that fragment with the direction of the triangle is at least
that of every slot direction, and so of every stored fragment. -/
theorem C14_shatter_nearest_direction [LinearOrder R] [Add R] [Mul R]
    (S : ShatterExternals R) (piece : S3DModelPiece R) (rng : Nat → float3 R)
    (st : ShatterData R) (num T : Nat)
    (hT : piece.indices.length = 3 * T)
    (hM : 0 < S.SHATTER_MAX_PARTS) (hM64 : S.SHATTER_MAX_PARTS < 2 ^ 64)
    (hnum : num < st.shatterParts.length)
    (hfit : num * (3 * T) + 3 * T < 2 ^ 32)
    (hdirs : ∀ t < T, ∃ d ∈ slotDirs S rng, ∃ dir ∈ GetPolygonDir S piece (3 * t),
      ¬ float3.dot d dir < S.minusTwo) :
    ∃ (out : ShatterData R) (block : List Nat),
      CreateShatterPiecesVariation S piece rng st num = some out ∧
      out.shatterIndices = st.shatterIndices ++ block ∧
      ∀ t < T, ∃ rd ∈ out.renderData num, ∃ (q : Nat) (dir : float3 R),
        GetPolygonDir S piece (3 * t) = some dir ∧
        rd.covers (num * (3 * T) + q) ∧ rd.covers (num * (3 * T) + q + 2) ∧
        (block.drop q).take 3 = piece.triangleAt (3 * t) ∧
        (∀ d ∈ slotDirs S rng, float3.dot d dir ≤ float3.dot rd.dir dir) ∧
        ∀ rd1 ∈ out.renderData num, float3.dot rd1.dir dir ≤ float3.dot rd.dir dir := by
  rcases shatter_triangle_fragment S piece rng st num T hT hM hM64 hnum hfit hdirs
    with ⟨out, block, hrun, hblock, hfrag, hall⟩
  refine ⟨out, block, hrun, hblock, ?_⟩
  intro t ht
  rcases hall t ht with ⟨rd, hrd, q, dir, k, hg, hc1, hc2, htri, hk, d, hd, hmax, _⟩
  rw [hk] at hd; cases hd
  exact ⟨rd, hrd, q, dir, hg, hc1, hc2, htri, hmax, fun rd1 h1 => hmax _ (hfrag rd1 h1)⟩

/-- Witness for C14: the example piece of two triangles with the example draws
that send one triangle to each of the two slots. -/
theorem C14_witness :
    demoShard.indices.length = 3 * 2 ∧ 0 < demoShatter.SHATTER_MAX_PARTS ∧
    demoShatter.SHATTER_MAX_PARTS < 2 ^ 64 ∧ 0 < demoShatterData.shatterParts.length ∧
    0 * (3 * 2) + 3 * 2 < 2 ^ 32 ∧
    (∀ t < 2, ∃ d ∈ slotDirs demoShatter demoDraws,
      ∃ dir ∈ GetPolygonDir demoShatter demoShard (3 * t),
        ¬ float3.dot d dir < demoShatter.minusTwo) ∧
    ∃ (out : ShatterData Int) (block : List Nat),
      CreateShatterPiecesVariation demoShatter demoShard demoDraws demoShatterData 0 =
        some out ∧
      out.shatterIndices = demoShatterData.shatterIndices ++ block ∧
      ∀ t < 2, ∃ rd ∈ out.renderData 0, ∃ (q : Nat) (dir : float3 Int),
        GetPolygonDir demoShatter demoShard (3 * t) = some dir ∧
        rd.covers (0 * (3 * 2) + q) ∧ rd.covers (0 * (3 * 2) + q + 2) ∧
        (block.drop q).take 3 = demoShard.triangleAt (3 * t) ∧
        (∀ d ∈ slotDirs demoShatter demoDraws, float3.dot d dir ≤ float3.dot rd.dir dir) ∧
        ∀ rd1 ∈ out.renderData 0, float3.dot rd1.dir dir ≤ float3.dot rd.dir dir :=
  ⟨by decide, by decide, by decide, by decide, by decide, by decide,
    C14_shatter_nearest_direction demoShatter demoShard demoDraws demoShatterData 0 2
      (by decide) (by decide) (by decide) (by decide) (by decide) (by decide)⟩

/-- C15 as stated fails: the loop skips a slot only when its dot product is
smaller than the best so far, so a later slot with an equal dot product
replaces an earlier one.  In the example the directions of slot 0 and slot 1
both have the greatest dot product, 1, with the direction of the first
triangle; the search ends on slot 1, and the only fragment stored, which holds
the indices of both triangles, has the direction of slot 1. -/
theorem C15_counterexample_tie_goes_last :
    GetPolygonDir demoShatter demoShard 0 = some ⟨1, 0, 0⟩ ∧
    slotDirs demoShatter demoDrawsTie = [⟨1, 0, 0⟩, ⟨1, 1, 0⟩] ∧
    float3.dot (⟨1, 0, 0⟩ : float3 Int) ⟨1, 0, 0⟩ = 1 ∧
    float3.dot (⟨1, 1, 0⟩ : float3 Int) ⟨1, 0, 0⟩ = 1 ∧
    (findClosestPart (⟨1, 0, 0⟩ : float3 Int)
      [⟨⟨⟨1, 0, 0⟩, 0, 0⟩, []⟩, ⟨⟨⟨1, 1, 0⟩, 0, 0⟩, []⟩] 0 demoShatter.minusTwo none).2 =
        some 1 ∧
    CreateShatterPiecesVariation demoShatter demoShard demoDrawsTie demoShatterData 0 =
      some { shatterIndices := [0, 1, 1, 2, 1, 1]
             shatterParts := [[⟨⟨1, 1, 0⟩, 0, 6⟩], []] } := by
  decide

/-- C15, amended: under the conditions of C12, every triangle goes to the last
of the slots that attain the greatest dot product with its direction: the
stored fragment whose index range covers the positions of the triangle has the
direction of a slot `k` such that no slot has a greater dot product with the
direction of the triangle and every slot after `k` has a smaller one. -/
theorem C15_shatter_tie_break_last [LinearOrder R] [Add R] [Mul R]
    (S : ShatterExternals R) (piece : S3DModelPiece R) (rng : Nat → float3 R)
    (st : ShatterData R) (num T : Nat)
    (hT : piece.indices.length = 3 * T)
    (hM : 0 < S.SHATTER_MAX_PARTS) (hM64 : S.SHATTER_MAX_PARTS < 2 ^ 64)
    (hnum : num < st.shatterParts.length)
    (hfit : num * (3 * T) + 3 * T < 2 ^ 32)
    (hdirs : ∀ t < T, ∃ d ∈ slotDirs S rng, ∃ dir ∈ GetPolygonDir S piece (3 * t),
      ¬ float3.dot d dir < S.minusTwo) :
    ∃ (out : ShatterData R) (block : List Nat),
      CreateShatterPiecesVariation S piece rng st num = some out ∧
      out.shatterIndices = st.shatterIndices ++ block ∧
      ∀ t < T, ∃ rd ∈ out.renderData num, ∃ (q : Nat) (dir : float3 R) (k : Nat),
        GetPolygonDir S piece (3 * t) = some dir ∧
        rd.covers (num * (3 * T) + q) ∧ rd.covers (num * (3 * T) + q + 2) ∧
        (block.drop q).take 3 = piece.triangleAt (3 * t) ∧
        (slotDirs S rng)[k]? = some rd.dir ∧
        (∀ d ∈ slotDirs S rng, float3.dot d dir ≤ float3.dot rd.dir dir) ∧
        ∀ (k1 : Nat) (d1 : float3 R), k < k1 → (slotDirs S rng)[k1]? = some d1 →
          float3.dot d1 dir < float3.dot rd.dir dir := by
  rcases shatter_triangle_fragment S piece rng st num T hT hM hM64 hnum hfit hdirs
    with ⟨out, block, hrun, hblock, _, hall⟩
  refine ⟨out, block, hrun, hblock, ?_⟩
  intro t ht
  rcases hall t ht with ⟨rd, hrd, q, dir, k, hg, hc1, hc2, htri, hk, d, hd, hmax, hlast⟩
  rw [hk] at hd; cases hd
  exact ⟨rd, hrd, q, dir, k, hg, hc1, hc2, htri, hk, hmax, hlast⟩

/-- Witness for the amended C15: the example piece with the example draws in
which both slots are closest to the first triangle. -/
theorem C15_witness :
    demoShard.indices.length = 3 * 2 ∧ 0 < demoShatter.SHATTER_MAX_PARTS ∧
    demoShatter.SHATTER_MAX_PARTS < 2 ^ 64 ∧ 0 < demoShatterData.shatterParts.length ∧
    0 * (3 * 2) + 3 * 2 < 2 ^ 32 ∧
    (∀ t < 2, ∃ d ∈ slotDirs demoShatter demoDrawsTie,
      ∃ dir ∈ GetPolygonDir demoShatter demoShard (3 * t),
        ¬ float3.dot d dir < demoShatter.minusTwo) ∧
    ∃ (out : ShatterData Int) (block : List Nat),
      CreateShatterPiecesVariation demoShatter demoShard demoDrawsTie demoShatterData 0 =
        some out ∧
      out.shatterIndices = demoShatterData.shatterIndices ++ block ∧
      ∀ t < 2, ∃ rd ∈ out.renderData 0, ∃ (q : Nat) (dir : float3 Int) (k : Nat),
        GetPolygonDir demoShatter demoShard (3 * t) = some dir ∧
        rd.covers (0 * (3 * 2) + q) ∧ rd.covers (0 * (3 * 2) + q + 2) ∧
        (block.drop q).take 3 = demoShard.triangleAt (3 * t) ∧
        (slotDirs demoShatter demoDrawsTie)[k]? = some rd.dir ∧
        (∀ d ∈ slotDirs demoShatter demoDrawsTie, float3.dot d dir ≤ float3.dot rd.dir dir) ∧
        ∀ (k1 : Nat) (d1 : float3 Int), k < k1 →
          (slotDirs demoShatter demoDrawsTie)[k1]? = some d1 →
          float3.dot d1 dir < float3.dot rd.dir dir :=
  ⟨by decide, by decide, by decide, by decide, by decide, by decide,
    C15_shatter_tie_break_last demoShatter demoShard demoDrawsTie demoShatterData 0 2
      (by decide) (by decide) (by decide) (by decide) (by decide) (by decide)⟩

end Claims4

section Claims5

variable {R M O : Type}

/-- C21 as stated fails for a piece with exactly one vertex: `GetEmitPos`
returns the zero vector, not the position of the first vertex, and
`GetEmitDir` returns the position of that vertex, not the forward vector. -/
theorem C21_counterexample_single_vertex :
    demoDot.vertices.length = 1 ∧ demoDot.vertices[0]? = some ⟨5, 0, 0⟩ ∧
    demoDot.GetEmitPos demoExternals = ⟨0, 0, 0⟩ ∧
    demoDot.GetEmitDir demoExternals = ⟨5, 0, 0⟩ ∧
    demoExternals.FwdVector = ⟨0, 0, 1⟩ := by
  decide

/-- C21, amended: `GetEmitPos` returns the position of the first vertex when
the piece has at least two vertices and the zero vector when it has one or
none; `GetEmitDir` returns the position of vertex 1 minus that of vertex 0 when
the piece has at least two vertices, the position of vertex 0 when it has
exactly one, and the forward vector when it has none. -/
theorem C21_emit_pos_and_dir [Sub R] (E : Externals R M O) (p : S3DModelPiece R) :
    (2 ≤ p.vertices.length → p.vertices[0]? = some (p.GetEmitPos E)) ∧
    (p.vertices.length ≤ 1 → p.GetEmitPos E = E.ZeroVector) ∧
    (2 ≤ p.vertices.length →
      ∃ v0 v1 : float3 R, p.vertices[0]? = some v0 ∧ p.vertices[1]? = some v1 ∧
        p.GetEmitDir E = float3.sub v1 v0) ∧
    (p.vertices.length = 1 → p.vertices[0]? = some (p.GetEmitDir E)) ∧
    (p.vertices.length = 0 → p.GetEmitDir E = E.FwdVector) := by
  unfold S3DModelPiece.GetEmitPos S3DModelPiece.GetEmitDir
  rcases hv : p.vertices with _ | ⟨v0, _ | ⟨v1, rest⟩⟩
  · simp
  · simp
  · refine ⟨fun _ => by simp, ?_, fun _ => ⟨v0, v1, by simp, by simp, rfl⟩, ?_, ?_⟩ <;> simp

/-- Witness for the amended C21: the example piece `base` with three
vertices. -/
theorem C21_witness :
    2 ≤ demoRoot.vertices.length ∧
    demoRoot.vertices[0]? = some (demoRoot.GetEmitPos demoExternals) ∧
    ∃ v0 v1 : float3 Int, demoRoot.vertices[0]? = some v0 ∧ demoRoot.vertices[1]? = some v1 ∧
      demoRoot.GetEmitDir demoExternals = float3.sub v1 v0 :=
  ⟨by decide, (C21_emit_pos_and_dir demoExternals demoRoot).1 (by decide),
    (C21_emit_pos_and_dir demoExternals demoRoot).2.2.1 (by decide)⟩

/-- C23: for a triangle with a direction `dir` and a non-empty buffer of slots
whose directions all have a dot product with `dir` above the start value
`-2.0f`, the search loop ends with a slot `mcp` of the buffer selected, so
`assert(mcp)` holds, and the body of the triangle loop returns the buffer in
which the three indices of the triangle are appended to the index list of that
slot and no other slot is changed. -/
theorem C23_slot_always_found [LinearOrder R] [Add R] [Mul R] (S : ShatterExternals R)
    (piece : S3DModelPiece R) (shatterPartsBuf : List (ShatterPartDataPair R)) (i : Nat)
    (dir : float3 R) (hne : shatterPartsBuf ≠ [])
    (hg : GetPolygonDir S piece i = some dir)
    (hdot : ∀ cp ∈ shatterPartsBuf, S.minusTwo < float3.dot cp.first.dir dir) :
    ∃ (mcp : Nat) (cp : ShatterPartDataPair R),
      (findClosestPart dir shatterPartsBuf 0 S.minusTwo none).2 = some mcp ∧
      shatterPartsBuf[mcp]? = some cp ∧
      (piece.triangleAt i).length = 3 ∧
      addTriangle S piece shatterPartsBuf i =
        some (shatterPartsBuf.set mcp { cp with second := cp.second ++ piece.triangleAt i }) ∧
      ∀ k : Nat, k ≠ mcp →
        (shatterPartsBuf.set mcp { cp with second := cp.second ++ piece.triangleAt i })[k]? =
          shatterPartsBuf[k]? := by
  rcases getPolygonDir_indices hg with ⟨i0, i1, i2, h0, h1, h2⟩
  have htri := triangleAt_eq h0 h1 h2
  have hex : ∃ cp ∈ shatterPartsBuf, ¬ float3.dot cp.first.dir dir < S.minusTwo := by
    cases shatterPartsBuf with
    | nil => exact absurd rfl hne
    | cons c rest => exact ⟨c, by simp, not_lt.2 (le_of_lt (hdot c (by simp)))⟩
  rcases findClosestPart_found dir shatterPartsBuf S.minusTwo hex with ⟨n, cp, hn, hr, _⟩
  refine ⟨n, cp, hr, hn, by rw [htri]; rfl, ?_, ?_⟩
  · rw [htri]
    simp only [addTriangle, hg, hr, h0, h1, h2, hn]
  · intro k hk
    rw [List.getElem?_set, if_neg (Ne.symm hk)]

/-- Witness for C23: the first triangle of the example piece and the buffer
with the directions `(1, 0, 0)` and `(0, 1, 0)`. -/
theorem C23_witness :
    demoBuffer ≠ [] ∧ GetPolygonDir demoShatter demoShard 0 = some ⟨1, 0, 0⟩ ∧
    (∀ cp ∈ demoBuffer, demoShatter.minusTwo < float3.dot cp.first.dir ⟨1, 0, 0⟩) ∧
    ∃ (mcp : Nat) (cp : ShatterPartDataPair Int),
      (findClosestPart ⟨1, 0, 0⟩ demoBuffer 0 demoShatter.minusTwo none).2 = some mcp ∧
      demoBuffer[mcp]? = some cp ∧
      (demoShard.triangleAt 0).length = 3 ∧
      addTriangle demoShatter demoShard demoBuffer 0 =
        some (demoBuffer.set mcp { cp with second := cp.second ++ demoShard.triangleAt 0 }) ∧
      ∀ k : Nat, k ≠ mcp →
        (demoBuffer.set mcp { cp with second := cp.second ++ demoShard.triangleAt 0 })[k]? =
          demoBuffer[k]? :=
  ⟨by decide, by decide, by decide,
    C23_slot_always_found demoShatter demoShard demoBuffer 0 ⟨1, 0, 0⟩ (by decide) (by decide)
      (by decide)⟩

/-- C24: for a static model whose piece tree has `numPieces` nodes,
`SetModel(model, true)` on a model without pieces returns, and in the result
every piece `pieces[i]` has `lmodelPieceIndex` and `scriptPieceIndex` equal to
`i`, the position of the static piece it mirrors in the depth-first pre-order
of the static tree. -/
theorem C24_dense_initial_indices [Add R] [Sub R] [Mul R] [Neg R] [Min R] [Max R]
    (E : Externals R M O) (fuel : Nat) (lm0 : LocalModel R M O) (model : S3DModel R)
    (root : S3DModelPiece R) (h0 : lm0.pieces = []) (hr : model.GetRootPiece = some root)
    (hn : model.numPieces = root.numNodes) (hf : root.numNodes ≤ fuel) :
    ∃ lm, SetModel E fuel lm0 model true = some lm ∧
      ∀ (i : Nat) (p : LocalModelPiece R M), lm.pieces[i]? = some p →
        p.lmodelPieceIndex = (i : Int) ∧ p.scriptPieceIndex = (i : Int) ∧
        p.lmodelPieceIndex = p.scriptPieceIndex ∧
        root.preorder[i]? = some p.original := by
  have hinv := createdModel_inv E lm0 root
  have hseg := createdModel_segment E lm0 root
  have hlenc : (createdModel E lm0 root).pieces.length = root.numNodes := by
    simp [createdModel, mirrorPieces_length]
  have hpos := root.numNodes_pos
  rcases updateChild_spec E fuel (createdModel E lm0 root) 0 false hinv.tree hinv.noOverride_model
    (by omega) (by omega) with ⟨lm2, hu, hpost⟩
  have hlen2 : lm2.pieces.length = model.numPieces := by
    rw [hpost.frame.length, hlenc, hn]
  have hrun := setModel_fresh_run h0 hr (by omega) hu hlen2
  refine ⟨UpdateBoundingVolume E lm2, hrun, ?_⟩
  intro i p hp
  have hp2 : lm2.pieces[i]? = some p := hp
  rcases hpost.frame.get_back_cf hp2 with ⟨p0, hp0, r⟩
  have hi : i < root.numNodes := by rw [← hlenc]; exact lt_length_of_get hp0
  rcases hseg.piece i p0 (Nat.zero_le _) hi hp0 with ⟨h1, h2, _⟩
  have e1 : p.lmodelPieceIndex = p0.lmodelPieceIndex := by rw [r.same]
  have e2 : p.scriptPieceIndex = p0.scriptPieceIndex := by rw [r.same]
  refine ⟨by rw [e1, h1], by rw [e2, h2], by rw [e1, e2, h1, h2], ?_⟩
  have horig : lm2.pieces.map (fun q => q.original) = root.preorder := by
    rw [hpost.frame.map_original_cf]
    exact mirrorPieces_original E 0 none root
  have := congrArg (fun l => l[i]?) horig
  simp only [List.getElem?_map, hp2, Option.map_some'] at this
  exact this.symm

/-- Witness for C24 on the example model of four pieces. -/
theorem C24_witness :
    demoEmpty.pieces = [] ∧ demoModel.GetRootPiece = some demoRoot ∧
    demoModel.numPieces = demoRoot.numNodes ∧ demoRoot.numNodes ≤ 4 ∧
    ∃ lm, SetModel demoExternals 4 demoEmpty demoModel true = some lm ∧
      ∀ (i : Nat) (p : LocalModelPiece Int (List Int)), lm.pieces[i]? = some p →
        p.lmodelPieceIndex = (i : Int) ∧ p.scriptPieceIndex = (i : Int) ∧
        p.lmodelPieceIndex = p.scriptPieceIndex ∧
        demoRoot.preorder[i]? = some p.original :=
  ⟨rfl, rfl, by decide, by decide,
    C24_dense_initial_indices demoExternals 4 demoEmpty demoModel demoRoot rfl rfl
      (by decide) (by decide)⟩

end Claims5

section ShatterContent

variable {R : Type}

/-! ## Shatter: what the index lists of the slots hold -/

/-- The search loop reads only the directions of the parts. -/
theorem findClosestPart_dirs [LinearOrder R] [Add R] [Mul R] (dir : float3 R) :
    ∀ (buf buf1 : List (ShatterPartDataPair R)) (k : Nat) (md : R) (mcp : Option Nat),
    buf.map (fun cp => cp.first.dir) = buf1.map (fun cp => cp.first.dir) →
    findClosestPart dir buf k md mcp = findClosestPart dir buf1 k md mcp := by
  intro buf
  induction buf with
  | nil =>
    intro buf1 k md mcp h
    cases buf1 with
    | nil => rfl
    | cons c rest => simp at h
  | cons c rest ih =>
    intro buf1 k md mcp h
    cases buf1 with
    | nil => simp at h
    | cons c1 rest1 =>
      simp only [List.map_cons, List.cons.injEq] at h
      simp only [findClosestPart, h.1]
      split
      · exact ih rest1 _ _ _ h.2
      · exact ih rest1 _ _ _ h.2

theorem closestSlot_eq [LinearOrder R] [Add R] [Mul R] {S : ShatterExternals R}
    {piece : S3DModelPiece R} {dirs : List (float3 R)} {buf : List (ShatterPartDataPair R)}
    {i : Nat} {dir : float3 R} (hb : buf.map (fun cp => cp.first.dir) = dirs)
    (hg : GetPolygonDir S piece i = some dir) :
    closestSlot S piece dirs i = (findClosestPart dir buf 0 S.minusTwo none).2 := by
  unfold closestSlot
  simp only [hg]
  rw [findClosestPart_dirs dir _ buf 0 S.minusTwo none]
  rw [hb, List.map_map]
  simp [Function.comp_def]

/-- One triangle more keeps `SlotContent`. -/
theorem addTriangle_content [LinearOrder R] [Add R] [Mul R] (S : ShatterExternals R)
    (piece : S3DModelPiece R) (dirs : List (float3 R))
    (buf buf1 : List (ShatterPartDataPair R)) (done : List Nat) (i : Nat)
    (hinv : SlotContent S piece dirs buf done) (h : addTriangle S piece buf i = some buf1) :
    SlotContent S piece dirs buf1 (done ++ [i]) := by
  unfold addTriangle at h
  split at h
  · cases h
  rename_i dir hg
  split at h
  · cases h
  rename_i mcp hr
  split at h
  swap
  · cases h
  rename_i i0 i1 i2 cp h0 h1 h2 hcp
  simp only [Option.some.injEq] at h
  subst h
  have htri := triangleAt_eq h0 h1 h2
  have hslot : closestSlot S piece dirs i = some mcp := by
    rw [closestSlot_eq hinv.slots hg, hr]
  have hml : mcp < buf.length := (List.getElem?_eq_some.1 hcp).1
  refine ⟨?_, ?_⟩
  · rw [← hinv.slots]
    apply List.ext_getElem?
    intro k
    simp only [List.getElem?_map, List.getElem?_set]
    by_cases hk : mcp = k
    · subst hk; simp [hml, hcp]
    · simp [hk]
  · intro k cpk hk
    rw [List.getElem?_set] at hk
    by_cases hkm : mcp = k
    · subst hkm
      simp only [hml, if_true, Option.some.injEq] at hk
      subst hk
      simp only [List.filter_append, List.flatMap_append]
      rw [← hinv.content mcp cp hcp]
      simp [List.filter_cons, hslot, htri]
    · rw [if_neg hkm] at hk
      rw [hinv.content k cpk hk]
      have : closestSlot S piece dirs i ≠ some k := by
        rw [hslot]; intro e; cases e; exact hkm rfl
      simp [List.filter_append, List.filter_cons, this]

/-- The loop over the triangles keeps `SlotContent`. -/
theorem addTriangles_content [LinearOrder R] [Add R] [Mul R] (S : ShatterExternals R)
    (piece : S3DModelPiece R) (dirs : List (float3 R)) :
    ∀ (todo : List Nat) (buf buf1 : List (ShatterPartDataPair R)) (done : List Nat),
    SlotContent S piece dirs buf done → addTriangles S piece todo buf = some buf1 →
    SlotContent S piece dirs buf1 (done ++ todo) := by
  intro todo
  induction todo with
  | nil =>
    intro buf buf1 done hinv h
    simp only [addTriangles, Option.some.injEq] at h
    subst h
    simpa using hinv
  | cons i rest ih =>
    intro buf buf1 done hinv h
    simp only [addTriangles] at h
    split at h
    · cases h
    rename_i b hb
    have := ih b buf1 (done ++ [i]) (addTriangle_content S piece dirs buf b done i hinv hb) h
    simpa using this

end ShatterContent

section ShatterOrder

variable {R : Type}

/-! ## Shatter: the block of a variation -/

theorem flatMap_filter_not_mem (t : Nat) (l : List Nat) (g : Nat → Option Nat) (k0 : Nat)
    (hg : g t = some k0) : ∀ ks : List Nat, k0 ∉ ks →
    ks.flatMap (fun k => (t :: l).filter (fun x => decide (g x = some k))) =
      ks.flatMap (fun k => l.filter (fun x => decide (g x = some k))) := by
  intro ks
  induction ks with
  | nil => intro _; rfl
  | cons k ks ih =>
    intro hk
    simp only [List.mem_cons, not_or] at hk
    have hne : ¬ g t = some k := by
      rw [hg]; intro e; cases e; exact hk.1 rfl
    have hhead : (t :: l).filter (fun x => decide (g x = some k)) =
        l.filter (fun x => decide (g x = some k)) := by
      simp [List.filter_cons, hne]
    rw [List.flatMap_cons, List.flatMap_cons, hhead, ih hk.2]

theorem perm_flatMap_filter_cons (t : Nat) (l : List Nat) (g : Nat → Option Nat) (k0 : Nat)
    (hg : g t = some k0) : ∀ ks : List Nat, ks.Nodup → k0 ∈ ks →
    (ks.flatMap (fun k => (t :: l).filter (fun x => decide (g x = some k)))).Perm
      (t :: ks.flatMap (fun k => l.filter (fun x => decide (g x = some k)))) := by
  intro ks
  induction ks with
  | nil => intro _ h; cases h
  | cons k ks ih =>
    intro hnd hmem
    rcases List.nodup_cons.1 hnd with ⟨hk, hnd1⟩
    by_cases hkk : k = k0
    · subst hkk
      have hhead : (t :: l).filter (fun x => decide (g x = some k)) =
          t :: l.filter (fun x => decide (g x = some k)) := by
        simp [List.filter_cons, hg]
      rw [List.flatMap_cons, List.flatMap_cons, hhead, flatMap_filter_not_mem t l g k hg ks hk]
      rfl
    · have hne : ¬ g t = some k := by
        rw [hg]; intro e; cases e; exact hkk rfl
      have hmem1 : k0 ∈ ks := by
        rcases List.mem_cons.1 hmem with h | h
        · exact absurd h.symm hkk
        · exact h
      have hhead : (t :: l).filter (fun x => decide (g x = some k)) =
          l.filter (fun x => decide (g x = some k)) := by
        simp [List.filter_cons, hne]
      rw [List.flatMap_cons, List.flatMap_cons, hhead]
      exact (List.Perm.append_left _ (ih hnd1 hmem1)).trans List.perm_middle

/-- Sorting a list into slots and concatenating the slots gives a permutation
of the list. -/
theorem perm_flatMap_filter (g : Nat → Option Nat) (m : Nat) : ∀ l : List Nat,
    (∀ t ∈ l, ∃ k < m, g t = some k) →
    ((List.range m).flatMap (fun k => l.filter (fun x => decide (g x = some k)))).Perm l := by
  intro l
  induction l with
  | nil =>
    intro _
    have : (List.range m).flatMap (fun k => ([] : List Nat).filter
        (fun x => decide (g x = some k))) = [] := by
      simp
    rw [this]
  | cons t l ih =>
    intro h
    rcases h t (by simp) with ⟨k0, hk0, hg⟩
    have h1 := perm_flatMap_filter_cons t l g k0 hg (List.range m) (List.nodup_range m)
      (List.mem_range.2 hk0)
    exact h1.trans (List.Perm.cons t (ih (fun x hx => h x (by simp [hx]))))

theorem drop_take_middle (X A B mid : List Nat) :
    ((X ++ (A ++ mid ++ B)).drop (X.length + A.length)).take mid.length = mid := by
  rw [List.drop_append, List.append_assoc]
  simp

theorem drop_take_within {X Y : List Nat} {s c : Nat} (h : X <+: Y)
    (hle : s + c ≤ X.length) : (Y.drop s).take c = (X.drop s).take c := by
  rcases h with ⟨Z, rfl⟩
  rw [List.drop_append_of_le_length (by omega), List.take_append_of_le_length]
  rw [List.length_drop]; omega

end ShatterOrder

section ShatterVariation

variable {R : Type}

/-! ## Shatter: one variation, with the content of the ranges -/

theorem filter_map_flatMap (f : Nat → Nat) (p : Nat → Bool) (g : Nat → List Nat) :
    ∀ l : List Nat, ((l.map f).filter p).flatMap g =
      (l.filter (fun t => p (f t))).flatMap (fun t => g (f t)) := by
  intro l
  induction l with
  | nil => rfl
  | cons t l ih =>
    simp only [List.map_cons, List.filter_cons]
    cases hp : p (f t) with
    | false => simpa using ih
    | true => simp [ih]

/-- Under the conditions that let the search find a slot for every triangle,
every triangle has a closest slot inside the buffer. -/
theorem closestSlot_some [LinearOrder R] [Add R] [Mul R] (S : ShatterExternals R)
    (piece : S3DModelPiece R) (rng : Nat → float3 R) (i : Nat)
    (h : ∃ d ∈ slotDirs S rng, ∃ dir ∈ GetPolygonDir S piece i,
      ¬ float3.dot d dir < S.minusTwo) :
    ∃ k < S.SHATTER_MAX_PARTS, closestSlot S piece (slotDirs S rng) i = some k := by
  rcases h with ⟨d, hd, dir, hdir, hnot⟩
  have hg : GetPolygonDir S piece i = some dir := hdir
  have hmap : ((slotDirs S rng).map (fun d =>
      ({ first := { dir := d, indexStart := 0, indexCount := 0 }
         second := [] } : ShatterPartDataPair R))).map (fun cp => cp.first.dir) =
      slotDirs S rng := by
    simp [List.map_map, Function.comp_def]
  rcases findClosestPart_found dir _ S.minusTwo
    (⟨_, List.mem_map.2 ⟨d, hd, rfl⟩, hnot⟩ :
      ∃ cp ∈ (slotDirs S rng).map (fun d =>
        ({ first := { dir := d, indexStart := 0, indexCount := 0 }
           second := [] } : ShatterPartDataPair R)),
        ¬ float3.dot cp.first.dir dir < S.minusTwo)
    with ⟨n, cp, hn, hr, _⟩
  have hnl := (List.getElem?_eq_some.1 hn).1
  simp only [List.length_map, slotDirs, List.length_range] at hnl
  refine ⟨n, hnl, ?_⟩
  rw [closestSlot_eq hmap hg]
  exact hr

/-- `CreateShatterPiecesVariation(num)` on a buffer that holds the blocks of
the variations before `num`: the call returns, appends the block of the
variation and stores fragments for which `VariationOK` holds. -/
theorem createShatterPiecesVariation_content [LinearOrder R] [Add R] [Mul R]
    (S : ShatterExternals R) (piece : S3DModelPiece R) (rng : Nat → float3 R)
    (st : ShatterData R) (num T : Nat)
    (hT : piece.indices.length = 3 * T)
    (hM : 0 < S.SHATTER_MAX_PARTS) (hM64 : S.SHATTER_MAX_PARTS < 2 ^ 64)
    (hnum : num < st.shatterParts.length)
    (hfit : num * (3 * T) + 3 * T < 2 ^ 32)
    (hdirs : ∀ t < T, ∃ d ∈ slotDirs S rng, ∃ dir ∈ GetPolygonDir S piece (3 * t),
      ¬ float3.dot d dir < S.minusTwo)
    (hlen : st.shatterIndices.length = num * (3 * T)) :
    ∃ (out : ShatterData R) (kept : List (RenderData R)),
      CreateShatterPiecesVariation S piece rng st num = some out ∧
      out.shatterParts = st.shatterParts.set num kept ∧
      st.shatterIndices <+: out.shatterIndices ∧
      out.shatterIndices.length = (num + 1) * (3 * T) ∧
      VariationOK S piece (slotDirs S rng) T num out.shatterIndices kept := by
  have hinit : TrianglesAdded S piece (slotDirs S rng)
      ((List.range S.SHATTER_MAX_PARTS).map
        (fun k => ({ first := { dir := S.ANormalize (rng k), indexStart := 0, indexCount := 0 }
                     second := [] } : ShatterPartDataPair R))) [] := by
    refine ⟨?_, ?_, ?_⟩
    · simp [slotDirs, slotDir, List.map_map, Function.comp_def]
    · simp [List.map_map, Function.comp_def]
    · intro i hi; cases hi
  have hcont0 : SlotContent S piece (slotDirs S rng)
      ((List.range S.SHATTER_MAX_PARTS).map
        (fun k => ({ first := { dir := S.ANormalize (rng k), indexStart := 0, indexCount := 0 }
                     second := [] } : ShatterPartDataPair R))) [] := by
    refine ⟨hinit.slots, ?_⟩
    intro k cp hk
    rw [List.getElem?_map] at hk
    cases hr : (List.range S.SHATTER_MAX_PARTS)[k]? with
    | none => rw [hr] at hk; cases hk
    | some x =>
      rw [hr] at hk
      simp only [Option.map_some', Option.some.injEq] at hk
      rw [← hk]; rfl
  have htodo : ∀ i ∈ triangleStarts piece.indices.length,
      ∃ dir, GetPolygonDir S piece i = some dir ∧
        ∃ d ∈ slotDirs S rng, ¬ float3.dot d dir < S.minusTwo := by
    intro i hi
    rw [hT, triangleStarts_mul] at hi
    rcases List.mem_map.1 hi with ⟨t, ht, rfl⟩
    rcases hdirs t (List.mem_range.1 ht) with ⟨d, hd, dir, hdir, hnot⟩
    exact ⟨dir, hdir, d, hd, hnot⟩
  rcases addTriangles_spec S piece (slotDirs S rng) (triangleStarts piece.indices.length) _ []
    hinit htodo with ⟨buf1, hadd, hinv⟩
  have hcont := addTriangles_content S piece (slotDirs S rng)
    (triangleStarts piece.indices.length) _ buf1 [] hcont0 hadd
  simp only [List.nil_append] at hinv hcont
  have htotal : (buf1.map (fun cp => cp.second.length)).sum = 3 * T := by
    rw [hinv.total, hT, triangleStarts_mul]; simp
  have hflat : ((buf1.map (fun cp => cp.second)).flatten).length = 3 * T := by
    rw [List.length_flatten, List.map_map]
    exact htotal
  have hbase : num * piece.indices.length % 2 ^ 32 = num * (3 * T) := by
    rw [hT]; exact Nat.mod_eq_of_lt (by omega)
  rcases assignRanges_spec (num * (3 * T)) buf1 0 st.shatterIndices (by omega)
    with ⟨r1, r2, r3, r4, r5, r6⟩
  have hlen1 : buf1.length = S.SHATTER_MAX_PARTS := by
    have := congrArg List.length hinv.slots
    simpa [slotDirs] using this
  have hlenr : (assignRanges (num * (3 * T)) buf1 0 st.shatterIndices).1.length =
      S.SHATTER_MAX_PARTS := by
    have := congrArg List.length r1
    simp only [List.length_map] at this
    omega
  have hback : ((assignRanges (num * (3 * T)) buf1 0 st.shatterIndices).1.length + 2 ^ 64 - 1)
      % 2 ^ 64 = S.SHATTER_MAX_PARTS - 1 := by
    rw [hlenr]
    have : S.SHATTER_MAX_PARTS + 2 ^ 64 - 1 = (S.SHATTER_MAX_PARTS - 1) + 2 ^ 64 := by omega
    rw [this, Nat.add_mod_right]
    exact Nat.mod_eq_of_lt (by omega)
  rcases deleteEmptyParts_spec S.SHATTER_MAX_PARTS
    (assignRanges (num * (3 * T)) buf1 0 st.shatterIndices).1 0 (S.SHATTER_MAX_PARTS - 1)
    (by omega) (by omega) (by omega)
    (by
      intro n cp hn hget
      have := (List.getElem?_eq_some.1 hget).1
      omega)
    with ⟨buf3, b3, hdel, hperm, hb3, hemp⟩
  have hcontent : ∀ (k : Nat) (cp : ShatterPartDataPair R), buf1[k]? = some cp →
      cp.second = (trianglesOfSlot S piece (slotDirs S rng) T k).flatMap
        (fun t => piece.triangleAt (3 * t)) := by
    intro k cp hk
    rw [hcont.content k cp hk, hT, triangleStarts_mul]
    exact filter_map_flatMap _ _ _ _
  refine ⟨{ shatterIndices := st.shatterIndices ++ (buf1.map (fun cp => cp.second)).flatten
            shatterParts := st.shatterParts.set num
              ((buf3.take (b3 + 1)).map (fun cp => cp.first)) },
    (buf3.take (b3 + 1)).map (fun cp => cp.first), ?_, rfl, List.prefix_append _ _, ?_, ?_, ?_,
    ?_⟩
  · unfold CreateShatterPiecesVariation
    simp only [hadd, hbase, hlenr]
    rw [hlenr] at hback
    simp only [hback, hdel, hb3, hnum, and_self, if_true]
    rw [r5]
  · simp only [List.length_append, hflat, hlen]
    rw [Nat.add_mul]; omega
  · simp only [List.length_append, hflat, hlen]
    rw [Nat.add_mul]; omega
  · intro rd hrd
    have h1 : rd ∈ buf3.map (fun cp => cp.first) := by
      rcases List.mem_map.1 hrd with ⟨cp, hcp, rfl⟩
      exact List.mem_map.2 ⟨cp, List.mem_of_mem_take hcp, rfl⟩
    have h2 : rd ∈ (assignRanges (num * (3 * T)) buf1 0 st.shatterIndices).1.map
        (fun cp => cp.first) := (hperm.map _).mem_iff.1 h1
    rcases List.mem_map.1 h2 with ⟨cp1, hcp1, rfl⟩
    rcases List.getElem?_of_mem hcp1 with ⟨k, hk⟩
    rcases r6 k cp1 hk with ⟨A, B, hf, hs⟩
    have hkl : k < buf1.length := by
      rw [hlen1, ← hlenr]; exact (List.getElem?_eq_some.1 hk).1
    have hb1 : buf1[k]? = some buf1[k] := List.getElem?_eq_getElem hkl
    have hsec : cp1.second = buf1[k].second := by
      have := congrArg (fun l => l[k]?) r1
      simpa [List.getElem?_map, hk, hb1] using this
    have hcnt : cp1.first.indexCount = cp1.second.length := by
      have := congrArg (fun l => l[k]?) r3
      simp only [List.getElem?_map, hk, hb1, Option.map_some', Option.some.injEq] at this
      rw [this, hsec]
    have hdir : (slotDirs S rng)[k]? = some cp1.first.dir := by
      rw [← hinv.slots, ← r2, List.getElem?_map, hk]; rfl
    have hAl : A.length + cp1.second.length ≤ 3 * T := by
      have := congrArg List.length hf
      rw [hflat] at this
      simp only [List.length_append] at this
      omega
    refine ⟨by omega, ?_, k, hdir, ?_⟩
    · rw [hs, hcnt, Nat.add_mul]; omega
    · show ((st.shatterIndices ++ (buf1.map (fun cp => cp.second)).flatten).drop
        cp1.first.indexStart).take cp1.first.indexCount = _
      rw [hs, hcnt, hf, Nat.add_zero, ← hlen, drop_take_middle, hsec]
      exact hcontent k _ hb1
  · refine ⟨(List.range S.SHATTER_MAX_PARTS).flatMap
      (fun k => trianglesOfSlot S piece (slotDirs S rng) T k), ?_, ?_⟩
    · exact perm_flatMap_filter (fun t => closestSlot S piece (slotDirs S rng) (3 * t))
        S.SHATTER_MAX_PARTS (List.range T)
        (fun t ht => closestSlot_some S piece rng (3 * t) (hdirs t (List.mem_range.1 ht)))
    · show ((st.shatterIndices ++ (buf1.map (fun cp => cp.second)).flatten).drop
        (num * (3 * T))).take (3 * T) = _
      rw [← hlen, List.drop_left, ← hflat, List.take_length, List.flatMap_assoc]
      have : buf1.map (fun cp => cp.second) =
          (List.range S.SHATTER_MAX_PARTS).map
            (fun k => (trianglesOfSlot S piece (slotDirs S rng) T k).flatMap
              (fun t => piece.triangleAt (3 * t))) := by
        apply List.ext_getElem?
        intro k
        simp only [List.getElem?_map]
        by_cases hk : k < buf1.length
        · have hb1 : buf1[k]? = some buf1[k] := List.getElem?_eq_getElem hk
          have hrk : (List.range S.SHATTER_MAX_PARTS)[k]? = some k := by
            rw [List.getElem?_range (by omega)]
          rw [hb1, hrk]
          simp only [Option.map_some', Option.some.injEq]
          exact hcontent k _ hb1
        · have h1 : buf1[k]? = none := List.getElem?_eq_none (by omega)
          have h2 : (List.range S.SHATTER_MAX_PARTS)[k]? = none :=
            List.getElem?_eq_none (by simp; omega)
          rw [h1, h2]; rfl
      rw [this]
      rfl

end ShatterVariation

section ShatterAll

variable {R : Type}

/-! ## Shatter: all variations -/

theorem variationOK_mono [LinearOrder R] [Add R] [Mul R] {S : ShatterExternals R}
    {piece : S3DModelPiece R} {dirs : List (float3 R)} {T num : Nat} {X Y : List Nat}
    {frs : List (RenderData R)} (hpre : X <+: Y)
    (h : VariationOK S piece dirs T num X frs) : VariationOK S piece dirs T num Y frs := by
  rcases h with ⟨h1, h2, order, hperm, hblock⟩
  have hmul : (num + 1) * (3 * T) = num * (3 * T) + 3 * T := by rw [Nat.add_mul]; omega
  refine ⟨le_trans h1 hpre.length_le, ?_, order, hperm, ?_⟩
  · intro rd hrd
    rcases h2 rd hrd with ⟨a, b, k, hk, hs⟩
    refine ⟨a, b, k, hk, ?_⟩
    rw [drop_take_within hpre (by omega)]
    exact hs
  · rw [drop_take_within hpre (by omega)]
    exact hblock

/-- The loop over the variations `n0, n0 + 1, ...` of `CreateShatterPieces`, on
a buffer that holds the blocks of the variations before `n0`: it returns, and
afterwards `VariationOK` holds for every variation up to the last one run. -/
theorem createShatterVariations_spec [LinearOrder R] [Add R] [Mul R]
    (S : ShatterExternals R) (piece : S3DModelPiece R) (rng : Nat → float3 R) (T : Nat)
    (hT : piece.indices.length = 3 * T)
    (hM : 0 < S.SHATTER_MAX_PARTS) (hM64 : S.SHATTER_MAX_PARTS < 2 ^ 64)
    (hfit : S.SHATTER_VARIATIONS * (3 * T) < 2 ^ 32)
    (hdirs : ∀ num < S.SHATTER_VARIATIONS, ∀ t < T,
      ∃ d ∈ slotDirs S (variationDraws S rng num),
        ∃ dir ∈ GetPolygonDir S piece (3 * t), ¬ float3.dot d dir < S.minusTwo) :
    ∀ (len n0 : Nat) (st : ShatterData R), n0 + len ≤ S.SHATTER_VARIATIONS →
    st.shatterParts.length = S.SHATTER_VARIATIONS →
    st.shatterIndices.length = n0 * (3 * T) →
    (∀ num < n0, VariationOK S piece (slotDirs S (variationDraws S rng num)) T num
      st.shatterIndices (st.renderData num)) →
    ∃ out : ShatterData R,
      createShatterVariations S piece rng (List.range' n0 len) st = some out ∧
      out.shatterIndices.length = (n0 + len) * (3 * T) ∧
      ∀ num < n0 + len, VariationOK S piece (slotDirs S (variationDraws S rng num)) T num
        out.shatterIndices (out.renderData num) := by
  intro len
  induction len with
  | zero =>
    intro n0 st _ _ hlen hall
    exact ⟨st, rfl, by simpa using hlen, by simpa using hall⟩
  | succ len ih =>
    intro n0 st hle hparts hlen hall
    have hmul : (n0 + 1) * (3 * T) ≤ S.SHATTER_VARIATIONS * (3 * T) :=
      Nat.mul_le_mul_right _ (by omega)
    have hmul2 : (n0 + 1) * (3 * T) = n0 * (3 * T) + 3 * T := by rw [Nat.add_mul]; omega
    rcases createShatterPiecesVariation_content S piece (variationDraws S rng n0) st n0 T hT hM
      hM64 (by omega) (by omega) (hdirs n0 (by omega)) hlen
      with ⟨out1, kept, hrun, hsp, hpre, hlen1, hok⟩
    have hparts1 : out1.shatterParts.length = S.SHATTER_VARIATIONS := by
      rw [hsp, List.length_set]; exact hparts
    have hrd : ∀ num, num ≠ n0 → out1.renderData num = st.renderData num := by
      intro num hne
      simp [ShatterData.renderData, hsp, List.getElem?_set, Ne.symm hne]
    have hn0 : n0 < st.shatterParts.length := by omega
    have hrd0 : out1.renderData n0 = kept := by
      simp [ShatterData.renderData, hsp, List.getElem?_set, hn0]
    rcases ih (n0 + 1) out1 (by omega) hparts1 hlen1
      (by
        intro num hnum
        by_cases hn : num = n0
        · subst hn
          rw [hrd0]; exact hok
        · rw [hrd num hn]
          exact variationOK_mono hpre (hall num (by omega)))
      with ⟨out, hrun2, hlen2, hall2⟩
    refine ⟨out, ?_, ?_, ?_⟩
    · rw [List.range'_succ]
      simp only [createShatterVariations]
      have : (fun k => rng (n0 * S.SHATTER_MAX_PARTS + k)) = variationDraws S rng n0 := rfl
      rw [this, hrun]
      exact hrun2
    · rw [hlen2]; congr 1; omega
    · intro num hnum
      exact hall2 num (by omega)

end ShatterAll

section Claims6

variable {R : Type}

/-- C22: for a piece with `3 * T` indices, `CreateShatterPieces` on an empty
`shatterIndices` buffer and an array of `SHATTER_VARIATIONS` fragment lists
(empty ones when the piece has no triangle) returns, when the slot count is
positive, all positions fit into `uint32_t` and in every variation every
triangle has a direction and a slot that is not below `-2.0f`.  Afterwards
`shatterIndices` has `SHATTER_VARIATIONS * 3 * T` entries, and for every
variation `num`: the range of every stored fragment lies inside block `num`
and holds exactly the indices of the triangles assigned to a slot `k` with the
direction of the fragment, in the order in which these triangles stand in the
index list of the piece; and block `num` is made of the triangles of the piece
in some order. -/
theorem C22_fragment_ranges_address_triangles [LinearOrder R] [Add R] [Mul R]
    (S : ShatterExternals R) (piece : S3DModelPiece R) (rng : Nat → float3 R)
    (st : ShatterData R) (T : Nat)
    (hT : piece.indices.length = 3 * T)
    (hempty : st.shatterIndices = [])
    (hparts : st.shatterParts.length = S.SHATTER_VARIATIONS)
    (hclean : 0 < T ∨ ∀ frs ∈ st.shatterParts, frs = [])
    (hM : 0 < S.SHATTER_MAX_PARTS) (hM64 : S.SHATTER_MAX_PARTS < 2 ^ 64)
    (hfit : S.SHATTER_VARIATIONS * (3 * T) < 2 ^ 32)
    (hdirs : ∀ num < S.SHATTER_VARIATIONS, ∀ t < T,
      ∃ d ∈ slotDirs S (variationDraws S rng num),
        ∃ dir ∈ GetPolygonDir S piece (3 * t), ¬ float3.dot d dir < S.minusTwo) :
    ∃ out : ShatterData R, CreateShatterPieces S piece rng st = some out ∧
      out.shatterIndices.length = S.SHATTER_VARIATIONS * (3 * T) ∧
      ∀ num < S.SHATTER_VARIATIONS,
        (∀ rd ∈ out.renderData num,
          num * (3 * T) ≤ rd.indexStart ∧
          rd.indexStart + rd.indexCount ≤ (num + 1) * (3 * T) ∧
          ∃ k : Nat, (slotDirs S (variationDraws S rng num))[k]? = some rd.dir ∧
            (out.shatterIndices.drop rd.indexStart).take rd.indexCount =
              (trianglesOfSlot S piece (slotDirs S (variationDraws S rng num)) T k).flatMap
                (fun t => piece.triangleAt (3 * t))) ∧
        ∃ order : List Nat, order.Perm (List.range T) ∧
          (out.shatterIndices.drop (num * (3 * T))).take (3 * T) =
            order.flatMap (fun t => piece.triangleAt (3 * t)) := by
  by_cases hpos : 0 < T
  · have hgeo : piece.HasGeometryData = true := by
      unfold S3DModelPiece.HasGeometryData
      rw [hT]; simp; omega
    rcases createShatterVariations_spec S piece rng T hT hM hM64 hfit hdirs
      S.SHATTER_VARIATIONS 0 st (by omega) hparts (by rw [hempty]; simp)
      (fun num h => absurd h (Nat.not_lt_zero _)) with ⟨out, hrun, hlen, hall⟩
    refine ⟨out, ?_, by simpa using hlen, ?_⟩
    · unfold CreateShatterPieces
      rw [hgeo, List.range_eq_range']
      exact hrun
    · intro num hnum
      exact (hall num (by omega)).2
  · have hT0 : T = 0 := by omega
    subst hT0
    have hgeo : piece.HasGeometryData = false := by
      unfold S3DModelPiece.HasGeometryData
      rw [hT]; simp
    have hcl : ∀ frs ∈ st.shatterParts, frs = [] := by
      rcases hclean with h | h
      · exact absurd h hpos
      · exact h
    refine ⟨st, ?_, by rw [hempty]; simp, ?_⟩
    · unfold CreateShatterPieces
      rw [hgeo]; rfl
    · intro num hnum
      have hrd : st.renderData num = [] := by
        unfold ShatterData.renderData
        have hl : num < st.shatterParts.length := by omega
        rw [List.getElem?_eq_getElem hl]
        exact hcl _ (List.getElem_mem hl)
      refine ⟨?_, [], by simp, by simp⟩
      intro rd h
      rw [hrd] at h
      cases h

/-- Witness for C22: the example piece of two triangles, two variations of two
slots. -/
theorem C22_witness :
    demoShard.indices.length = 3 * 2 ∧ demoShatterData.shatterIndices = [] ∧
    demoShatterData.shatterParts.length = demoShatter.SHATTER_VARIATIONS ∧
    (0 < 2 ∨ ∀ frs ∈ demoShatterData.shatterParts, frs = []) ∧
    0 < demoShatter.SHATTER_MAX_PARTS ∧ demoShatter.SHATTER_MAX_PARTS < 2 ^ 64 ∧
    demoShatter.SHATTER_VARIATIONS * (3 * 2) < 2 ^ 32 ∧
    (∀ num < demoShatter.SHATTER_VARIATIONS, ∀ t < 2,
      ∃ d ∈ slotDirs demoShatter (variationDraws demoShatter demoDraws num),
        ∃ dir ∈ GetPolygonDir demoShatter demoShard (3 * t),
          ¬ float3.dot d dir < demoShatter.minusTwo) ∧
    ∃ out : ShatterData Int,
      CreateShatterPieces demoShatter demoShard demoDraws demoShatterData = some out ∧
      out.shatterIndices.length = demoShatter.SHATTER_VARIATIONS * (3 * 2) ∧
      ∀ num < demoShatter.SHATTER_VARIATIONS,
        (∀ rd ∈ out.renderData num,
          num * (3 * 2) ≤ rd.indexStart ∧
          rd.indexStart + rd.indexCount ≤ (num + 1) * (3 * 2) ∧
          ∃ k : Nat,
            (slotDirs demoShatter (variationDraws demoShatter demoDraws num))[k]? =
              some rd.dir ∧
            (out.shatterIndices.drop rd.indexStart).take rd.indexCount =
              (trianglesOfSlot demoShatter demoShard
                (slotDirs demoShatter (variationDraws demoShatter demoDraws num)) 2 k).flatMap
                (fun t => demoShard.triangleAt (3 * t))) ∧
        ∃ order : List Nat, order.Perm (List.range 2) ∧
          (out.shatterIndices.drop (num * (3 * 2))).take (3 * 2) =
            order.flatMap (fun t => demoShard.triangleAt (3 * t)) :=
  ⟨by decide, by decide, by decide, Or.inl (by decide), by decide, by decide, by decide,
    by decide,
    C22_fragment_ranges_address_triangles demoShatter demoShard demoDraws demoShatterData 2
      (by decide) (by decide) (by decide) (Or.inl (by decide)) (by decide) (by decide)
      (by decide) (by decide)⟩

end Claims6

end Spring
